import Mathlib


/-! Shallow embedding of the kvstore engines (`kvstore_btree.c`, `kvstore_skiptable.c`)
and of the command dispatcher (`kvstore.c`). -/

/-- Keys are C strings: the bytes in front of the terminating NUL. -/
abbrev Key := List Nat
/-- Values are C strings as well. -/
abbrev Val := List Nat

/-- Sign of the C library function `strcmp(s1, s2)`: bytewise comparison, a string that is a
proper beginning of the other one is the smaller. -/
def strcmp : List Nat → List Nat → Ordering
  | [], [] => Ordering.eq
  | [], _ :: _ => Ordering.lt
  | _ :: _, [] => Ordering.gt
  | a :: s1, b :: s2 => if a < b then Ordering.lt else if b < a then Ordering.gt else strcmp s1 s2

namespace Btree

/-- The macro `DEGREE` of `kvstore_btree.c`: minimum degree t = 3. -/
def DEGREE : Nat := 3

/-- The struct `btree_node`. A node is represented by its live slots: `entries` holds the pairs
`(keys[j], values[j])` for `j < n`, `children` the slots `children[0..n]` of an internal node
(no slot of a leaf is live). The field `n` is the length of `entries`. -/
inductive btree_node where
  | mk (leaf : Bool) (entries : List (Key × Val)) (children : List btree_node)

namespace btree_node

/-- Field `leaf`. -/
def leaf : btree_node → Bool
  | mk l _ _ => l

/-- The live key/value slots. -/
def entries : btree_node → List (Key × Val)
  | mk _ es _ => es

/-- The live child slots. -/
def children : btree_node → List btree_node
  | mk _ _ cs => cs

/-- Field `n`, the number of keys the node holds. -/
def n (x : btree_node) : Nat := x.entries.length

end btree_node

open btree_node

/-- The struct `btree`. The field `count` is a C `int`; it is kept as an integer without
wrap-around, so the embedding covers the stores of fewer than 2^31 keys. -/
structure btree where
  root : btree_node
  count : Int

/-- The function `create_node(leaf)`: a node without keys. -/
def create_node (leaf : Bool) : btree_node := mk leaf [] []

/-- The function `split_child(x, i)`. The result is `none` when the code would touch a slot that
is not live (child `i` absent or holding fewer than `2*DEGREE-1` keys) or write past the
capacity of `x` (`x` already full). -/
def split_child (x : btree_node) (i : Nat) : Option btree_node :=
  match x.children[i]? with
  | none => none
  | some y =>
    if y.n < 2 * DEGREE - 1 ∨ 2 * DEGREE - 1 ≤ x.n ∨ x.n < i then none
    else
      match y.entries[DEGREE - 1]? with
      | none => none
      | some mid =>
        let z := mk y.leaf ((y.entries.drop DEGREE).take (DEGREE - 1))
          (if y.leaf then [] else (y.children.drop DEGREE).take DEGREE)
        let y1 := mk y.leaf (y.entries.take (DEGREE - 1)) (y.children.take DEGREE)
        some (mk x.leaf (x.entries.take i ++ mid :: x.entries.drop i)
          (x.children.take i ++ y1 :: z :: x.children.drop (i + 1)))

/-- The loop `while (i >= 0 && strcmp(k, x->keys[i]) < 0) i--` of `insert_nonfull`, started
at `i = j - 1`; the result is the final `i + 1`. -/
def insert_scan (k : Key) (es : List (Key × Val)) : Nat → Nat
  | 0 => 0
  | j + 1 =>
    match es[j]? with
    | none => j + 1
    | some e => if strcmp k e.1 = Ordering.lt then insert_scan k es j else j + 1


/-- The function `insert_nonfull(x, k, v)`; the fuel bounds the depth of the recursion. The result
is `none` when the fuel runs out, when a child slot that is read is not live, or when the leaf
that receives the key is already full (the write would land past the arrays). -/
def insert_nonfull : Nat → btree_node → Key → Val → Option btree_node
  | 0, _, _, _ => none
  | fuel + 1, x, k, v =>
    if x.leaf then
      if 2 * DEGREE - 1 ≤ x.n then none
      else
        let p := insert_scan k x.entries x.n
        some (mk x.leaf (x.entries.take p ++ (k, v) :: x.entries.drop p) x.children)
    else
      let i := insert_scan k x.entries x.n
      match x.children[i]? with
      | none => none
      | some c =>
        if c.n = 2 * DEGREE - 1 then
          match split_child x i with
          | none => none
          | some x1 =>
            match x1.entries[i]? with
            | none => none
            | some e =>
              let i1 := if strcmp k e.1 = Ordering.gt then i + 1 else i
              match x1.children[i1]? with
              | none => none
              | some c1 =>
                match insert_nonfull fuel c1 k v with
                | none => none
                | some c2 =>
                  some (mk x1.leaf x1.entries (x1.children.take i1 ++ c2 :: x1.children.drop (i1 + 1)))
        else
          match insert_nonfull fuel c k v with
          | none => none
          | some c2 => some (mk x.leaf x.entries (x.children.take i ++ c2 :: x.children.drop (i + 1)))

/-- The loop `while (i < x->n && strcmp(k, x->keys[i]) > 0) i++` of `search_node` and of
`_btree_delete`, started at `i = 0` on the live keys. -/
def search_scan (k : Key) : List (Key × Val) → Nat
  | [] => 0
  | e :: es => if strcmp k e.1 = Ordering.gt then search_scan k es + 1 else 0

mutual
/-- The function `search_node(x, k, &idx)`: the node that holds `k` and the slot, or `none`
for the NULL result. -/
def search_node : btree_node → Key → Option (btree_node × Nat)
  | mk leaf es cs, k =>
    match es[search_scan k es]? with
    | some e =>
      if strcmp k e.1 = Ordering.eq then some (mk leaf es cs, search_scan k es)
      else if leaf then none else search_child cs (search_scan k es) k
    | none => if leaf then none else search_child cs (search_scan k es) k
/-- The recursive call `search_node(x->children[i], k, idx)`. -/
def search_child : List btree_node → Nat → Key → Option (btree_node × Nat)
  | [], _, _ => none
  | c :: _, 0, k => search_node c k
  | _ :: cs, i + 1, k => search_child cs i k
end

mutual
/-- The store `node->values[idx] = copy of value` of `kvs_btree_modify`, made at the node and
slot that `search_node` returns; `none` when `search_node` returns NULL. -/
def store_value : btree_node → Key → Val → Option btree_node
  | mk leaf es cs, k, v =>
    match es[search_scan k es]? with
    | some e =>
      if strcmp k e.1 = Ordering.eq then
        some (mk leaf (es.take (search_scan k es) ++ (e.1, v) :: es.drop (search_scan k es + 1)) cs)
      else if leaf then none
      else (store_child cs (search_scan k es) k v).map (fun cs1 => mk leaf es cs1)
    | none =>
      if leaf then none
      else (store_child cs (search_scan k es) k v).map (fun cs1 => mk leaf es cs1)
/-- The store made below child `i`. -/
def store_child : List btree_node → Nat → Key → Val → Option (List btree_node)
  | [], _, _, _ => none
  | c :: cs, 0, k, v => (store_value c k v).map (fun c1 => c1 :: cs)
  | c :: cs, i + 1, k, v => (store_child cs i k v).map (fun cs1 => c :: cs1)
end

/-- The function `_btree_borrow_from_prev(x, i)`. -/
def _btree_borrow_from_prev (x : btree_node) (i : Nat) : Option btree_node :=
  match i with
  | 0 => none
  | j + 1 =>
    match x.children[j + 1]?, x.children[j]?, x.entries[j]? with
    | some child, some sibling, some e =>
      if 2 * DEGREE - 1 ≤ child.n then none
      else
        match sibling.entries[sibling.n - 1]? with
        | none => none
        | some se =>
          let sibling1 := mk sibling.leaf (sibling.entries.take (sibling.n - 1))
            (sibling.children.take sibling.n)
          let x1 (child1 : btree_node) := mk x.leaf (x.entries.take j ++ se :: x.entries.drop (j + 1))
            (x.children.take j ++ sibling1 :: child1 :: x.children.drop (j + 2))
          if child.leaf then some (x1 (mk child.leaf (e :: child.entries) child.children))
          else
            match sibling.children[sibling.n]? with
            | none => none
            | some sc => some (x1 (mk child.leaf (e :: child.entries) (sc :: child.children)))
    | _, _, _ => none

/-- The function `_btree_borrow_from_next(x, i)`. -/
def _btree_borrow_from_next (x : btree_node) (i : Nat) : Option btree_node :=
  match x.children[i]?, x.children[i + 1]?, x.entries[i]? with
  | some child, some sibling, some e =>
    if 2 * DEGREE - 1 ≤ child.n then none
    else
      match sibling.entries[0]? with
      | none => none
      | some se =>
        let sibling1 := mk sibling.leaf (sibling.entries.drop 1)
          (if sibling.leaf then sibling.children else sibling.children.drop 1)
        let x1 (child1 : btree_node) := mk x.leaf (x.entries.take i ++ se :: x.entries.drop (i + 1))
          (x.children.take i ++ child1 :: sibling1 :: x.children.drop (i + 2))
        if child.leaf then some (x1 (mk child.leaf (child.entries ++ [e]) child.children))
        else
          match sibling.children[0]? with
          | none => none
          | some sc => some (x1 (mk child.leaf (child.entries ++ [e]) (child.children ++ [sc])))
  | _, _, _ => none

/-- The function `_btree_merge(x, i)`: the key is pulled down to slot `DEGREE-1` of the child
and the sibling is copied behind it from slot `DEGREE` on. The result is `none` unless the
child holds exactly `DEGREE-1` keys (a slot would stay unwritten or be overwritten) and the merged
node fits the arrays. -/
def _btree_merge (x : btree_node) (i : Nat) : Option btree_node :=
  match x.children[i]?, x.children[i + 1]?, x.entries[i]? with
  | some child, some sibling, some e =>
    if child.n ≠ DEGREE - 1 ∨ 2 * DEGREE - 1 < child.n + sibling.n + 1 then none
    else
      let child1 := mk child.leaf (child.entries ++ e :: sibling.entries)
        (if child.leaf then child.children else child.children ++ sibling.children)
      some (mk x.leaf (x.entries.take i ++ x.entries.drop (i + 1))
        (x.children.take i ++ child1 :: x.children.drop (i + 2)))
  | _, _, _ => none

/-- The function `_btree_fill(x, i)`. -/
def _btree_fill (x : btree_node) (i : Nat) : Option btree_node :=
  let from_next : Option btree_node :=
    if i ≠ x.n then
      match x.children[i + 1]? with
      | none => none
      | some next =>
        if DEGREE ≤ next.n then _btree_borrow_from_next x i else _btree_merge x i
    else _btree_merge x (i - 1)
  if i ≠ 0 then
    match x.children[i - 1]? with
    | none => none
    | some prev => if DEGREE ≤ prev.n then _btree_borrow_from_prev x i else from_next
  else from_next

/-- The loop `while (!cur->leaf) cur = cur->children[cur->n]` of `_btree_get_pred` (and of the
value lookup that follows it in `_btree_delete`), with the copy of the last key and value of
the leaf it ends in. -/
def rightmost : Nat → btree_node → Option (Key × Val)
  | 0, _ => none
  | fuel + 1, cur =>
    if cur.leaf then (if cur.n = 0 then none else cur.entries[cur.n - 1]?)
    else
      match cur.children[cur.n]? with
      | none => none
      | some c => rightmost fuel c

/-- The loop `while (!cur->leaf) cur = cur->children[0]` of `_btree_get_succ`, with the copy of
the first key and value of the leaf it ends in. -/
def leftmost : Nat → btree_node → Option (Key × Val)
  | 0, _ => none
  | fuel + 1, cur =>
    if cur.leaf then cur.entries[0]?
    else
      match cur.children[0]? with
      | none => none
      | some c => leftmost fuel c

/-- The function `_btree_get_pred(x, i)` together with the predecessor's value. -/
def _btree_get_pred (fuel : Nat) (x : btree_node) (i : Nat) : Option (Key × Val) :=
  match x.children[i]? with
  | none => none
  | some c => rightmost fuel c

/-- The function `_btree_get_succ(x, i)` together with the successor's value. -/
def _btree_get_succ (fuel : Nat) (x : btree_node) (i : Nat) : Option (Key × Val) :=
  match x.children[i + 1]? with
  | none => none
  | some c => leftmost fuel c

/-- Child `i` of `x` replaced by the node the recursive call left behind. -/
def put_child (x : btree_node) (i : Nat) (c : btree_node) : btree_node :=
  mk x.leaf x.entries (x.children.take i ++ c :: x.children.drop (i + 1))

/-- The function `_btree_delete(x, k)`; the fuel bounds the depth of the recursion. -/
def _btree_delete : Nat → btree_node → Key → Option btree_node
  | 0, _, _ => none
  | fuel + 1, x, k =>
    let i := search_scan k x.entries
    let found : Bool :=
      match x.entries[i]? with
      | some e => strcmp k e.1 = Ordering.eq
      | none => false
    if found then
      if x.leaf then
        some (mk x.leaf (x.entries.take i ++ x.entries.drop (i + 1)) x.children)
      else
        match x.children[i]?, x.children[i + 1]? with
        | some left, some right =>
          if DEGREE ≤ left.n then
            match _btree_get_pred fuel x i with
            | none => none
            | some pred =>
              match _btree_delete fuel left pred.1 with
              | none => none
              | some left1 =>
                some (put_child (mk x.leaf (x.entries.take i ++ pred :: x.entries.drop (i + 1))
                  x.children) i left1)
          else if DEGREE ≤ right.n then
            match _btree_get_succ fuel x i with
            | none => none
            | some succ =>
              match _btree_delete fuel right succ.1 with
              | none => none
              | some right1 =>
                some (put_child (mk x.leaf (x.entries.take i ++ succ :: x.entries.drop (i + 1))
                  x.children) (i + 1) right1)
          else
            match _btree_merge x i with
            | none => none
            | some x1 =>
              match x1.children[i]? with
              | none => none
              | some c =>
                match _btree_delete fuel c k with
                | none => none
                | some c1 => some (put_child x1 i c1)
        | _, _ => none
    else
      if x.leaf then some x
      else
        let flag : Bool := i = x.n
        match x.children[i]? with
        | none => none
        | some c =>
          match (if c.n < DEGREE then _btree_fill x i else some x) with
          | none => none
          | some x1 =>
            let i1 := if flag ∧ x1.n < i then i - 1 else i
            match x1.children[i1]? with
            | none => none
            | some c1 =>
              match _btree_delete fuel c1 k with
              | none => none
              | some c2 => some (put_child x1 i1 c2)

mutual
/-- Number of levels below a node, measured along the first children. -/
def height : btree_node → Nat
  | mk leaf _ cs => if leaf then 0 else height_first cs + 1
/-- Height of the first node of a list of children. -/
def height_first : List btree_node → Nat
  | [] => 0
  | c :: _ => height c
end

/-- The function `kvstore_btree_create`: the root starts as an empty leaf. -/
def kvstore_btree_create : btree := { root := create_node true, count := 0 }

/-- The function `kvs_btree_get(tree, key)`; a NULL key or result is `none`. -/
def kvs_btree_get (tree : btree) (key : Option Key) : Option Val :=
  match key with
  | none => none
  | some k =>
    match search_node tree.root k with
    | some (node, idx) => (node.entries[idx]?).map Prod.snd
    | none => none

/-- The function `kvs_btree_modify(tree, key, value)`: return code and tree afterwards. -/
def kvs_btree_modify (tree : btree) (key : Option Key) (value : Option Val) : Int × btree :=
  match key, value with
  | some k, some v =>
    match store_value tree.root k v with
    | some r => (0, { tree with root := r })
    | none => (-1, tree)
  | _, _ => (-1, tree)

/-- The function `kvs_btree_set(tree, key, value)`: return code and tree afterwards; `none`
when one of the helpers leaves the embedding. -/
def kvs_btree_set (tree : btree) (key : Option Key) (value : Option Val) : Option (Int × btree) :=
  match key, value with
  | some k, some v =>
    match kvs_btree_get tree key with
    | some _ => some (kvs_btree_modify tree key value)
    | none =>
      let r := tree.root
      if r.n = 2 * DEGREE - 1 then
        match split_child (mk false [] [r]) 0 with
        | none => none
        | some s =>
          match insert_nonfull (height s + 1) s k v with
          | none => none
          | some s1 => some (0, { root := s1, count := tree.count + 1 })
      else
        match insert_nonfull (height r + 1) r k v with
        | none => none
        | some r1 => some (0, { root := r1, count := tree.count + 1 })
  | _, _ => some (-1, tree)

/-- The function `kvs_btree_delete(tree, key)`: return code and tree afterwards. -/
def kvs_btree_delete (tree : btree) (key : Option Key) : Option (Int × btree) :=
  match key with
  | none => some (-1, tree)
  | some k =>
    match kvs_btree_get tree key with
    | none => some (-1, tree)
    | some _ =>
      match _btree_delete (height tree.root + 1) tree.root k with
      | none => none
      | some r =>
        if r.n = 0 then
          if r.leaf then some (0, { root := r, count := tree.count - 1 })
          else
            match r.children[0]? with
            | none => none
            | some c => some (0, { root := c, count := tree.count - 1 })
        else some (0, { root := r, count := tree.count - 1 })

/-- The function `kvs_btree_count(tree)`. -/
def kvs_btree_count (tree : btree) : Int := tree.count

mutual
/-- In-order traversal: child 0, key 0, child 1, key 1, ..., child n. -/
def inorder : btree_node → List (Key × Val)
  | mk leaf es cs => if leaf then es else flat cs es
/-- The traversal of a row of children interleaved with the keys between them. -/
def flat : List btree_node → List (Key × Val) → List (Key × Val)
  | [], _ => []
  | c :: cs, es => inorder c ++ (match es with | [] => [] | e :: es1 => e :: flat cs es1)
end

end Btree

/-! ### The invariant of the B-tree -/

namespace Btree
open btree_node

/-- Strictly ascending keys (byte-lexicographic order, the order of `strcmp`). -/
def Sorted (L : List (Key × Val)) : Prop := L.Pairwise (fun a b => a.1 < b.1)

/-- What the traversal of a node lists behind its first child: key 0, child 1, key 1, ... -/
def rest (es : List (Key × Val)) (cs : List btree_node) : List (Key × Val) :=
  match es with
  | [] => []
  | e :: es1 => e :: flat cs es1

/-- The structural invariant below a node, for a subtree with `h` levels under it: the leaves
are exactly the nodes at depth `h`, the node holds between `lo` and `2*DEGREE-1` keys, every
node under it between `DEGREE-1` and `2*DEGREE-1`, and an internal node with `n` keys has
`n+1` children. -/
def Shape : Nat → Nat → btree_node → Prop
  | lo, 0, x => x.leaf = true ∧ lo ≤ x.n ∧ x.n ≤ 2 * DEGREE - 1
  | lo, h + 1, x => x.leaf = false ∧ lo ≤ x.n ∧ x.n ≤ 2 * DEGREE - 1 ∧
      x.children.length = x.n + 1 ∧ ∀ c ∈ x.children, Shape (DEGREE - 1) h c

/-- The trees that `kvstore_btree_create` and the calls of `kvs_btree_set`,
`kvs_btree_modify` and `kvs_btree_delete` produce. -/
inductive Reachable : btree → Prop
  | create : Reachable kvstore_btree_create
  | set (t t1 : btree) (k : Option Key) (v : Option Val) (r : Int) :
      Reachable t → kvs_btree_set t k v = some (r, t1) → Reachable t1
  | modify (t : btree) (k : Option Key) (v : Option Val) :
      Reachable t → Reachable (kvs_btree_modify t k v).2
  | delete (t t1 : btree) (k : Option Key) (r : Int) :
      Reachable t → kvs_btree_delete t k = some (r, t1) → Reachable t1

/-- The invariant of the reachable trees. -/
def Inv (t : btree) : Prop :=
  ∃ h, Shape 0 h t.root ∧ (t.root.leaf = false → 1 ≤ t.root.n) ∧ Sorted (inorder t.root) ∧
    t.count = (inorder t.root).length

end Btree

/-! ### The skip list of `kvstore_skiptable.c` -/

namespace Skiptable

/-- The macro `MAX_LEVEL` of `kvstore_skiptable.c`. -/
def MAX_LEVEL : Nat := 16

/-- The struct `skiplist_node`. Pointers to nodes are addresses, `none` is NULL; `forward` is
the array of forward pointers, one slot per level the node was created with. -/
structure skiplist_node where
  key : Key
  value : Option Val
  forward : List (Option Nat)

/-- The struct `skiplist`, together with the nodes that were allocated for it: `nodes[p]` is the
node at address `p`, `none` once it has been freed. The field `count` is a C `int`; it is kept
as an integer without wrap-around, so the embedding covers the lists of fewer than 2^31 keys. -/
structure skiplist where
  level : Nat
  header : Nat
  count : Int
  nodes : List (Option skiplist_node)

/-- The node behind a pointer; `none` when nothing is allocated there. -/
def node_at (m : List (Option skiplist_node)) (p : Nat) : Option skiplist_node :=
  match m[p]? with
  | some (some n) => some n
  | _ => none

/-- The read `p->forward[i]`; the outer `none` marks an access outside the node's array or
through a pointer to no node. -/
def read_forward (m : List (Option skiplist_node)) (p i : Nat) : Option (Option Nat) :=
  match node_at m p with
  | none => none
  | some n => n.forward[i]?

/-- The write `p->forward[i] = q`. -/
def write_forward (m : List (Option skiplist_node)) (p i : Nat) (q : Option Nat) :
    Option (List (Option skiplist_node)) :=
  match node_at m p with
  | none => none
  | some n =>
    if i < n.forward.length then some (m.set p (some { n with forward := n.forward.set i q }))
    else none

/-- The loop of `random_level`: `rand` lists the values the successive calls of `rand()`
return, `calls` counts the calls made so far. The test `(rand() & 0xFFFF) < (0.5 * 0xFFFF)`
compares with 32767.5. The result is the level and the number of calls. -/
def random_level_loop (rand : Nat → Nat) : Nat → Nat → Nat → Nat × Nat
  | 0, calls, level => (level, calls)
  | fuel + 1, calls, level =>
    if 2 * (rand calls % 65536) < 65535 ∧ level < MAX_LEVEL then
      random_level_loop rand fuel (calls + 1) (level + 1)
    else (level, calls + 1)

/-- The function `random_level()`. -/
def random_level (rand : Nat → Nat) : Nat := (random_level_loop rand MAX_LEVEL 0 1).1

/-- The function `create_node(level, key, value)` when the allocator has memory: the address of
the new node and the memory afterwards. -/
def create_node (m : List (Option skiplist_node)) (level : Nat) (key : Key) (value : Option Val) :
    Nat × List (Option skiplist_node) :=
  (m.length, m ++ [some { key := key, value := value, forward := List.replicate level none }])

/-- The function `skiplist_init` (called by `kvstore_skiptable_create`): the header has
`MAX_LEVEL` forward slots, all NULL, and the empty string as key. -/
def skiplist_init : skiplist :=
  { level := 1, header := 0, count := 0,
    nodes := (create_node [] MAX_LEVEL [] none).2 }

/-- The function `kvstore_skiptable_create`. -/
def kvstore_skiptable_create : skiplist := skiplist_init

/-- The loop `while (x->forward[i] != NULL && strcmp(x->forward[i]->key, key) < 0)
x = x->forward[i]` at level `i`, started at `x`; the fuel bounds the number of steps. -/
def walk (m : List (Option skiplist_node)) (key : Key) (i : Nat) : Nat → Nat → Option Nat
  | 0, _ => none
  | fuel + 1, x =>
    match read_forward m x i with
    | none => none
    | some none => some x
    | some (some y) =>
      match node_at m y with
      | none => none
      | some ny => if strcmp ny.key key = Ordering.lt then walk m key i fuel y else some x

/-- The loop `for (i = level - 1; i >= 0; i--) { while ...; update[i] = x; }` that
`skiplist_search`, `skiplist_insert` and `skiplist_delete` start with (the search does not
record `update`). The first argument is `i + 1`. The result is the final `x` and the slots
`update[0..level-1]`. -/
def descend (m : List (Option skiplist_node)) (key : Key) (fuel : Nat) :
    Nat → Nat → Option (Nat × List Nat)
  | 0, x => some (x, [])
  | i + 1, x =>
    match walk m key i fuel x with
    | none => none
    | some x1 =>
      match descend m key fuel i x1 with
      | none => none
      | some (x0, update) => some (x0, update ++ [x1])

/-- The function `skiplist_search(sl, key)`: the outer `none` marks a run that leaves the
embedding, the inner one the NULL result. -/
def skiplist_search (sl : skiplist) (key : Option Key) : Option (Option Nat) :=
  match key with
  | none => some none
  | some k =>
    match descend sl.nodes k (sl.nodes.length + 1) sl.level sl.header with
    | none => none
    | some (x, _) =>
      match read_forward sl.nodes x 0 with
      | none => none
      | some none => some none
      | some (some y) =>
        match node_at sl.nodes y with
        | none => none
        | some ny => if strcmp ny.key k = Ordering.eq then some (some y) else some none

/-- The loop `for (i = 0; i < level; i++) { x->forward[i] = update[i]->forward[i];
update[i]->forward[i] = x; }` of `skiplist_insert`; the first argument counts the rounds
that remain. -/
def splice_loop (x : Nat) (update : List Nat) :
    Nat → Nat → List (Option skiplist_node) → Option (List (Option skiplist_node))
  | 0, _, m => some m
  | n + 1, i, m =>
    match update[i]? with
    | none => none
    | some u =>
      match read_forward m u i with
      | none => none
      | some nxt =>
        match write_forward m x i nxt with
        | none => none
        | some m1 =>
          match write_forward m1 u i (some x) with
          | none => none
          | some m2 => splice_loop x update n (i + 1) m2

/-- The function `skiplist_insert(sl, key, value)`. `rand` lists what `rand()` returns during
the call and `mem_ok` tells whether `create_node` gets its memory. -/
def skiplist_insert (sl : skiplist) (key : Option Key) (value : Option Val) (rand : Nat → Nat)
    (mem_ok : Bool) : Option (Int × skiplist) :=
  match key with
  | none => some (-1, sl)
  | some k =>
    match descend sl.nodes k (sl.nodes.length + 1) sl.level sl.header with
    | none => none
    | some (x, update) =>
      match read_forward sl.nodes x 0 with
      | none => none
      | some x0 =>
        let pres : Option Bool :=
          match x0 with
          | none => some false
          | some y =>
            match node_at sl.nodes y with
            | none => none
            | some ny => some (strcmp ny.key k = Ordering.eq)
        match pres with
        | none => none
        | some true => some (1, sl)
        | some false =>
          let level := random_level rand
          let update1 :=
            if sl.level < level then update ++ List.replicate (level - sl.level) sl.header
            else update
          let level1 := if sl.level < level then level else sl.level
          if mem_ok then
            let (p, m1) := create_node sl.nodes level k value
            match splice_loop p update1 level 0 m1 with
            | none => none
            | some m2 => some (0, { sl with level := level1, nodes := m2 })
          else some (-1, { sl with level := level1 })

/-- The loop `for (i = 0; i < sl->level; i++) { if (update[i]->forward[i] != x) break;
update[i]->forward[i] = x->forward[i]; }` of `skiplist_delete`. -/
def unlink_loop (x : Nat) (update : List Nat) :
    Nat → Nat → List (Option skiplist_node) → Option (List (Option skiplist_node))
  | 0, _, m => some m
  | n + 1, i, m =>
    match update[i]? with
    | none => none
    | some u =>
      match read_forward m u i with
      | none => none
      | some f =>
        if f ≠ some x then some m
        else
          match read_forward m x i with
          | none => none
          | some xf =>
            match write_forward m u i xf with
            | none => none
            | some m1 => unlink_loop x update n (i + 1) m1

/-- The loop `while (sl->level > 1 && sl->header->forward[sl->level - 1] == NULL)
sl->level--` of `skiplist_delete`, as a function of the level it starts with. -/
def lower_level (m : List (Option skiplist_node)) (header : Nat) : Nat → Option Nat
  | 0 => some 0
  | 1 => some 1
  | l + 2 =>
    match read_forward m header (l + 1) with
    | none => none
    | some none => lower_level m header (l + 1)
    | some (some _) => some (l + 2)

/-- The function `skiplist_delete(sl, key)`. -/
def skiplist_delete (sl : skiplist) (key : Option Key) : Option (Int × skiplist) :=
  match key with
  | none => some (-1, sl)
  | some k =>
    match descend sl.nodes k (sl.nodes.length + 1) sl.level sl.header with
    | none => none
    | some (x, update) =>
      match read_forward sl.nodes x 0 with
      | none => none
      | some none => some (-1, sl)
      | some (some y) =>
        match node_at sl.nodes y with
        | none => none
        | some ny =>
          if strcmp ny.key k ≠ Ordering.eq then some (-1, sl)
          else
            match unlink_loop y update sl.level 0 sl.nodes with
            | none => none
            | some m1 =>
              match lower_level m1 sl.header sl.level with
              | none => none
              | some level1 =>
                some (0, { sl with level := level1, count := sl.count - 1,
                                   nodes := m1.set y none })

/-- The function `skiplist_modify(sl, key, value)`. -/
def skiplist_modify (sl : skiplist) (key : Option Key) (value : Option Val) :
    Option (Int × skiplist) :=
  match key, value with
  | some _, some v =>
    match skiplist_search sl key with
    | none => none
    | some none => some (-1, sl)
    | some (some p) =>
      match node_at sl.nodes p with
      | none => none
      | some n => some (0, { sl with nodes := sl.nodes.set p (some { n with value := some v }) })
  | _, _ => some (-1, sl)

/-- The function `kvs_skiptable_set(sl, key, value)`. -/
def kvs_skiptable_set (sl : skiplist) (key : Option Key) (value : Option Val)
    (rand : Nat → Nat) (mem_ok : Bool) : Option (Int × skiplist) :=
  match key, value with
  | some _, some _ =>
    match skiplist_insert sl key value rand mem_ok with
    | none => none
    | some (res, sl1) =>
      if res = 0 then some (0, { sl1 with count := sl1.count + 1 })
      else if res = 1 then skiplist_modify sl1 key value
      else some (0, sl1)
  | _, _ => some (-1, sl)

/-- The function `kvs_skiptable_get(sl, key)`: the inner `none` is the NULL result. -/
def kvs_skiptable_get (sl : skiplist) (key : Option Key) : Option (Option Val) :=
  match key with
  | none => some none
  | some _ =>
    match skiplist_search sl key with
    | none => none
    | some none => some none
    | some (some p) =>
      match node_at sl.nodes p with
      | none => none
      | some n => some n.value

/-- The function `kvs_skiptable_delete(sl, key)`. -/
def kvs_skiptable_delete (sl : skiplist) (key : Option Key) : Option (Int × skiplist) :=
  match key with
  | none => some (-1, sl)
  | some _ => skiplist_delete sl key

/-- The function `kvs_skiptable_modify(sl, key, value)`. -/
def kvs_skiptable_modify (sl : skiplist) (key : Option Key) (value : Option Val) :
    Option (Int × skiplist) :=
  match key, value with
  | some _, some _ => skiplist_modify sl key value
  | _, _ => some (-1, sl)

/-- The function `kvs_skiptable_count(sl)`. -/
def kvs_skiptable_count (sl : skiplist) : Int := sl.count

/-- The nodes that the pointers `forward[j]` lead through, from the node at `x` to NULL. -/
def level_chain (m : List (Option skiplist_node)) (j : Nat) : Nat → Nat → List Nat
  | 0, _ => []
  | fuel + 1, x =>
    match read_forward m x j with
    | some (some y) => y :: level_chain m j fuel y
    | _ => []

end Skiptable

/-! ### The invariant of the skip list -/

namespace Skiptable

/-- A stored node as the invariant sees it: its address, key, value and number of levels. -/
structure Tower where
  addr : Nat
  key : Key
  val : Val
  height : Nat

/-- The towers that reach above level `j`. -/
def above (j : Nat) (L : List Tower) : List Tower := L.filter (fun t => j < t.height)

/-- The pointers `forward[j]` lead from the node at `x` through the towers of `L`, in this
order, and end in NULL. -/
def ChainFrom (m : List (Option skiplist_node)) (j : Nat) : Nat → List Tower → Prop
  | x, [] => read_forward m x j = some none
  | x, t :: L => read_forward m x j = some (some t.addr) ∧ ChainFrom m j t.addr L

/-- The address of the last tower of a list, `d` for the empty list. -/
def lastOr (L : List Tower) (d : Nat) : Nat :=
  match L.getLast? with
  | some t => t.addr
  | none => d

/-- The invariant that ties a skip list to the sorted row `T` of its towers. -/
structure SInv (s : skiplist) (T : List Tower) : Prop where
  level_pos : 1 ≤ s.level
  level_le : s.level ≤ MAX_LEVEL
  header_node : ∃ n, node_at s.nodes s.header = some n ∧ n.forward.length = MAX_LEVEL
  towers : ∀ t ∈ T, ∃ n, node_at s.nodes t.addr = some n ∧ n.key = t.key ∧
    n.value = some t.val ∧ n.forward.length = t.height ∧ 1 ≤ t.height ∧ t.height ≤ s.level ∧
    t.addr ≠ s.header
  nodup : (T.map Tower.addr).Nodup
  sorted : T.Pairwise (fun a b => a.key < b.key)
  chains : ∀ j, j < MAX_LEVEL → ChainFrom s.nodes j s.header (above j T)
  size : T.length < s.nodes.length
  alloc : ∀ p n, node_at s.nodes p = some n → p = s.header ∨ p ∈ T.map Tower.addr

/-- The invariant of the reachable skip lists. -/
def Inv (s : skiplist) : Prop := ∃ T, SInv s T ∧ s.count = T.length

/-- The skip lists that `kvstore_skiptable_create` and the calls of `kvs_skiptable_set`,
`kvs_skiptable_modify` and `kvs_skiptable_delete` produce, for every run of `rand()` and
every answer of the allocator. -/
inductive Reachable : skiplist → Prop
  | create : Reachable kvstore_skiptable_create
  | set (s s1 : skiplist) (k : Option Key) (v : Option Val) (rand : Nat → Nat) (ok : Bool)
      (r : Int) : Reachable s → kvs_skiptable_set s k v rand ok = some (r, s1) → Reachable s1
  | modify (s s1 : skiplist) (k : Option Key) (v : Option Val) (r : Int) :
      Reachable s → kvs_skiptable_modify s k v = some (r, s1) → Reachable s1
  | delete (s s1 : skiplist) (k : Option Key) (r : Int) :
      Reachable s → kvs_skiptable_delete s k = some (r, s1) → Reachable s1

end Skiptable

/-! ### The replies of the dispatcher -/

/-- The call `snprintf(msg, size, "%s", s)` on the zeroed write buffer: at most `size - 1`
bytes of `s` are stored. -/
def snprintf (size : Nat) (s : List Nat) : List Nat := s.take (size - 1)

/-- The reply `SUCCESS`. -/
def SUCCESS : List Nat := [83, 85, 67, 67, 69, 83, 83]

/-- The reply `FAILED`. -/
def FAILED : List Nat := [70, 65, 73, 76, 69, 68]

/-- The reply `ERROR`. -/
def ERROR : List Nat := [69, 82, 82, 79, 82]

/-- The reply `NO EXIST`. -/
def NO_EXIST : List Nat := [78, 79, 32, 69, 88, 73, 83, 84]

/-- The conversion `%d` of `snprintf`. -/
def decimal (n : Int) : List Nat :=
  if n < 0 then 45 :: (Nat.toDigits 10 n.natAbs).map Char.toNat
  else (Nat.toDigits 10 n.natAbs).map Char.toNat

/-- The reply that the cases `KVS_CMD_*SET` of `kvstore_parser_protocol` write for the return
code `res` of the engine. -/
def reply_set (size : Nat) (res : Int) : List Nat :=
  if res = 0 then snprintf size SUCCESS else snprintf size FAILED

/-- The reply that the cases `KVS_CMD_*GET` write for the pointer `val` the engine returns. -/
def reply_get (size : Nat) (val : Option Val) : List Nat :=
  match val with
  | some v => snprintf size v
  | none => snprintf size NO_EXIST

/-- The reply that the cases `KVS_CMD_*DEL` and `KVS_CMD_*MOD` write for the return code
`res` of the engine. -/
def reply_code (size : Nat) (res : Int) : List Nat :=
  if res < 0 then snprintf size ERROR
  else if res = 0 then snprintf size SUCCESS
  else snprintf size NO_EXIST

/-- The reply that the cases `KVS_CMD_*COUNT` write. -/
def reply_count (size : Nat) (count : Int) : List Nat :=
  if count < 0 then snprintf size ERROR else snprintf size (decimal count)

/-- The case `KVS_CMD_BSET` of `kvstore_parser_protocol`, with `kvstore_btree_set` passing the
global `Btree`: the reply and the tree afterwards. `size` is `BUFFER_LENGTH`. -/
def case_BSET (size : Nat) (t : Btree.btree) (key : Option Key) (value : Option Val) :
    Option (List Nat × Btree.btree) :=
  (Btree.kvs_btree_set t key value).map (fun r => (reply_set size r.1, r.2))

/-- The case `KVS_CMD_BGET`. -/
def case_BGET (size : Nat) (t : Btree.btree) (key : Option Key) : List Nat :=
  reply_get size (Btree.kvs_btree_get t key)

/-- The case `KVS_CMD_BDEL`. -/
def case_BDEL (size : Nat) (t : Btree.btree) (key : Option Key) :
    Option (List Nat × Btree.btree) :=
  (Btree.kvs_btree_delete t key).map (fun r => (reply_code size r.1, r.2))

/-- The case `KVS_CMD_BMOD`. -/
def case_BMOD (size : Nat) (t : Btree.btree) (key : Option Key) (value : Option Val) :
    List Nat × Btree.btree :=
  (reply_code size (Btree.kvs_btree_modify t key value).1, (Btree.kvs_btree_modify t key value).2)

/-- The case `KVS_CMD_BCOUNT`. -/
def case_BCOUNT (size : Nat) (t : Btree.btree) : List Nat :=
  reply_count size (Btree.kvs_btree_count t)

/-- The case `KVS_CMD_SSET`, with `kvstore_skiptable_set` passing the global `Skiplist`. -/
def case_SSET (size : Nat) (s : Skiptable.skiplist) (key : Option Key) (value : Option Val)
    (rand : Nat → Nat) (mem_ok : Bool) : Option (List Nat × Skiptable.skiplist) :=
  (Skiptable.kvs_skiptable_set s key value rand mem_ok).map (fun r => (reply_set size r.1, r.2))

/-- The case `KVS_CMD_SGET`. -/
def case_SGET (size : Nat) (s : Skiptable.skiplist) (key : Option Key) : Option (List Nat) :=
  (Skiptable.kvs_skiptable_get s key).map (reply_get size)

/-- The case `KVS_CMD_SDEL`. -/
def case_SDEL (size : Nat) (s : Skiptable.skiplist) (key : Option Key) :
    Option (List Nat × Skiptable.skiplist) :=
  (Skiptable.kvs_skiptable_delete s key).map (fun r => (reply_code size r.1, r.2))

/-- The case `KVS_CMD_SMOD`. -/
def case_SMOD (size : Nat) (s : Skiptable.skiplist) (key : Option Key) (value : Option Val) :
    Option (List Nat × Skiptable.skiplist) :=
  (Skiptable.kvs_skiptable_modify s key value).map (fun r => (reply_code size r.1, r.2))

/-- The case `KVS_CMD_SCOUNT`. -/
def case_SCOUNT (size : Nat) (s : Skiptable.skiplist) : List Nat :=
  reply_count size (Skiptable.kvs_skiptable_count s)

namespace Btree
open btree_node

/-- The nodes of the tree under `r`, with their depth: `NodeAt r d x` says that `x` is reached
from `r` by `d` steps to a child of an internal node. -/
inductive NodeAt (r : btree_node) : Nat → btree_node → Prop
  | root : NodeAt r 0 r
  | child (d : Nat) (x c : btree_node) : NodeAt r d x → x.leaf = false → c ∈ x.children →
      NodeAt r (d + 1) c

mutual
/-- The number of keys held in the nodes of a subtree. -/
def key_total : btree_node → Nat
  | mk leaf es cs => es.length + (if leaf then 0 else key_total_list cs)
/-- The number of keys held in a row of subtrees. -/
def key_total_list : List btree_node → Nat
  | [] => 0
  | c :: cs => key_total c + key_total_list cs
end

/-- A call of the engine API that changes the store. -/
inductive call where
  | set (k : Key) (v : Val)
  | del (k : Key)
  | mod (k : Key) (v : Val)

/-- A run of calls on a B-tree. Next to the tree it keeps the tally of the calls: one up for
every `kvs_btree_set` that returns 0 for a key that `kvs_btree_get` did not find just before,
one down for every `kvs_btree_delete` that returns 0. -/
def run : btree → Int → List call → Option (btree × Int)
  | t, n, [] => some (t, n)
  | t, n, call.set k v :: cs =>
    match kvs_btree_set t (some k) (some v) with
    | none => none
    | some (r, t1) =>
      run t1 (if r = 0 ∧ kvs_btree_get t (some k) = none then n + 1 else n) cs
  | t, n, call.del k :: cs =>
    match kvs_btree_delete t (some k) with
    | none => none
    | some (r, t1) => run t1 (if r = 0 then n - 1 else n) cs
  | t, n, call.mod k v :: cs => run (kvs_btree_modify t (some k) (some v)).2 n cs

/-- The tree after `BSET k v` on the empty tree, for the key `k` and the value `v`. -/
def demo1 : btree := { root := mk true [([107], [118])] [], count := 1 }

/-- The tree after the keys `a` to `h` were set in this order: the root was split. -/
def demo8 : btree :=
  { root := mk false [([99], [3])]
      [mk true [([97], [1]), ([98], [2])] [],
       mk true [([100], [4]), ([101], [5]), ([102], [6]), ([103], [7]), ([104], [8])] []],
    count := 8 }

end Btree

namespace Skiptable

/-- A call of the engine API that changes the store; a set comes with the values `rand()`
returns during the call. -/
inductive call where
  | set (k : Key) (v : Val) (rand : Nat → Nat)
  | del (k : Key)
  | mod (k : Key) (v : Val)

/-- A run of calls on a skip list whose allocations succeed, with the tally of the calls: one
up for every `kvs_skiptable_set` that returns 0 for a key that `kvs_skiptable_get` did not find
just before, one down for every `kvs_skiptable_delete` that returns 0. -/
def run : skiplist → Int → List call → Option (skiplist × Int)
  | s, n, [] => some (s, n)
  | s, n, call.set k v rand :: cs =>
    match kvs_skiptable_set s (some k) (some v) rand true with
    | none => none
    | some (r, s1) =>
      run s1 (if r = 0 ∧ kvs_skiptable_get s (some k) = some none then n + 1 else n) cs
  | s, n, call.del k :: cs =>
    match kvs_skiptable_delete s (some k) with
    | none => none
    | some (r, s1) => run s1 (if r = 0 then n - 1 else n) cs
  | s, n, call.mod k v :: cs =>
    match kvs_skiptable_modify s (some k) (some v) with
    | none => none
    | some (_, s1) => run s1 n cs

/-- The skip list after `SSET k v` on the empty list when `rand()` returns 40000: the node has
one level and sits at address 1. -/
def demo1 : skiplist :=
  { level := 1, header := 0, count := 1,
    nodes := [some { key := [], value := none,
                     forward := some 1 :: List.replicate 15 none },
              some { key := [107], value := some [118], forward := [none] }] }

end Skiptable

/-! ### The dispatcher of `kvstore.c` -/

/-- The macro `KVSTORE_MAX_TOKENS`. -/
def KVSTORE_MAX_TOKENS : Nat := 128

/-- The table `commands`: the verbs as byte strings, in the order of the enumeration
`KVS_CMD_*`. -/
def commands : List (List Nat) :=
  [[83, 69, 84], [71, 69, 84], [68, 69, 76], [77, 79, 68], [67, 79, 85, 78, 84],
   [82, 83, 69, 84], [82, 71, 69, 84], [82, 68, 69, 76], [82, 77, 79, 68],
   [82, 67, 79, 85, 78, 84],
   [72, 83, 69, 84], [72, 71, 69, 84], [72, 68, 69, 76], [72, 77, 79, 68],
   [72, 67, 79, 85, 78, 84],
   [83, 83, 69, 84], [83, 71, 69, 84], [83, 68, 69, 76], [83, 77, 79, 68],
   [83, 67, 79, 85, 78, 84],
   [66, 83, 69, 84], [66, 71, 69, 84], [66, 68, 69, 76], [66, 77, 79, 68],
   [66, 67, 79, 85, 78, 84]]

/-- The enumerator `KVS_CMD_START`. -/
def KVS_CMD_START : Nat := 0
/-- The enumerator `KVS_CMD_SET`. -/
def KVS_CMD_SET : Nat := 0
/-- The enumerator `KVS_CMD_GET`. -/
def KVS_CMD_GET : Nat := 1
/-- The enumerator `KVS_CMD_DEL`. -/
def KVS_CMD_DEL : Nat := 2
/-- The enumerator `KVS_CMD_MOD`. -/
def KVS_CMD_MOD : Nat := 3
/-- The enumerator `KVS_CMD_COUNT`. -/
def KVS_CMD_COUNT : Nat := 4
/-- The enumerator `KVS_CMD_RSET`. -/
def KVS_CMD_RSET : Nat := 5
/-- The enumerator `KVS_CMD_RGET`. -/
def KVS_CMD_RGET : Nat := 6
/-- The enumerator `KVS_CMD_RDEL`. -/
def KVS_CMD_RDEL : Nat := 7
/-- The enumerator `KVS_CMD_RMOD`. -/
def KVS_CMD_RMOD : Nat := 8
/-- The enumerator `KVS_CMD_RCOUNT`. -/
def KVS_CMD_RCOUNT : Nat := 9
/-- The enumerator `KVS_CMD_HSET`. -/
def KVS_CMD_HSET : Nat := 10
/-- The enumerator `KVS_CMD_HGET`. -/
def KVS_CMD_HGET : Nat := 11
/-- The enumerator `KVS_CMD_HDEL`. -/
def KVS_CMD_HDEL : Nat := 12
/-- The enumerator `KVS_CMD_HMOD`. -/
def KVS_CMD_HMOD : Nat := 13
/-- The enumerator `KVS_CMD_HCOUNT`. -/
def KVS_CMD_HCOUNT : Nat := 14
/-- The enumerator `KVS_CMD_SSET`. -/
def KVS_CMD_SSET : Nat := 15
/-- The enumerator `KVS_CMD_SGET`. -/
def KVS_CMD_SGET : Nat := 16
/-- The enumerator `KVS_CMD_SDEL`. -/
def KVS_CMD_SDEL : Nat := 17
/-- The enumerator `KVS_CMD_SMOD`. -/
def KVS_CMD_SMOD : Nat := 18
/-- The enumerator `KVS_CMD_SCOUNT`. -/
def KVS_CMD_SCOUNT : Nat := 19
/-- The enumerator `KVS_CMD_BSET`. -/
def KVS_CMD_BSET : Nat := 20
/-- The enumerator `KVS_CMD_BGET`. -/
def KVS_CMD_BGET : Nat := 21
/-- The enumerator `KVS_CMD_BDEL`. -/
def KVS_CMD_BDEL : Nat := 22
/-- The enumerator `KVS_CMD_BMOD`. -/
def KVS_CMD_BMOD : Nat := 23
/-- The enumerator `KVS_CMD_BCOUNT`. -/
def KVS_CMD_BCOUNT : Nat := 24
/-- The enumerator `KVS_CMD_SIZE`. -/
def KVS_CMD_SIZE : Nat := 25

/-- The engine functions `kvs_array_*`, `kvs_rbtree_*` and `kvs_hash_*` that the wrappers
`kvstore_array_*`, `kvstore_rbtree_*` and `kvstore_hash_*` call are defined in other source
files; the dispatcher takes them as parameters: the return code and the engine afterwards, for
get the pointer it returns (`none` is NULL). -/
structure engine (σ : Type) where
  set : σ → Option Key → Option Val → Int × σ
  get : σ → Option Key → Option Val
  delete : σ → Option Key → Int × σ
  modify : σ → Option Key → Option Val → Int × σ
  count : σ → Int

/-- The three engines that are parameters of the dispatcher. -/
structure engines (A R H : Type) where
  array : engine A
  rbtree : engine R
  hash : engine H

/-- The global engine instances `Array`, `Tree`, `Hash`, `Skiplist` and `Btree`. -/
structure globals (A R H : Type) where
  Array : A
  Tree : R
  Hash : H
  Skiplist : Skiptable.skiplist
  Btree : Btree.btree

/-- The struct `conn_item`, as far as the dispatcher uses it: the C strings in the read buffer
and in the write buffer. The NUL bytes that `strtok` puts into the read buffer are not
tracked: the tokens are kept as strings of their own. -/
structure conn_item where
  rbuffer : List Nat
  wbuffer : List Nat

/-- The C library function `strtok` with the delimiter `" "`, as a function of the rest of the
string it keeps between calls: it skips the spaces in front, returns NULL (`none`) at the end
of the string, and otherwise the token up to the next space together with the rest behind
that space. -/
def strtok (s : List Nat) : Option (List Nat × List Nat) :=
  match s.dropWhile (fun c => c = 32) with
  | [] => none
  | c :: s1 =>
    some ((c :: s1).takeWhile (fun c => c ≠ 32), ((c :: s1).dropWhile (fun c => c ≠ 32)).drop 1)

/-- How a run of `kvstore_split_token` ends: `ok count tokens` when it returns `count` and
leaves the array `tokens`; `overflow idx` when the store `tokens[idx++] = token` lands behind
the last slot of the array; `out_of_fuel` when the bound of the embedding on the number of
rounds is used up. -/
inductive split_result where
  | ok (count : Int) (tokens : List (Option (List Nat)))
  | overflow (idx : Nat)
  | out_of_fuel

/-- The loop `while (token != NULL) { tokens[idx ++] = token; token = strtok(NULL, " "); }` of
`kvstore_split_token`: `s` is the rest of the string that `strtok` keeps, `tokens` the array
of the caller; a slot holds NULL (`none`) or a pointer to a string. -/
def split_loop : Nat → List Nat → Nat → List (Option (List Nat)) → split_result
  | 0, _, _, _ => split_result.out_of_fuel
  | fuel + 1, s, idx, tokens =>
    match strtok s with
    | none => split_result.ok idx tokens
    | some (token, s1) =>
      if idx < tokens.length then split_loop fuel s1 (idx + 1) (tokens.set idx (some token))
      else split_result.overflow idx

/-- The function `kvstore_split_token(msg, tokens)`, for a `tokens` that is not NULL. -/
def kvstore_split_token (msg : Option (List Nat)) (tokens : List (Option (List Nat))) :
    split_result :=
  match msg with
  | none => split_result.ok (-1) tokens
  | some s => split_loop (s.length + 1) s 0 tokens

/-- The loop `for (cmd = KVS_CMD_START; cmd < KVS_CMD_SIZE; cmd ++)
if (strcmp(commands[cmd], tokens[0]) == 0) break;` over the rest of the table, started at
`cmd`: the value of `cmd` behind the loop. -/
def find_cmd (token : List Nat) : List (List Nat) → Nat → Nat
  | [], cmd => cmd
  | c :: cs, cmd => if strcmp c token = Ordering.eq then cmd else find_cmd token cs (cmd + 1)

/-- How a run of `kvstore_parser_protocol` or of `kvstore_request` ends.
`done item st`: a case of the switch ran to its `break`, with the connection and the engines
afterwards. `rejected item st`: the `return -1` of the first line, nothing was written.
`aborted`: the `default` case of the switch, which prints `commands[cmd]` for a `cmd` behind
the table and runs into `assert(0)`, which ends the process (were the assertions compiled out,
the case would leave the switch with the cleared write buffer). `fault`: the run leaves the
embedding, because an engine function does or because `kvstore_split_token` writes behind the
array. -/
inductive outcome (A R H : Type) where
  | done (item : conn_item) (st : globals A R H)
  | rejected (item : conn_item) (st : globals A R H)
  | aborted
  | fault

/-- The function `kvstore_parser_protocol(item, tokens, count)` for an `item` that is not
NULL. `size` is the macro `BUFFER_LENGTH` of the header; `rand` lists what `rand()` returns
during the call and `mem_ok` tells whether `create_node` of the skip list gets its memory.
The write buffer is cleared by `memset` before the switch, so it holds what the one
`snprintf` of the case writes. -/
def kvstore_parser_protocol {A R H : Type} (E : engines A R H) (size : Nat) (rand : Nat → Nat)
    (mem_ok : Bool) (st : globals A R H) (item : conn_item)
    (tokens : List (Option (List Nat))) (count : Int) : outcome A R H :=
  match tokens[0]? with
  | none => outcome.fault
  | some none => outcome.rejected item st
  | some (some verb) =>
    if count = 0 then outcome.rejected item st
    else
      let cmd := find_cmd verb commands 0
      let key : Option Key := (tokens[1]?).join
      let value : Option Val := (tokens[2]?).join
      let reply (msg : List Nat) : conn_item := { item with wbuffer := msg }
      match cmd with
      | 0 => -- case KVS_CMD_SET
        outcome.done (reply (reply_set size (E.array.set st.Array key value).1))
          { st with Array := (E.array.set st.Array key value).2 }
      | 1 => -- case KVS_CMD_GET
        outcome.done (reply (reply_get size (E.array.get st.Array key))) st
      | 2 => -- case KVS_CMD_DEL
        outcome.done (reply (reply_code size (E.array.delete st.Array key).1))
          { st with Array := (E.array.delete st.Array key).2 }
      | 3 => -- case KVS_CMD_MOD
        outcome.done (reply (reply_code size (E.array.modify st.Array key value).1))
          { st with Array := (E.array.modify st.Array key value).2 }
      | 4 => -- case KVS_CMD_COUNT
        outcome.done (reply (reply_count size (E.array.count st.Array))) st
      | 5 => -- case KVS_CMD_RSET
        outcome.done (reply (reply_set size (E.rbtree.set st.Tree key value).1))
          { st with Tree := (E.rbtree.set st.Tree key value).2 }
      | 6 => -- case KVS_CMD_RGET
        outcome.done (reply (reply_get size (E.rbtree.get st.Tree key))) st
      | 7 => -- case KVS_CMD_RDEL
        outcome.done (reply (reply_code size (E.rbtree.delete st.Tree key).1))
          { st with Tree := (E.rbtree.delete st.Tree key).2 }
      | 8 => -- case KVS_CMD_RMOD
        outcome.done (reply (reply_code size (E.rbtree.modify st.Tree key value).1))
          { st with Tree := (E.rbtree.modify st.Tree key value).2 }
      | 9 => -- case KVS_CMD_RCOUNT
        outcome.done (reply (reply_count size (E.rbtree.count st.Tree))) st
      | 10 => -- case KVS_CMD_HSET
        outcome.done (reply (reply_set size (E.hash.set st.Hash key value).1))
          { st with Hash := (E.hash.set st.Hash key value).2 }
      | 11 => -- case KVS_CMD_HGET
        outcome.done (reply (reply_get size (E.hash.get st.Hash key))) st
      | 12 => -- case KVS_CMD_HDEL
        outcome.done (reply (reply_code size (E.hash.delete st.Hash key).1))
          { st with Hash := (E.hash.delete st.Hash key).2 }
      | 13 => -- case KVS_CMD_HMOD
        outcome.done (reply (reply_code size (E.hash.modify st.Hash key value).1))
          { st with Hash := (E.hash.modify st.Hash key value).2 }
      | 14 => -- case KVS_CMD_HCOUNT
        outcome.done (reply (reply_count size (E.hash.count st.Hash))) st
      | 15 => -- case KVS_CMD_SSET
        match case_SSET size st.Skiplist key value rand mem_ok with
        | none => outcome.fault
        | some (msg, sl) => outcome.done (reply msg) { st with Skiplist := sl }
      | 16 => -- case KVS_CMD_SGET
        match case_SGET size st.Skiplist key with
        | none => outcome.fault
        | some msg => outcome.done (reply msg) st
      | 17 => -- case KVS_CMD_SDEL
        match case_SDEL size st.Skiplist key with
        | none => outcome.fault
        | some (msg, sl) => outcome.done (reply msg) { st with Skiplist := sl }
      | 18 => -- case KVS_CMD_SMOD
        match case_SMOD size st.Skiplist key value with
        | none => outcome.fault
        | some (msg, sl) => outcome.done (reply msg) { st with Skiplist := sl }
      | 19 => -- case KVS_CMD_SCOUNT
        outcome.done (reply (case_SCOUNT size st.Skiplist)) st
      | 20 => -- case KVS_CMD_BSET
        match case_BSET size st.Btree key value with
        | none => outcome.fault
        | some (msg, bt) => outcome.done (reply msg) { st with Btree := bt }
      | 21 => -- case KVS_CMD_BGET
        outcome.done (reply (case_BGET size st.Btree key)) st
      | 22 => -- case KVS_CMD_BDEL
        match case_BDEL size st.Btree key with
        | none => outcome.fault
        | some (msg, bt) => outcome.done (reply msg) { st with Btree := bt }
      | 23 => -- case KVS_CMD_BMOD
        outcome.done (reply (case_BMOD size st.Btree key value).1)
          { st with Btree := (case_BMOD size st.Btree key value).2 }
      | 24 => -- case KVS_CMD_BCOUNT
        outcome.done (reply (case_BCOUNT size st.Btree)) st
      | _ => outcome.aborted -- default

/-- The function `kvstore_request(item)`. The array `tokens` is a local variable without an
initialiser: `stack i` is what the slot `tokens[i]` holds when the function is entered, NULL
or a pointer to some string. -/
def kvstore_request {A R H : Type} (E : engines A R H) (size : Nat) (rand : Nat → Nat)
    (mem_ok : Bool) (stack : Nat → Option (List Nat)) (st : globals A R H)
    (item : conn_item) : outcome A R H :=
  match kvstore_split_token (some item.rbuffer) ((List.range KVSTORE_MAX_TOKENS).map stack) with
  | split_result.ok count tokens => kvstore_parser_protocol E size rand mem_ok st item tokens count
  | _ => outcome.fault

/-- The tokens that the successive calls of `strtok` on a string return, for at most `fuel`
calls. -/
def token_seq : Nat → List Nat → List (List Nat)
  | 0, _ => []
  | fuel + 1, s =>
    match strtok s with
    | none => []
    | some (token, s1) => token :: token_seq fuel s1

/-- The tokens of a request buffer. -/
def tokens_of (s : List Nat) : List (List Nat) := token_seq (s.length + 1) s

/-- The function `init_kvengine`: `a`, `r` and `h` are the engines that `kvstore_array_create`,
`kvstore_rbtree_create` and `kvstore_hash_create` leave behind. -/
def init_kvengine {A R H : Type} (a : A) (r : R) (h : H) : globals A R H :=
  { Array := a, Tree := r, Hash := h,
    Skiplist := Skiptable.kvstore_skiptable_create, Btree := Btree.kvstore_btree_create }

/-- An engine without storage, which answers every call with a server error. In the examples
it fills the places of the array, red-black tree and hash engines. -/
def idle_engine : engine Unit :=
  { set := fun s _ _ => (-1, s), get := fun _ _ => none, delete := fun s _ => (-1, s),
    modify := fun s _ _ => (-1, s), count := fun _ => 0 }

/-- The dispatcher's parameters in the examples. -/
def idle_engines : engines Unit Unit Unit :=
  { array := idle_engine, rbtree := idle_engine, hash := idle_engine }

/-- A call of the engine API with arguments that are not NULL. -/
inductive api_call where
  | set (k : Key) (v : Val)
  | get (k : Key)
  | delete (k : Key)
  | modify (k : Key) (v : Val)
  | count

/-- What a call of the engine API returns: the `int` of set, delete, modify and count, or the
pointer of get (`none` is NULL). -/
inductive api_result where
  | code (r : Int)
  | value (v : Option Val)

namespace Btree
open btree_node

/-- One call on the B-tree: what it returns and the tree afterwards. -/
def api_step (t : btree) : api_call → Option (api_result × btree)
  | api_call.set k v =>
    (kvs_btree_set t (some k) (some v)).map (fun r => (api_result.code r.1, r.2))
  | api_call.get k => some (api_result.value (kvs_btree_get t (some k)), t)
  | api_call.delete k =>
    (kvs_btree_delete t (some k)).map (fun r => (api_result.code r.1, r.2))
  | api_call.modify k v =>
    some (api_result.code (kvs_btree_modify t (some k) (some v)).1,
      (kvs_btree_modify t (some k) (some v)).2)
  | api_call.count => some (api_result.code (kvs_btree_count t), t)

/-- A sequence of calls on the B-tree: what the calls return, in order. -/
def api_run : btree → List api_call → Option (List api_result)
  | _, [] => some []
  | t, c :: cs =>
    match api_step t c with
    | none => none
    | some (r, t1) => (api_run t1 cs).map (fun rs => r :: rs)

/-- Every internal node of the tree under `r` that holds `n` keys has `n+1` children. -/
def Wf (r : btree_node) : Prop :=
  ∀ d x, NodeAt r d x → x.leaf = false → x.children.length = x.n + 1

end Btree

namespace Skiptable

/-- One call on the skip list, whose allocations succeed: what it returns and the list
afterwards. `rand` lists what `rand()` returns during the call. -/
def api_step (s : skiplist) (rand : Nat → Nat) : api_call → Option (api_result × skiplist)
  | api_call.set k v =>
    (kvs_skiptable_set s (some k) (some v) rand true).map (fun r => (api_result.code r.1, r.2))
  | api_call.get k =>
    (kvs_skiptable_get s (some k)).map (fun v => (api_result.value v, s))
  | api_call.delete k =>
    (kvs_skiptable_delete s (some k)).map (fun r => (api_result.code r.1, r.2))
  | api_call.modify k v =>
    (kvs_skiptable_modify s (some k) (some v)).map (fun r => (api_result.code r.1, r.2))
  | api_call.count => some (api_result.code (kvs_skiptable_count s), s)

/-- A sequence of calls on the skip list: what the calls return, in order. `rands i` lists
what `rand()` returns during call number `i`; the first call has the number `i`. -/
def api_run : skiplist → (Nat → Nat → Nat) → Nat → List api_call → Option (List api_result)
  | _, _, _, [] => some []
  | s, rands, i, c :: cs =>
    match api_step s (rands i) c with
    | none => none
    | some (r, s1) => (api_run s1 rands (i + 1) cs).map (fun rs => r :: rs)

end Skiptable

namespace Btree
open btree_node

/-- The function `_btree_delete(x, k)` with the record of the recursive calls it makes: for
each call `_btree_delete(c, .)`, outermost first, the node `c` when the call is made and the
node when the call returns. The code is the one of `_btree_delete`. -/
def _btree_delete_log : Nat → btree_node → Key →
    Option (btree_node × List (btree_node × btree_node))
  | 0, _, _ => none
  | fuel + 1, x, k =>
    let i := search_scan k x.entries
    let found : Bool :=
      match x.entries[i]? with
      | some e => strcmp k e.1 = Ordering.eq
      | none => false
    if found then
      if x.leaf then
        some (mk x.leaf (x.entries.take i ++ x.entries.drop (i + 1)) x.children, [])
      else
        match x.children[i]?, x.children[i + 1]? with
        | some left, some right =>
          if DEGREE ≤ left.n then
            match _btree_get_pred fuel x i with
            | none => none
            | some pred =>
              match _btree_delete_log fuel left pred.1 with
              | none => none
              | some (left1, log) =>
                some (put_child (mk x.leaf (x.entries.take i ++ pred :: x.entries.drop (i + 1))
                  x.children) i left1, (left, left1) :: log)
          else if DEGREE ≤ right.n then
            match _btree_get_succ fuel x i with
            | none => none
            | some succ =>
              match _btree_delete_log fuel right succ.1 with
              | none => none
              | some (right1, log) =>
                some (put_child (mk x.leaf (x.entries.take i ++ succ :: x.entries.drop (i + 1))
                  x.children) (i + 1) right1, (right, right1) :: log)
          else
            match _btree_merge x i with
            | none => none
            | some x1 =>
              match x1.children[i]? with
              | none => none
              | some c =>
                match _btree_delete_log fuel c k with
                | none => none
                | some (c1, log) => some (put_child x1 i c1, (c, c1) :: log)
        | _, _ => none
    else
      if x.leaf then some (x, [])
      else
        let flag : Bool := i = x.n
        match x.children[i]? with
        | none => none
        | some c =>
          match (if c.n < DEGREE then _btree_fill x i else some x) with
          | none => none
          | some x1 =>
            let i1 := if flag ∧ x1.n < i then i - 1 else i
            match x1.children[i1]? with
            | none => none
            | some c1 =>
              match _btree_delete_log fuel c1 k with
              | none => none
              | some (c2, log) => some (put_child x1 i1 c2, (c1, c2) :: log)

/-- The tree after the keys `a` to `f` were set in this order and `f` was deleted: both
children of the root hold two keys. -/
def demo5 : btree :=
  { root := mk false [([99], [3])]
      [mk true [([97], [1]), ([98], [2])] [],
       mk true [([100], [4]), ([101], [5])] []],
    count := 5 }

end Btree

namespace Skiptable

/-- The skip lists that `kvstore_skiptable_create` and the calls of `kvs_skiptable_set`,
`kvs_skiptable_modify` and `kvs_skiptable_delete` produce when every `create_node` gets its
memory, for every run of `rand()`. -/
inductive ReachableOk : skiplist → Prop
  | create : ReachableOk kvstore_skiptable_create
  | set (s s1 : skiplist) (k : Option Key) (v : Option Val) (rand : Nat → Nat) (r : Int) :
      ReachableOk s → kvs_skiptable_set s k v rand true = some (r, s1) → ReachableOk s1
  | modify (s s1 : skiplist) (k : Option Key) (v : Option Val) (r : Int) :
      ReachableOk s → kvs_skiptable_modify s k v = some (r, s1) → ReachableOk s1
  | delete (s s1 : skiplist) (k : Option Key) (r : Int) :
      ReachableOk s → kvs_skiptable_delete s k = some (r, s1) → ReachableOk s1

/-- The number of leading draws `r` with `(r & 0xFFFF) <= 32767` among the draws number `i`,
`i + 1`, ..., `i + n - 1` of the stream `rand`: the count stops at the first draw that fails
the test. This follows the description of `random_level`, not its code. -/
def leading_successes (rand : Nat → Nat) : Nat → Nat → Nat
  | 0, _ => 0
  | n + 1, i => if rand i % 65536 ≤ 32767 then leading_successes rand n (i + 1) + 1 else 0

/-- The stream of `rand()` whose first value passes the test of `random_level` and whose
other values fail it. -/
def rand_two (i : Nat) : Nat := if i = 0 then 0 else 40000

/-- The skip list after `SSET k v` on the empty list when `rand()` returns the values of
`rand_two`: the node has two levels and sits at address 1. -/
def demo2 : skiplist :=
  { level := 2, header := 0, count := 1,
    nodes := [some { key := [], value := none,
                     forward := some 1 :: some 1 :: List.replicate 14 none },
              some { key := [107], value := some [118], forward := [none, none] }] }

/-- The skip list after `SSET a 1`, `SSET b 2` and `SSET c 3` on the empty list (keys and
values of one byte), when `random_level` draws 2 levels for `a`, 1 for `b` and 3 for `c`: the
nodes sit at the addresses 1, 2 and 3. -/
def demo3 : skiplist :=
  { level := 3, header := 0, count := 3,
    nodes := [some { key := [], value := none,
                     forward := some 1 :: some 1 :: some 3 :: List.replicate 13 none },
              some { key := [97], value := some [1], forward := [some 2, some 3] },
              some { key := [98], value := some [2], forward := [some 3] },
              some { key := [99], value := some [3], forward := [none, none, none] }] }

end Skiptable

/-! ## Theorems -/

/-! ### `strcmp` and the order of the keys -/

theorem lex_cons_nat (x y : Nat) (xs ys : List Nat) :
    (x :: xs < y :: ys) ↔ (x < y ∨ (x = y ∧ xs < ys)) := by
  constructor
  · intro h
    cases h with
    | cons h => exact Or.inr ⟨rfl, h⟩
    | rel h => exact Or.inl h
  · rintro (h | ⟨rfl, h⟩)
    · exact List.Lex.rel h
    · exact List.Lex.cons h

theorem strcmp_lt_iff (a b : List Nat) : strcmp a b = Ordering.lt ↔ a < b := by
  induction a generalizing b with
  | nil =>
    cases b with
    | nil => simp [strcmp]
    | cons y ys => simp [strcmp, List.nil_lt_cons]
  | cons x xs ih =>
    cases b with
    | nil => simp [strcmp]
    | cons y ys =>
      unfold strcmp
      rw [lex_cons_nat]
      by_cases h1 : x < y
      · simp [h1]
      · by_cases h2 : y < x
        · simp [h1, h2]; omega
        · have : x = y := by omega
          subst this
          simp [ih]

theorem strcmp_eq_iff (a b : List Nat) : strcmp a b = Ordering.eq ↔ a = b := by
  induction a generalizing b with
  | nil =>
    cases b with
    | nil => simp [strcmp]
    | cons y ys => simp [strcmp]
  | cons x xs ih =>
    cases b with
    | nil => simp [strcmp]
    | cons y ys =>
      unfold strcmp
      by_cases h1 : x < y
      · simp [h1]; omega
      · by_cases h2 : y < x
        · simp [h1, h2]; omega
        · have : x = y := by omega
          subst this
          simp [ih]

theorem strcmp_gt_iff (a b : List Nat) : strcmp a b = Ordering.gt ↔ b < a := by
  induction a generalizing b with
  | nil =>
    cases b with
    | nil => simp [strcmp]
    | cons y ys => simp [strcmp]
  | cons x xs ih =>
    cases b with
    | nil => simp [strcmp, List.nil_lt_cons]
    | cons y ys =>
      unfold strcmp
      rw [lex_cons_nat]
      by_cases h1 : x < y
      · simp [h1]; omega
      · by_cases h2 : y < x
        · simp [h1, h2]
        · have : x = y := by omega
          subst this
          simp [ih]

namespace Btree
open btree_node

/-! ### Lists -/

theorem take_app {α : Type} (l r : List α) (i : Nat) (h : l.length = i) : (l ++ r).take i = l := by
  subst h; simp

theorem drop_app {α : Type} (l r : List α) (i : Nat) (h : l.length = i) : (l ++ r).drop i = r := by
  subst h; simp

theorem drop_app1 {α : Type} (l r : List α) (c : α) (i : Nat) (h : l.length = i) :
    (l ++ c :: r).drop (i + 1) = r := by
  subst h
  rw [show l ++ c :: r = (l ++ [c]) ++ r by simp]
  exact drop_app (l ++ [c]) r _ (by simp)

theorem drop_app2 {α : Type} (l r : List α) (c d : α) (i : Nat) (h : l.length = i) :
    (l ++ c :: d :: r).drop (i + 2) = r := by
  subst h
  rw [show l ++ c :: d :: r = (l ++ [c, d]) ++ r by simp]
  exact drop_app (l ++ [c, d]) r _ (by simp)

theorem take_app1 {α : Type} (l r : List α) (c : α) (i : Nat) (h : l.length = i) :
    (l ++ c :: r).take (i + 1) = l ++ [c] := by
  subst h
  rw [show l ++ c :: r = (l ++ [c]) ++ r by simp]
  exact take_app (l ++ [c]) r _ (by simp)

theorem get_app {α : Type} (l r : List α) (c : α) (i : Nat) (h : l.length = i) :
    (l ++ c :: r)[i]? = some c := by
  subst h
  rw [List.getElem?_append_right (Nat.le_refl _)]
  simp

theorem get_app1 {α : Type} (l r : List α) (c d : α) (i : Nat) (h : l.length = i) :
    (l ++ c :: d :: r)[i + 1]? = some d := by
  subst h
  rw [show l ++ c :: d :: r = (l ++ [c]) ++ d :: r by simp]
  exact get_app (l ++ [c]) r d _ (by simp)

theorem get_app_nil {α : Type} (l : List α) (i : Nat) (h : l.length = i) :
    (l ++ [])[i]? = none := by
  subst h; simp

theorem get_len_none {α : Type} (l : List α) (i : Nat) (h : l.length = i) : l[i]? = none := by
  subst h; simp

theorem split_at {α : Type} (xs : List α) (i : Nat) (h : i < xs.length) :
    ∃ l c r, xs = l ++ c :: r ∧ l.length = i := by
  refine ⟨xs.take i, xs[i], xs.drop (i + 1), ?_, ?_⟩
  · simp
  · simp; omega

theorem split_len {α : Type} (xs : List α) (i : Nat) (h : i ≤ xs.length) :
    ∃ l r, xs = l ++ r ∧ l.length = i := by
  refine ⟨xs.take i, xs.drop i, ?_, ?_⟩
  · simp
  · simp; omega

/-! ### Sorted lists of entries -/

theorem sorted_app (A B : List (Key × Val)) :
    Sorted (A ++ B) ↔ Sorted A ∧ Sorted B ∧ ∀ a ∈ A, ∀ b ∈ B, a.1 < b.1 := by
  unfold Sorted; exact List.pairwise_append

theorem sorted_cons (a : Key × Val) (B : List (Key × Val)) :
    Sorted (a :: B) ↔ (∀ b ∈ B, a.1 < b.1) ∧ Sorted B := by
  unfold Sorted; exact List.pairwise_cons

theorem sorted_nil : Sorted [] := List.Pairwise.nil

theorem sorted_unique (L : List (Key × Val)) (k : Key) (v w : Val) (hs : Sorted L)
    (h1 : (k, v) ∈ L) (h2 : (k, w) ∈ L) : v = w := by
  induction L with
  | nil => simp at h1
  | cons a L ih =>
    rw [sorted_cons] at hs
    simp only [List.mem_cons] at h1 h2
    rcases h1 with h1 | h1 <;> rcases h2 with h2 | h2
    · rw [← h1] at h2; simp at h2; exact h2.symm
    · have := hs.1 _ h2; rw [← h1] at this; exact absurd this (lt_irrefl _)
    · have := hs.1 _ h1; rw [← h2] at this; exact absurd this (lt_irrefl _)
    · exact ih hs.2 h1 h2

theorem sorted_split_unique (A B A1 B1 : List (Key × Val)) (k : Key) (v w : Val)
    (hs : Sorted (A ++ (k, v) :: B)) (h : A ++ (k, v) :: B = A1 ++ (k, w) :: B1) :
    A = A1 ∧ v = w ∧ B = B1 := by
  induction A generalizing A1 with
  | nil =>
    cases A1 with
    | nil => simp at h; simp [h]
    | cons a A1 =>
      simp at h
      rw [List.nil_append, sorted_cons] at hs
      have := hs.1 (k, w) (by rw [h.2]; simp)
      exact absurd this (lt_irrefl _)
  | cons a A ih =>
    cases A1 with
    | nil =>
      simp at h
      rw [List.cons_append, sorted_cons] at hs
      have := hs.1 (k, v) (by simp)
      rw [h.1] at this
      exact absurd this (lt_irrefl _)
    | cons a1 A1 =>
      simp at h
      rw [List.cons_append, sorted_cons] at hs
      have := ih A1 hs.2 h.2
      simp [h.1, this]

theorem mem_split {α : Type} (a : α) (L : List α) (h : a ∈ L) : ∃ A B, L = A ++ a :: B :=
  List.append_of_mem h

end Btree

namespace Btree
open btree_node

/-! ### Fields of a node -/

@[simp]
theorem leaf_mk (l : Bool) (es : List (Key × Val)) (cs : List btree_node) :
    (mk l es cs).leaf = l := rfl

@[simp]
theorem entries_mk (l : Bool) (es : List (Key × Val)) (cs : List btree_node) :
    (mk l es cs).entries = es := rfl

@[simp]
theorem children_mk (l : Bool) (es : List (Key × Val)) (cs : List btree_node) :
    (mk l es cs).children = cs := rfl

@[simp]
theorem n_mk (l : Bool) (es : List (Key × Val)) (cs : List btree_node) :
    (mk l es cs).n = es.length := rfl

/-! ### In-order traversal -/

@[simp]
theorem inorder_leaf (es : List (Key × Val)) (cs : List btree_node) :
    inorder (mk true es cs) = es := by simp [inorder]

@[simp]
theorem inorder_node (es : List (Key × Val)) (cs : List btree_node) :
    inorder (mk false es cs) = flat cs es := by simp [inorder]

@[simp]
theorem flat_nil (es : List (Key × Val)) : flat [] es = [] := by simp [flat]

@[simp]
theorem flat_cons_nil (c : btree_node) (cs : List btree_node) :
    flat (c :: cs) [] = inorder c := by simp [flat]

@[simp]
theorem flat_cons_cons (c : btree_node) (cs : List btree_node) (e : Key × Val)
    (es : List (Key × Val)) : flat (c :: cs) (e :: es) = inorder c ++ e :: flat cs es := by
  simp [flat]

theorem flat_cons (c : btree_node) (cs : List btree_node) (es : List (Key × Val)) :
    flat (c :: cs) es = inorder c ++ rest es cs := by
  cases es <;> simp [rest]

@[simp]
theorem rest_nil (cs : List btree_node) : rest [] cs = [] := rfl

@[simp]
theorem rest_cons (e : Key × Val) (es : List (Key × Val)) (cs : List btree_node) :
    rest (e :: es) cs = e :: flat cs es := rfl

theorem flat_append (cl cs : List btree_node) (el es : List (Key × Val))
    (h : cl.length = el.length) : flat (cl ++ cs) (el ++ es) = flat cl el ++ flat cs es := by
  induction cl generalizing el with
  | nil =>
    cases el with
    | nil => simp
    | cons e el => simp at h
  | cons c cl ih =>
    cases el with
    | nil => simp at h
    | cons e el =>
      simp at h
      simp [ih el h]

theorem flat_last (cl : List btree_node) (el : List (Key × Val)) (h : cl.length = el.length) :
    (el = [] ∧ flat cl el = []) ∨ ∃ X e, e ∈ el ∧ flat cl el = X ++ [e] := by
  induction cl generalizing el with
  | nil =>
    cases el with
    | nil => simp
    | cons e el => simp at h
  | cons c cl ih =>
    cases el with
    | nil => simp at h
    | cons e el =>
      simp at h
      right
      rcases ih el h with ⟨h1, h2⟩ | ⟨X, e1, h1, h2⟩
      · exact ⟨inorder c, e, by simp, by simp [h2]⟩
      · exact ⟨inorder c ++ e :: X, e1, by simp [h1], by simp [h2]⟩

theorem flat_lt (cl : List btree_node) (el : List (Key × Val)) (k : Key)
    (h : cl.length = el.length) (hs : Sorted (flat cl el)) (hk : ∀ a ∈ el, a.1 < k) :
    ∀ a ∈ flat cl el, a.1 < k := by
  rcases flat_last cl el h with ⟨_, h2⟩ | ⟨X, e, h1, h2⟩
  · simp [h2]
  · rw [h2] at hs ⊢
    rw [sorted_app] at hs
    intro a ha
    simp only [List.mem_append, List.mem_singleton] at ha
    rcases ha with ha | ha
    · exact lt_trans (hs.2.2 a ha e (by simp)) (hk e h1)
    · rw [ha]; exact hk e h1

/-! ### The structural invariant -/

theorem shape_leaf (lo : Nat) (x : btree_node) :
    Shape lo 0 x ↔ x.leaf = true ∧ lo ≤ x.n ∧ x.n ≤ 2 * DEGREE - 1 := by
  simp [Shape]

theorem shape_node (lo h : Nat) (x : btree_node) :
    Shape lo (h + 1) x ↔ x.leaf = false ∧ lo ≤ x.n ∧ x.n ≤ 2 * DEGREE - 1 ∧
      x.children.length = x.n + 1 ∧ ∀ c ∈ x.children, Shape (DEGREE - 1) h c := by
  simp [Shape]

theorem shape_mono (lo lo1 h : Nat) (x : btree_node) (hx : Shape lo h x) (hl : lo1 ≤ x.n) :
    Shape lo1 h x := by
  cases h with
  | zero => rw [shape_leaf] at hx ⊢; exact ⟨hx.1, hl, hx.2.2⟩
  | succ h => rw [shape_node] at hx ⊢; exact ⟨hx.1, hl, hx.2.2⟩

theorem shape_n (lo h : Nat) (x : btree_node) (hx : Shape lo h x) :
    lo ≤ x.n ∧ x.n ≤ 2 * DEGREE - 1 := by
  cases h with
  | zero => rw [shape_leaf] at hx; exact hx.2
  | succ h => rw [shape_node] at hx; exact ⟨hx.2.1, hx.2.2.1⟩

theorem shape_leaf_iff (lo h : Nat) (x : btree_node) (hx : Shape lo h x) :
    x.leaf = true ↔ h = 0 := by
  cases h with
  | zero => rw [shape_leaf] at hx; simp [hx.1]
  | succ h => rw [shape_node] at hx; simp [hx.1]

theorem height_eq (lo h : Nat) (x : btree_node) (hx : Shape lo h x) : height x = h := by
  induction h generalizing lo x with
  | zero =>
    rw [shape_leaf] at hx
    cases x with
    | mk l es cs => simp [btree_node.leaf] at hx; simp [height, hx.1]
  | succ h ih =>
    rw [shape_node] at hx
    cases x with
    | mk l es cs =>
      simp only [btree_node.leaf, btree_node.children, btree_node.n, btree_node.entries] at hx
      cases cs with
      | nil => simp at hx
      | cons c cs =>
        have := ih _ c (hx.2.2.2.2 c (by simp))
        simp [height, height_first, hx.1, this]

/-! ### The scans -/

theorem search_scan_spec (k : Key) (es : List (Key × Val)) :
    ∃ el er, es = el ++ er ∧ el.length = search_scan k es ∧ (∀ a ∈ el, a.1 < k) ∧
      (∀ e er1, er = e :: er1 → k ≤ e.1) := by
  induction es with
  | nil => exact ⟨[], [], by simp [search_scan]⟩
  | cons e es ih =>
    by_cases h : strcmp k e.1 = Ordering.gt
    · obtain ⟨el, er, h1, h2, h3, h4⟩ := ih
      refine ⟨e :: el, er, by simp [h1], by simp [search_scan, h, h2], ?_, h4⟩
      intro a ha
      simp only [List.mem_cons] at ha
      rcases ha with ha | ha
      · rw [ha]; exact (strcmp_gt_iff _ _).1 h
      · exact h3 a ha
    · refine ⟨[], e :: es, by simp, by simp [search_scan, h], by simp, ?_⟩
      intro e1 er1 h1
      simp at h1
      rw [← h1.1]
      rw [strcmp_gt_iff] at h
      exact not_lt.1 h

theorem search_child_eq (cs : List btree_node) (i : Nat) (k : Key) :
    search_child cs i k = match cs[i]? with
      | some c => search_node c k
      | none => none := by
  induction cs generalizing i with
  | nil => simp [search_child]
  | cons c cs ih =>
    cases i with
    | zero => simp [search_child]
    | succ i => simp [search_child, ih]

end Btree

/-! ### Search -/

namespace Btree
open btree_node

theorem sorted_rest (k : Key) (er : List (Key × Val)) (cr : List btree_node)
    (hs : Sorted (rest er cr)) (hk : ∀ e er1, er = e :: er1 → k ≤ e.1) :
    ∀ b ∈ rest er cr, k ≤ b.1 := by
  cases er with
  | nil => simp
  | cons e er1 =>
    have hle := hk e er1 rfl
    rw [rest_cons, sorted_cons] at hs
    intro b hb
    simp only [rest_cons, List.mem_cons] at hb
    rcases hb with hb | hb
    · rw [hb]; exact hle
    · exact le_of_lt (lt_of_le_of_lt hle (hs.1 b hb))

theorem locate (k : Key) (es : List (Key × Val)) (cs : List btree_node)
    (hlen : cs.length = es.length + 1) (hs : Sorted (flat cs es)) :
    ∃ el er cl c cr, es = el ++ er ∧ cs = cl ++ c :: cr ∧ cl.length = el.length ∧
      cr.length = er.length ∧ el.length = search_scan k es ∧
      flat cs es = flat cl el ++ (inorder c ++ rest er cr) ∧
      (∀ a ∈ flat cl el, a.1 < k) ∧ (∀ b ∈ rest er cr, k ≤ b.1) ∧
      (∀ e er1, er = e :: er1 → k ≤ e.1) ∧
      Sorted (flat cl el) ∧ Sorted (inorder c) ∧ Sorted (rest er cr) ∧
      (∀ a ∈ flat cl el, ∀ b ∈ inorder c, a.1 < b.1) ∧
      (∀ a ∈ flat cl el, ∀ b ∈ rest er cr, a.1 < b.1) ∧
      (∀ a ∈ inorder c, ∀ b ∈ rest er cr, a.1 < b.1) := by
  obtain ⟨el, er, h1, h2, h3, h4⟩ := search_scan_spec k es
  have hi : el.length < cs.length := by rw [hlen, h1]; simp; omega
  obtain ⟨cl, c, cr, h5, h6⟩ := split_at cs el.length hi
  have hcr : cr.length = er.length := by
    have := hlen; rw [h1, h5] at this; simp at this; omega
  have hf : flat cs es = flat cl el ++ (inorder c ++ rest er cr) := by
    rw [h1, h5, flat_append cl (c :: cr) el er h6, flat_cons]
  rw [hf, sorted_app, sorted_app] at hs
  obtain ⟨s1, ⟨s2, s3, s4⟩, s5⟩ := hs
  refine ⟨el, er, cl, c, cr, h1, h5, h6, hcr, h2, hf, flat_lt cl el k h6 s1 h3,
    sorted_rest k er cr s3 h4, h4, s1, s2, s3, ?_, ?_, s4⟩
  · intro a ha b hb; exact s5 a ha b (by simp [hb])
  · intro a ha b hb; exact s5 a ha b (by simp [hb])

theorem search_node_spec (lo h : Nat) (x : btree_node) (k : Key) (hx : Shape lo h x)
    (hs : Sorted (inorder x)) :
    (∀ v, (k, v) ∈ inorder x →
      ∃ node idx, search_node x k = some (node, idx) ∧ node.entries[idx]? = some (k, v)) ∧
    ((∀ v, (k, v) ∉ inorder x) → search_node x k = none) := by
  induction h generalizing lo x with
  | zero =>
    rw [shape_leaf] at hx
    cases x with
    | mk l es cs =>
      simp only [btree_node.leaf] at hx
      obtain ⟨rfl, -⟩ := hx
      simp only [inorder_leaf] at hs ⊢
      obtain ⟨el, er, h1, h2, h3, h4⟩ := search_scan_spec k es
      simp only [search_node, ← h2]
      subst h1
      cases er with
      | nil =>
        simp only [get_app_nil el _ rfl]
        refine ⟨?_, fun _ => by simp⟩
        intro v hv
        simp at hv
        exact absurd (h3 _ hv) (lt_irrefl _)
      | cons e er1 =>
        simp only [get_app el er1 e _ rfl]
        have hle := h4 e er1 rfl
        rw [sorted_app, sorted_cons] at hs
        by_cases he : strcmp k e.1 = Ordering.eq
        · have hke := (strcmp_eq_iff _ _).1 he
          simp only [he, if_true]
          refine ⟨?_, ?_⟩
          · intro v hv
            refine ⟨_, _, rfl, ?_⟩
            simp only [btree_node.entries, get_app el er1 e _ rfl]
            have : (k, e.2) ∈ el ++ e :: er1 := by rw [hke]; simp
            have := sorted_unique _ k v e.2 (by rw [sorted_app, sorted_cons]; exact hs) hv this
            rw [this, hke]
          · intro hn
            exact absurd (by rw [hke]; simp) (hn e.2)
        · simp only [he, if_false, if_true]
          have hlt : k < e.1 := lt_of_le_of_ne hle (fun h => he ((strcmp_eq_iff _ _).2 h))
          refine ⟨?_, fun _ => by simp⟩
          intro v hv
          simp only [List.mem_append, List.mem_cons] at hv
          rcases hv with hv | hv | hv
          · exact absurd (h3 _ hv) (lt_irrefl _)
          · rw [← hv] at hlt; exact absurd hlt (lt_irrefl _)
          · have := hs.2.1.1 _ hv
            exact absurd (lt_trans hlt this) (lt_irrefl _)
  | succ h ih =>
    rw [shape_node] at hx
    cases x with
    | mk l es cs =>
      simp only [btree_node.leaf, btree_node.children, btree_node.n, btree_node.entries] at hx
      obtain ⟨rfl, -, -, hlen, hch⟩ := hx
      simp only [inorder_node] at hs ⊢
      obtain ⟨el, er, cl, c, cr, h1, h2, h3, h4, h5, h6, h7, h8, h9, -, hsc, hsr, -, -, -⟩ :=
        locate k es cs hlen hs
      have hc : Shape (DEGREE - 1) h c := hch c (by rw [h2]; simp)
      have ihc := ih _ c hc hsc
      simp only [search_node, ← h5, search_child_eq]
      have hci : cs[el.length]? = some c := by rw [h2]; exact get_app cl cr c _ h3
      rw [h6] at hs ⊢
      subst h1
      cases er with
      | nil =>
        simp only [get_len_none el _ rfl, hci, rest_nil, List.append_nil, Bool.false_eq_true,
          if_false]
        refine ⟨?_, ?_⟩
        · intro v hv
          simp only [List.mem_append] at hv
          rcases hv with hv | hv
          · exact absurd (h7 _ hv) (lt_irrefl _)
          · exact ihc.1 v hv
        · intro hn
          apply ihc.2
          intro v hv
          exact hn v (by simp [hv])
      | cons e er1 =>
        simp only [get_app el er1 e _ rfl, hci]
        have hle := h9 e er1 rfl
        rw [rest_cons, sorted_cons] at hsr
        simp only [rest_cons]
        by_cases he : strcmp k e.1 = Ordering.eq
        · have hke := (strcmp_eq_iff _ _).1 he
          simp only [he, if_true]
          refine ⟨?_, ?_⟩
          · intro v hv
            refine ⟨_, _, rfl, ?_⟩
            simp only [btree_node.entries, get_app el er1 e _ rfl]
            have hm : (k, e.2) ∈ flat cl el ++ (inorder c ++ e :: flat cr er1) := by
              rw [hke]; simp
            have := sorted_unique _ k v e.2 hs hv hm
            rw [this, hke]
          · intro hn
            exact absurd (by rw [hke]; simp) (hn e.2)
        · simp only [he, if_false]
          have hlt : k < e.1 := lt_of_le_of_ne hle (fun h => he ((strcmp_eq_iff _ _).2 h))
          refine ⟨?_, ?_⟩
          · intro v hv
            simp only [List.mem_append, List.mem_cons] at hv
            rcases hv with hv | hv | hv | hv
            · exact absurd (h7 _ hv) (lt_irrefl _)
            · exact ihc.1 v hv
            · rw [← hv] at hlt; exact absurd hlt (lt_irrefl _)
            · exact absurd (lt_trans hlt (hsr.1 _ hv)) (lt_irrefl _)
          · intro hn
            apply ihc.2
            intro v hv
            exact hn v (by simp [hv])

end Btree

/-! ### Modify -/

namespace Btree
open btree_node

theorem store_child_eq (cs : List btree_node) (i : Nat) (k : Key) (v : Val) :
    store_child cs i k v = match cs[i]? with
      | some c => (store_value c k v).map (fun c1 => cs.take i ++ c1 :: cs.drop (i + 1))
      | none => none := by
  induction cs generalizing i with
  | nil => simp [store_child]
  | cons c cs ih =>
    cases i with
    | zero => simp [store_child]
    | succ i =>
      simp only [store_child, ih, List.getElem?_cons_succ]
      cases cs[i]? with
      | none => simp
      | some d => simp only [List.take_succ_cons, List.drop_succ_cons, Option.map_map]; rfl

theorem shape_children (h : Nat) (cl cr : List btree_node) (c c1 : btree_node)
    (hch : ∀ d ∈ cl ++ c :: cr, Shape (DEGREE - 1) h d) (hc1 : Shape (DEGREE - 1) h c1) :
    ∀ d ∈ cl ++ c1 :: cr, Shape (DEGREE - 1) h d := by
  intro d hd
  simp only [List.mem_append, List.mem_cons] at hd
  rcases hd with hd | hd | hd
  · exact hch d (by simp [hd])
  · rw [hd]; exact hc1
  · exact hch d (by simp [hd])

theorem store_value_spec (lo h : Nat) (x : btree_node) (k : Key) (v : Val) (hx : Shape lo h x)
    (hs : Sorted (inorder x)) :
    (∀ w, (k, w) ∈ inorder x →
      ∃ x1 A B, store_value x k v = some x1 ∧ Shape lo h x1 ∧ x1.n = x.n ∧
        inorder x = A ++ (k, w) :: B ∧ inorder x1 = A ++ (k, v) :: B) ∧
    ((∀ w, (k, w) ∉ inorder x) → store_value x k v = none) := by
  induction h generalizing lo x with
  | zero =>
    rw [shape_leaf] at hx
    cases x with
    | mk l es cs =>
      simp only [btree_node.leaf, btree_node.n, btree_node.entries] at hx
      obtain ⟨rfl, hlo, hhi⟩ := hx
      simp only [inorder_leaf] at hs ⊢
      obtain ⟨el, er, h1, h2, h3, h4⟩ := search_scan_spec k es
      simp only [store_value, ← h2]
      subst h1
      cases er with
      | nil =>
        simp only [List.append_nil, get_len_none el _ rfl, if_true]
        refine ⟨?_, fun _ => trivial⟩
        intro w hw
        exact absurd (h3 _ hw) (lt_irrefl _)
      | cons e er1 =>
        simp only [get_app el er1 e _ rfl]
        have hle := h4 e er1 rfl
        by_cases he : strcmp k e.1 = Ordering.eq
        · have hke := (strcmp_eq_iff _ _).1 he
          simp only [he, if_true]
          refine ⟨?_, ?_⟩
          · intro w hw
            have hm : (k, e.2) ∈ el ++ e :: er1 := by rw [hke]; simp
            have hwe := sorted_unique _ k w e.2 hs hw hm
            refine ⟨_, el, er1, rfl, ?_, ?_, ?_, ?_⟩
            · rw [shape_leaf]
              simp only [btree_node.leaf, btree_node.n, btree_node.entries,
                take_app el _ _ rfl, drop_app1 el er1 e _ rfl]
              simp at hlo hhi ⊢
              exact ⟨hlo, hhi⟩
            · simp [btree_node.n, btree_node.entries, take_app el _ _ rfl,
                drop_app1 el er1 e _ rfl]
            · rw [hwe, hke]
            · simp [take_app el _ _ rfl, drop_app1 el er1 e _ rfl, hke]
          · intro hn
            exact absurd (by rw [hke]; simp) (hn e.2)
        · simp only [he, if_false, if_true]
          have hlt : k < e.1 := lt_of_le_of_ne hle (fun h => he ((strcmp_eq_iff _ _).2 h))
          rw [sorted_app, sorted_cons] at hs
          refine ⟨?_, fun _ => trivial⟩
          intro w hw
          simp only [List.mem_append, List.mem_cons] at hw
          rcases hw with hw | hw | hw
          · exact absurd (h3 _ hw) (lt_irrefl _)
          · rw [← hw] at hlt; exact absurd hlt (lt_irrefl _)
          · have := hs.2.1.1 _ hw
            exact absurd (lt_trans hlt this) (lt_irrefl _)
  | succ h ih =>
    rw [shape_node] at hx
    cases x with
    | mk l es cs =>
      simp only [btree_node.leaf, btree_node.children, btree_node.n, btree_node.entries] at hx
      obtain ⟨rfl, hlo, hhi, hlen, hch⟩ := hx
      simp only [inorder_node] at hs ⊢
      obtain ⟨el, er, cl, c, cr, h1, h2, h3, h4, h5, h6, h7, h8, h9, -, hsc, hsr, -, -, -⟩ :=
        locate k es cs hlen hs
      have hc : Shape (DEGREE - 1) h c := hch c (by rw [h2]; simp)
      have ihc := ih _ c hc hsc
      simp only [store_value, ← h5, store_child_eq]
      have hci : cs[el.length]? = some c := by rw [h2]; exact get_app cl cr c _ h3
      have hput : ∀ c1, cs.take el.length ++ c1 :: cs.drop (el.length + 1) = cl ++ c1 :: cr := by
        intro c1; rw [h2, take_app cl _ _ h3, drop_app1 cl cr c _ h3]
      have hdesc : (∀ w, (k, w) ∈ inorder c →
          ∃ x1 A B, Option.map (fun cs1 => mk false es cs1)
              (Option.map (fun c1 => cs.take el.length ++ c1 :: cs.drop (el.length + 1))
                (store_value c k v)) = some x1 ∧ Shape lo (h + 1) x1 ∧
            x1.n = (mk false es cs).n ∧
            flat cl el ++ (inorder c ++ rest er cr) = A ++ (k, w) :: B ∧
            inorder x1 = A ++ (k, v) :: B) := by
        intro w hw
        obtain ⟨c1, A, B, e1, e2, e3, e4, e5⟩ := ihc.1 w hw
        refine ⟨mk false es (cl ++ c1 :: cr), flat cl el ++ A, B ++ rest er cr, ?_, ?_, ?_, ?_, ?_⟩
        · simp [e1, hput]
        · rw [shape_node]
          simp only [btree_node.leaf, btree_node.children, btree_node.n, btree_node.entries]
          refine ⟨trivial, hlo, hhi, ?_, ?_⟩
          · rw [← hlen, h2]; simp
          · exact shape_children h cl cr c c1 (by rw [← h2]; exact hch) e2
        · rfl
        · rw [e4]; simp
        · rw [inorder_node, h1, flat_append cl _ el er h3, flat_cons, e5]; simp
      rw [h6] at hs ⊢
      subst h1
      cases er with
      | nil =>
        simp only [get_len_none el _ rfl, hci, rest_nil, List.append_nil, Bool.false_eq_true,
          if_false]
        simp only [rest_nil, List.append_nil] at hdesc
        refine ⟨?_, ?_⟩
        · intro w hw
          simp only [List.mem_append] at hw
          rcases hw with hw | hw
          · exact absurd (h7 _ hw) (lt_irrefl _)
          · exact hdesc w hw
        · intro hn
          have := ihc.2 (fun w hw => hn w (by simp [hw]))
          simp [this]
      | cons e er1 =>
        simp only [get_app el er1 e _ rfl, hci]
        have hle := h9 e er1 rfl
        rw [rest_cons, sorted_cons] at hsr
        simp only [rest_cons] at hdesc ⊢
        by_cases he : strcmp k e.1 = Ordering.eq
        · have hke := (strcmp_eq_iff _ _).1 he
          simp only [he, if_true]
          refine ⟨?_, ?_⟩
          · intro w hw
            have hm : (k, e.2) ∈ flat cl el ++ (inorder c ++ e :: flat cr er1) := by
              rw [hke]; simp
            have hwe := sorted_unique _ k w e.2 hs hw hm
            refine ⟨_, flat cl el ++ inorder c, flat cr er1, rfl, ?_, ?_, ?_, ?_⟩
            · rw [shape_node]
              simp only [btree_node.leaf, btree_node.children, btree_node.n, btree_node.entries,
                take_app el _ _ rfl, drop_app1 el er1 e _ rfl]
              simp at hlo hhi hlen ⊢
              exact ⟨hlo, hhi, hlen, hch⟩
            · simp [btree_node.n, btree_node.entries, take_app el _ _ rfl,
                drop_app1 el er1 e _ rfl]
            · rw [hwe, hke]; simp
            · rw [inorder_node, take_app el _ _ rfl, drop_app1 el er1 e _ rfl, h2,
                flat_append cl _ el _ h3, flat_cons, rest_cons, hke]
              simp
          · intro hn
            exact absurd (by rw [hke]; simp) (hn e.2)
        · simp only [he, if_false, Bool.false_eq_true]
          have hlt : k < e.1 := lt_of_le_of_ne hle (fun h => he ((strcmp_eq_iff _ _).2 h))
          refine ⟨?_, ?_⟩
          · intro w hw
            simp only [List.mem_append, List.mem_cons] at hw
            rcases hw with hw | hw | hw | hw
            · exact absurd (h7 _ hw) (lt_irrefl _)
            · exact hdesc w hw
            · rw [← hw] at hlt; exact absurd hlt (lt_irrefl _)
            · exact absurd (lt_trans hlt (hsr.1 _ hw)) (lt_irrefl _)
          · intro hn
            have := ihc.2 (fun w hw => hn w (by simp [hw]))
            simp [this]

end Btree

/-! ### Split -/

namespace Btree
open btree_node

theorem flat_sublist (cs : List btree_node) (es : List (Key × Val)) (h : es.length ≤ cs.length) :
    es.Sublist (flat cs es) := by
  induction cs generalizing es with
  | nil =>
    cases es with
    | nil => simp
    | cons e es => simp at h
  | cons c cs ih =>
    cases es with
    | nil => simp
    | cons e es =>
      simp at h
      rw [flat_cons_cons]
      exact List.Sublist.trans (List.Sublist.cons₂ e (ih es h)) (List.sublist_append_right _ _)

theorem scan_split (k : Key) (es : List (Key × Val)) (hs : Sorted es) (hk : ∀ e ∈ es, e.1 ≠ k) :
    ∃ el er, es = el ++ er ∧ el.length = search_scan k es ∧ (∀ a ∈ el, a.1 < k) ∧
      (∀ b ∈ er, k < b.1) := by
  obtain ⟨el, er, h1, h2, h3, h4⟩ := search_scan_spec k es
  refine ⟨el, er, h1, h2, h3, ?_⟩
  subst h1
  cases er with
  | nil => simp
  | cons e er1 =>
    have hle := h4 e er1 rfl
    have hlt : k < e.1 := lt_of_le_of_ne hle (fun h => hk e (by simp) h.symm)
    rw [sorted_app, sorted_cons] at hs
    intro b hb
    simp only [List.mem_cons] at hb
    rcases hb with hb | hb
    · rw [hb]; exact hlt
    · exact lt_trans hlt (hs.2.1.1 b hb)

theorem insert_scan_app (k : Key) (el er : List (Key × Val)) (h1 : ∀ a ∈ el, a.1 < k)
    (h2 : ∀ b ∈ er, k < b.1) (m : Nat) (hm : m ≤ er.length) :
    insert_scan k (el ++ er) (el.length + m) = el.length := by
  induction m with
  | zero =>
    cases hel : el.length with
    | zero => simp [insert_scan]
    | succ j =>
      have hj : j < el.length := by omega
      have hget : (el ++ er)[j]? = some el[j] := by
        rw [List.getElem?_append_left hj]; simp
      simp only [Nat.add_zero, insert_scan, hget]
      have hlt := h1 el[j] (List.getElem_mem _)
      have : ¬ strcmp k el[j].1 = Ordering.lt := by
        rw [strcmp_lt_iff]; exact not_lt.2 (le_of_lt hlt)
      simp [this]
  | succ m ih =>
    have hm1 : m < er.length := by omega
    have hget : (el ++ er)[el.length + m]? = some er[m] := by
      rw [List.getElem?_append_right (by omega)]; simp
    have hlt := h2 er[m] (List.getElem_mem _)
    rw [← Nat.add_assoc]
    simp only [insert_scan, hget, (strcmp_lt_iff _ _).2 hlt, if_true]
    exact ih (by omega)

theorem insert_scan_eq (k : Key) (es : List (Key × Val)) (hs : Sorted es)
    (hk : ∀ e ∈ es, e.1 ≠ k) : insert_scan k es es.length = search_scan k es := by
  obtain ⟨el, er, h1, h2, h3, h4⟩ := scan_split k es hs hk
  rw [← h2]
  subst h1
  rw [List.length_append]
  exact insert_scan_app k el er h3 h4 er.length (Nat.le_refl _)

theorem len5 {α : Type} (l : List α) (h : l.length = 5) : ∃ a b c d e, l = [a, b, c, d, e] := by
  match l, h with
  | [a, b, c, d, e], _ => exact ⟨a, b, c, d, e, rfl⟩

theorem len6 {α : Type} (l : List α) (h : l.length = 6) :
    ∃ a b c d e f, l = [a, b, c, d, e, f] := by
  match l, h with
  | [a, b, c, d, e, f], _ => exact ⟨a, b, c, d, e, f, rfl⟩

theorem split_child_spec (h : Nat) (el er : List (Key × Val)) (cl cr : List btree_node)
    (y : btree_node) (hl : cl.length = el.length) (hy : Shape (DEGREE - 1) h y)
    (hyn : y.n = 2 * DEGREE - 1) (hxn : el.length + er.length < 2 * DEGREE - 1) :
    ∃ y1 z mid, split_child (mk false (el ++ er) (cl ++ y :: cr)) el.length =
        some (mk false (el ++ mid :: er) (cl ++ y1 :: z :: cr)) ∧
      Shape (DEGREE - 1) h y1 ∧ Shape (DEGREE - 1) h z ∧ y1.n = DEGREE - 1 ∧ z.n = DEGREE - 1 ∧
      inorder y = inorder y1 ++ mid :: inorder z := by
  cases y with
  | mk yl yes ycs =>
    simp only [btree_node.n, btree_node.entries, DEGREE] at hyn
    obtain ⟨a, b, m, d, e, rfl⟩ := len5 yes hyn
    have hsplit :
        split_child (mk false (el ++ er) (cl ++ mk yl [a, b, m, d, e] ycs :: cr)) el.length =
          some (mk false (el ++ m :: er) (cl ++ mk yl [a, b] (ycs.take 3) ::
            mk yl [d, e] (if yl = true then [] else (ycs.drop 3).take 3) :: cr)) := by
      simp only [split_child, btree_node.children, get_app cl cr _ _ hl, btree_node.n,
        btree_node.entries, DEGREE, btree_node.leaf, take_app el er _ rfl, drop_app el er _ rfl,
        take_app cl _ _ hl, drop_app1 cl cr _ _ hl]
      simp only [DEGREE] at hxn
      have h1 : ¬ ((5 : Nat) < 2 * 3 - 1 ∨ 2 * 3 - 1 ≤ (el ++ er).length ∨
          (el ++ er).length < el.length) := by
        simp; omega
      simp [h1]
      omega
    cases h with
    | zero =>
      rw [shape_leaf] at hy
      simp only [btree_node.leaf] at hy
      obtain ⟨rfl, -, -⟩ := hy
      refine ⟨_, _, m, hsplit, ?_, ?_, ?_, ?_, ?_⟩
      · rw [shape_leaf]; simp [btree_node.leaf, btree_node.n, btree_node.entries, DEGREE]
      · rw [shape_leaf]; simp [btree_node.leaf, btree_node.n, btree_node.entries, DEGREE]
      · simp [btree_node.n, btree_node.entries, DEGREE]
      · simp [btree_node.n, btree_node.entries, DEGREE]
      · simp
    | succ h =>
      rw [shape_node] at hy
      simp only [btree_node.leaf, btree_node.children, btree_node.n, btree_node.entries] at hy
      obtain ⟨rfl, -, -, hlen, hch⟩ := hy
      obtain ⟨c0, c1, c2, c3, c4, c5, rfl⟩ := len6 ycs (by simpa using hlen)
      refine ⟨_, _, m, hsplit, ?_, ?_, ?_, ?_, ?_⟩
      · rw [shape_node]
        simp only [btree_node.leaf, btree_node.children, btree_node.n, btree_node.entries, DEGREE]
        simp
        refine ⟨hch c0 (by simp), hch c1 (by simp), hch c2 (by simp)⟩
      · rw [shape_node]
        simp only [btree_node.leaf, btree_node.children, btree_node.n, btree_node.entries, DEGREE]
        simp
        refine ⟨hch c3 (by simp), hch c4 (by simp), hch c5 (by simp)⟩
      · simp [btree_node.n, btree_node.entries, DEGREE]
      · simp [btree_node.n, btree_node.entries, DEGREE]
      · simp

end Btree

/-! ### Insert -/

namespace Btree
open btree_node

theorem insert_nonfull_spec (k : Key) (v : Val) (h : Nat) :
    ∀ (fuel lo : Nat) (x : btree_node), h < fuel → Shape lo h x → x.n < 2 * DEGREE - 1 →
      Sorted (inorder x) → (∀ e ∈ inorder x, e.1 ≠ k) →
      ∃ x1, insert_nonfull fuel x k v = some x1 ∧ Shape lo h x1 ∧ x.n ≤ x1.n ∧
        ∃ A B, inorder x = A ++ B ∧ inorder x1 = A ++ (k, v) :: B ∧
          (∀ a ∈ A, a.1 < k) ∧ (∀ b ∈ B, k < b.1) := by
  induction h with
  | zero =>
    intro fuel lo x hf hx hn hs hk
    obtain ⟨f, rfl⟩ : ∃ f, fuel = f + 1 := ⟨fuel - 1, by omega⟩
    rw [shape_leaf] at hx
    cases x with
    | mk l es cs =>
      simp only [leaf_mk, n_mk, entries_mk] at hx hn
      obtain ⟨rfl, hlo, hhi⟩ := hx
      simp only [inorder_leaf] at hs hk ⊢
      obtain ⟨el, er, h1, h2, h3, h4⟩ := scan_split k es hs hk
      have hp : insert_scan k es es.length = el.length := by
        rw [insert_scan_eq k es hs hk, h2]
      refine ⟨mk true (el ++ (k, v) :: er) cs, ?_, ?_, ?_, el, er, h1, rfl, h3, h4⟩
      · simp only [insert_nonfull, leaf_mk, n_mk, entries_mk, children_mk, hp,
          if_true, Nat.not_le.2 hn, if_false]
        rw [h1, take_app el er _ rfl, drop_app el er _ rfl]
      · rw [shape_leaf]
        simp only [leaf_mk, n_mk, entries_mk]
        rw [h1] at hlo hn
        simp at hlo hn ⊢
        omega
      · simp only [n_mk]
        rw [h1]; simp
  | succ h ih =>
    intro fuel lo x hf hx hn hs hk
    obtain ⟨f, rfl⟩ : ∃ f, fuel = f + 1 := ⟨fuel - 1, by omega⟩
    have hf1 : h < f := by omega
    rw [shape_node] at hx
    cases x with
    | mk l es cs =>
      simp only [leaf_mk, children_mk, n_mk, entries_mk] at hx hn
      obtain ⟨rfl, hlo, hhi, hlen, hch⟩ := hx
      simp only [inorder_node] at hs hk ⊢
      obtain ⟨el, er, cl, c, cr, h1, h2, h3, h4, h5, h6, h7, h8, h9, hsl, hsc, hsr, o1, o2, o3⟩ :=
        locate k es cs hlen hs
      have hsub := flat_sublist cs es (by omega)
      have hses : Sorted es := List.Pairwise.sublist hsub hs
      have hkes : ∀ e ∈ es, e.1 ≠ k := fun e he => hk e (hsub.subset he)
      have hp : insert_scan k es es.length = el.length := by
        rw [insert_scan_eq k es hses hkes, h5]
      have hc : Shape (DEGREE - 1) h c := hch c (by rw [h2]; simp)
      have hcl : ∀ d ∈ cl, Shape (DEGREE - 1) h d := fun d hd => hch d (by rw [h2]; simp [hd])
      have hcr : ∀ d ∈ cr, Shape (DEGREE - 1) h d := fun d hd => hch d (by rw [h2]; simp [hd])
      have hci : cs[el.length]? = some c := by rw [h2]; exact get_app cl cr c _ h3
      rw [h6] at hk
      have hkc : ∀ e ∈ inorder c, e.1 ≠ k := fun e he => hk e (by simp [he])
      have hR : ∀ b ∈ rest er cr, k < b.1 := fun b hb =>
        lt_of_le_of_ne (h8 b hb) (fun hh => hk b (by simp [hb]) hh.symm)
      have hcn := (shape_n _ _ _ hc).2
      subst h1 h2
      by_cases hfull : c.n = 2 * DEGREE - 1
      · have hxn : el.length + er.length < 2 * DEGREE - 1 := by simpa using hn
        obtain ⟨y1, z, mid, hsp, hy1, hz, hy1n, hzn, hio⟩ :=
          split_child_spec h el er cl cr c h3 hc hfull hxn
        have hmid : mid.1 ≠ k := hkc mid (by rw [hio]; simp)
        rw [hio, sorted_app, sorted_cons] at hsc
        obtain ⟨sy1, ⟨hmz, sz⟩, hyz⟩ := hsc
        by_cases hgt : strcmp k mid.1 = Ordering.gt
        · have hmk : mid.1 < k := (strcmp_gt_iff _ _).1 hgt
          obtain ⟨c2, hins, hc2, hc2n, A, B, e1, e2, e3, e4⟩ := ih f (DEGREE - 1) z hf1 hz
            (by rw [hzn]; simp [DEGREE]) sz (fun e he => hkc e (by rw [hio]; simp [he]))
          refine ⟨mk false (el ++ mid :: er) (cl ++ y1 :: c2 :: cr), ?_, ?_, ?_,
            flat cl el ++ (inorder y1 ++ mid :: A), B ++ rest er cr, ?_, ?_, ?_, ?_⟩
          · simp only [insert_nonfull, leaf_mk, n_mk, entries_mk, hp,
              children_mk, hci, hfull, if_true, hsp, get_app el er mid _ rfl, hgt,
              get_app1 cl cr y1 z _ h3, hins, take_app1 cl _ y1 _ h3, drop_app2 cl cr y1 z _ h3]
            simp
          · rw [shape_node]
            simp only [leaf_mk, children_mk, n_mk, entries_mk]
            refine ⟨trivial, ?_, ?_, ?_, ?_⟩
            · simp at hlo ⊢; omega
            · simp at hn ⊢; simp [DEGREE] at hn ⊢; omega
            · simp at hlen ⊢; omega
            · intro d hd
              simp only [List.mem_append, List.mem_cons] at hd
              rcases hd with hd | hd | hd | hd
              · exact hcl d hd
              · rw [hd]; exact hy1
              · rw [hd]; exact hc2
              · exact hcr d hd
          · simp
          · rw [h6, hio, e1]; simp
          · rw [inorder_node, flat_append cl _ el _ h3, flat_cons_cons, flat_cons, e2]; simp
          · intro a ha
            simp only [List.mem_append, List.mem_cons] at ha
            rcases ha with ha | ha | ha | ha
            · exact h7 a ha
            · exact lt_trans (hyz a ha mid (by simp)) hmk
            · rw [ha]; exact hmk
            · exact e3 a ha
          · intro b hb
            simp only [List.mem_append] at hb
            rcases hb with hb | hb
            · exact e4 b hb
            · exact hR b hb
        · have hkm : k < mid.1 := by
            rw [strcmp_gt_iff] at hgt
            exact lt_of_le_of_ne (not_lt.1 hgt) (fun hh => hmid hh.symm)
          obtain ⟨c2, hins, hc2, hc2n, A, B, e1, e2, e3, e4⟩ := ih f (DEGREE - 1) y1 hf1 hy1
            (by rw [hy1n]; simp [DEGREE]) sy1 (fun e he => hkc e (by rw [hio]; simp [he]))
          refine ⟨mk false (el ++ mid :: er) (cl ++ c2 :: z :: cr), ?_, ?_, ?_,
            flat cl el ++ A, B ++ mid :: (inorder z ++ rest er cr), ?_, ?_, ?_, ?_⟩
          · have hg1 := get_app el er mid _ rfl
            have hg2 := get_app cl (z :: cr) y1 _ h3
            simp only [insert_nonfull, leaf_mk, n_mk, entries_mk, hp,
              children_mk, hci, hfull, if_true, if_false, hsp, hg1, hgt,
              hg2, hins, take_app cl (y1 :: z :: cr) _ h3,
              drop_app1 cl (z :: cr) y1 _ h3]
            simp
          · rw [shape_node]
            simp only [leaf_mk, children_mk, n_mk, entries_mk]
            refine ⟨trivial, ?_, ?_, ?_, ?_⟩
            · simp at hlo ⊢; omega
            · simp at hn ⊢; simp [DEGREE] at hn ⊢; omega
            · simp at hlen ⊢; omega
            · intro d hd
              simp only [List.mem_append, List.mem_cons] at hd
              rcases hd with hd | hd | hd | hd
              · exact hcl d hd
              · rw [hd]; exact hc2
              · rw [hd]; exact hz
              · exact hcr d hd
          · simp
          · rw [h6, hio, e1]; simp
          · rw [inorder_node, flat_append cl _ el _ h3, flat_cons_cons, flat_cons, e2]; simp
          · intro a ha
            simp only [List.mem_append] at ha
            rcases ha with ha | ha
            · exact h7 a ha
            · exact e3 a ha
          · intro b hb
            simp only [List.mem_append, List.mem_cons] at hb
            rcases hb with hb | hb | hb | hb
            · exact e4 b hb
            · rw [hb]; exact hkm
            · exact lt_trans hkm (hmz b hb)
            · exact hR b hb
      · obtain ⟨c2, hins, hc2, hc2n, A, B, e1, e2, e3, e4⟩ := ih f (DEGREE - 1) c hf1 hc
          (by omega) hsc hkc
        refine ⟨mk false (el ++ er) (cl ++ c2 :: cr), ?_, ?_, ?_,
          flat cl el ++ A, B ++ rest er cr, ?_, ?_, ?_, ?_⟩
        · simp only [insert_nonfull, leaf_mk, n_mk, entries_mk, hp,
            children_mk, hci, hfull, if_false, hins, take_app cl (c :: cr) _ h3,
            drop_app1 cl cr c _ h3]
          simp
        · rw [shape_node]
          simp only [leaf_mk, children_mk, n_mk, entries_mk]
          refine ⟨trivial, hlo, hhi, ?_, ?_⟩
          · simp at hlen ⊢; omega
          · exact shape_children h cl cr c c2 hch hc2
        · simp
        · rw [h6, e1]; simp
        · rw [inorder_node, flat_append cl _ el _ h3, flat_cons, e2]; simp
        · intro a ha
          simp only [List.mem_append] at ha
          rcases ha with ha | ha
          · exact h7 a ha
          · exact e3 a ha
        · intro b hb
          simp only [List.mem_append] at hb
          rcases hb with hb | hb
          · exact e4 b hb
          · exact hR b hb

end Btree

/-! ### Merge and borrow -/

namespace Btree
open btree_node

theorem flat_join (ccs ncs : List btree_node) (ces nes : List (Key × Val)) (e : Key × Val)
    (h : ccs.length = ces.length + 1) :
    flat (ccs ++ ncs) (ces ++ e :: nes) = flat ccs ces ++ e :: flat ncs nes := by
  induction ccs generalizing ces with
  | nil => simp at h
  | cons c ccs ih =>
    cases ces with
    | nil =>
      simp at h
      subst h
      simp
    | cons e0 ces =>
      simp at h
      simp [ih ces h]

theorem snoc_of_pos {α : Type} (l : List α) (h : 0 < l.length) :
    ∃ l1 a, l = l1 ++ [a] := by
  rcases List.eq_nil_or_concat l with h1 | ⟨l1, a, h1⟩
  · subst h1; simp at h
  · exact ⟨l1, a, by simpa using h1⟩

theorem merge_spec (h : Nat) (el er1 : List (Key × Val)) (e : Key × Val)
    (cl cr1 : List btree_node) (c nx : btree_node) (hl : cl.length = el.length)
    (hc : Shape (DEGREE - 1) h c) (hnx : Shape (DEGREE - 1) h nx) (hcn : c.n = DEGREE - 1)
    (hnn : nx.n = DEGREE - 1) :
    ∃ c1, _btree_merge (mk false (el ++ e :: er1) (cl ++ c :: nx :: cr1)) el.length =
        some (mk false (el ++ er1) (cl ++ c1 :: cr1)) ∧
      Shape DEGREE h c1 ∧ inorder c1 = inorder c ++ e :: inorder nx := by
  have g1 := get_app cl (nx :: cr1) c _ hl
  have g2 := get_app1 cl cr1 c nx _ hl
  have g3 := get_app el er1 e _ rfl
  have g4 := take_app cl (c :: nx :: cr1) _ hl
  have g5 := drop_app2 cl cr1 c nx _ hl
  have g6 := take_app el (e :: er1) _ rfl
  have g7 := drop_app1 el er1 e _ rfl
  have hcond : ¬ (c.n ≠ DEGREE - 1 ∨ 2 * DEGREE - 1 < c.n + nx.n + 1) := by
    rw [hcn, hnn]; simp [DEGREE]
  refine ⟨mk c.leaf (c.entries ++ e :: nx.entries)
    (if c.leaf then c.children else c.children ++ nx.children), ?_, ?_, ?_⟩
  · simp only [_btree_merge, children_mk, entries_mk, g1, g2, g3, hcond, if_false, g4, g5,
      g6, g7, leaf_mk]
  · cases c with
    | mk cleaf ces ccs =>
      cases nx with
      | mk nleaf nes ncs =>
        simp only [n_mk, DEGREE] at hcn hnn
        cases h with
        | zero =>
          rw [shape_leaf] at hc hnx ⊢
          simp only [leaf_mk, n_mk] at hc hnx ⊢
          simp [hc.1, hcn, hnn, DEGREE]
        | succ h =>
          rw [shape_node] at hc hnx ⊢
          simp only [leaf_mk, n_mk, children_mk] at hc hnx ⊢
          obtain ⟨c1, -, -, c4, c5⟩ := hc
          obtain ⟨n1, -, -, n4, n5⟩ := hnx
          subst c1
          simp only [Bool.false_eq_true, if_false]
          refine ⟨trivial, by simp [hcn, hnn, DEGREE], by simp [hcn, hnn, DEGREE],
            by simp [c4, n4, hcn, hnn], ?_⟩
          intro d hd
          simp only [List.mem_append] at hd
          rcases hd with hd | hd
          · exact c5 d hd
          · exact n5 d hd
  · cases c with
    | mk cleaf ces ccs =>
      cases nx with
      | mk nleaf nes ncs =>
        cases h with
        | zero =>
          rw [shape_leaf] at hc hnx
          simp only [leaf_mk] at hc hnx
          obtain ⟨rfl, -⟩ := hc
          obtain ⟨rfl, -⟩ := hnx
          simp
        | succ h =>
          rw [shape_node] at hc hnx
          simp only [leaf_mk, n_mk, children_mk] at hc hnx
          obtain ⟨rfl, -, -, c4, -⟩ := hc
          obtain ⟨rfl, -, -, -, -⟩ := hnx
          simp [flat_join ccs ncs ces nes e c4]

theorem borrow_next_spec (h : Nat) (el er1 : List (Key × Val)) (e : Key × Val)
    (cl cr1 : List btree_node) (c nx : btree_node) (hl : cl.length = el.length)
    (hc : Shape (DEGREE - 1) h c) (hnx : Shape (DEGREE - 1) h nx) (hcn : c.n = DEGREE - 1)
    (hnn : DEGREE ≤ nx.n) :
    ∃ c1 nx1 se Q, _btree_borrow_from_next (mk false (el ++ e :: er1) (cl ++ c :: nx :: cr1))
        el.length = some (mk false (el ++ se :: er1) (cl ++ c1 :: nx1 :: cr1)) ∧
      Shape DEGREE h c1 ∧ Shape (DEGREE - 1) h nx1 ∧ inorder c1 = inorder c ++ Q ∧
      inorder c ++ e :: inorder nx = inorder c1 ++ se :: inorder nx1 := by
  have g1 := get_app cl (nx :: cr1) c _ hl
  have g2 := get_app1 cl cr1 c nx _ hl
  have g3 := get_app el er1 e _ rfl
  have g4 := take_app cl (c :: nx :: cr1) _ hl
  have g5 := drop_app2 cl cr1 c nx _ hl
  have g6 := take_app el (e :: er1) _ rfl
  have g7 := drop_app1 el er1 e _ rfl
  have hcond : ¬ (2 * DEGREE - 1 ≤ c.n) := by rw [hcn]; simp [DEGREE]
  cases c with
  | mk cleaf ces ccs =>
    cases nx with
    | mk nleaf nes ncs =>
      simp only [n_mk, DEGREE] at hcn hnn
      cases nes with
      | nil => simp at hnn
      | cons se nes1 =>
        cases h with
        | zero =>
          rw [shape_leaf] at hc hnx
          simp only [leaf_mk, n_mk] at hc hnx
          obtain ⟨rfl, -⟩ := hc
          obtain ⟨rfl, -, n3⟩ := hnx
          refine ⟨mk true (ces ++ [e]) ccs, mk true nes1 ncs, se, [e], ?_, ?_, ?_, ?_, ?_⟩
          · simp only [_btree_borrow_from_next, children_mk, entries_mk, g1, g2, g3, hcond,
              if_false, g4, g5, g6, g7, leaf_mk, if_true]
            simp
          · rw [shape_leaf]; simp [hcn, DEGREE]
          · rw [shape_leaf]; simp [DEGREE] at hnn n3 ⊢; omega
          · simp
          · simp
        | succ h =>
          rw [shape_node] at hc hnx
          simp only [leaf_mk, n_mk, children_mk] at hc hnx
          obtain ⟨rfl, -, -, c4, c5⟩ := hc
          obtain ⟨rfl, -, n3, n4, n5⟩ := hnx
          cases ncs with
          | nil => simp at n4
          | cons sc ncs1 =>
            refine ⟨mk false (ces ++ [e]) (ccs ++ [sc]), mk false nes1 ncs1, se,
              e :: inorder sc, ?_, ?_, ?_, ?_, ?_⟩
            · simp only [_btree_borrow_from_next, children_mk, entries_mk, g1, g2, g3, hcond,
                if_false, g4, g5, g6, g7, leaf_mk]
              simp
            · rw [shape_node]
              simp only [leaf_mk, n_mk, children_mk]
              refine ⟨trivial, by simp [hcn, DEGREE], by simp [hcn, DEGREE], by simp [c4], ?_⟩
              intro d hd
              simp only [List.mem_append, List.mem_singleton] at hd
              rcases hd with hd | hd
              · exact c5 d hd
              · rw [hd]; exact n5 sc (by simp)
            · rw [shape_node]
              simp only [leaf_mk, n_mk, children_mk]
              simp [DEGREE] at hnn n3 n4 ⊢
              refine ⟨by omega, by omega, by omega, fun d hd => n5 d (by simp [hd])⟩
            · simp [flat_join ccs [sc] ces [] e c4]
            · simp [flat_join ccs [sc] ces [] e c4]

theorem borrow_prev_spec (h : Nat) (el er : List (Key × Val)) (ep : Key × Val)
    (cl cr : List btree_node) (p c : btree_node) (hl : cl.length = el.length)
    (hp : Shape (DEGREE - 1) h p) (hc : Shape (DEGREE - 1) h c) (hcn : c.n = DEGREE - 1)
    (hpn : DEGREE ≤ p.n) :
    ∃ p1 c1 se P, _btree_borrow_from_prev (mk false (el ++ ep :: er) (cl ++ p :: c :: cr))
        (el.length + 1) = some (mk false (el ++ se :: er) (cl ++ p1 :: c1 :: cr)) ∧
      Shape (DEGREE - 1) h p1 ∧ Shape DEGREE h c1 ∧ inorder c1 = P ++ inorder c ∧
      inorder p ++ ep :: inorder c = inorder p1 ++ se :: inorder c1 := by
  have g1 := get_app cl (c :: cr) p _ hl
  have g2 := get_app1 cl cr p c _ hl
  have g3 := get_app el er ep _ rfl
  have g4 := take_app cl (p :: c :: cr) _ hl
  have g5 := drop_app2 cl cr p c _ hl
  have g6 := take_app el (ep :: er) _ rfl
  have g7 := drop_app1 el er ep _ rfl
  have hcond : ¬ (2 * DEGREE - 1 ≤ c.n) := by rw [hcn]; simp [DEGREE]
  cases c with
  | mk cleaf ces ccs =>
    cases p with
    | mk pleaf pes pcs =>
      simp only [n_mk, DEGREE] at hcn hpn
      obtain ⟨pes1, se, rfl⟩ := snoc_of_pos pes (by omega)
      have g8 : (pes1 ++ [se])[(pes1 ++ [se]).length - 1]? = some se := by simp
      have g9 : (pes1 ++ [se]).take ((pes1 ++ [se]).length - 1) = pes1 := by simp
      cases h with
      | zero =>
        rw [shape_leaf] at hc hp
        simp only [leaf_mk, n_mk] at hc hp
        obtain ⟨rfl, -⟩ := hc
        obtain ⟨rfl, -, n3⟩ := hp
        refine ⟨mk true pes1 (pcs.take (pes1 ++ [se]).length), mk true (ep :: ces) ccs, se, [ep],
          ?_, ?_, ?_, ?_, ?_⟩
        · simp only [_btree_borrow_from_prev, children_mk, entries_mk, g1, g2, g3, hcond,
            if_false, g4, g5, g6, g7, leaf_mk, if_true, n_mk, g8, g9]
          simp [hcn, DEGREE]
        · rw [shape_leaf]; simp [DEGREE] at hpn n3 ⊢; omega
        · rw [shape_leaf]; simp [hcn, DEGREE]
        · simp
        · simp
      | succ h =>
        rw [shape_node] at hc hp
        simp only [leaf_mk, n_mk, children_mk] at hc hp
        obtain ⟨rfl, -, -, c4, c5⟩ := hc
        obtain ⟨rfl, -, n3, n4, n5⟩ := hp
        obtain ⟨pcs1, sc, rfl⟩ := snoc_of_pos pcs (by omega)
        have n4' : pcs1.length = pes1.length + 1 := by simpa using n4
        have g10 : (pcs1 ++ [sc])[(pes1 ++ [se]).length]? = some sc := by
          rw [List.length_append, List.length_singleton, ← n4']; simp
        have g11 : (pcs1 ++ [sc]).take (pes1 ++ [se]).length = pcs1 := by
          rw [List.length_append, List.length_singleton, ← n4']; simp
        refine ⟨mk false pes1 pcs1, mk false (ep :: ces) (sc :: ccs), se,
          inorder sc ++ [ep], ?_, ?_, ?_, ?_, ?_⟩
        · simp only [_btree_borrow_from_prev, children_mk, entries_mk, g1, g2, g3, hcond,
            if_false, g4, g5, g6, g7, leaf_mk, n_mk, g8, g9, g10, g11]
          simp [hcn, DEGREE]
        · rw [shape_node]
          simp only [leaf_mk, n_mk, children_mk]
          simp [DEGREE] at hpn n3 ⊢
          refine ⟨by omega, by omega, n4', fun d hd => n5 d (by simp [hd])⟩
        · rw [shape_node]
          simp only [leaf_mk, n_mk, children_mk]
          refine ⟨trivial, by simp [hcn, DEGREE], by simp [hcn, DEGREE], by simp [c4], ?_⟩
          intro d hd
          simp only [List.mem_cons] at hd
          rcases hd with hd | hd
          · rw [hd]; exact n5 sc (by simp)
          · exact c5 d hd
        · simp
        · simp [flat_join pcs1 [sc] pes1 [] se n4']

end Btree

/-! ### Fill -/

namespace Btree
open btree_node

theorem rightmost_spec (h : Nat) : ∀ (fuel lo : Nat) (x : btree_node), h < fuel → 1 ≤ lo →
    Shape lo h x → ∃ X e, rightmost fuel x = some e ∧ inorder x = X ++ [e] := by
  induction h with
  | zero =>
    intro fuel lo x hf hlo hx
    obtain ⟨f, rfl⟩ : ∃ f, fuel = f + 1 := ⟨fuel - 1, by omega⟩
    rw [shape_leaf] at hx
    cases x with
    | mk l es cs =>
      simp only [leaf_mk, n_mk] at hx
      obtain ⟨rfl, h1, -⟩ := hx
      obtain ⟨X, e, rfl⟩ := snoc_of_pos es (by omega)
      refine ⟨X, e, ?_, by simp⟩
      simp [rightmost]
  | succ h ih =>
    intro fuel lo x hf hlo hx
    obtain ⟨f, rfl⟩ : ∃ f, fuel = f + 1 := ⟨fuel - 1, by omega⟩
    rw [shape_node] at hx
    cases x with
    | mk l es cs =>
      simp only [leaf_mk, n_mk, children_mk] at hx
      obtain ⟨rfl, -, -, h4, h5⟩ := hx
      obtain ⟨cs1, c, rfl⟩ := snoc_of_pos cs (by omega)
      have h4' : cs1.length = es.length := by simpa using h4
      obtain ⟨X, e, e1, e2⟩ := ih f (DEGREE - 1) c (by omega) (by simp [DEGREE]) (h5 c (by simp))
      refine ⟨flat cs1 es ++ X, e, ?_, ?_⟩
      · have g : (cs1 ++ [c])[es.length]? = some c := get_app cs1 [] c _ h4'
        simp only [rightmost, leaf_mk, n_mk, children_mk, g, e1]
        simp
      · have := flat_append cs1 [c] es [] h4'
        simp only [List.append_nil] at this
        rw [inorder_node, this, flat_cons_nil, e2]
        simp

theorem leftmost_spec (h : Nat) : ∀ (fuel lo : Nat) (x : btree_node), h < fuel → 1 ≤ lo →
    Shape lo h x → ∃ X e, leftmost fuel x = some e ∧ inorder x = e :: X := by
  induction h with
  | zero =>
    intro fuel lo x hf hlo hx
    obtain ⟨f, rfl⟩ : ∃ f, fuel = f + 1 := ⟨fuel - 1, by omega⟩
    rw [shape_leaf] at hx
    cases x with
    | mk l es cs =>
      simp only [leaf_mk, n_mk] at hx
      obtain ⟨rfl, h1, -⟩ := hx
      cases es with
      | nil => simp at h1; omega
      | cons e X =>
        refine ⟨X, e, ?_, by simp⟩
        simp [leftmost]
  | succ h ih =>
    intro fuel lo x hf hlo hx
    obtain ⟨f, rfl⟩ : ∃ f, fuel = f + 1 := ⟨fuel - 1, by omega⟩
    rw [shape_node] at hx
    cases x with
    | mk l es cs =>
      simp only [leaf_mk, n_mk, children_mk] at hx
      obtain ⟨rfl, -, -, h4, h5⟩ := hx
      cases cs with
      | nil => simp at h4
      | cons c cs1 =>
        obtain ⟨X, e, e1, e2⟩ := ih f (DEGREE - 1) c (by omega) (by simp [DEGREE]) (h5 c (by simp))
        refine ⟨X ++ rest es cs1, e, ?_, ?_⟩
        · simp [leftmost, e1]
        · rw [inorder_node, flat_cons, e2]; simp

/-- The node that `_btree_delete` descends into after the optional `_btree_fill`. -/
theorem fill_spec (h : Nat) (el er : List (Key × Val)) (cl cr : List btree_node) (c : btree_node)
    (hl : cl.length = el.length) (hr : cr.length = er.length)
    (hch : ∀ d ∈ cl ++ c :: cr, Shape (DEGREE - 1) h d) (hcn : c.n < DEGREE)
    (hx1 : 1 ≤ (el ++ er).length) :
    ∃ el1 er1 cl1 c1 cr1 P Q,
      _btree_fill (mk false (el ++ er) (cl ++ c :: cr)) el.length =
        some (mk false (el1 ++ er1) (cl1 ++ c1 :: cr1)) ∧
      cl1.length = el1.length ∧ cr1.length = er1.length ∧
      el1.length = (if el.length = (el ++ er).length ∧ (el1 ++ er1).length < el.length
        then el.length - 1 else el.length) ∧
      (el ++ er).length ≤ (el1 ++ er1).length + 1 ∧ (el1 ++ er1).length ≤ (el ++ er).length ∧
      (∀ d ∈ cl1 ++ c1 :: cr1, Shape (DEGREE - 1) h d) ∧ Shape DEGREE h c1 ∧
      inorder c1 = P ++ inorder c ++ Q ∧
      flat cl el ++ (inorder c ++ rest er cr) = flat cl1 el1 ++ (inorder c1 ++ rest er1 cr1) := by
  have hc : Shape (DEGREE - 1) h c := hch c (by simp)
  have hcl : ∀ d ∈ cl, Shape (DEGREE - 1) h d := fun d hd => hch d (by simp [hd])
  have hcr : ∀ d ∈ cr, Shape (DEGREE - 1) h d := fun d hd => hch d (by simp [hd])
  have hcn2 : c.n = DEGREE - 1 := by
    have := (shape_n _ _ _ hc).1; omega
  -- the part of `_btree_fill` that looks at the right sibling
  have hnext : ∀ (e : Key × Val) (er2 : List (Key × Val)) (nx : btree_node)
      (cr2 : List btree_node), er = e :: er2 → cr = nx :: cr2 →
      ∃ el1 er1 cl1 c1 cr1 P Q,
        (if DEGREE ≤ nx.n then
            _btree_borrow_from_next (mk false (el ++ er) (cl ++ c :: cr)) el.length
          else _btree_merge (mk false (el ++ er) (cl ++ c :: cr)) el.length) =
          some (mk false (el1 ++ er1) (cl1 ++ c1 :: cr1)) ∧
        cl1.length = el1.length ∧ cr1.length = er1.length ∧
        el1.length = el.length ∧
        (el ++ er).length ≤ (el1 ++ er1).length + 1 ∧ (el1 ++ er1).length ≤ (el ++ er).length ∧
        (∀ d ∈ cl1 ++ c1 :: cr1, Shape (DEGREE - 1) h d) ∧ Shape DEGREE h c1 ∧
        inorder c1 = P ++ inorder c ++ Q ∧
        flat cl el ++ (inorder c ++ rest er cr) =
          flat cl1 el1 ++ (inorder c1 ++ rest er1 cr1) := by
    intro e er2 nx cr2 he hc2
    subst he hc2
    have hnx : Shape (DEGREE - 1) h nx := hcr nx (by simp)
    have hr2 : cr2.length = er2.length := by simpa using hr
    by_cases hbig : DEGREE ≤ nx.n
    · obtain ⟨c1, nx1, se, Q, b1, b2, b3, b4, b5⟩ :=
        borrow_next_spec h el er2 e cl cr2 c nx hl hc hnx hcn2 hbig
      refine ⟨el, se :: er2, cl, c1, nx1 :: cr2, [], Q, ?_, hl, by simp [hr2], rfl, by simp,
        by simp, ?_, b2, by simp [b4], ?_⟩
      · simp only [hbig, if_true, b1]
      · intro d hd
        simp only [List.mem_append, List.mem_cons] at hd
        rcases hd with hd | hd | hd | hd
        · exact hcl d hd
        · rw [hd]; exact shape_mono _ _ _ _ b2 (by have := (shape_n _ _ _ b2).1; omega)
        · rw [hd]; exact b3
        · exact hcr d (by simp [hd])
      · simp only [rest_cons, flat_cons]
        have : inorder c ++ e :: (inorder nx ++ rest er2 cr2) =
            (inorder c ++ e :: inorder nx) ++ rest er2 cr2 := by simp
        rw [this, b5]; simp
    · have hnn : nx.n = DEGREE - 1 := by
        have := (shape_n _ _ _ hnx).1; omega
      obtain ⟨c1, b1, b2, b3⟩ := merge_spec h el er2 e cl cr2 c nx hl hc hnx hcn2 hnn
      refine ⟨el, er2, cl, c1, cr2, [], e :: inorder nx, ?_, hl, hr2, rfl, by simp; omega,
        by simp, ?_, b2, by simp [b3], ?_⟩
      · simp only [hbig, if_false, b1]
      · intro d hd
        simp only [List.mem_append, List.mem_cons] at hd
        rcases hd with hd | hd | hd
        · exact hcl d hd
        · rw [hd]; exact shape_mono _ _ _ _ b2 (by have := (shape_n _ _ _ b2).1; omega)
        · exact hcr d (by simp [hd])
      · simp only [rest_cons, flat_cons, b3]; simp
  rcases List.eq_nil_or_concat el with hel | ⟨el0, ep, hel⟩
  · -- child 0: there is no left sibling
    subst hel
    have hcl0 : cl = [] := by simpa using hl
    subst hcl0
    cases er with
    | nil => simp at hx1
    | cons e er2 =>
      cases cr with
      | nil => simp at hr
      | cons nx cr2 =>
        obtain ⟨el1, er1, cl1, c1, cr1, P, Q, a1, a2, a3, a4, a5, a6, a7, a8, a9, a10⟩ :=
          hnext e er2 nx cr2 rfl rfl
        refine ⟨el1, er1, cl1, c1, cr1, P, Q, ?_, a2, a3, ?_, a5, a6, a7, a8, a9, a10⟩
        · rw [← a1]
          simp [_btree_fill]
        · rw [a4]; simp
  · have hel' : el = el0 ++ [ep] := by simpa using hel
    subst hel'
    obtain ⟨cl0, p, rfl⟩ := snoc_of_pos cl (by rw [hl]; simp)
    have hl0 : cl0.length = el0.length := by simpa using hl
    have hp : Shape (DEGREE - 1) h p := hcl p (by simp)
    have hcl0 : ∀ d ∈ cl0, Shape (DEGREE - 1) h d := fun d hd => hcl d (by simp [hd])
    have gp : (cl0 ++ [p] ++ c :: cr)[(el0 ++ [ep]).length - 1]? = some p := by
      have := get_app cl0 (c :: cr) p _ hl0
      simpa using this
    have hi0 : (el0 ++ [ep]).length ≠ 0 := by simp
    by_cases hbig : DEGREE ≤ p.n
    · obtain ⟨p1, c1, se, P, b1, b2, b3, b4, b5⟩ :=
        borrow_prev_spec h el0 er ep cl0 cr p c hl0 hp hc hcn2 hbig
      refine ⟨el0 ++ [se], er, cl0 ++ [p1], c1, cr, P, [], ?_, by simp [hl0], hr, ?_, by simp,
        by simp, ?_, b3, by simp [b4], ?_⟩
      · have e1 : (el0 ++ [ep]).length = el0.length + 1 := by simp
        simp only [_btree_fill, children_mk, gp, hi0, ne_eq, not_false_eq_true, if_true, hbig]
        rw [e1]
        simpa using b1
      · simp
      · intro d hd
        simp only [List.mem_append, List.mem_cons, List.mem_singleton, List.not_mem_nil,
          or_false] at hd
        rcases hd with (hd | hd) | hd | hd
        · exact hcl0 d hd
        · rw [hd]; exact b2
        · rw [hd]; exact shape_mono _ _ _ _ b3 (by have := (shape_n _ _ _ b3).1; omega)
        · exact hcr d hd
      · have f1 := flat_append cl0 [p] el0 [ep] hl0
        have f2 := flat_append cl0 [p1] el0 [se] hl0
        rw [f1, f2]
        simp only [flat_cons_cons, flat_nil, List.append_assoc, List.singleton_append,
          List.cons_append, List.nil_append]
        have : inorder p ++ ep :: (inorder c ++ rest er cr) =
            (inorder p ++ ep :: inorder c) ++ rest er cr := by simp
        rw [this, b5]; simp
    · cases er with
      | nil =>
        have hcr0 : cr = [] := by simpa using hr
        subst hcr0
        have hpn : p.n = DEGREE - 1 := by
          have := (shape_n _ _ _ hp).1; omega
        obtain ⟨c1, b1, b2, b3⟩ := merge_spec h el0 [] ep cl0 [] p c hl0 hp hc hpn hcn2
        refine ⟨el0, [], cl0, c1, [], inorder p ++ [ep], [], ?_, hl0, rfl, ?_, by simp,
          by simp, ?_, b2, by simp [b3], ?_⟩
        · have e1 : (el0 ++ [ep]).length - 1 = el0.length := by simp
          simp only [_btree_fill, children_mk, gp, hi0, ne_eq, not_false_eq_true, if_true, hbig,
            if_false, n_mk, List.append_nil, not_true_eq_false]
          rw [e1]
          simpa using b1
        · simp
        · intro d hd
          simp only [List.mem_append, List.mem_cons, List.mem_singleton] at hd
          rcases hd with hd | hd | hd
          · exact hcl0 d hd
          · rw [hd]; exact shape_mono _ _ _ _ b2 (by have := (shape_n _ _ _ b2).1; omega)
          · simp at hd
        · have f1 := flat_append cl0 [p] el0 [ep] hl0
          rw [f1, b3]; simp
      | cons e er2 =>
        cases cr with
        | nil => simp at hr
        | cons nx cr2 =>
          obtain ⟨el1, er1, cl1, c1, cr1, P, Q, a1, a2, a3, a4, a5, a6, a7, a8, a9, a10⟩ :=
            hnext e er2 nx cr2 rfl rfl
          refine ⟨el1, er1, cl1, c1, cr1, P, Q, ?_, a2, a3, ?_, a5, a6, a7, a8, a9, a10⟩
          · rw [← a1]
            have gn : (cl0 ++ [p] ++ c :: nx :: cr2)[(el0 ++ [ep]).length + 1]? = some nx :=
              get_app1 (cl0 ++ [p]) cr2 c nx _ hl
            have hne : (el0 ++ [ep]).length ≠ (el0 ++ [ep] ++ e :: er2).length := by simp
            simp only [_btree_fill, children_mk, gp, hi0, ne_eq, not_false_eq_true, if_true,
              hbig, if_false, n_mk, gn, hne]
          · rw [a4]
            have : ¬ ((el0 ++ [ep]).length = (el0 ++ [ep] ++ e :: er2).length ∧
                (el1 ++ er1).length < (el0 ++ [ep]).length) := by simp
            simp only [this, if_false]

end Btree

/-! ### Delete in a leaf -/

namespace Btree
open btree_node

theorem mem_key_cases (k : Key) (L M R : List (Key × Val)) (hL : ∀ a ∈ L, a.1 < k)
    (hR : ∀ b ∈ R, k < b.1) (v : Val) (hv : (k, v) ∈ L ++ (M ++ R)) : (k, v) ∈ M := by
  simp only [List.mem_append] at hv
  rcases hv with hv | hv | hv
  · exact absurd (hL _ hv) (lt_irrefl _)
  · exact hv
  · exact absurd (hR _ hv) (lt_irrefl _)

theorem btree_delete_leaf (lo f : Nat) (x : btree_node) (k : Key) (_hlo : 1 ≤ lo)
    (hx : Shape lo 0 x) (hs : Sorted (inorder x)) (hk : ∃ v, (k, v) ∈ inorder x) :
    ∃ x1, _btree_delete (f + 1) x k = some x1 ∧ Shape (lo - 1) 0 x1 ∧
      ∃ A v B, inorder x = A ++ (k, v) :: B ∧ inorder x1 = A ++ B := by
  rw [shape_leaf] at hx
  cases x with
  | mk l es cs =>
    simp only [leaf_mk, n_mk] at hx
    obtain ⟨rfl, h1, h2⟩ := hx
    simp only [inorder_leaf] at hs hk ⊢
    obtain ⟨el, er, rfl, e2, e3, e4⟩ := search_scan_spec k es
    obtain ⟨v, hv⟩ := hk
    cases er with
    | nil =>
      simp at hv
      exact absurd (e3 _ hv) (lt_irrefl _)
    | cons e er1 =>
      have hle := e4 e er1 rfl
      rw [sorted_app, sorted_cons] at hs
      have hke : k = e.1 := by
        by_contra hne
        have hlt : k < e.1 := lt_of_le_of_ne hle hne
        simp only [List.mem_append, List.mem_cons] at hv
        rcases hv with hv | hv | hv
        · exact absurd (e3 _ hv) (lt_irrefl _)
        · rw [← hv] at hlt; exact absurd hlt (lt_irrefl _)
        · exact absurd (lt_trans hlt (hs.2.1.1 _ hv)) (lt_irrefl _)
      have hget := get_app el er1 e _ rfl
      have hcmp : strcmp k e.1 = Ordering.eq := (strcmp_eq_iff _ _).2 hke
      refine ⟨mk true (el ++ er1) cs, ?_, ?_, el, e.2, er1, ?_, by simp⟩
      · simp only [_btree_delete, entries_mk, ← e2, hget, hcmp, leaf_mk, children_mk,
          take_app el (e :: er1) _ rfl, drop_app1 el er1 e _ rfl]
        simp
      · rw [shape_leaf]
        simp only [leaf_mk, n_mk]
        simp at h1 h2 ⊢
        omega
      · rw [hke]

end Btree

/-! ### Delete -/

namespace Btree
open btree_node

theorem btree_delete_spec (h : Nat) : ∀ (fuel lo : Nat) (x : btree_node) (k : Key), h < fuel →
    1 ≤ lo → Shape lo h x → Sorted (inorder x) → (∃ v, (k, v) ∈ inorder x) →
    ∃ x1, _btree_delete fuel x k = some x1 ∧ Shape (lo - 1) h x1 ∧
      ∃ A v B, inorder x = A ++ (k, v) :: B ∧ inorder x1 = A ++ B := by
  induction h with
  | zero =>
    intro fuel lo x k hf hlo hx hs hk
    obtain ⟨f, rfl⟩ : ∃ f, fuel = f + 1 := ⟨fuel - 1, by omega⟩
    exact btree_delete_leaf lo f x k hlo hx hs hk
  | succ h ih =>
    intro fuel lo x k hf hlo hx hs hk
    obtain ⟨f, rfl⟩ : ∃ f, fuel = f + 1 := ⟨fuel - 1, by omega⟩
    have hf1 : h < f := by omega
    rw [shape_node] at hx
    cases x with
    | mk l es cs =>
      simp only [leaf_mk, children_mk, n_mk] at hx
      obtain ⟨rfl, hlo1, hhi, hlen, hch⟩ := hx
      simp only [inorder_node] at hs hk ⊢
      obtain ⟨el, er, cl, c, cr, h1, h2, h3, h4, h5, h6, h7, h8, h9, hsl, hsc, hsr, o1, o2, o3⟩ :=
        locate k es cs hlen hs
      have hc : Shape (DEGREE - 1) h c := hch c (by rw [h2]; simp)
      have hcl : ∀ d ∈ cl, Shape (DEGREE - 1) h d := fun d hd => hch d (by rw [h2]; simp [hd])
      have hcr : ∀ d ∈ cr, Shape (DEGREE - 1) h d := fun d hd => hch d (by rw [h2]; simp [hd])
      obtain ⟨v, hv⟩ := hk
      rw [h6] at hv hs ⊢
      subst h1 h2
      have hci : (cl ++ c :: cr)[el.length]? = some c := get_app cl cr c _ h3
      -- the descent below child `i` when the key is not in this node
      have hdescend : (∀ b ∈ rest er cr, k < b.1) →
          (∀ e er1, er = e :: er1 → ¬ strcmp k e.1 = Ordering.eq) →
          ∃ x1, _btree_delete (f + 1) (mk false (el ++ er) (cl ++ c :: cr)) k = some x1 ∧
            Shape (lo - 1) (h + 1) x1 ∧
            ∃ A v B, flat cl el ++ (inorder c ++ rest er cr) = A ++ (k, v) :: B ∧
              inorder x1 = A ++ B := by
        intro hR hnf
        have hvc : (k, v) ∈ inorder c := mem_key_cases k _ _ _ h7 hR v hv
        have hfill : ∃ el1 er1 cl1 c1 cr1 P Q,
            (if c.n < DEGREE then _btree_fill (mk false (el ++ er) (cl ++ c :: cr)) el.length
              else some (mk false (el ++ er) (cl ++ c :: cr))) =
              some (mk false (el1 ++ er1) (cl1 ++ c1 :: cr1)) ∧
            cl1.length = el1.length ∧ cr1.length = er1.length ∧
            el1.length = (if el.length = (el ++ er).length ∧ (el1 ++ er1).length < el.length
              then el.length - 1 else el.length) ∧
            (el ++ er).length ≤ (el1 ++ er1).length + 1 ∧
            (el1 ++ er1).length ≤ (el ++ er).length ∧
            (∀ d ∈ cl1 ++ c1 :: cr1, Shape (DEGREE - 1) h d) ∧ Shape DEGREE h c1 ∧
            inorder c1 = P ++ inorder c ++ Q ∧
            flat cl el ++ (inorder c ++ rest er cr) =
              flat cl1 el1 ++ (inorder c1 ++ rest er1 cr1) := by
          by_cases hsmall : c.n < DEGREE
          · simp only [hsmall, if_true]
            exact fill_spec h el er cl cr c h3 h4 hch hsmall (by omega)
          · simp only [hsmall, if_false]
            refine ⟨el, er, cl, c, cr, [], [], rfl, h3, h4, ?_, by omega, by omega, hch,
              shape_mono _ _ _ _ hc (by omega), by simp, rfl⟩
            have : ¬ (el.length = (el ++ er).length ∧ (el ++ er).length < el.length) := by
              intro hh; omega
            simp only [this, if_false]
        obtain ⟨el1, er1, cl1, c1, cr1, P, Q, a1, a2, a3, a4, a5, a6, a7, a8, a9, a10⟩ := hfill
        have hs1 : Sorted (inorder c1) := by
          rw [a10, sorted_app, sorted_app] at hs
          exact hs.2.1.1
        have hvc1 : ∃ v, (k, v) ∈ inorder c1 := ⟨v, by rw [a9]; simp [hvc]⟩
        obtain ⟨c2, d1, d2, A, w, B, d3, d4⟩ :=
          ih f DEGREE c1 k hf1 (by simp [DEGREE]) a8 hs1 hvc1
        have hci1 : (cl1 ++ c1 :: cr1)[el1.length]? = some c1 := get_app cl1 cr1 c1 _ a2
        refine ⟨mk false (el1 ++ er1) (cl1 ++ c2 :: cr1), ?_, ?_,
          flat cl1 el1 ++ A, w, B ++ rest er1 cr1, ?_, ?_⟩
        · have hfound : ∀ r : Option btree_node,
              (if (match (el ++ er)[el.length]? with
                  | some e => decide (strcmp k e.1 = Ordering.eq)
                  | none => false) = true then r
                else some (mk false (el1 ++ er1) (cl1 ++ c2 :: cr1))) =
              some (mk false (el1 ++ er1) (cl1 ++ c2 :: cr1)) := by
            intro r
            cases er with
            | nil => simp
            | cons e0 er0 =>
              have := hnf e0 er0 rfl
              rw [get_app el er0 e0 _ rfl]
              simp [this]
          simp only [_btree_delete, entries_mk, ← h5, leaf_mk, children_mk, hci,
            Bool.false_eq_true, if_false, a1, n_mk, decide_eq_true_eq, ← a4, hci1, d1,
            put_child, take_app cl1 (c1 :: cr1) _ a2, drop_app1 cl1 cr1 c1 _ a2]
          exact hfound _
        · rw [shape_node]
          simp only [leaf_mk, n_mk, children_mk]
          refine ⟨trivial, by omega, by omega, by simp [a2, a3]; omega, ?_⟩
          exact shape_children h cl1 cr1 c1 c2 a7 d2
        · rw [a10, d3]; simp
        · rw [inorder_node, flat_append cl1 _ el1 _ a2, flat_cons, d4]; simp
      cases er with
      | nil =>
        exact hdescend (by simp) (by simp)
      | cons e er1 =>
        have hle := h9 e er1 rfl
        by_cases hke : k = e.1
        · -- the key sits in slot `i` of this node
          cases cr with
          | nil => simp at h4
          | cons right cr2 =>
            have hright : Shape (DEGREE - 1) h right := hcr right (by simp)
            have hcr2 : ∀ d ∈ cr2, Shape (DEGREE - 1) h d := fun d hd => hcr d (by simp [hd])
            have hget := get_app el er1 e _ rfl
            have hcmp : strcmp k e.1 = Ordering.eq := (strcmp_eq_iff _ _).2 hke
            have hci2 : (cl ++ c :: right :: cr2)[el.length + 1]? = some right :=
              get_app1 cl cr2 c right _ h3
            have g6 := take_app el (e :: er1) _ rfl
            have g7 := drop_app1 el er1 e _ rfl
            have hek : e = (k, e.2) := by rw [hke]
            by_cases hbl : DEGREE ≤ c.n
            · -- predecessor
              obtain ⟨X, pred, p1, p2⟩ :=
                rightmost_spec h f (DEGREE - 1) c hf1 (by simp [DEGREE]) hc
              have hpm : ∃ v, (pred.1, v) ∈ inorder c := ⟨pred.2, by rw [p2]; simp⟩
              obtain ⟨c2, d1, d2, A, w, B, d3, d4⟩ := ih f DEGREE c pred.1 hf1
                (by simp [DEGREE]) (shape_mono _ _ _ _ hc hbl) hsc hpm
              have hu : A = X ∧ w = pred.2 ∧ B = [] := by
                have e1 : A ++ (pred.1, w) :: B = X ++ (pred.1, pred.2) :: [] := by
                  rw [← d3, p2]
                exact sorted_split_unique A B X [] pred.1 w pred.2 (by rw [← d3]; exact hsc) e1
              obtain ⟨rfl, rfl, rfl⟩ := hu
              refine ⟨mk false (el ++ pred :: er1) (cl ++ c2 :: right :: cr2), ?_, ?_,
                flat cl el ++ inorder c, e.2, flat (right :: cr2) er1, ?_, ?_⟩
              · simp only [_btree_delete, entries_mk, ← h5, hget, hcmp, leaf_mk, children_mk,
                  hci, hci2, hbl, _btree_get_pred, p1, d1, put_child, g6, g7,
                  take_app cl (c :: right :: cr2) _ h3, drop_app1 cl (right :: cr2) c _ h3]
                simp
              · rw [shape_node]
                simp only [leaf_mk, n_mk, children_mk]
                simp only [List.length_append, List.length_cons] at hlo1 hhi hlen ⊢
                refine ⟨trivial, by omega, by omega, by omega, ?_⟩
                exact shape_children h cl (right :: cr2) c c2 hch
                  (by simpa [DEGREE] using d2)
              · rw [rest_cons, ← hek]; simp
              · rw [inorder_node, flat_append cl _ el _ h3, flat_cons, d4, p2, rest_cons]
                simp
            · by_cases hbr : DEGREE ≤ right.n
              · -- successor
                obtain ⟨Y, succ, p1, p2⟩ :=
                  leftmost_spec h f (DEGREE - 1) right hf1 (by simp [DEGREE]) hright
                have hsr2 : Sorted (inorder right) := by
                  rw [rest_cons, flat_cons, sorted_cons, sorted_app] at hsr
                  exact hsr.2.1
                have hpm : ∃ v, (succ.1, v) ∈ inorder right := ⟨succ.2, by rw [p2]; simp⟩
                obtain ⟨c2, d1, d2, A, w, B, d3, d4⟩ := ih f DEGREE right succ.1 hf1
                  (by simp [DEGREE]) (shape_mono _ _ _ _ hright hbr) hsr2 hpm
                have hu : A = [] ∧ w = succ.2 ∧ B = Y := by
                  have e1 : A ++ (succ.1, w) :: B = [] ++ (succ.1, succ.2) :: Y := by
                    rw [← d3, p2]; simp
                  exact sorted_split_unique A B [] Y succ.1 w succ.2
                    (by rw [← d3]; exact hsr2) e1
                obtain ⟨rfl, rfl, rfl⟩ := hu
                refine ⟨mk false (el ++ succ :: er1) (cl ++ c :: c2 :: cr2), ?_, ?_,
                  flat cl el ++ inorder c, e.2, inorder right ++ rest er1 cr2, ?_, ?_⟩
                · simp only [_btree_delete, entries_mk, ← h5, hget, hcmp, leaf_mk, children_mk,
                    hci, hci2, hbl, hbr, _btree_get_succ, p1, d1, put_child, g6, g7,
                    take_app1 cl (right :: cr2) c _ h3, drop_app2 cl cr2 c right _ h3]
                  simp
                · rw [shape_node]
                  simp only [leaf_mk, n_mk, children_mk]
                  simp only [List.length_append, List.length_cons] at hlo1 hhi hlen ⊢
                  refine ⟨trivial, by omega, by omega, by omega, ?_⟩
                  intro d hd
                  simp only [List.mem_append, List.mem_cons] at hd
                  rcases hd with hd | hd | hd | hd
                  · exact hcl d hd
                  · rw [hd]; exact hc
                  · rw [hd]; simpa [DEGREE] using d2
                  · exact hcr2 d hd
                · rw [rest_cons, flat_cons, ← hek]; simp
                · rw [inorder_node, flat_append cl _ el _ h3, flat_cons_cons, flat_cons, d4, p2]
                  simp
              · -- merge the two children around the key
                have hcn : c.n = DEGREE - 1 := by
                  have := (shape_n _ _ _ hc).1; omega
                have hrn : right.n = DEGREE - 1 := by
                  have := (shape_n _ _ _ hright).1; omega
                obtain ⟨c1, b1, b2, b3⟩ := merge_spec h el er1 e cl cr2 c right h3 hc hright hcn hrn
                have hs1 : Sorted (inorder c1) := by
                  rw [b3, sorted_app, sorted_cons]
                  have q := hsr
                  rw [rest_cons, flat_cons, sorted_cons, sorted_app] at q
                  refine ⟨hsc, ⟨fun b hb => q.1 b (by simp [hb]), q.2.1⟩, ?_⟩
                  intro a ha b hb
                  refine o3 a ha b ?_
                  simp only [List.mem_cons] at hb
                  rcases hb with hb | hb
                  · rw [hb]; simp
                  · simp [flat_cons, hb]
                have hvc1 : ∃ v, (k, v) ∈ inorder c1 := ⟨e.2, by rw [b3, ← hek]; simp⟩
                obtain ⟨c2, d1, d2, A, w, B, d3, d4⟩ :=
                  ih f DEGREE c1 k hf1 (by simp [DEGREE]) b2 hs1 hvc1
                have hci1 : (cl ++ c1 :: cr2)[el.length]? = some c1 := get_app cl cr2 c1 _ h3
                refine ⟨mk false (el ++ er1) (cl ++ c2 :: cr2), ?_, ?_,
                  flat cl el ++ A, w, B ++ rest er1 cr2, ?_, ?_⟩
                · simp only [_btree_delete, entries_mk, ← h5, hget, hcmp, leaf_mk, children_mk,
                    hci, hci2, hbl, hbr, b1, hci1, d1, put_child,
                    take_app cl (c1 :: cr2) _ h3, drop_app1 cl cr2 c1 _ h3]
                  simp
                · rw [shape_node]
                  simp only [leaf_mk, n_mk, children_mk]
                  simp only [List.length_append, List.length_cons] at hlo1 hhi hlen ⊢
                  refine ⟨trivial, by omega, by omega, by omega, ?_⟩
                  intro d hd
                  simp only [List.mem_append, List.mem_cons] at hd
                  rcases hd with hd | hd | hd
                  · exact hcl d hd
                  · rw [hd]; simpa [DEGREE] using d2
                  · exact hcr2 d hd
                · rw [rest_cons, flat_cons]
                  have : inorder c ++ e :: (inorder right ++ rest er1 cr2) =
                      (inorder c ++ e :: inorder right) ++ rest er1 cr2 := by simp
                  rw [this, ← b3, d3]; simp
                · rw [inorder_node, flat_append cl _ el _ h3, flat_cons, d4]; simp
        · have hlt : k < e.1 := lt_of_le_of_ne hle hke
          refine hdescend ?_ ?_
          · rw [rest_cons, sorted_cons] at hsr
            intro b hb
            simp only [rest_cons, List.mem_cons] at hb
            rcases hb with hb | hb
            · rw [hb]; exact hlt
            · exact lt_trans hlt (hsr.1 b hb)
          · intro e0 er0 he0
            simp only [List.cons.injEq] at he0
            rw [← he0.1]
            exact fun hh => hke ((strcmp_eq_iff _ _).1 hh)

end Btree

namespace Btree
open btree_node

/-! ### The API functions on trees that satisfy the invariant -/

theorem get_mem (t : btree) (hinv : Inv t) (k : Key) (v : Val) (h : (k, v) ∈ inorder t.root) :
    kvs_btree_get t (some k) = some v := by
  obtain ⟨ht, hx, -, hs, -⟩ := hinv
  obtain ⟨node, idx, e1, e2⟩ := (search_node_spec 0 ht t.root k hx hs).1 v h
  simp [kvs_btree_get, e1, e2]

theorem get_not_mem (t : btree) (hinv : Inv t) (k : Key) (h : ∀ v, (k, v) ∉ inorder t.root) :
    kvs_btree_get t (some k) = none := by
  obtain ⟨ht, hx, -, hs, -⟩ := hinv
  have := (search_node_spec 0 ht t.root k hx hs).2 h
  simp [kvs_btree_get, this]

theorem get_some_iff (t : btree) (hinv : Inv t) (k : Key) (v : Val) :
    kvs_btree_get t (some k) = some v ↔ (k, v) ∈ inorder t.root := by
  constructor
  · intro h
    by_cases hm : ∃ w, (k, w) ∈ inorder t.root
    · obtain ⟨w, hw⟩ := hm
      have := get_mem t hinv k w hw
      rw [this] at h
      simp at h
      rw [← h]; exact hw
    · have := get_not_mem t hinv k (fun w hw => hm ⟨w, hw⟩)
      rw [this] at h
      simp at h
  · exact get_mem t hinv k v

theorem get_none_iff (t : btree) (hinv : Inv t) (k : Key) :
    kvs_btree_get t (some k) = none ↔ ∀ v, (k, v) ∉ inorder t.root := by
  constructor
  · intro h v hv
    rw [get_mem t hinv k v hv] at h
    simp at h
  · exact get_not_mem t hinv k

theorem inv_create : Inv kvstore_btree_create := by
  refine ⟨0, ?_, ?_, ?_, ?_⟩
  · rw [shape_leaf]; simp [kvstore_btree_create, create_node, DEGREE]
  · simp [kvstore_btree_create, create_node]
  · simp [kvstore_btree_create, create_node, sorted_nil]
  · simp [kvstore_btree_create, create_node]

theorem sorted_insert (A B : List (Key × Val)) (k : Key) (v : Val) (hs : Sorted (A ++ B))
    (hA : ∀ a ∈ A, a.1 < k) (hB : ∀ b ∈ B, k < b.1) : Sorted (A ++ (k, v) :: B) := by
  rw [sorted_app] at hs
  rw [sorted_app, sorted_cons]
  refine ⟨hs.1, ⟨hB, hs.2.1⟩, ?_⟩
  intro a ha b hb
  simp only [List.mem_cons] at hb
  rcases hb with hb | hb
  · rw [hb]; exact hA a ha
  · exact hs.2.2 a ha b hb

theorem sorted_replace (A B : List (Key × Val)) (k : Key) (v w : Val)
    (hs : Sorted (A ++ (k, w) :: B)) : Sorted (A ++ (k, v) :: B) := by
  rw [sorted_app, sorted_cons] at hs ⊢
  refine ⟨hs.1, hs.2.1, ?_⟩
  intro a ha b hb
  simp only [List.mem_cons] at hb
  rcases hb with hb | hb
  · rw [hb]; exact hs.2.2 a ha (k, w) (by simp)
  · exact hs.2.2 a ha b (by simp [hb])

theorem sorted_remove (A B : List (Key × Val)) (e : Key × Val)
    (hs : Sorted (A ++ e :: B)) : Sorted (A ++ B) := by
  rw [sorted_app, sorted_cons] at hs
  rw [sorted_app]
  exact ⟨hs.1, hs.2.1.2, fun a ha b hb => hs.2.2 a ha b (by simp [hb])⟩

/-- What `kvs_btree_modify` does on a tree that satisfies the invariant. -/
theorem modify_spec (t : btree) (hinv : Inv t) (k : Key) (v : Val) :
    (∀ w, (k, w) ∈ inorder t.root →
      ∃ t1 A B, kvs_btree_modify t (some k) (some v) = (0, t1) ∧ Inv t1 ∧
        t1.count = t.count ∧ inorder t.root = A ++ (k, w) :: B ∧
        inorder t1.root = A ++ (k, v) :: B) ∧
    ((∀ w, (k, w) ∉ inorder t.root) → kvs_btree_modify t (some k) (some v) = (-1, t)) := by
  obtain ⟨ht, hx, hr, hs, hc⟩ := hinv
  have hspec := store_value_spec 0 ht t.root k v hx hs
  constructor
  · intro w hw
    obtain ⟨x1, A, B, e1, e2, e3, e4, e5⟩ := hspec.1 w hw
    refine ⟨{ t with root := x1 }, A, B, ?_, ⟨ht, e2, ?_, ?_, ?_⟩, rfl, e4, e5⟩
    · simp [kvs_btree_modify, e1]
    · intro hl
      have h1 := (shape_leaf_iff 0 ht x1 e2)
      have h2 := (shape_leaf_iff 0 ht t.root hx)
      have : t.root.leaf = false := by
        cases hq : t.root.leaf
        · rfl
        · have := h2.1 hq
          have := h1.2 this
          simp [this] at hl
      simp only at e3 ⊢
      rw [e3]; exact hr this
    · simp only; rw [e5]; rw [e4] at hs; exact sorted_replace A B k v w hs
    · simp only; rw [hc, e4, e5]; simp
  · intro hn
    simp [kvs_btree_modify, hspec.2 hn]

/-- What `kvs_btree_set` does on a tree that satisfies the invariant. -/
theorem set_spec (t : btree) (hinv : Inv t) (k : Key) (v : Val) :
    ∃ t1 A B, kvs_btree_set t (some k) (some v) = some (0, t1) ∧ Inv t1 ∧
      inorder t1.root = A ++ (k, v) :: B ∧
      ((inorder t.root = A ++ B ∧ t1.count = t.count + 1 ∧ kvs_btree_get t (some k) = none) ∨
        (∃ w, inorder t.root = A ++ (k, w) :: B ∧ t1.count = t.count ∧
          kvs_btree_get t (some k) = some w)) := by
  by_cases hm : ∃ w, (k, w) ∈ inorder t.root
  · obtain ⟨w, hw⟩ := hm
    obtain ⟨t1, A, B, e1, e2, e3, e4, e5⟩ := (modify_spec t hinv k v).1 w hw
    have hg := get_mem t hinv k w hw
    refine ⟨t1, A, B, ?_, e2, e5, Or.inr ⟨w, e4, e3, hg⟩⟩
    simp [kvs_btree_set, hg, e1]
  · have hn : ∀ w, (k, w) ∉ inorder t.root := fun w hw => hm ⟨w, hw⟩
    have hg := get_not_mem t hinv k hn
    have hk : ∀ e ∈ inorder t.root, e.1 ≠ k := by
      intro e he hh
      exact hn e.2 (by rw [← hh]; exact he)
    obtain ⟨ht, hx, hr, hs, hc⟩ := hinv
    by_cases hfull : t.root.n = 2 * DEGREE - 1
    · -- the root is full: a new root is put above it and the old root is split
      have hx2 : Shape (DEGREE - 1) ht t.root := shape_mono _ _ _ _ hx (by rw [hfull]; simp [DEGREE])
      obtain ⟨y1, z, mid, hsp, hy1, hz, hy1n, hzn, hio⟩ :=
        split_child_spec ht [] [] [] [] t.root rfl hx2 hfull (by simp [DEGREE])
      simp only [List.nil_append, List.length_nil] at hsp
      have hs1 : Shape 0 (ht + 1) (mk false [mid] [y1, z]) := by
        rw [shape_node]
        simp only [leaf_mk, n_mk, children_mk]
        refine ⟨trivial, by simp, by simp [DEGREE], by simp, ?_⟩
        intro d hd
        simp only [List.mem_cons, List.mem_singleton, List.not_mem_nil, or_false] at hd
        rcases hd with hd | hd
        · rw [hd]; exact hy1
        · rw [hd]; exact hz
      have hio1 : inorder (mk false [mid] [y1, z]) = inorder t.root := by
        rw [hio]; simp
      obtain ⟨x1, i1, i2, i3, A, B, i4, i5, i6, i7⟩ :=
        insert_nonfull_spec k v (ht + 1) (ht + 1 + 1) 0 (mk false [mid] [y1, z]) (by omega) hs1
          (by simp [DEGREE]) (by rw [hio1]; exact hs) (by rw [hio1]; exact hk)
      refine ⟨{ root := x1, count := t.count + 1 }, A, B, ?_, ⟨ht + 1, i2, ?_, ?_, ?_⟩, i5,
        Or.inl ⟨by rw [← hio1, i4], rfl, hg⟩⟩
      · simp only [kvs_btree_set, hg, hfull, if_true, hsp, height_eq 0 (ht + 1) _ hs1, i1]
      · intro _
        simp only [n_mk, List.length_singleton] at i3
        exact i3
      · simp only; rw [i5]; rw [hio1.symm, i4] at hs; exact sorted_insert A B k v hs i6 i7
      · simp only; rw [hc, ← hio1, i4, i5]; simp; omega
    · have hn5 : t.root.n < 2 * DEGREE - 1 := by
        have := (shape_n _ _ _ hx).2; omega
      obtain ⟨x1, i1, i2, i3, A, B, i4, i5, i6, i7⟩ :=
        insert_nonfull_spec k v ht (ht + 1) 0 t.root (by omega) hx hn5 hs hk
      refine ⟨{ root := x1, count := t.count + 1 }, A, B, ?_, ⟨ht, i2, ?_, ?_, ?_⟩, i5,
        Or.inl ⟨i4, rfl, hg⟩⟩
      · simp only [kvs_btree_set, hg, hfull, if_false, height_eq 0 ht _ hx, i1]
      · intro hl
        simp only at hl ⊢
        have h1 := (shape_leaf_iff 0 ht x1 i2)
        have h2 := (shape_leaf_iff 0 ht t.root hx)
        have : t.root.leaf = false := by
          cases hq : t.root.leaf
          · rfl
          · have := h2.1 hq
            have := h1.2 this
            simp [this] at hl
        have := hr this
        omega
      · simp only; rw [i5]; rw [i4] at hs; exact sorted_insert A B k v hs i6 i7
      · simp only; rw [hc, i4, i5]; simp; omega

/-- What `kvs_btree_delete` does on a tree that satisfies the invariant. -/
theorem delete_spec (t : btree) (hinv : Inv t) (k : Key) :
    ((∃ w, (k, w) ∈ inorder t.root) →
      ∃ t1 A w B, kvs_btree_delete t (some k) = some (0, t1) ∧ Inv t1 ∧
        t1.count = t.count - 1 ∧ inorder t.root = A ++ (k, w) :: B ∧
        inorder t1.root = A ++ B) ∧
    ((∀ w, (k, w) ∉ inorder t.root) → kvs_btree_delete t (some k) = some (-1, t)) := by
  constructor
  · rintro ⟨w, hw⟩
    have hg := get_mem t hinv k w hw
    obtain ⟨ht, hx, hr, hs, hc⟩ := hinv
    have hn1 : 1 ≤ t.root.n := by
      cases hq : t.root.leaf
      · exact hr hq
      · have h0 := (shape_leaf_iff 0 ht t.root hx).1 hq
        subst h0
        cases hroot : t.root with
        | mk l es cs =>
          rw [hroot] at hw hq
          simp only [leaf_mk] at hq
          subst hq
          simp only [inorder_leaf] at hw
          cases es with
          | nil => simp at hw
          | cons e es => simp
    have hx1 : Shape 1 ht t.root := shape_mono _ _ _ _ hx hn1
    obtain ⟨x1, d1, d2, A, u, B, d3, d4⟩ :=
      btree_delete_spec ht (ht + 1) 1 t.root k (by omega) (Nat.le_refl _) hx1 hs ⟨w, hw⟩
    simp only [Nat.sub_self] at d2
    have hsx1 : Sorted (inorder x1) := by
      rw [d4]; rw [d3] at hs; exact sorted_remove A B _ hs
    have hcnt : t.count - 1 = ((inorder x1).length : Int) := by
      rw [hc, d3, d4]; simp; omega
    by_cases hz : x1.n = 0
    · cases ht with
      | zero =>
        have hl := (shape_leaf_iff 0 0 x1 d2).2 rfl
        refine ⟨{ root := x1, count := t.count - 1 }, A, u, B, ?_, ⟨0, d2, ?_, hsx1, hcnt⟩,
          rfl, d3, d4⟩
        · simp only [kvs_btree_delete, hg, height_eq 0 0 _ hx, d1, hz, if_true, hl]
        · intro hl2; simp only at hl2; rw [hl] at hl2; simp at hl2
      | succ ht =>
        rw [shape_node] at d2
        cases x1 with
        | mk l es cs =>
          simp only [leaf_mk, n_mk, children_mk] at d2 hz
          obtain ⟨rfl, -, -, q4, q5⟩ := d2
          have hes : es = [] := List.length_eq_zero.1 hz
          subst hes
          cases cs with
          | nil => simp at q4
          | cons c cs1 =>
            have hcs1 : cs1 = [] := by
              simp at q4; exact q4
            subst hcs1
            have hcs : Shape (DEGREE - 1) ht c := q5 c (by simp)
            have hio : inorder (mk false [] [c]) = inorder c := by simp
            refine ⟨{ root := c, count := t.count - 1 }, A, u, B, ?_,
              ⟨ht, shape_mono _ _ _ _ hcs (Nat.zero_le _), ?_, ?_, ?_⟩, rfl, d3, ?_⟩
            · simp only [kvs_btree_delete, hg, height_eq 0 (ht + 1) _ hx, d1, n_mk,
                List.length_nil, if_true, leaf_mk, Bool.false_eq_true, if_false, children_mk]
              simp
            · intro _
              have := (shape_n _ _ _ hcs).1
              simp only [DEGREE] at this ⊢
              omega
            · simp only; rw [← hio]; exact hsx1
            · simp only; rw [← hio]; exact hcnt
            · simp only; rw [← hio]; exact d4
    · refine ⟨{ root := x1, count := t.count - 1 }, A, u, B, ?_, ⟨ht, d2, ?_, hsx1, hcnt⟩,
        rfl, d3, d4⟩
      · simp only [kvs_btree_delete, hg, height_eq 0 ht _ hx, d1, hz, if_false]
      · intro _; simp only; omega
  · intro hn
    have hg := get_not_mem t hinv k hn
    simp [kvs_btree_delete, hg]

theorem reachable_inv (t : btree) (h : Reachable t) : Inv t := by
  induction h with
  | create => exact inv_create
  | set t t1 k v r _ hstep ih =>
    cases k with
    | none => simp [kvs_btree_set] at hstep; rw [← hstep.2]; exact ih
    | some k =>
      cases v with
      | none => simp [kvs_btree_set] at hstep; rw [← hstep.2]; exact ih
      | some v =>
        obtain ⟨t2, A, B, e1, e2, -⟩ := set_spec t ih k v
        rw [e1] at hstep
        simp at hstep
        rw [← hstep.2]; exact e2
  | modify t k v _ ih =>
    cases k with
    | none => simp [kvs_btree_modify]; exact ih
    | some k =>
      cases v with
      | none => simp [kvs_btree_modify]; exact ih
      | some v =>
        by_cases hm : ∃ w, (k, w) ∈ inorder t.root
        · obtain ⟨w, hw⟩ := hm
          obtain ⟨t1, A, B, e1, e2, -⟩ := (modify_spec t ih k v).1 w hw
          rw [e1]; exact e2
        · rw [(modify_spec t ih k v).2 (fun w hw => hm ⟨w, hw⟩)]; exact ih
  | delete t t1 k r _ hstep ih =>
    cases k with
    | none => simp [kvs_btree_delete] at hstep; rw [← hstep.2]; exact ih
    | some k =>
      by_cases hm : ∃ w, (k, w) ∈ inorder t.root
      · obtain ⟨t2, A, w, B, e1, e2, -⟩ := (delete_spec t ih k).1 hm
        rw [e1] at hstep
        simp at hstep
        rw [← hstep.2]; exact e2
      · rw [(delete_spec t ih k).2 (fun w hw => hm ⟨w, hw⟩)] at hstep
        simp at hstep
        rw [← hstep.2]; exact ih

end Btree

namespace Skiptable

/-! ### Memory -/

theorem node_at_set (m : List (Option skiplist_node)) (p q : Nat) (n : Option skiplist_node) :
    node_at (m.set p n) q = if q = p ∧ p < m.length then n else node_at m q := by
  unfold node_at
  by_cases h : q = p
  · subst h
    by_cases hl : q < m.length
    · simp [hl]
      cases n <;> simp
    · have : m.length ≤ q := by omega
      have h2 : (m.set q n).length ≤ q := by simp; omega
      simp [hl, List.getElem?_eq_none this, List.getElem?_eq_none h2]
  · have : p ≠ q := fun hh => h hh.symm
    simp [h, List.getElem?_set_ne this]

theorem node_at_lt (m : List (Option skiplist_node)) (p : Nat) (n : skiplist_node)
    (h : node_at m p = some n) : p < m.length := by
  unfold node_at at h
  by_contra hl
  have : m.length ≤ p := by omega
  simp [List.getElem?_eq_none this] at h

theorem node_at_append (m : List (Option skiplist_node)) (n : skiplist_node) (q : Nat) :
    node_at (m ++ [some n]) q = if q = m.length then some n else node_at m q := by
  unfold node_at
  by_cases h : q = m.length
  · subst h; simp
  · by_cases hl : q < m.length
    · simp [h, List.getElem?_append_left hl]
    · have h1 : m.length ≤ q := by omega
      have h2 : (m ++ [some n]).length ≤ q := by simp; omega
      simp [h, List.getElem?_eq_none h1, List.getElem?_eq_none h2]

theorem write_forward_spec (m m1 : List (Option skiplist_node)) (p i : Nat) (q : Option Nat)
    (h : write_forward m p i q = some m1) :
    m1.length = m.length ∧
    (∀ a j, read_forward m1 a j =
      if a = p ∧ j = i then some q else read_forward m a j) ∧
    (∀ a, (node_at m1 a).map (fun n => (n.key, n.value, n.forward.length)) =
      (node_at m a).map (fun n => (n.key, n.value, n.forward.length))) := by
  unfold write_forward at h
  cases hn : node_at m p with
  | none => simp [hn] at h
  | some n =>
    simp only [hn] at h
    by_cases hi : i < n.forward.length
    · simp only [hi, if_true, Option.some.injEq] at h
      subst h
      have hp := node_at_lt m p n hn
      refine ⟨by simp, ?_, ?_⟩
      · intro a j
        unfold read_forward
        rw [node_at_set]
        by_cases ha : a = p
        · subst ha
          simp only [hp, and_self, if_true, true_and, hn]
          by_cases hj : j = i
          · subst hj; simp [hi]
          · have : i ≠ j := fun hh => hj hh.symm
            simp [hj, List.getElem?_set_ne this]
        · simp [ha]
      · intro a
        rw [node_at_set]
        by_cases ha : a = p
        · subst ha; simp [hp, hn]
        · simp [ha]
    · simp [hi] at h

theorem write_forward_ok (m : List (Option skiplist_node)) (p i : Nat) (q : Option Nat)
    (n : skiplist_node) (hn : node_at m p = some n) (hi : i < n.forward.length) :
    ∃ m1, write_forward m p i q = some m1 := by
  simp [write_forward, hn, hi]

theorem read_forward_node (m : List (Option skiplist_node)) (p i : Nat) (r : Option Nat)
    (h : read_forward m p i = some r) :
    ∃ n, node_at m p = some n ∧ i < n.forward.length := by
  unfold read_forward at h
  cases hn : node_at m p with
  | none => simp [hn] at h
  | some n =>
    simp only [hn] at h
    refine ⟨n, rfl, ?_⟩
    by_contra hl
    have : n.forward.length ≤ i := by omega
    simp [List.getElem?_eq_none this] at h

/-! ### Chains -/

theorem chain_congr (m m1 : List (Option skiplist_node)) (j : Nat) (L : List Tower) (x : Nat)
    (h : ChainFrom m j x L)
    (hx : read_forward m1 x j = read_forward m x j)
    (hL : ∀ t ∈ L, read_forward m1 t.addr j = read_forward m t.addr j) :
    ChainFrom m1 j x L := by
  induction L generalizing x with
  | nil => simp only [ChainFrom] at h ⊢; rw [hx]; exact h
  | cons t L ih =>
    simp only [ChainFrom] at h ⊢
    refine ⟨by rw [hx]; exact h.1, ?_⟩
    exact ih t.addr h.2 (hL t (by simp)) (fun u hu => hL u (by simp [hu]))

theorem chain_suffix (m : List (Option skiplist_node)) (j : Nat) (A B : List Tower) (t : Tower)
    (x : Nat) (h : ChainFrom m j x (A ++ t :: B)) : ChainFrom m j t.addr B := by
  induction A generalizing x with
  | nil => simp only [List.nil_append, ChainFrom] at h; exact h.2
  | cons a A ih =>
    simp only [List.cons_append, ChainFrom] at h
    exact ih a.addr h.2

theorem lastOr_nil (d : Nat) : lastOr [] d = d := by simp [lastOr]

theorem lastOr_cons (t : Tower) (L : List Tower) (d : Nat) :
    lastOr (t :: L) d = lastOr L t.addr := by
  cases L with
  | nil => simp [lastOr]
  | cons u L =>
    simp only [lastOr, List.getLast?_cons_cons]
    cases h : (u :: L).getLast? with
    | none => simp at h
    | some w => rfl

theorem lastOr_append_cons (A B : List Tower) (t : Tower) (d : Nat) :
    lastOr (A ++ t :: B) d = lastOr B t.addr := by
  induction A generalizing d with
  | nil => simp [lastOr_cons]
  | cons a A ih => rw [List.cons_append, lastOr_cons, ih]

theorem chain_read_last (m : List (Option skiplist_node)) (j : Nat) (A B : List Tower) (x : Nat)
    (h : ChainFrom m j x (A ++ B)) :
    read_forward m (lastOr A x) j = some (B.head?.map Tower.addr) ∧
    ChainFrom m j (lastOr A x) B := by
  induction A generalizing x with
  | nil =>
    simp only [List.nil_append] at h
    rw [lastOr_nil]
    refine ⟨?_, h⟩
    cases B with
    | nil => simpa [ChainFrom] using h
    | cons b B => simp only [ChainFrom] at h; simp [h.1]
  | cons a A ih =>
    simp only [List.cons_append, ChainFrom] at h
    rw [lastOr_cons]
    exact ih a.addr h.2

theorem above_append (j : Nat) (A B : List Tower) : above j (A ++ B) = above j A ++ above j B := by
  simp [above]

theorem above_cons_pos (j : Nat) (t : Tower) (L : List Tower) (h : j < t.height) :
    above j (t :: L) = t :: above j L := by
  simp [above, h]

theorem above_cons_neg (j : Nat) (t : Tower) (L : List Tower) (h : ¬ j < t.height) :
    above j (t :: L) = above j L := by
  simp [above, h]

theorem above_nil (j : Nat) : above j [] = [] := rfl

theorem above_subset (j : Nat) (L : List Tower) (t : Tower) (h : t ∈ above j L) :
    t ∈ L ∧ j < t.height := by
  simpa [above] using h

theorem above_eq_nil (j : Nat) (L : List Tower) (h : ∀ t ∈ L, t.height ≤ j) : above j L = [] := by
  simp only [above, List.filter_eq_nil_iff]
  intro t ht
  have := h t ht
  simp; omega

theorem above_zero (L : List Tower) (h : ∀ t ∈ L, 1 ≤ t.height) : above 0 L = L := by
  simp only [above, List.filter_eq_self]
  intro t ht
  have := h t ht
  simp; omega

end Skiptable

/-! ### The descent -/

namespace Skiptable

theorem walk_spec (m : List (Option skiplist_node)) (key : Key) (i : Nat)
    (RLo RHi : List Tower) :
    ∀ (fuel x : Nat), (∀ t ∈ RLo ++ RHi, ∃ n, node_at m t.addr = some n ∧ n.key = t.key) →
      (∀ t ∈ RLo, t.key < key) → (∀ t ∈ RHi, ¬ t.key < key) →
      ChainFrom m i x (above i (RLo ++ RHi)) → (above i RLo).length < fuel →
      walk m key i fuel x = some (lastOr (above i RLo) x) := by
  induction RLo with
  | nil =>
    intro fuel x hn _ hhi hch hf
    obtain ⟨f, rfl⟩ : ∃ f, fuel = f + 1 := ⟨fuel - 1, by omega⟩
    simp only [List.nil_append] at hch hn
    rw [above_nil, lastOr_nil]
    cases hab : above i RHi with
    | nil =>
      rw [hab] at hch
      simp only [ChainFrom] at hch
      simp [walk, hch]
    | cons t L =>
      rw [hab] at hch
      simp only [ChainFrom] at hch
      have ht := above_subset i RHi t (by rw [hab]; simp)
      obtain ⟨n, hn1, hn2⟩ := hn t ht.1
      have hnl : ¬ strcmp n.key key = Ordering.lt := by
        rw [strcmp_lt_iff, hn2]; exact hhi t ht.1
      simp [walk, hch.1, hn1, hnl]
  | cons t RLo ih =>
    intro fuel x hn hlo hhi hch hf
    have hn' : ∀ u ∈ RLo ++ RHi, ∃ n, node_at m u.addr = some n ∧ n.key = u.key :=
      fun u hu => hn u (by simp at hu ⊢; tauto)
    have hlo' : ∀ u ∈ RLo, u.key < key := fun u hu => hlo u (by simp [hu])
    by_cases hh : i < t.height
    · obtain ⟨f, rfl⟩ : ∃ f, fuel = f + 1 := ⟨fuel - 1, by omega⟩
      rw [List.cons_append, above_cons_pos i t _ hh] at hch
      rw [above_cons_pos i t _ hh] at hf ⊢
      simp only [ChainFrom] at hch
      obtain ⟨n, hn1, hn2⟩ := hn t (by simp)
      have hl : strcmp n.key key = Ordering.lt := by
        rw [strcmp_lt_iff, hn2]; exact hlo t (by simp)
      rw [lastOr_cons]
      simp only [walk, hch.1, hn1, hl, if_true]
      exact ih f t.addr hn' hlo' hhi hch.2 (by simp at hf; omega)
    · rw [List.cons_append, above_cons_neg i t _ hh] at hch
      rw [above_cons_neg i t _ hh] at hf ⊢
      exact ih fuel x hn' hlo' hhi hch hf

theorem above_last_split (j : Nat) (L : List Tower) (t : Tower)
    (h : (above j L).getLast? = some t) :
    ∃ P R, L = P ++ t :: R ∧ j < t.height ∧ above j R = [] := by
  induction L using List.reverseRecOn with
  | nil => simp [above] at h
  | append_singleton L a ih =>
    rw [above_append] at h
    by_cases hh : j < a.height
    · rw [above_cons_pos j a [] hh, above_nil] at h
      simp at h
      subst h
      exact ⟨L, [], rfl, hh, rfl⟩
    · rw [above_cons_neg j a [] hh, above_nil, List.append_nil] at h
      obtain ⟨P, R, h1, h2, h3⟩ := ih h
      refine ⟨P, R ++ [a], by rw [h1]; simp, h2, ?_⟩
      rw [above_append, h3, above_cons_neg j a [] hh]
      rfl

theorem above_length_le (j : Nat) (L : List Tower) : (above j L).length ≤ L.length := by
  unfold above; exact List.length_filter_le _ _

theorem key_split (T : List Tower) (key : Key) (hs : T.Pairwise (fun a b => a.key < b.key)) :
    ∃ Lo Hi, T = Lo ++ Hi ∧ (∀ t ∈ Lo, t.key < key) ∧ (∀ t ∈ Hi, key ≤ t.key) := by
  induction T with
  | nil => exact ⟨[], [], rfl, by simp, by simp⟩
  | cons t T ih =>
    rw [List.pairwise_cons] at hs
    by_cases h : t.key < key
    · obtain ⟨Lo, Hi, h1, h2, h3⟩ := ih hs.2
      refine ⟨t :: Lo, Hi, by rw [h1]; simp, ?_, h3⟩
      intro u hu
      simp only [List.mem_cons] at hu
      rcases hu with hu | hu
      · rw [hu]; exact h
      · exact h2 u hu
    · refine ⟨[], t :: T, rfl, by simp, ?_⟩
      intro u hu
      simp only [List.mem_cons] at hu
      rcases hu with hu | hu
      · rw [hu]; exact not_lt.1 h
      · exact le_of_lt (lt_of_le_of_lt (not_lt.1 h) (hs.1 u hu))

theorem descend_spec (s : skiplist) (T : List Tower) (hinv : SInv s T) (key : Key)
    (Lo Hi : List Tower) (hT : T = Lo ++ Hi) (hlo : ∀ t ∈ Lo, t.key < key)
    (hhi : ∀ t ∈ Hi, ¬ t.key < key) :
    ∀ i, i ≤ MAX_LEVEL →
      descend s.nodes key (s.nodes.length + 1) i (lastOr (above i Lo) s.header) =
        some (lastOr (above 0 Lo) s.header,
          (List.range i).map (fun j => lastOr (above j Lo) s.header)) := by
  intro i
  induction i with
  | zero => intro _; simp [descend]
  | succ i ih =>
    intro hi
    have hnodes : ∀ t ∈ T, ∃ n, node_at s.nodes t.addr = some n ∧ n.key = t.key := by
      intro t ht
      obtain ⟨n, h1, h2, -⟩ := hinv.towers t ht
      exact ⟨n, h1, h2⟩
    have hchain := hinv.chains i (by omega)
    have hsize := hinv.size
    have hwalk : walk s.nodes key i (s.nodes.length + 1) (lastOr (above (i + 1) Lo) s.header) =
        some (lastOr (above i Lo) s.header) := by
      cases hlast : (above (i + 1) Lo).getLast? with
      | none =>
        have hnil : above (i + 1) Lo = [] := List.getLast?_eq_none_iff.1 hlast
        rw [hnil, lastOr_nil]
        refine walk_spec s.nodes key i Lo Hi _ _ (by rw [← hT]; exact hnodes) hlo hhi
          (by rw [← hT]; exact hchain) ?_
        have := above_length_le i Lo
        have : Lo.length ≤ T.length := by rw [hT]; simp
        omega
      | some t =>
        obtain ⟨P, R, h1, h2, h3⟩ := above_last_split (i + 1) Lo t hlast
        have hi2 : i < t.height := by omega
        have e1 : lastOr (above (i + 1) Lo) s.header = t.addr := by
          simp [lastOr, hlast]
        have e2 : lastOr (above i Lo) s.header = lastOr (above i R) t.addr := by
          rw [h1, above_append, above_cons_pos i t R hi2, lastOr_append_cons]
        rw [e1, e2]
        have hch2 : ChainFrom s.nodes i t.addr (above i (R ++ Hi)) := by
          rw [hT, h1] at hchain
          rw [List.append_assoc, above_append, List.cons_append,
            above_cons_pos i t _ hi2] at hchain
          exact chain_suffix s.nodes i _ _ t _ hchain
        refine walk_spec s.nodes key i R Hi _ _ ?_ ?_ hhi hch2 ?_
        · intro u hu
          exact hnodes u (by rw [hT, h1]; simp at hu ⊢; tauto)
        · intro u hu
          exact hlo u (by rw [h1]; simp [hu])
        · have := above_length_le i R
          have : R.length ≤ T.length := by rw [hT, h1]; simp; omega
          omega
    simp only [descend, hwalk, ih (by omega)]
    simp [List.range_succ]

theorem sl_locate (s : skiplist) (T : List Tower) (hinv : SInv s T) (key : Key) :
    ∃ Lo Hi, T = Lo ++ Hi ∧ (∀ t ∈ Lo, t.key < key) ∧ (∀ t ∈ Hi, key ≤ t.key) ∧
      descend s.nodes key (s.nodes.length + 1) s.level s.header =
        some (lastOr Lo s.header,
          (List.range s.level).map (fun j => lastOr (above j Lo) s.header)) ∧
      read_forward s.nodes (lastOr Lo s.header) 0 = some (Hi.head?.map Tower.addr) ∧
      ChainFrom s.nodes 0 (lastOr Lo s.header) Hi := by
  obtain ⟨Lo, Hi, h1, h2, h3⟩ := key_split T key hinv.sorted
  have hheights : ∀ t ∈ T, 1 ≤ t.height ∧ t.height ≤ s.level := by
    intro t ht
    obtain ⟨n, -, -, -, -, q1, q2, -⟩ := hinv.towers t ht
    exact ⟨q1, q2⟩
  have htop : above s.level Lo = [] :=
    above_eq_nil _ _ (fun t ht => (hheights t (by rw [h1]; simp [ht])).2)
  have hzero : above 0 Lo = Lo :=
    above_zero _ (fun t ht => (hheights t (by rw [h1]; simp [ht])).1)
  have hzeroT : above 0 T = T := above_zero _ (fun t ht => (hheights t ht).1)
  have hd := descend_spec s T hinv key Lo Hi h1 h2 (fun t ht => not_lt.2 (h3 t ht)) s.level
    hinv.level_le
  rw [htop, lastOr_nil, hzero] at hd
  have hc := hinv.chains 0 (by simp [MAX_LEVEL])
  rw [hzeroT, h1] at hc
  have hr := chain_read_last s.nodes 0 Lo Hi s.header hc
  exact ⟨Lo, Hi, h1, h2, h3, hd, hr.1, hr.2⟩

end Skiptable

/-! ### Skip-list search -/

namespace Skiptable

/-- Where the common first loop ends, and what the test behind it sees. -/
theorem sl_find (s : skiplist) (T : List Tower) (hinv : SInv s T) (key : Key) :
    ∃ Lo Hi, T = Lo ++ Hi ∧ (∀ t ∈ Lo, t.key < key) ∧
      descend s.nodes key (s.nodes.length + 1) s.level s.header =
        some (lastOr Lo s.header,
          (List.range s.level).map (fun j => lastOr (above j Lo) s.header)) ∧
      ((∃ t Hi1 n, Hi = t :: Hi1 ∧ t.key = key ∧
          read_forward s.nodes (lastOr Lo s.header) 0 = some (some t.addr) ∧
          node_at s.nodes t.addr = some n ∧ strcmp n.key key = Ordering.eq ∧
          n.value = some t.val ∧ n.forward.length = t.height) ∨
        ((∀ t ∈ Hi, key < t.key) ∧
          (read_forward s.nodes (lastOr Lo s.header) 0 = some none ∨
            ∃ y n, read_forward s.nodes (lastOr Lo s.header) 0 = some (some y) ∧
              node_at s.nodes y = some n ∧ ¬ strcmp n.key key = Ordering.eq))) := by
  obtain ⟨Lo, Hi, h1, h2, h3, h4, h5, -⟩ := sl_locate s T hinv key
  refine ⟨Lo, Hi, h1, h2, h4, ?_⟩
  cases Hi with
  | nil => exact Or.inr ⟨by simp, Or.inl (by simpa using h5)⟩
  | cons t Hi1 =>
    obtain ⟨n, q1, q2, q3, q4, -⟩ := hinv.towers t (by rw [h1]; simp)
    have hr : read_forward s.nodes (lastOr Lo s.header) 0 = some (some t.addr) := by
      simpa using h5
    by_cases hk : t.key = key
    · exact Or.inl ⟨t, Hi1, n, rfl, hk, hr, q1, by rw [strcmp_eq_iff, q2, hk], q3, q4⟩
    · right
      have hs := hinv.sorted
      rw [h1, List.pairwise_append, List.pairwise_cons] at hs
      have hlt : key < t.key := lt_of_le_of_ne (h3 t (by simp)) (fun hh => hk hh.symm)
      refine ⟨?_, Or.inr ⟨t.addr, n, hr, q1, by rw [strcmp_eq_iff, q2]; exact hk⟩⟩
      intro u hu
      simp only [List.mem_cons] at hu
      rcases hu with hu | hu
      · rw [hu]; exact hlt
      · exact lt_trans hlt (hs.2.1.1 u hu)

theorem search_spec (s : skiplist) (T : List Tower) (hinv : SInv s T) (key : Key) :
    (∀ t ∈ T, t.key = key → skiplist_search s (some key) = some (some t.addr)) ∧
    ((∀ t ∈ T, t.key ≠ key) → skiplist_search s (some key) = some none) := by
  obtain ⟨Lo, Hi, h1, h2, h3, h4⟩ := sl_find s T hinv key
  rcases h4 with ⟨t, Hi1, n, e1, e2, e3, e4, e5, -⟩ | ⟨e1, e2⟩
  · have hfound : skiplist_search s (some key) = some (some t.addr) := by
      simp [skiplist_search, h3, e3, e4, e5]
    refine ⟨?_, ?_⟩
    · intro u hu huk
      have hut : u = t := by
        have hs := hinv.sorted
        rw [h1, e1, List.pairwise_append, List.pairwise_cons] at hs
        rw [h1, e1] at hu
        simp only [List.mem_append, List.mem_cons] at hu
        rcases hu with hu | hu | hu
        · have := h2 u hu; rw [huk] at this; exact absurd this (lt_irrefl _)
        · exact hu
        · have := hs.2.1.1 u hu; rw [e2, huk] at this; exact absurd this (lt_irrefl _)
      rw [hut]; exact hfound
    · intro hne
      exact absurd e2 (hne t (by rw [h1, e1]; simp))
  · have hnone : skiplist_search s (some key) = some none := by
      rcases e2 with e2 | ⟨y, n, e2, e3, e4⟩
      · simp [skiplist_search, h3, e2]
      · simp [skiplist_search, h3, e2, e3, e4]
    refine ⟨?_, fun _ => hnone⟩
    intro u hu huk
    rw [h1] at hu
    simp only [List.mem_append] at hu
    rcases hu with hu | hu
    · have := h2 u hu; rw [huk] at this; exact absurd this (lt_irrefl _)
    · have := e1 u hu; rw [huk] at this; exact absurd this (lt_irrefl _)

theorem get_spec (s : skiplist) (T : List Tower) (hinv : SInv s T) (key : Key) :
    (∀ t ∈ T, t.key = key → kvs_skiptable_get s (some key) = some (some t.val)) ∧
    ((∀ t ∈ T, t.key ≠ key) → kvs_skiptable_get s (some key) = some none) := by
  have hs := search_spec s T hinv key
  refine ⟨?_, ?_⟩
  · intro t ht hk
    obtain ⟨n, q1, -, q3, -⟩ := hinv.towers t ht
    simp [kvs_skiptable_get, hs.1 t ht hk, q1, q3]
  · intro hne
    simp [kvs_skiptable_get, hs.2 hne]

end Skiptable

/-! ### Skip-list modify -/

namespace Skiptable

theorem read_forward_set_same (m : List (Option skiplist_node)) (p : Nat)
    (n n1 : skiplist_node) (hn : node_at m p = some n) (hf : n1.forward = n.forward) :
    ∀ a j, read_forward (m.set p (some n1)) a j = read_forward m a j := by
  intro a j
  unfold read_forward
  rw [node_at_set]
  by_cases ha : a = p
  · subst ha
    simp [node_at_lt m a n hn, hn, hf]
  · simp [ha]

theorem chain_addr (m : List (Option skiplist_node)) (j : Nat) (L L1 : List Tower) (x : Nat)
    (h : L.map Tower.addr = L1.map Tower.addr) (hc : ChainFrom m j x L) : ChainFrom m j x L1 := by
  induction L generalizing x L1 with
  | nil =>
    cases L1 with
    | nil => exact hc
    | cons b L1 => simp at h
  | cons a L ih =>
    cases L1 with
    | nil => simp at h
    | cons b L1 =>
      simp only [List.map_cons, List.cons.injEq] at h
      simp only [ChainFrom] at hc ⊢
      rw [← h.1]
      exact ⟨hc.1, ih L1 a.addr h.2 hc.2⟩

theorem above_map_addr (j : Nat) (Lo Hi : List Tower) (t t1 : Tower) (ha : t1.addr = t.addr)
    (hh : t1.height = t.height) :
    (above j (Lo ++ t :: Hi)).map Tower.addr = (above j (Lo ++ t1 :: Hi)).map Tower.addr := by
  rw [above_append, above_append]
  by_cases h : j < t.height
  · rw [above_cons_pos j t Hi h, above_cons_pos j t1 Hi (by rw [hh]; exact h)]
    simp [ha]
  · rw [above_cons_neg j t Hi h, above_cons_neg j t1 Hi (by rw [hh]; exact h)]

theorem nodup_addr_ne (Lo Hi : List Tower) (t u : Tower)
    (hnd : ((Lo ++ t :: Hi).map Tower.addr).Nodup) (hu : u ∈ Lo ∨ u ∈ Hi) : u.addr ≠ t.addr := by
  rw [List.map_append, List.map_cons, List.nodup_append] at hnd
  obtain ⟨-, h2, h3⟩ := hnd
  rw [List.nodup_cons] at h2
  rcases hu with hu | hu
  · intro heq
    exact h3 (List.mem_map_of_mem Tower.addr hu) (by rw [heq]; simp)
  · intro heq
    exact h2.1 (by rw [← heq]; exact List.mem_map_of_mem Tower.addr hu)

theorem sl_modify_spec (s : skiplist) (T : List Tower) (hinv : SInv s T) (key : Key) (v : Val) :
    (∀ Lo t Hi1, T = Lo ++ t :: Hi1 → t.key = key →
      ∃ s1, skiplist_modify s (some key) (some v) = some (0, s1) ∧
        SInv s1 (Lo ++ { t with val := v } :: Hi1) ∧ s1.count = s.count ∧
        s1.level = s.level) ∧
    ((∀ t ∈ T, t.key ≠ key) → skiplist_modify s (some key) (some v) = some (-1, s)) := by
  have hs := search_spec s T hinv key
  refine ⟨?_, ?_⟩
  · intro Lo t Hi1 hT hk
    have ht : t ∈ T := by rw [hT]; simp
    obtain ⟨n, q1, q2, q3, q4, q5, q6, q7⟩ := hinv.towers t ht
    have hlt := node_at_lt s.nodes t.addr n q1
    refine ⟨{ s with nodes := s.nodes.set t.addr (some { n with value := some v }) }, ?_, ?_,
      rfl, rfl⟩
    · simp [skiplist_modify, hs.1 t ht hk, q1]
    · have hrd := read_forward_set_same s.nodes t.addr n { n with value := some v } q1 rfl
      constructor
      · exact hinv.level_pos
      · exact hinv.level_le
      · obtain ⟨hn, h1, h2⟩ := hinv.header_node
        refine ⟨hn, ?_, h2⟩
        simp only
        rw [node_at_set]
        have : ¬ (s.header = t.addr ∧ t.addr < s.nodes.length) := fun hh => q7 hh.1.symm
        simp only [this, if_false]
        exact h1
      · intro u hu
        simp only [List.mem_append, List.mem_cons] at hu
        simp only
        rw [node_at_set]
        rcases hu with hu | hu | hu
        · have hne := nodup_addr_ne Lo Hi1 t u (by rw [← hT]; exact hinv.nodup) (Or.inl hu)
          simp only [hne, false_and, if_false]
          exact hinv.towers u (by rw [hT]; simp [hu])
        · subst hu
          simp only [true_and, hlt, if_true]
          exact ⟨_, rfl, q2, rfl, q4, q5, q6, q7⟩
        · have hne := nodup_addr_ne Lo Hi1 t u (by rw [← hT]; exact hinv.nodup) (Or.inr hu)
          simp only [hne, false_and, if_false]
          exact hinv.towers u (by rw [hT]; simp [hu])
      · have := hinv.nodup
        rw [hT] at this
        simpa using this
      · have := hinv.sorted
        rw [hT, List.pairwise_append, List.pairwise_cons] at this
        rw [List.pairwise_append, List.pairwise_cons]
        refine ⟨this.1, ⟨this.2.1.1, this.2.1.2⟩, ?_⟩
        intro a ha b hb
        simp only [List.mem_cons] at hb
        rcases hb with hb | hb
        · rw [hb]; exact this.2.2 a ha t (by simp)
        · exact this.2.2 a ha b (by simp [hb])
      · intro j hj
        have hc := hinv.chains j hj
        rw [hT] at hc
        have hc2 := chain_addr s.nodes j _ _ s.header
          (above_map_addr j Lo Hi1 t { t with val := v } rfl rfl) hc
        exact chain_congr s.nodes _ j _ s.header hc2 (hrd _ _) (fun u _ => hrd _ _)
      · have := hinv.size
        rw [hT] at this
        simpa using this
      · intro p n1 hp
        simp only at hp
        rw [node_at_set] at hp
        by_cases hpp : p = t.addr
        · right; rw [hpp]; simp
        · simp only [hpp, false_and, if_false] at hp
          rcases hinv.alloc p n1 hp with h | h
          · exact Or.inl h
          · right
            rw [hT] at h
            simpa using h
  · intro hne
    simp [skiplist_modify, hs.2 hne]

end Skiptable

/-! ### Splice -/

namespace Skiptable

theorem random_level_loop_bounds (rand : Nat → Nat) (fuel : Nat) :
    ∀ calls level, level ≤ MAX_LEVEL →
      level ≤ (random_level_loop rand fuel calls level).1 ∧
      (random_level_loop rand fuel calls level).1 ≤ MAX_LEVEL := by
  induction fuel with
  | zero => intro calls level h; simp [random_level_loop, h]
  | succ f ih =>
    intro calls level h
    simp only [random_level_loop]
    by_cases hc : 2 * (rand calls % 65536) < 65535 ∧ level < MAX_LEVEL
    · simp only [hc, and_self, if_true]
      have := ih (calls + 1) (level + 1) (by omega)
      exact ⟨by omega, this.2⟩
    · simp only [hc, if_false]
      exact ⟨Nat.le_refl _, h⟩

theorem random_level_bounds (rand : Nat → Nat) :
    1 ≤ random_level rand ∧ random_level rand ≤ MAX_LEVEL := by
  unfold random_level
  exact random_level_loop_bounds rand MAX_LEVEL 0 1 (by simp [MAX_LEVEL])

theorem lastOr_mem (A : List Tower) (d : Nat) : lastOr A d = d ∨ lastOr A d ∈ A.map Tower.addr := by
  induction A generalizing d with
  | nil => left; exact lastOr_nil d
  | cons a A ih =>
    rw [lastOr_cons]
    right
    rcases ih a.addr with h | h
    · rw [h]; simp
    · simp only [List.map_cons, List.mem_cons]; right; exact h

theorem chain_insert (m m2 : List (Option skiplist_node)) (i : Nat) (A B : List Tower)
    (nt : Tower) :
    ∀ (h : Nat), ChainFrom m i h (A ++ B) →
      (h :: (A ++ B).map Tower.addr).Nodup → nt.addr ∉ h :: (A ++ B).map Tower.addr →
      (∀ a, a ≠ nt.addr → a ≠ lastOr A h → read_forward m2 a i = read_forward m a i) →
      read_forward m2 (lastOr A h) i = some (some nt.addr) →
      read_forward m2 nt.addr i = some (B.head?.map Tower.addr) →
      ChainFrom m2 i h (A ++ nt :: B) := by
  induction A with
  | nil =>
    intro h hc hnd hpn hr hu hpr
    simp only [List.nil_append] at hc hnd hpn ⊢
    rw [lastOr_nil] at hu hr
    simp only [ChainFrom]
    refine ⟨hu, ?_⟩
    cases B with
    | nil => simpa [ChainFrom] using hpr
    | cons b B =>
      simp only [ChainFrom] at hc ⊢
      simp only [List.head?_cons, Option.map_some'] at hpr
      refine ⟨hpr, ?_⟩
      simp only [List.map_cons, List.nodup_cons, List.mem_cons, not_or] at hnd hpn
      refine chain_congr m m2 i B b.addr hc.2 (hr _ (fun hh => hpn.2.1 hh.symm)
        (fun hh => hnd.1.1 hh.symm)) ?_
      intro t ht
      have hta : t.addr ∈ B.map Tower.addr := List.mem_map_of_mem Tower.addr ht
      refine hr _ ?_ ?_
      · intro hh; exact hpn.2.2 (by rw [← hh]; exact hta)
      · intro hh; exact hnd.1.2 (by rw [← hh]; exact hta)
  | cons a A ih =>
    intro h hc hnd hpn hr hu hpr
    simp only [List.cons_append, ChainFrom] at hc ⊢
    rw [lastOr_cons] at hu hr
    simp only [List.cons_append, List.map_cons, List.nodup_cons, List.mem_cons, not_or] at hnd hpn
    have hlast := lastOr_mem A a.addr
    have hne : h ≠ lastOr A a.addr := by
      rcases hlast with hl | hl
      · rw [hl]; exact fun hh => hnd.1.1 hh
      · intro hh
        refine hnd.1.2 ?_
        rw [hh, List.map_append]
        exact List.mem_append_left _ hl
    refine ⟨?_, ih a.addr hc.2 ?_ ?_ hr hu hpr⟩
    · rw [hr h (fun hh => hpn.1 hh.symm) hne]; exact hc.1
    · rw [List.nodup_cons]; exact hnd.2
    · simp only [List.mem_cons, not_or]; exact hpn.2

/-- The state of the splice loop of `skiplist_insert` before round `i`. -/
theorem splice_loop_spec (m0 : List (Option skiplist_node)) (header : Nat) (Lo Hi : List Tower)
    (nt : Tower) (update : List Nat)
    (hupd : ∀ j, j < nt.height → update[j]? = some (lastOr (above j Lo) header))
    (hnd : (header :: (Lo ++ Hi).map Tower.addr).Nodup)
    (hpn : nt.addr ∉ header :: (Lo ++ Hi).map Tower.addr)
    (hnew : ∃ n, node_at m0 nt.addr = some n ∧ n.forward.length = nt.height)
    (hle : nt.height ≤ MAX_LEVEL) :
    ∀ n i m, i + n = nt.height → m.length = m0.length →
      (∀ a, (node_at m a).map (fun n => (n.key, n.value, n.forward.length)) =
        (node_at m0 a).map (fun n => (n.key, n.value, n.forward.length))) →
      (∀ j, j < MAX_LEVEL → ChainFrom m j header
        (if j < i then above j (Lo ++ nt :: Hi) else above j (Lo ++ Hi))) →
      ∃ m1, splice_loop nt.addr update n i m = some m1 ∧ m1.length = m0.length ∧
        (∀ a, (node_at m1 a).map (fun n => (n.key, n.value, n.forward.length)) =
          (node_at m0 a).map (fun n => (n.key, n.value, n.forward.length))) ∧
        (∀ j, j < MAX_LEVEL → ChainFrom m1 j header (above j (Lo ++ nt :: Hi))) := by
  intro n
  induction n with
  | zero =>
    intro i m hi hlen hnode hch
    refine ⟨m, by simp [splice_loop], hlen, hnode, ?_⟩
    intro j hj
    have := hch j hj
    by_cases hji : j < i
    · simpa [hji] using this
    · simp only [hji, if_false] at this
      have hh : ¬ j < nt.height := by omega
      rw [above_append, above_cons_neg j nt Hi hh, ← above_append]
      exact this
  | succ n ih =>
    intro i m hi hlen hnode hch
    have hil : i < nt.height := by omega
    have hu := hupd i hil
    have hci := hch i (by omega)
    simp only [Nat.lt_irrefl, if_false, above_append] at hci
    obtain ⟨hrd, -⟩ := chain_read_last m i (above i Lo) (above i Hi) header hci
    -- the two writes
    obtain ⟨nn, hn1, hn2⟩ := hnew
    have hpm : ∃ np, node_at m nt.addr = some np ∧ i < np.forward.length := by
      have := hnode nt.addr
      rw [hn1] at this
      cases hq : node_at m nt.addr with
      | none => rw [hq] at this; simp at this
      | some np =>
        rw [hq] at this
        simp only [Option.map_some', Option.some.injEq, Prod.mk.injEq] at this
        exact ⟨np, rfl, by omega⟩
    obtain ⟨np, hp1, hp2⟩ := hpm
    obtain ⟨m1, hw1⟩ := write_forward_ok m nt.addr i
      ((above i Hi).head?.map Tower.addr) np hp1 hp2
    obtain ⟨w1a, w1b, w1c⟩ := write_forward_spec _ _ _ _ _ hw1
    obtain ⟨nu, hu1, hu2⟩ := read_forward_node m _ i _ hrd
    have hum1 : ∃ nu1, node_at m1 (lastOr (above i Lo) header) = some nu1 ∧
        i < nu1.forward.length := by
      have := w1c (lastOr (above i Lo) header)
      rw [hu1] at this
      cases hq : node_at m1 (lastOr (above i Lo) header) with
      | none => rw [hq] at this; simp at this
      | some nu1 =>
        rw [hq] at this
        simp only [Option.map_some', Option.some.injEq, Prod.mk.injEq] at this
        exact ⟨nu1, rfl, by omega⟩
    obtain ⟨nu1, hu3, hu4⟩ := hum1
    obtain ⟨m2, hw2⟩ := write_forward_ok m1 (lastOr (above i Lo) header) i (some nt.addr)
      nu1 hu3 hu4
    obtain ⟨w2a, w2b, w2c⟩ := write_forward_spec _ _ _ _ _ hw2
    have hune : lastOr (above i Lo) header ≠ nt.addr := by
      intro hh
      apply hpn
      rw [← hh]
      rcases lastOr_mem (above i Lo) header with hl | hl
      · rw [hl]; simp
      · simp only [List.mem_cons]; right
        obtain ⟨t, ht1, ht2⟩ := List.mem_map.1 hl
        rw [← ht2]
        exact List.mem_map_of_mem Tower.addr
          (List.mem_append_left _ (above_subset i Lo t ht1).1)
    have hstep := ih (i + 1) m2 (by omega) (by rw [w2a, w1a, hlen])
      (fun a => by rw [w2c, w1c, hnode]) ?_
    · obtain ⟨m3, e1, e2, e3, e4⟩ := hstep
      refine ⟨m3, ?_, e2, e3, e4⟩
      simp only [splice_loop, hu, hrd, hw1, hw2, e1]
    · intro j hj
      by_cases hji : j = i
      · subst hji
        simp only [Nat.lt_succ_self, if_true]
        rw [above_append, above_cons_pos j nt Hi hil]
        have hsub : ∀ L : List Tower, (above j L).map Tower.addr ⊆ L.map Tower.addr := by
          intro L a ha
          obtain ⟨t, ht1, ht2⟩ := List.mem_map.1 ha
          rw [← ht2]
          exact List.mem_map_of_mem Tower.addr (above_subset j L t ht1).1
        refine chain_insert m m2 j (above j Lo) (above j Hi) nt header hci ?_ ?_ ?_ ?_ ?_
        · rw [List.nodup_cons] at hnd ⊢
          refine ⟨fun hh => hnd.1 ?_, ?_⟩
          · rw [← above_append] at hh; exact hsub _ hh
          · rw [← above_append]
            unfold above
            exact (List.Nodup.sublist (List.Sublist.map _ (List.filter_sublist _)) hnd.2)
        · intro hh
          apply hpn
          simp only [List.mem_cons] at hh ⊢
          rcases hh with hh | hh
          · exact Or.inl hh
          · right; rw [← above_append] at hh; exact hsub _ hh
        · intro a ha1 ha2
          rw [w2b, w1b]
          simp [ha1, ha2]
        · rw [w2b]; simp
        · rw [w2b, w1b]
          simp [hune.symm]
      · have hrd2 : ∀ a, read_forward m2 a j = read_forward m a j := by
          intro a
          rw [w2b, w1b]
          simp [hji]
        have hc := hch j hj
        have hcase : (if j < i + 1 then above j (Lo ++ nt :: Hi) else above j (Lo ++ Hi)) =
            (if j < i then above j (Lo ++ nt :: Hi) else above j (Lo ++ Hi)) := by
          by_cases h1 : j < i
          · have : j < i + 1 := by omega
            simp [h1, this]
          · have : ¬ j < i + 1 := by omega
            simp [h1, this]
        rw [hcase]
        exact chain_congr m m2 j _ header hc (hrd2 _) (fun t _ => hrd2 _)

end Skiptable

/-! ### Skip-list insert -/

namespace Skiptable

theorem read_forward_append (m : List (Option skiplist_node)) (n : skiplist_node) (a j : Nat)
    (h : a ≠ m.length) : read_forward (m ++ [some n]) a j = read_forward m a j := by
  unfold read_forward
  rw [node_at_append]
  simp [h]

theorem inv_addr_lt (s : skiplist) (T : List Tower) (hinv : SInv s T) :
    s.header < s.nodes.length ∧ ∀ t ∈ T, t.addr < s.nodes.length := by
  obtain ⟨n, h1, -⟩ := hinv.header_node
  refine ⟨node_at_lt _ _ _ h1, ?_⟩
  intro t ht
  obtain ⟨n, q1, -⟩ := hinv.towers t ht
  exact node_at_lt _ _ _ q1

theorem inv_nodup_header (s : skiplist) (T : List Tower) (hinv : SInv s T) :
    (s.header :: T.map Tower.addr).Nodup := by
  rw [List.nodup_cons]
  refine ⟨?_, hinv.nodup⟩
  intro hh
  obtain ⟨t, ht1, ht2⟩ := List.mem_map.1 hh
  obtain ⟨n, -, -, -, -, -, -, q7⟩ := hinv.towers t ht1
  exact q7 ht2

theorem update_slots (s : skiplist) (T : List Tower) (hinv : SInv s T) (Lo Hi : List Tower)
    (hT : T = Lo ++ Hi) (lvl : Nat) :
    ∀ j, j < lvl →
      (if s.level < lvl then
          (List.range s.level).map (fun j => lastOr (above j Lo) s.header) ++
            List.replicate (lvl - s.level) s.header
        else (List.range s.level).map (fun j => lastOr (above j Lo) s.header))[j]? =
        some (lastOr (above j Lo) s.header) := by
  intro j hj
  by_cases hjl : j < s.level
  · have h1 : ((List.range s.level).map (fun j => lastOr (above j Lo) s.header))[j]? =
        some (lastOr (above j Lo) s.header) := by
      simp [List.getElem?_map, List.getElem?_range hjl]
    by_cases hc : s.level < lvl
    · simp only [hc, if_true]
      rw [List.getElem?_append_left (by simpa using hjl)]
      exact h1
    · simp only [hc, if_false]
      exact h1
  · have hc : s.level < lvl := by omega
    simp only [hc, if_true]
    rw [List.getElem?_append_right (by simp; omega)]
    have htop : above j Lo = [] := by
      apply above_eq_nil
      intro t ht
      obtain ⟨n, -, -, -, -, -, q6, -⟩ := hinv.towers t (by rw [hT]; simp [ht])
      omega
    rw [htop, lastOr_nil]
    simp only [List.length_map, List.length_range]
    rw [List.getElem?_replicate]
    have : j - s.level < lvl - s.level := by omega
    simp [this]

theorem insert_spec (s : skiplist) (T : List Tower) (hinv : SInv s T) (key : Key) (value : Val)
    (rand : Nat → Nat) (ok : Bool) :
    ((∃ t ∈ T, t.key = key) →
      skiplist_insert s (some key) (some value) rand ok = some (1, s)) ∧
    ((∀ t ∈ T, t.key ≠ key) →
      ∃ Lo Hi, T = Lo ++ Hi ∧ (∀ t ∈ Lo, t.key < key) ∧ (∀ t ∈ Hi, key < t.key) ∧
        (ok = true → ∃ s1, skiplist_insert s (some key) (some value) rand ok = some (0, s1) ∧
          SInv s1 (Lo ++ ⟨s.nodes.length, key, value, random_level rand⟩ :: Hi) ∧
          s1.count = s.count) ∧
        (ok = false → ∃ s1, skiplist_insert s (some key) (some value) rand ok = some (-1, s1) ∧
          SInv s1 T ∧ s1.count = s.count ∧ s1.nodes = s.nodes)) := by
  obtain ⟨Lo, Hi, h1, h2, h3, h4⟩ := sl_find s T hinv key
  have hrl := random_level_bounds rand
  rcases h4 with ⟨t, Hi1, n, e1, e2, e3, e4, e5, -⟩ | ⟨e1, e2⟩
  · refine ⟨fun _ => ?_, fun hne => absurd e2 (hne t (by rw [h1, e1]; simp))⟩
    simp [skiplist_insert, h3, e3, e4, e5]
  · refine ⟨?_, fun _ => ⟨Lo, Hi, h1, h2, e1, ?_, ?_⟩⟩
    · rintro ⟨t, ht, hk⟩
      rw [h1] at ht
      simp only [List.mem_append] at ht
      rcases ht with ht | ht
      · have := h2 t ht; rw [hk] at this; exact absurd this (lt_irrefl _)
      · have := e1 t ht; rw [hk] at this; exact absurd this (lt_irrefl _)
    · -- the node is allocated and spliced in
      intro hok
      subst hok
      have hlt := inv_addr_lt s T hinv
      have hndh := inv_nodup_header s T hinv
      let nt : Tower := ⟨s.nodes.length, key, value, random_level rand⟩
      let nn : skiplist_node :=
        { key := key, value := some value, forward := List.replicate (random_level rand) none }
      have hpn : nt.addr ∉ s.header :: (Lo ++ Hi).map Tower.addr := by
        intro hh
        simp only [List.mem_cons] at hh
        rcases hh with hh | hh
        · have : s.nodes.length = s.header := hh
          omega
        · obtain ⟨t, ht1, ht2⟩ := List.mem_map.1 hh
          have := hlt.2 t (by rw [h1]; exact ht1)
          have : t.addr = s.nodes.length := ht2
          omega
      have hrd0 : ∀ a j, a ≠ s.nodes.length →
          read_forward (s.nodes ++ [some nn]) a j = read_forward s.nodes a j :=
        fun a j ha => read_forward_append s.nodes nn a j ha
      have hsp := splice_loop_spec (s.nodes ++ [some nn]) s.header Lo Hi nt _
        (update_slots s T hinv Lo Hi h1 (random_level rand))
        (by rw [← h1]; exact hndh) hpn
        ⟨nn, by rw [node_at_append]; simp [nt], by simp [nn, nt]⟩ hrl.2
        (random_level rand) 0 (s.nodes ++ [some nn]) (by simp [nt]) rfl (fun _ => rfl) ?_
      · obtain ⟨m1, f1, f2, f3, f4⟩ := hsp
        have hnode : ∀ a n1, node_at s.nodes a = some n1 →
            ∃ n2, node_at m1 a = some n2 ∧ n2.key = n1.key ∧ n2.value = n1.value ∧
              n2.forward.length = n1.forward.length := by
          intro a n1 ha
          have hal := node_at_lt _ _ _ ha
          have := f3 a
          rw [node_at_append] at this
          have hne : a ≠ s.nodes.length := by omega
          simp only [hne, if_false, ha, Option.map_some'] at this
          cases hq : node_at m1 a with
          | none => rw [hq] at this; simp at this
          | some n2 =>
            rw [hq] at this
            simp only [Option.map_some', Option.some.injEq, Prod.mk.injEq] at this
            exact ⟨n2, rfl, this.1, this.2.1, this.2.2⟩
        refine ⟨{ s with level := if s.level < random_level rand then random_level rand
            else s.level, nodes := m1 }, ?_, ?_, rfl⟩
        · have hpres : read_forward s.nodes (lastOr Lo s.header) 0 = some none ∨
              ∃ y n, read_forward s.nodes (lastOr Lo s.header) 0 = some (some y) ∧
                node_at s.nodes y = some n ∧ ¬ strcmp n.key key = Ordering.eq := e2
          rcases hpres with e2 | ⟨y, n, e2, e3, e4⟩
          · simp only [skiplist_insert, h3, e2, create_node, if_true]
            simp only [nt] at f1
            simp [f1]
          · simp only [skiplist_insert, h3, e2, e3, e4, create_node, if_true, decide_False]
            simp only [nt] at f1
            simp [f1]
        · constructor
          · simp only; split <;> omega
          · simp only; split
            · exact hrl.2
            · exact hinv.level_le
          · obtain ⟨hn, q1, q2⟩ := hinv.header_node
            obtain ⟨n2, r1, -, -, r4⟩ := hnode _ _ q1
            exact ⟨n2, r1, by rw [r4, q2]⟩
          · intro u hu
            simp only [List.mem_append, List.mem_cons] at hu
            have hold : u ∈ T → ∃ n, node_at m1 u.addr = some n ∧ n.key = u.key ∧
                n.value = some u.val ∧ n.forward.length = u.height ∧ 1 ≤ u.height ∧
                u.height ≤ (if s.level < random_level rand then random_level rand
                  else s.level) ∧ u.addr ≠ s.header := by
              intro huT
              obtain ⟨n1, q1, q2, q3, q4, q5, q6, q7⟩ := hinv.towers u huT
              obtain ⟨n2, r1, r2, r3, r4⟩ := hnode _ _ q1
              refine ⟨n2, r1, by rw [r2, q2], by rw [r3, q3], by rw [r4, q4], q5, ?_, q7⟩
              split <;> omega
            rcases hu with hu | hu | hu
            · exact hold (by rw [h1]; simp [hu])
            · subst hu
              have := f3 s.nodes.length
              rw [node_at_append] at this
              simp only [if_true, Option.map_some'] at this
              cases hq : node_at m1 s.nodes.length with
              | none => rw [hq] at this; simp at this
              | some n2 =>
                rw [hq] at this
                simp only [Option.map_some', Option.some.injEq, Prod.mk.injEq] at this
                refine ⟨n2, rfl, this.1, this.2.1, ?_, hrl.1, ?_, ?_⟩
                · rw [this.2.2]; simp [nn]
                · simp only; split <;> omega
                · simp only; omega
            · exact hold (by rw [h1]; simp [hu])
          · have := hinv.nodup
            rw [h1, List.map_append, List.nodup_append] at this
            simp only [List.map_append, List.map_cons]
            rw [List.nodup_append, List.nodup_cons]
            simp only [List.mem_cons, not_or, List.mem_append, List.map_append] at hpn
            refine ⟨this.1, ⟨hpn.2.2, this.2.1⟩, ?_⟩
            intro a ha1 ha2
            simp only [List.mem_cons] at ha2
            rcases ha2 with ha2 | ha2
            · rw [ha2] at ha1; exact hpn.2.1 ha1
            · exact this.2.2 ha1 ha2
          · have := hinv.sorted
            rw [h1, List.pairwise_append] at this
            rw [List.pairwise_append, List.pairwise_cons]
            refine ⟨this.1, ⟨fun b hb => e1 b hb, this.2.1⟩, ?_⟩
            intro a ha b hb
            simp only [List.mem_cons] at hb
            rcases hb with hb | hb
            · rw [hb]; exact h2 a ha
            · exact this.2.2 a ha b hb
          · exact f4
          · simp only [f2, List.length_append, List.length_cons, List.length_singleton]
            have := hinv.size
            rw [h1] at this
            simp only [List.length_append] at this
            omega
          · intro p n1 hp
            simp only at hp
            have := f3 p
            rw [hp, node_at_append] at this
            by_cases hpp : p = s.nodes.length
            · right; simp [hpp]
            · simp only [hpp, if_false, Option.map_some'] at this
              cases hq : node_at s.nodes p with
              | none => rw [hq] at this; simp at this
              | some n0 =>
                rcases hinv.alloc p n0 hq with h | h
                · exact Or.inl h
                · right
                  rw [h1] at h
                  simp only [List.map_append, List.mem_append] at h
                  simp only [List.map_append, List.map_cons, List.mem_append, List.mem_cons]
                  tauto
      · intro j hj
        simp only [Nat.not_lt_zero, if_false]
        have hc := hinv.chains j hj
        rw [h1] at hc
        refine chain_congr s.nodes _ j _ s.header hc (hrd0 _ _ (by omega)) ?_
        intro t ht
        have := hlt.2 t (by rw [h1]; exact (above_subset j _ t ht).1)
        exact hrd0 _ _ (by omega)
    · -- the allocator fails: only the list-wide level may have been raised
      intro hok
      subst hok
      refine ⟨{ s with level := if s.level < random_level rand then random_level rand
          else s.level }, ?_, ?_, rfl, rfl⟩
      · rcases e2 with e2 | ⟨y, n, e2, e3, e4⟩
        · simp [skiplist_insert, h3, e2]
        · simp [skiplist_insert, h3, e2, e3, e4]
      · constructor
        · simp only; split <;> [omega; exact hinv.level_pos]
        · simp only; split <;> [exact hrl.2; exact hinv.level_le]
        · exact hinv.header_node
        · intro u hu
          obtain ⟨n1, q1, q2, q3, q4, q5, q6, q7⟩ := hinv.towers u hu
          refine ⟨n1, q1, q2, q3, q4, q5, ?_, q7⟩
          simp only; split <;> omega
        · exact hinv.nodup
        · exact hinv.sorted
        · exact hinv.chains
        · exact hinv.size
        · exact hinv.alloc

end Skiptable

/-! ### Unlink -/

namespace Skiptable

theorem chain_remove (m m2 : List (Option skiplist_node)) (i : Nat) (A B : List Tower)
    (t : Tower) :
    ∀ (h : Nat), ChainFrom m i h (A ++ t :: B) →
      (h :: (A ++ t :: B).map Tower.addr).Nodup →
      (∀ a, a ≠ lastOr A h → read_forward m2 a i = read_forward m a i) →
      read_forward m2 (lastOr A h) i = some (B.head?.map Tower.addr) →
      ChainFrom m2 i h (A ++ B) := by
  induction A with
  | nil =>
    intro h hc hnd hr hu
    simp only [List.nil_append] at hc hnd ⊢
    rw [lastOr_nil] at hu hr
    simp only [ChainFrom] at hc
    cases B with
    | nil => simpa [ChainFrom] using hu
    | cons b B =>
      simp only [ChainFrom] at hc ⊢
      simp only [List.head?_cons, Option.map_some'] at hu
      refine ⟨hu, ?_⟩
      simp only [List.map_cons, List.nodup_cons, List.mem_cons, not_or] at hnd
      refine chain_congr m m2 i B b.addr hc.2.2 (hr _ (fun hh => hnd.1.2.1 hh.symm)) ?_
      intro u hu2
      have hua : u.addr ∈ B.map Tower.addr := List.mem_map_of_mem Tower.addr hu2
      exact hr _ (fun hh => hnd.1.2.2 (by rw [← hh]; exact hua))
  | cons a A ih =>
    intro h hc hnd hr hu
    simp only [List.cons_append, ChainFrom] at hc ⊢
    rw [lastOr_cons] at hu hr
    simp only [List.cons_append, List.map_cons, List.nodup_cons, List.mem_cons, not_or] at hnd
    have hlast := lastOr_mem A a.addr
    have hne : h ≠ lastOr A a.addr := by
      rcases hlast with hl | hl
      · rw [hl]; exact fun hh => hnd.1.1 hh
      · intro hh
        refine hnd.1.2 ?_
        rw [hh, List.map_append]
        exact List.mem_append_left _ hl
    refine ⟨by rw [hr h hne]; exact hc.1, ih a.addr hc.2 ?_ hr hu⟩
    rw [List.nodup_cons]; exact hnd.2

theorem above_sub_addr (j : Nat) (L : List Tower) :
    (above j L).map Tower.addr ⊆ L.map Tower.addr := by
  intro a ha
  obtain ⟨t, ht1, ht2⟩ := List.mem_map.1 ha
  rw [← ht2]
  exact List.mem_map_of_mem Tower.addr (above_subset j L t ht1).1

theorem above_nodup (j : Nat) (L : List Tower) (h : Nat)
    (hnd : (h :: L.map Tower.addr).Nodup) : (h :: (above j L).map Tower.addr).Nodup := by
  rw [List.nodup_cons] at hnd ⊢
  refine ⟨fun hh => hnd.1 (above_sub_addr j L hh), ?_⟩
  unfold above
  exact List.Nodup.sublist (List.Sublist.map _ (List.filter_sublist _)) hnd.2

/-- The state of the unlink loop of `skiplist_delete` before round `i`. -/
theorem unlink_loop_spec (m0 : List (Option skiplist_node)) (header level : Nat)
    (Lo Hi1 : List Tower) (t : Tower) (update : List Nat)
    (hupd : ∀ j, j < level → update[j]? = some (lastOr (above j Lo) header))
    (hnd : (header :: (Lo ++ t :: Hi1).map Tower.addr).Nodup)
    (hth : t.height ≤ level) (hlev : level ≤ MAX_LEVEL) :
    ∀ n i m, i + n = level → m.length = m0.length →
      (∀ a, (node_at m a).map (fun n => (n.key, n.value, n.forward.length)) =
        (node_at m0 a).map (fun n => (n.key, n.value, n.forward.length))) →
      (∀ j, j < MAX_LEVEL → ChainFrom m j header
        (if j < i then above j (Lo ++ Hi1) else above j (Lo ++ t :: Hi1))) →
      ∃ m1, unlink_loop t.addr update n i m = some m1 ∧ m1.length = m0.length ∧
        (∀ a, (node_at m1 a).map (fun n => (n.key, n.value, n.forward.length)) =
          (node_at m0 a).map (fun n => (n.key, n.value, n.forward.length))) ∧
        (∀ j, j < MAX_LEVEL → ChainFrom m1 j header (above j (Lo ++ Hi1))) := by
  intro n
  induction n with
  | zero =>
    intro i m hi hlen hnode hch
    refine ⟨m, by simp [unlink_loop], hlen, hnode, ?_⟩
    intro j hj
    have := hch j hj
    by_cases hji : j < i
    · simpa [hji] using this
    · simp only [hji, if_false] at this
      have hh : ¬ j < t.height := by omega
      rw [above_append, above_cons_neg j t Hi1 hh, ← above_append] at this
      exact this
  | succ n ih =>
    intro i m hi hlen hnode hch
    have hil : i < level := by omega
    have hu := hupd i hil
    have hci := hch i (by omega)
    simp only [Nat.lt_irrefl, if_false, above_append] at hci
    by_cases hih : i < t.height
    · rw [above_cons_pos i t Hi1 hih] at hci
      obtain ⟨hrd, -⟩ := chain_read_last m i (above i Lo) (t :: above i Hi1) header hci
      simp only [List.head?_cons, Option.map_some'] at hrd
      have hci2 : ChainFrom m i header ((above i Lo ++ [t]) ++ above i Hi1) := by
        simpa using hci
      obtain ⟨hrx, -⟩ := chain_read_last m i (above i Lo ++ [t]) (above i Hi1) header hci2
      have hlx : lastOr (above i Lo ++ [t]) header = t.addr := by
        rw [lastOr_append_cons, lastOr_nil]
      rw [hlx] at hrx
      obtain ⟨nu, hu1, hu2⟩ := read_forward_node m _ i _ hrd
      obtain ⟨m1, hw1⟩ := write_forward_ok m (lastOr (above i Lo) header) i
        ((above i Hi1).head?.map Tower.addr) nu hu1 hu2
      obtain ⟨w1a, w1b, w1c⟩ := write_forward_spec _ _ _ _ _ hw1
      have hstep := ih (i + 1) m1 (by omega) (by rw [w1a, hlen])
        (fun a => by rw [w1c, hnode]) ?_
      · obtain ⟨m3, e1, e2, e3, e4⟩ := hstep
        refine ⟨m3, ?_, e2, e3, e4⟩
        simp only [unlink_loop, hu, hrd, ne_eq, not_true_eq_false, if_false, hrx, hw1, e1]
      · intro j hj
        by_cases hji : j = i
        · subst hji
          simp only [Nat.lt_succ_self, if_true]
          rw [above_append]
          have hnd2 := above_nodup j (Lo ++ t :: Hi1) header hnd
          rw [above_append, above_cons_pos j t Hi1 hih] at hnd2
          refine chain_remove m m1 j (above j Lo) (above j Hi1) t header hci hnd2 ?_ ?_
          · intro a ha
            rw [w1b]; simp [ha]
          · rw [w1b]; simp
        · have hrd2 : ∀ a, read_forward m1 a j = read_forward m a j := by
            intro a
            rw [w1b]
            simp [hji]
          have hc := hch j hj
          have hcase : (if j < i + 1 then above j (Lo ++ Hi1) else above j (Lo ++ t :: Hi1)) =
              (if j < i then above j (Lo ++ Hi1) else above j (Lo ++ t :: Hi1)) := by
            by_cases h1 : j < i
            · have : j < i + 1 := by omega
              simp [h1, this]
            · have : ¬ j < i + 1 := by omega
              simp [h1, this]
          rw [hcase]
          exact chain_congr m m1 j _ header hc (hrd2 _) (fun u _ => hrd2 _)
    · -- the node does not reach level `i`: the loop breaks
      rw [above_cons_neg i t Hi1 hih] at hci
      obtain ⟨hrd, -⟩ := chain_read_last m i (above i Lo) (above i Hi1) header hci
      have hne : (above i Hi1).head?.map Tower.addr ≠ some t.addr := by
        intro hh
        cases hab : above i Hi1 with
        | nil => rw [hab] at hh; simp at hh
        | cons b B =>
          rw [hab] at hh
          simp only [List.head?_cons, Option.map_some', Option.some.injEq] at hh
          have hb : b ∈ Hi1 := (above_subset i Hi1 b (by rw [hab]; simp)).1
          rw [List.nodup_cons] at hnd
          exact nodup_addr_ne Lo Hi1 t b hnd.2 (Or.inr hb) hh
      refine ⟨m, ?_, hlen, hnode, ?_⟩
      · simp only [unlink_loop, hu, hrd, ne_eq, hne, not_false_eq_true, if_true]
      · intro j hj
        have := hch j hj
        by_cases hji : j < i
        · simpa [hji] using this
        · simp only [hji, if_false] at this
          have hh : ¬ j < t.height := by omega
          rw [above_append, above_cons_neg j t Hi1 hh, ← above_append] at this
          exact this

theorem lower_level_spec (m : List (Option skiplist_node)) (header : Nat) (T : List Tower)
    (hch : ∀ j, j < MAX_LEVEL → ChainFrom m j header (above j T)) :
    ∀ l, 1 ≤ l → l ≤ MAX_LEVEL → (∀ t ∈ T, t.height ≤ l) →
      ∃ l1, lower_level m header l = some l1 ∧ 1 ≤ l1 ∧ l1 ≤ l ∧ ∀ t ∈ T, t.height ≤ l1 := by
  intro l
  induction l with
  | zero => intro h; omega
  | succ l ih =>
    intro _ hl hT
    cases l with
    | zero => exact ⟨1, by simp [lower_level], by omega, by omega, hT⟩
    | succ l =>
      have hc := hch (l + 1) (by omega)
      cases hab : above (l + 1) T with
      | nil =>
        rw [hab] at hc
        simp only [ChainFrom] at hc
        have hT2 : ∀ t ∈ T, t.height ≤ l + 1 := by
          intro t ht
          by_contra hh
          have : t ∈ above (l + 1) T := by
            simp only [above, List.mem_filter, decide_eq_true_eq]
            exact ⟨ht, by omega⟩
          rw [hab] at this
          simp at this
        obtain ⟨l1, e1, e2, e3, e4⟩ := ih (by omega) (by omega) hT2
        exact ⟨l1, by simp only [lower_level, hc, e1], e2, by omega, e4⟩
      | cons b B =>
        rw [hab] at hc
        simp only [ChainFrom] at hc
        exact ⟨l + 2, by simp only [lower_level, hc.1], by omega, by omega, hT⟩

end Skiptable

/-! ### The skip-list API -/

namespace Skiptable

theorem read_forward_set_ne (m : List (Option skiplist_node)) (p a j : Nat)
    (n : Option skiplist_node) (h : a ≠ p) :
    read_forward (m.set p n) a j = read_forward m a j := by
  unfold read_forward
  rw [node_at_set]
  simp [h]

theorem sinv_count (s : skiplist) (T : List Tower) (c : Int) (h : SInv s T) :
    SInv { s with count := c } T :=
  ⟨h.level_pos, h.level_le, h.header_node, h.towers, h.nodup, h.sorted, h.chains, h.size,
    h.alloc⟩

theorem key_unique (T : List Tower) (hs : T.Pairwise (fun a b => a.key < b.key)) (t u : Tower)
    (ht : t ∈ T) (hu : u ∈ T) (hk : t.key = u.key) : t = u := by
  induction T with
  | nil => simp at ht
  | cons a T ih =>
    rw [List.pairwise_cons] at hs
    simp only [List.mem_cons] at ht hu
    rcases ht with ht | ht <;> rcases hu with hu | hu
    · rw [ht, hu]
    · have := hs.1 u hu; rw [← ht, hk] at this; exact absurd this (lt_irrefl _)
    · have := hs.1 t ht; rw [← hu, hk] at this; exact absurd this (lt_irrefl _)
    · exact ih hs.2 ht hu

theorem sl_delete_spec (s : skiplist) (T : List Tower) (hinv : SInv s T) (key : Key) :
    ((∃ t ∈ T, t.key = key) →
      ∃ Lo t Hi1 s1, T = Lo ++ t :: Hi1 ∧ t.key = key ∧
        skiplist_delete s (some key) = some (0, s1) ∧ SInv s1 (Lo ++ Hi1) ∧
        s1.count = s.count - 1 ∧ node_at s1.nodes t.addr = none ∧
        skiplist_search s (some key) = some (some t.addr)) ∧
    ((∀ t ∈ T, t.key ≠ key) → skiplist_delete s (some key) = some (-1, s)) := by
  obtain ⟨Lo, Hi, h1, h2, h3, h4⟩ := sl_find s T hinv key
  rcases h4 with ⟨t, Hi1, n, e1, e2, e3, e4, e5, e6, e7⟩ | ⟨e1, e2⟩
  · refine ⟨fun _ => ?_, fun hne => absurd e2 (hne t (by rw [h1, e1]; simp))⟩
    subst e1
    have htT : t ∈ T := by rw [h1]; simp
    obtain ⟨nt, q1, q2, q3, q4, q5, q6, q7⟩ := hinv.towers t htT
    have hndh := inv_nodup_header s T hinv
    have hupd : ∀ j, j < s.level →
        ((List.range s.level).map (fun j => lastOr (above j Lo) s.header))[j]? =
          some (lastOr (above j Lo) s.header) := by
      intro j hj
      simp [List.getElem?_map, List.getElem?_range hj]
    obtain ⟨m1, f1, f2, f3, f4⟩ := unlink_loop_spec s.nodes s.header s.level Lo Hi1 t _ hupd
      (by rw [← h1]; exact hndh) q6 hinv.level_le s.level 0 s.nodes (by simp) rfl
      (fun _ => rfl) (by
        intro j hj
        simp only [Nat.not_lt_zero, if_false]
        rw [← h1]; exact hinv.chains j hj)
    have hheights : ∀ u ∈ Lo ++ Hi1, u.height ≤ s.level := by
      intro u hu
      obtain ⟨_, -, -, -, -, -, r6, -⟩ := hinv.towers u (by
        rw [h1]; simp only [List.mem_append, List.mem_cons] at hu ⊢; tauto)
      exact r6
    obtain ⟨l1, g1, g2, g3, g4⟩ := lower_level_spec m1 s.header (Lo ++ Hi1) f4 s.level
      hinv.level_pos hinv.level_le hheights
    have hnode : ∀ a n1, node_at s.nodes a = some n1 →
        ∃ n2, node_at m1 a = some n2 ∧ n2.key = n1.key ∧ n2.value = n1.value ∧
          n2.forward.length = n1.forward.length := by
      intro a n1 ha
      have := f3 a
      simp only [ha, Option.map_some'] at this
      cases hq : node_at m1 a with
      | none => rw [hq] at this; simp at this
      | some n2 =>
        rw [hq] at this
        simp only [Option.map_some', Option.some.injEq, Prod.mk.injEq] at this
        exact ⟨n2, rfl, this.1, this.2.1, this.2.2⟩
    have hne_t : ∀ u ∈ Lo ++ Hi1, u.addr ≠ t.addr := by
      intro u hu
      simp only [List.mem_append] at hu
      exact nodup_addr_ne Lo Hi1 t u (by rw [← h1]; exact hinv.nodup) hu
    have hsearch : skiplist_search s (some key) = some (some t.addr) :=
      (search_spec s T hinv key).1 t htT e2
    refine ⟨Lo, t, Hi1, { s with level := l1, count := s.count - 1, nodes := m1.set t.addr none },
      h1, e2, ?_, ?_, rfl, ?_, hsearch⟩
    · simp [skiplist_delete, h3, e3, e4, e5, f1, g1]
    · constructor
      · exact g2
      · exact le_trans g3 hinv.level_le
      · obtain ⟨hn, r1, r2⟩ := hinv.header_node
        obtain ⟨n2, s1, -, -, s4⟩ := hnode _ _ r1
        refine ⟨n2, ?_, by rw [s4, r2]⟩
        simp only
        rw [node_at_set]
        have : ¬ (s.header = t.addr ∧ t.addr < m1.length) := fun hh => q7 hh.1.symm
        simp only [this, if_false]
        exact s1
      · intro u hu
        obtain ⟨n1, r1, r2, r3, r4, r5, r6, r7⟩ := hinv.towers u (by
          rw [h1]; simp only [List.mem_append, List.mem_cons] at hu ⊢; tauto)
        obtain ⟨n2, s1, s2, s3, s4⟩ := hnode _ _ r1
        refine ⟨n2, ?_, by rw [s2, r2], by rw [s3, r3], by rw [s4, r4], r5, g4 u hu, r7⟩
        simp only
        rw [node_at_set]
        have := hne_t u hu
        simp only [this, false_and, if_false]
        exact s1
      · have := hinv.nodup
        rw [h1] at this
        simp only [List.map_append, List.map_cons] at this ⊢
        rw [List.nodup_append] at this ⊢
        rw [List.nodup_cons] at this
        refine ⟨this.1, this.2.1.2, ?_⟩
        intro a ha1 ha2
        exact this.2.2 ha1 (by simp [ha2])
      · have := hinv.sorted
        rw [h1, List.pairwise_append, List.pairwise_cons] at this
        rw [List.pairwise_append]
        exact ⟨this.1, this.2.1.2, fun a ha b hb => this.2.2 a ha b (by simp [hb])⟩
      · intro j hj
        have hc := f4 j hj
        refine chain_congr m1 _ j _ s.header hc
          (read_forward_set_ne m1 t.addr s.header j none (fun hh => q7 hh.symm)) ?_
        intro u hu
        exact read_forward_set_ne m1 t.addr u.addr j none
          (hne_t u (above_subset j _ u hu).1)
      · have := hinv.size
        rw [h1] at this
        simp only [List.length_append, List.length_cons, List.length_set, f2] at this ⊢
        omega
      · intro p n1 hp
        simp only at hp
        rw [node_at_set] at hp
        by_cases hpp : p = t.addr
        · subst hpp
          have hl : t.addr < m1.length := by rw [f2]; exact node_at_lt _ _ _ q1
          simp [hl] at hp
        · simp only [hpp, false_and, if_false] at hp
          have := f3 p
          rw [hp] at this
          cases hq : node_at s.nodes p with
          | none => rw [hq] at this; simp at this
          | some n0 =>
            rcases hinv.alloc p n0 hq with h | h
            · exact Or.inl h
            · right
              rw [h1] at h
              simp only [List.map_append, List.map_cons, List.mem_append, List.mem_cons] at h
              simp only [List.map_append, List.mem_append]
              tauto
    · simp only
      rw [node_at_set]
      have hl : t.addr < m1.length := by rw [f2]; exact node_at_lt _ _ _ q1
      simp [hl]
  · refine ⟨?_, fun _ => ?_⟩
    · rintro ⟨t, ht, hk⟩
      rw [h1] at ht
      simp only [List.mem_append] at ht
      rcases ht with ht | ht
      · have := h2 t ht; rw [hk] at this; exact absurd this (lt_irrefl _)
      · have := e1 t ht; rw [hk] at this; exact absurd this (lt_irrefl _)
    · rcases e2 with e2 | ⟨y, n, e2, e3, e4⟩
      · simp [skiplist_delete, h3, e2]
      · simp [skiplist_delete, h3, e2, e3, e4]

theorem sl_inv_create : SInv kvstore_skiptable_create [] := by
  have hnode : node_at kvstore_skiptable_create.nodes 0 =
      some { key := [], value := none, forward := List.replicate MAX_LEVEL none } := by
    simp [kvstore_skiptable_create, skiplist_init, create_node, node_at]
  constructor
  · simp [kvstore_skiptable_create, skiplist_init]
  · simp [kvstore_skiptable_create, skiplist_init, MAX_LEVEL]
  · exact ⟨_, hnode, by simp⟩
  · simp
  · simp
  · simp
  · intro j hj
    simp only [above_nil, ChainFrom, read_forward]
    have : kvstore_skiptable_create.header = 0 := rfl
    rw [this, hnode]
    simp [List.getElem?_replicate, hj]
  · simp [kvstore_skiptable_create, skiplist_init, create_node]
  · intro p n hp
    left
    have := node_at_lt _ _ _ hp
    simp [kvstore_skiptable_create, skiplist_init, create_node] at this ⊢
    omega

/-- What `kvs_skiptable_set` does on a list that satisfies the invariant. -/
theorem sl_set_spec (s : skiplist) (T : List Tower) (hinv : SInv s T)
    (key : Key) (value : Val) (rand : Nat → Nat) (ok : Bool) :
    ((∃ t ∈ T, t.key = key) →
      ∃ Lo t Hi1 s1, T = Lo ++ t :: Hi1 ∧ t.key = key ∧
        kvs_skiptable_set s (some key) (some value) rand ok = some (0, s1) ∧
        SInv s1 (Lo ++ { t with val := value } :: Hi1) ∧ s1.count = s.count) ∧
    ((∀ t ∈ T, t.key ≠ key) →
      ∃ Lo Hi, T = Lo ++ Hi ∧ (∀ t ∈ Lo, t.key < key) ∧ (∀ t ∈ Hi, key < t.key) ∧
        (ok = true → ∃ s1, kvs_skiptable_set s (some key) (some value) rand ok = some (0, s1) ∧
          SInv s1 (Lo ++ ⟨s.nodes.length, key, value, random_level rand⟩ :: Hi) ∧
          s1.count = s.count + 1) ∧
        (ok = false → ∃ s1, kvs_skiptable_set s (some key) (some value) rand ok = some (0, s1) ∧
          SInv s1 T ∧ s1.count = s.count ∧ s1.nodes = s.nodes)) := by
  have hi := insert_spec s T hinv key value rand ok
  have hm := sl_modify_spec s T hinv key value
  refine ⟨?_, ?_⟩
  · rintro ⟨t, ht, hk⟩
    obtain ⟨Lo, Hi1, hT⟩ := List.append_of_mem ht
    obtain ⟨s1, m1, m2, m3, -⟩ := hm.1 Lo t Hi1 hT hk
    refine ⟨Lo, t, Hi1, s1, hT, hk, ?_, m2, m3⟩
    simp [kvs_skiptable_set, hi.1 ⟨t, ht, hk⟩, m1]
  · intro hne
    obtain ⟨Lo, Hi, h1, h2, h3, h4, h5⟩ := hi.2 hne
    refine ⟨Lo, Hi, h1, h2, h3, ?_, ?_⟩
    · intro hok
      obtain ⟨s1, i1, i2, i3⟩ := h4 hok
      refine ⟨{ s1 with count := s1.count + 1 }, ?_, sinv_count _ _ _ i2, by simp [i3]⟩
      simp [kvs_skiptable_set, i1]
    · intro hok
      obtain ⟨s1, i1, i2, i3, i4⟩ := h5 hok
      refine ⟨s1, ?_, i2, i3, i4⟩
      simp [kvs_skiptable_set, i1]

theorem sl_reachable_inv (s : skiplist) (h : Reachable s) : Inv s := by
  induction h with
  | create => exact ⟨[], sl_inv_create, rfl⟩
  | set s s1 k v rand ok r _ hstep ih =>
    obtain ⟨T, hinv, hc⟩ := ih
    cases k with
    | none => simp [kvs_skiptable_set] at hstep; rw [← hstep.2]; exact ⟨T, hinv, hc⟩
    | some k =>
      cases v with
      | none => simp [kvs_skiptable_set] at hstep; rw [← hstep.2]; exact ⟨T, hinv, hc⟩
      | some v =>
        have hs := sl_set_spec s T hinv k v rand ok
        by_cases hm : ∃ t ∈ T, t.key = k
        · obtain ⟨Lo, t, Hi1, s2, e1, e2, e3, e4, e5⟩ := hs.1 hm
          rw [e3] at hstep
          simp only [Option.some.injEq, Prod.mk.injEq] at hstep
          rw [← hstep.2]
          exact ⟨_, e4, by rw [e5, hc, e1]; simp⟩
        · have hne : ∀ t ∈ T, t.key ≠ k := fun t ht hk => hm ⟨t, ht, hk⟩
          obtain ⟨Lo, Hi, e1, e2, e3, e4, e5⟩ := hs.2 hne
          cases ok with
          | true =>
            obtain ⟨s2, f1, f2, f3⟩ := e4 rfl
            rw [f1] at hstep
            simp only [Option.some.injEq, Prod.mk.injEq] at hstep
            rw [← hstep.2]
            exact ⟨_, f2, by rw [f3, hc, e1]; simp; omega⟩
          | false =>
            obtain ⟨s2, f1, f2, f3, -⟩ := e5 rfl
            rw [f1] at hstep
            simp only [Option.some.injEq, Prod.mk.injEq] at hstep
            rw [← hstep.2]
            exact ⟨_, f2, by rw [f3, hc]⟩
  | modify s s1 k v r _ hstep ih =>
    obtain ⟨T, hinv, hc⟩ := ih
    cases k with
    | none => simp [kvs_skiptable_modify] at hstep; rw [← hstep.2]; exact ⟨T, hinv, hc⟩
    | some k =>
      cases v with
      | none => simp [kvs_skiptable_modify] at hstep; rw [← hstep.2]; exact ⟨T, hinv, hc⟩
      | some v =>
        simp only [kvs_skiptable_modify] at hstep
        have hm := sl_modify_spec s T hinv k v
        by_cases hmem : ∃ t ∈ T, t.key = k
        · obtain ⟨t, ht, hk⟩ := hmem
          obtain ⟨Lo, Hi1, hT⟩ := List.append_of_mem ht
          obtain ⟨s2, m1, m2, m3, -⟩ := hm.1 Lo t Hi1 hT hk
          rw [m1] at hstep
          simp only [Option.some.injEq, Prod.mk.injEq] at hstep
          rw [← hstep.2]
          exact ⟨_, m2, by rw [m3, hc, hT]; simp⟩
        · rw [hm.2 (fun t ht hk => hmem ⟨t, ht, hk⟩)] at hstep
          simp only [Option.some.injEq, Prod.mk.injEq] at hstep
          rw [← hstep.2]
          exact ⟨T, hinv, hc⟩
  | delete s s1 k r _ hstep ih =>
    obtain ⟨T, hinv, hc⟩ := ih
    cases k with
    | none => simp [kvs_skiptable_delete] at hstep; rw [← hstep.2]; exact ⟨T, hinv, hc⟩
    | some k =>
      simp only [kvs_skiptable_delete] at hstep
      have hd := sl_delete_spec s T hinv k
      by_cases hmem : ∃ t ∈ T, t.key = k
      · obtain ⟨Lo, t, Hi1, s2, e1, e2, e3, e4, e5, -⟩ := hd.1 hmem
        rw [e3] at hstep
        simp only [Option.some.injEq, Prod.mk.injEq] at hstep
        rw [← hstep.2]
        exact ⟨_, e4, by rw [e5, hc, e1]; simp; omega⟩
      · rw [hd.2 (fun t ht hk => hmem ⟨t, ht, hk⟩)] at hstep
        simp only [Option.some.injEq, Prod.mk.injEq] at hstep
        rw [← hstep.2]
        exact ⟨T, hinv, hc⟩

theorem level_chain_eq (m : List (Option skiplist_node)) (j : Nat) (L : List Tower) :
    ∀ (fuel x : Nat), ChainFrom m j x L → L.length < fuel →
      level_chain m j fuel x = L.map Tower.addr := by
  induction L with
  | nil =>
    intro fuel x hc hf
    obtain ⟨f, rfl⟩ : ∃ f, fuel = f + 1 := ⟨fuel - 1, by omega⟩
    simp only [ChainFrom] at hc
    simp [level_chain, hc]
  | cons t L ih =>
    intro fuel x hc hf
    obtain ⟨f, rfl⟩ : ∃ f, fuel = f + 1 := ⟨fuel - 1, by omega⟩
    simp only [ChainFrom] at hc
    simp only [List.length_cons] at hf
    simp [level_chain, hc.1, ih f t.addr hc.2 (by omega)]

end Skiptable

namespace Btree
open btree_node

/-! ### Consequences for the calls -/

theorem mem_other_insert (A B : List (Key × Val)) (k k1 : Key) (v v1 : Val) (hne : k1 ≠ k) :
    (k1, v1) ∈ A ++ (k, v) :: B ↔ (k1, v1) ∈ A ++ B := by
  simp only [List.mem_append, List.mem_cons, Prod.mk.injEq]
  constructor
  · rintro (h | ⟨h, -⟩ | h)
    · exact Or.inl h
    · exact absurd h hne
    · exact Or.inr h
  · rintro (h | h)
    · exact Or.inl h
    · exact Or.inr (Or.inr h)

theorem get_congr (t t1 : btree) (hinv : Inv t) (hinv1 : Inv t1) (k1 : Key)
    (h : ∀ v1, (k1, v1) ∈ inorder t1.root ↔ (k1, v1) ∈ inorder t.root) :
    kvs_btree_get t1 (some k1) = kvs_btree_get t (some k1) := by
  by_cases hm : ∃ v1, (k1, v1) ∈ inorder t.root
  · obtain ⟨v1, hv1⟩ := hm
    rw [get_mem t hinv k1 v1 hv1, get_mem t1 hinv1 k1 v1 ((h v1).2 hv1)]
  · have h0 : ∀ v1, (k1, v1) ∉ inorder t.root := fun v1 hv1 => hm ⟨v1, hv1⟩
    rw [get_not_mem t hinv k1 h0, get_not_mem t1 hinv1 k1 (fun v1 hv1 => h0 v1 ((h v1).1 hv1))]

/-- What a call of `kvs_btree_set` does, in terms of the API. -/
theorem set_api (t : btree) (hinv : Inv t) (k : Key) (v : Val) :
    ∃ t1, kvs_btree_set t (some k) (some v) = some (0, t1) ∧ Inv t1 ∧
      kvs_btree_get t1 (some k) = some v ∧
      (∀ k1, k1 ≠ k → kvs_btree_get t1 (some k1) = kvs_btree_get t (some k1)) ∧
      (kvs_btree_get t (some k) = none → t1.count = t.count + 1) ∧
      (kvs_btree_get t (some k) ≠ none → t1.count = t.count) := by
  obtain ⟨t1, A, B, e1, e2, e3, e4⟩ := set_spec t hinv k v
  refine ⟨t1, e1, e2, get_mem t1 e2 k v (by rw [e3]; simp), ?_, ?_, ?_⟩
  · intro k1 hne
    refine get_congr t t1 hinv e2 k1 (fun v1 => ?_)
    rcases e4 with ⟨f1, -, -⟩ | ⟨w, f1, -, -⟩
    · rw [e3, f1]; exact mem_other_insert A B k k1 v v1 hne
    · rw [e3, f1, mem_other_insert A B k k1 v v1 hne, mem_other_insert A B k k1 w v1 hne]
  · intro hg
    rcases e4 with ⟨-, f2, -⟩ | ⟨w, -, -, f3⟩
    · exact f2
    · rw [f3] at hg; simp at hg
  · intro hg
    rcases e4 with ⟨-, -, f3⟩ | ⟨w, -, f2, -⟩
    · exact absurd f3 hg
    · exact f2

/-- What a call of `kvs_btree_modify` does, in terms of the API. -/
theorem modify_api (t : btree) (hinv : Inv t) (k : Key) (v : Val) :
    (kvs_btree_get t (some k) ≠ none →
      ∃ t1, kvs_btree_modify t (some k) (some v) = (0, t1) ∧ Inv t1 ∧
        kvs_btree_get t1 (some k) = some v ∧ t1.count = t.count ∧
        (∀ k1, k1 ≠ k → kvs_btree_get t1 (some k1) = kvs_btree_get t (some k1))) ∧
    (kvs_btree_get t (some k) = none → kvs_btree_modify t (some k) (some v) = (-1, t)) := by
  refine ⟨?_, ?_⟩
  · intro hg
    have hm : ∃ w, (k, w) ∈ inorder t.root := by
      by_contra hh
      exact hg (get_not_mem t hinv k (fun w hw => hh ⟨w, hw⟩))
    obtain ⟨w, hw⟩ := hm
    obtain ⟨t1, A, B, e1, e2, e3, e4, e5⟩ := (modify_spec t hinv k v).1 w hw
    refine ⟨t1, e1, e2, get_mem t1 e2 k v (by rw [e5]; simp), e3, ?_⟩
    intro k1 hne
    refine get_congr t t1 hinv e2 k1 (fun v1 => ?_)
    rw [e5, e4, mem_other_insert A B k k1 v v1 hne, mem_other_insert A B k k1 w v1 hne]
  · intro hg
    exact (modify_spec t hinv k v).2 ((get_none_iff t hinv k).1 hg)

/-- What a call of `kvs_btree_delete` does, in terms of the API. -/
theorem delete_api (t : btree) (hinv : Inv t) (k : Key) :
    (kvs_btree_get t (some k) ≠ none →
      ∃ t1, kvs_btree_delete t (some k) = some (0, t1) ∧ Inv t1 ∧
        kvs_btree_get t1 (some k) = none ∧ t1.count = t.count - 1 ∧
        (∀ k1, k1 ≠ k → kvs_btree_get t1 (some k1) = kvs_btree_get t (some k1))) ∧
    (kvs_btree_get t (some k) = none → kvs_btree_delete t (some k) = some (-1, t)) := by
  refine ⟨?_, ?_⟩
  · intro hg
    have hm : ∃ w, (k, w) ∈ inorder t.root := by
      by_contra hh
      exact hg (get_not_mem t hinv k (fun w hw => hh ⟨w, hw⟩))
    obtain ⟨t1, A, w, B, e1, e2, e3, e4, e5⟩ := (delete_spec t hinv k).1 hm
    obtain ⟨ht, hx, hr, hs, hc⟩ := hinv
    refine ⟨t1, e1, e2, ?_, e3, ?_⟩
    · apply get_not_mem t1 e2 k
      intro u hu
      rw [e5] at hu
      rw [e4, sorted_app, sorted_cons] at hs
      simp only [List.mem_append] at hu
      rcases hu with hu | hu
      · exact absurd (hs.2.2 _ hu (k, w) (by simp)) (lt_irrefl _)
      · exact absurd (hs.2.1.1 _ hu) (lt_irrefl _)
    · intro k1 hne
      refine get_congr t t1 ⟨ht, hx, hr, hs, hc⟩ e2 k1 (fun v1 => ?_)
      rw [e5, e4, mem_other_insert A B k k1 w v1 hne]
  · intro hg
    exact (delete_spec t hinv k).2 ((get_none_iff t hinv k).1 hg)

theorem demo1_reachable : Reachable demo1 :=
  Reachable.set _ _ (some [107]) (some [118]) 0 Reachable.create rfl

theorem demo8_reachable : Reachable demo8 := by
  have h1 : Reachable { root := mk true [([97], [1])] [], count := 1 } :=
    Reachable.set _ _ (some [97]) (some [1]) 0 Reachable.create rfl
  have h2 : Reachable { root := mk true [([97], [1]), ([98], [2])] [], count := 2 } :=
    Reachable.set _ _ (some [98]) (some [2]) 0 h1 rfl
  have h3 : Reachable { root := mk true [([97], [1]), ([98], [2]), ([99], [3])] [], count := 3 } :=
    Reachable.set _ _ (some [99]) (some [3]) 0 h2 rfl
  have h4 : Reachable
      { root := mk true [([97], [1]), ([98], [2]), ([99], [3]), ([100], [4])] [], count := 4 } :=
    Reachable.set _ _ (some [100]) (some [4]) 0 h3 rfl
  have h5 : Reachable
      { root := mk true [([97], [1]), ([98], [2]), ([99], [3]), ([100], [4]), ([101], [5])] [],
        count := 5 } :=
    Reachable.set _ _ (some [101]) (some [5]) 0 h4 rfl
  have h6 : Reachable
      { root := mk false [([99], [3])]
          [mk true [([97], [1]), ([98], [2])] [],
           mk true [([100], [4]), ([101], [5]), ([102], [6])] []],
        count := 6 } :=
    Reachable.set _ _ (some [102]) (some [6]) 0 h5 rfl
  have h7 : Reachable
      { root := mk false [([99], [3])]
          [mk true [([97], [1]), ([98], [2])] [],
           mk true [([100], [4]), ([101], [5]), ([102], [6]), ([103], [7])] []],
        count := 7 } :=
    Reachable.set _ _ (some [103]) (some [7]) 0 h6 rfl
  exact Reachable.set _ _ (some [104]) (some [8]) 0 h7 rfl

end Btree

/-! ### The nodes of a reachable B-tree -/

namespace Btree
open btree_node

theorem shape_nodeAt (lo h : Nat) (r : btree_node) (hr : Shape lo h r) :
    ∀ d x, NodeAt r d x → d ≤ h ∧ Shape (if d = 0 then lo else DEGREE - 1) (h - d) x := by
  intro d x hx
  induction hx with
  | root => exact ⟨Nat.zero_le _, by simpa using hr⟩
  | child d x c _ hl hc ih =>
    obtain ⟨h1, h2⟩ := ih
    cases hd : h - d with
    | zero =>
      rw [hd, shape_leaf] at h2
      rw [h2.1] at hl
      simp at hl
    | succ h' =>
      rw [hd, shape_node] at h2
      refine ⟨by omega, ?_⟩
      have : h - (d + 1) = h' := by omega
      rw [this]
      simpa using h2.2.2.2.2 c hc

theorem node_split (es : List (Key × Val)) (cs : List btree_node) (i : Nat) (c : btree_node)
    (hlen : cs.length = es.length + 1) (hc : cs[i]? = some c) :
    ∃ cl cr el er, cs = cl ++ c :: cr ∧ es = el ++ er ∧ cl.length = i ∧ el.length = i ∧
      flat cs es = flat cl el ++ (inorder c ++ rest er cr) := by
  have hi : i < cs.length := by
    by_contra hh
    have : cs.length ≤ i := by omega
    rw [List.getElem?_eq_none this] at hc
    simp at hc
  obtain ⟨cl, c1, cr, h1, h2⟩ := split_at cs i hi
  have hcc : c1 = c := by
    rw [h1, get_app cl cr c1 i h2] at hc
    simpa using hc
  subst hcc
  obtain ⟨el, er, h3, h4⟩ := split_len es i (by omega)
  refine ⟨cl, cr, el, er, h1, h3, h2, h4, ?_⟩
  rw [h1, h3, flat_append cl _ el er (by omega), flat_cons]

theorem sorted_nodeAt (lo h : Nat) (r : btree_node) (hr : Shape lo h r)
    (hs : Sorted (inorder r)) : ∀ d x, NodeAt r d x → Sorted (inorder x) := by
  intro d x hx
  induction hx with
  | root => exact hs
  | child d x c hx1 hl hc ih =>
    obtain ⟨-, hsx⟩ := shape_nodeAt lo h r hr d x hx1
    cases hd : h - d with
    | zero =>
      rw [hd, shape_leaf] at hsx
      rw [hsx.1] at hl
      simp at hl
    | succ h' =>
      rw [hd, shape_node] at hsx
      cases x with
      | mk l es cs =>
        simp only [leaf_mk, children_mk, n_mk] at hsx hc hl
        subst hl
        simp only [inorder_node] at ih
        obtain ⟨i, hi⟩ := List.getElem?_of_mem hc
        obtain ⟨cl, cr, el, er, -, -, -, -, h5⟩ := node_split es cs i c hsx.2.2.2.1 hi
        rw [h5, sorted_app, sorted_app] at ih
        exact ih.2.1.1

theorem flat_snoc_last (cl : List btree_node) (el1 : List (Key × Val)) (e : Key × Val)
    (h : cl.length = (el1 ++ [e]).length) : ∃ X, flat cl (el1 ++ [e]) = X ++ [e] := by
  obtain ⟨cl1, c1, rfl⟩ := snoc_of_pos cl (by rw [h]; simp)
  have hl : cl1.length = el1.length := by simpa using h
  refine ⟨flat cl1 el1 ++ inorder c1, ?_⟩
  rw [flat_append cl1 [c1] el1 [e] hl]
  simp

/-- The keys of child `i` lie between key `i-1` and key `i` of an internal node whose
traversal is ascending. -/
theorem straddle (es : List (Key × Val)) (cs : List btree_node)
    (hlen : cs.length = es.length + 1) (hs : Sorted (flat cs es)) (i : Nat) (c : btree_node)
    (hc : cs[i]? = some c) (a : Key × Val) (ha : a ∈ inorder c) :
    (∀ e, es[i]? = some e → a.1 < e.1) ∧ (∀ e, es[i - 1]? = some e → 0 < i → e.1 < a.1) := by
  obtain ⟨cl, cr, el, er, h1, h2, h3, h4, h5⟩ := node_split es cs i c hlen hc
  rw [h5, sorted_app, sorted_app] at hs
  obtain ⟨s1, ⟨s2, s3, s4⟩, s5⟩ := hs
  refine ⟨?_, ?_⟩
  · intro e he
    rw [h2] at he
    cases er with
    | nil => rw [List.append_nil, get_len_none el i h4] at he; simp at he
    | cons e1 er1 =>
      rw [get_app el er1 e1 i h4] at he
      simp only [Option.some.injEq] at he
      rw [← he]
      exact s4 a ha e1 (by simp)
  · intro e he hi
    have hel : 0 < el.length := by omega
    obtain ⟨el1, e1, rfl⟩ := snoc_of_pos el hel
    have he1 : e1 = e := by
      rw [h2] at he
      have hlen1 : el1.length = i - 1 := by simp at h4; omega
      rw [List.append_assoc, List.singleton_append, get_app el1 er e1 (i - 1) hlen1] at he
      simpa using he
    subst he1
    obtain ⟨X, hX⟩ := flat_snoc_last cl el1 e1 (by omega)
    exact s5 e1 (by rw [hX]; simp) a (by simp [ha])

theorem key_total_flat (cs : List btree_node)
    (hch : ∀ c ∈ cs, (inorder c).length = key_total c) :
    ∀ es : List (Key × Val), cs.length = es.length + 1 →
      (flat cs es).length = es.length + key_total_list cs := by
  induction cs with
  | nil => intro es h; simp at h
  | cons c cs ih =>
    intro es h
    cases es with
    | nil =>
      simp only [List.length_cons, List.length_nil] at h
      have : cs = [] := List.length_eq_zero.1 (by omega)
      subst this
      simp [key_total_list, hch c (by simp)]
    | cons e es =>
      simp only [List.length_cons] at h
      rw [flat_cons_cons, List.length_append, List.length_cons,
        ih (fun d hd => hch d (by simp [hd])) es (by omega), hch c (by simp)]
      simp only [key_total_list, List.length_cons]
      omega

theorem key_total_eq (lo h : Nat) (x : btree_node) (hx : Shape lo h x) :
    (inorder x).length = key_total x := by
  induction h generalizing lo x with
  | zero =>
    rw [shape_leaf] at hx
    cases x with
    | mk l es cs =>
      simp only [leaf_mk] at hx
      obtain ⟨rfl, -⟩ := hx
      simp [key_total]
  | succ h ih =>
    rw [shape_node] at hx
    cases x with
    | mk l es cs =>
      simp only [leaf_mk, children_mk, n_mk] at hx
      obtain ⟨rfl, -, -, h4, h5⟩ := hx
      rw [inorder_node, key_total_flat cs (fun c hc => ih _ c (h5 c hc)) es h4]
      simp [key_total]

theorem run_spec (cs : List call) : ∀ (t : btree) (n : Int), Inv t →
    ∃ t1 n1, run t n cs = some (t1, n1) ∧ Inv t1 ∧ t1.count - n1 = t.count - n := by
  induction cs with
  | nil => intro t n hinv; exact ⟨t, n, rfl, hinv, rfl⟩
  | cons c cs ih =>
    intro t n hinv
    cases c with
    | set k v =>
      obtain ⟨t1, e1, e2, -, -, e5, e6⟩ := set_api t hinv k v
      by_cases hg : kvs_btree_get t (some k) = none
      · obtain ⟨t2, n2, f1, f2, f3⟩ := ih t1 (n + 1) e2
        refine ⟨t2, n2, ?_, f2, ?_⟩
        · simp only [run, e1, hg, and_self, if_true]; exact f1
        · rw [f3, e5 hg]; omega
      · obtain ⟨t2, n2, f1, f2, f3⟩ := ih t1 n e2
        refine ⟨t2, n2, ?_, f2, ?_⟩
        · simp only [run, e1, hg, and_false, if_false]; exact f1
        · rw [f3, e6 hg]
    | del k =>
      by_cases hg : kvs_btree_get t (some k) = none
      · have e1 := (delete_api t hinv k).2 hg
        obtain ⟨t2, n2, f1, f2, f3⟩ := ih t n hinv
        refine ⟨t2, n2, ?_, f2, f3⟩
        simp only [run, e1]
        simpa using f1
      · obtain ⟨t1, e1, e2, -, e4, -⟩ := (delete_api t hinv k).1 hg
        obtain ⟨t2, n2, f1, f2, f3⟩ := ih t1 (n - 1) e2
        refine ⟨t2, n2, ?_, f2, ?_⟩
        · simp only [run, e1, if_true]; exact f1
        · rw [f3, e4]; omega
    | mod k v =>
      by_cases hg : kvs_btree_get t (some k) = none
      · have e1 := (modify_api t hinv k v).2 hg
        obtain ⟨t2, n2, f1, f2, f3⟩ := ih t n hinv
        refine ⟨t2, n2, ?_, f2, f3⟩
        simp only [run, e1]; exact f1
      · obtain ⟨t1, e1, e2, -, e4, -⟩ := (modify_api t hinv k v).1 hg
        obtain ⟨t2, n2, f1, f2, f3⟩ := ih t1 n e2
        refine ⟨t2, n2, ?_, f2, ?_⟩
        · simp only [run, e1]; exact f1
        · rw [f3, e4]

end Btree

/-! ### Consequences for the calls of the skip-list API -/

namespace Skiptable

theorem sl_get_congr (s s1 : skiplist) (T T1 : List Tower) (hinv : SInv s T) (hinv1 : SInv s1 T1)
    (k1 : Key)
    (h : ∀ v1, (∃ t ∈ T1, t.key = k1 ∧ t.val = v1) ↔ (∃ t ∈ T, t.key = k1 ∧ t.val = v1)) :
    kvs_skiptable_get s1 (some k1) = kvs_skiptable_get s (some k1) := by
  by_cases hm : ∃ t ∈ T, t.key = k1
  · obtain ⟨t, ht, hk⟩ := hm
    obtain ⟨t1, ht1, hk1, hv1⟩ := (h t.val).2 ⟨t, ht, hk, rfl⟩
    rw [(get_spec s T hinv k1).1 t ht hk, (get_spec s1 T1 hinv1 k1).1 t1 ht1 hk1, hv1]
  · have h0 : ∀ t ∈ T, t.key ≠ k1 := fun t ht hk => hm ⟨t, ht, hk⟩
    have h1 : ∀ t ∈ T1, t.key ≠ k1 := by
      intro t ht hk
      obtain ⟨u, hu, hku, -⟩ := (h t.val).1 ⟨t, ht, hk, rfl⟩
      exact h0 u hu hku
    rw [(get_spec s T hinv k1).2 h0, (get_spec s1 T1 hinv1 k1).2 h1]

theorem get_stored (s : skiplist) (T : List Tower) (hinv : SInv s T) (k : Key) :
    (kvs_skiptable_get s (some k) ≠ some none ↔ ∃ t ∈ T, t.key = k) ∧
    (skiplist_search s (some k) ≠ some none ↔ ∃ t ∈ T, t.key = k) := by
  have hg := get_spec s T hinv k
  have hs := search_spec s T hinv k
  by_cases hm : ∃ t ∈ T, t.key = k
  · obtain ⟨t, ht, hk⟩ := hm
    rw [hg.1 t ht hk, hs.1 t ht hk]
    exact ⟨⟨fun _ => ⟨t, ht, hk⟩, fun _ => by simp⟩, ⟨fun _ => ⟨t, ht, hk⟩, fun _ => by simp⟩⟩
  · have h0 : ∀ t ∈ T, t.key ≠ k := fun t ht hk => hm ⟨t, ht, hk⟩
    rw [hg.2 h0, hs.2 h0]
    exact ⟨⟨fun h => absurd rfl h, fun h => absurd h hm⟩,
      ⟨fun h => absurd rfl h, fun h => absurd h hm⟩⟩

/-- What a call of `kvs_skiptable_set` does when the node can be allocated. -/
theorem sl_set_api (s : skiplist) (hinv : Inv s) (k : Key) (v : Val) (rand : Nat → Nat) :
    ∃ s1, kvs_skiptable_set s (some k) (some v) rand true = some (0, s1) ∧ Inv s1 ∧
      kvs_skiptable_get s1 (some k) = some (some v) ∧
      (∀ k1, k1 ≠ k → kvs_skiptable_get s1 (some k1) = kvs_skiptable_get s (some k1)) ∧
      (kvs_skiptable_get s (some k) = some none → s1.count = s.count + 1) ∧
      (kvs_skiptable_get s (some k) ≠ some none → s1.count = s.count) := by
  obtain ⟨T, hT, hc⟩ := hinv
  have hs := sl_set_spec s T hT k v rand true
  have hst := get_stored s T hT k
  by_cases hm : ∃ t ∈ T, t.key = k
  · obtain ⟨Lo, t, Hi1, s1, e1, e2, e3, e4, e5⟩ := hs.1 hm
    refine ⟨s1, e3, ⟨_, e4, by rw [e5, hc, e1]; simp⟩, ?_, ?_, ?_, fun _ => e5⟩
    · exact (get_spec s1 _ e4 k).1 { t with val := v } (by simp) e2
    · intro k1 hne
      refine sl_get_congr s s1 T _ hT e4 k1 (fun v1 => ?_)
      rw [e1]
      constructor
      · rintro ⟨u, hu, hk, hv⟩
        simp only [List.mem_append, List.mem_cons] at hu
        rcases hu with hu | hu | hu
        · exact ⟨u, by simp [hu], hk, hv⟩
        · rw [hu] at hk; simp only at hk; rw [e2] at hk; exact absurd hk.symm hne
        · exact ⟨u, by simp [hu], hk, hv⟩
      · rintro ⟨u, hu, hk, hv⟩
        simp only [List.mem_append, List.mem_cons] at hu
        rcases hu with hu | hu | hu
        · exact ⟨u, by simp [hu], hk, hv⟩
        · rw [hu, e2] at hk; exact absurd hk.symm hne
        · exact ⟨u, by simp [hu], hk, hv⟩
    · intro hg
      exact absurd hm (fun h => (hst.1.2 h) hg)
  · have hne : ∀ t ∈ T, t.key ≠ k := fun t ht hk => hm ⟨t, ht, hk⟩
    obtain ⟨Lo, Hi, e1, e2, e3, e4, -⟩ := hs.2 hne
    obtain ⟨s1, f1, f2, f3⟩ := e4 rfl
    refine ⟨s1, f1, ⟨_, f2, by rw [f3, hc, e1]; simp; omega⟩, ?_, ?_, fun _ => f3, ?_⟩
    · exact (get_spec s1 _ f2 k).1 ⟨s.nodes.length, k, v, random_level rand⟩ (by simp) rfl
    · intro k1 hne1
      refine sl_get_congr s s1 T _ hT f2 k1 (fun v1 => ?_)
      rw [e1]
      constructor
      · rintro ⟨u, hu, hk, hv⟩
        simp only [List.mem_append, List.mem_cons] at hu
        rcases hu with hu | hu | hu
        · exact ⟨u, by simp [hu], hk, hv⟩
        · rw [hu] at hk; simp only at hk; exact absurd hk.symm hne1
        · exact ⟨u, by simp [hu], hk, hv⟩
      · rintro ⟨u, hu, hk, hv⟩
        simp only [List.mem_append] at hu
        rcases hu with hu | hu
        · exact ⟨u, by simp [hu], hk, hv⟩
        · exact ⟨u, by simp [hu], hk, hv⟩
    · intro hg
      exact absurd (hst.1.1 hg) hm

/-- What a call of `kvs_skiptable_modify` does. -/
theorem sl_modify_api (s : skiplist) (hinv : Inv s) (k : Key) (v : Val) :
    (kvs_skiptable_get s (some k) ≠ some none →
      ∃ s1, kvs_skiptable_modify s (some k) (some v) = some (0, s1) ∧ Inv s1 ∧
        kvs_skiptable_get s1 (some k) = some (some v) ∧ s1.count = s.count ∧
        (∀ k1, k1 ≠ k → kvs_skiptable_get s1 (some k1) = kvs_skiptable_get s (some k1))) ∧
    (kvs_skiptable_get s (some k) = some none →
      kvs_skiptable_modify s (some k) (some v) = some (-1, s)) := by
  obtain ⟨T, hT, hc⟩ := hinv
  have hst := get_stored s T hT k
  have hm := sl_modify_spec s T hT k v
  refine ⟨?_, ?_⟩
  · intro hg
    obtain ⟨t, ht, hk⟩ := hst.1.1 hg
    obtain ⟨Lo, Hi1, e1⟩ := List.append_of_mem ht
    obtain ⟨s1, m1, m2, m3, -⟩ := hm.1 Lo t Hi1 e1 hk
    refine ⟨s1, by simpa [kvs_skiptable_modify] using m1,
      ⟨_, m2, by rw [m3, hc, e1]; simp⟩, ?_, m3, ?_⟩
    · exact (get_spec s1 _ m2 k).1 { t with val := v } (by simp) hk
    · intro k1 hne
      refine sl_get_congr s s1 T _ hT m2 k1 (fun v1 => ?_)
      rw [e1]
      constructor
      · rintro ⟨u, hu, hku, hv⟩
        simp only [List.mem_append, List.mem_cons] at hu
        rcases hu with hu | hu | hu
        · exact ⟨u, by simp [hu], hku, hv⟩
        · rw [hu] at hku; simp only at hku; rw [hk] at hku; exact absurd hku.symm hne
        · exact ⟨u, by simp [hu], hku, hv⟩
      · rintro ⟨u, hu, hku, hv⟩
        simp only [List.mem_append, List.mem_cons] at hu
        rcases hu with hu | hu | hu
        · exact ⟨u, by simp [hu], hku, hv⟩
        · rw [hu, hk] at hku; exact absurd hku.symm hne
        · exact ⟨u, by simp [hu], hku, hv⟩
  · intro hg
    have hne : ∀ t ∈ T, t.key ≠ k := by
      intro t ht hk
      exact (hst.1.2 ⟨t, ht, hk⟩) hg
    simpa [kvs_skiptable_modify] using hm.2 hne

theorem chain_values (m : List (Option skiplist_node)) (j : Nat) (L : List Tower) :
    ∀ h, ChainFrom m j h L → ∀ a ∈ h :: L.map Tower.addr,
      ∃ r, read_forward m a j = some r ∧ ∀ y, r = some y → y ∈ L.map Tower.addr := by
  induction L with
  | nil =>
    intro h hc a ha
    simp only [List.map_nil, List.mem_singleton] at ha
    subst ha
    simp only [ChainFrom] at hc
    exact ⟨none, hc, by simp⟩
  | cons t L ih =>
    intro h hc a ha
    simp only [ChainFrom] at hc
    simp only [List.map_cons, List.mem_cons] at ha
    rcases ha with ha | ha
    · subst ha
      exact ⟨some t.addr, hc.1, by simp⟩
    · obtain ⟨r, h1, h2⟩ := ih t.addr hc.2 a (by simpa using ha)
      refine ⟨r, h1, ?_⟩
      intro y hy
      simp only [List.map_cons, List.mem_cons]
      exact Or.inr (h2 y hy)

/-- No forward pointer of a list that satisfies the invariant leads to an address that is not
the address of one of its towers. -/
theorem no_pointer (s : skiplist) (T : List Tower) (hinv : SInv s T) (x : Nat)
    (hx : x ∉ T.map Tower.addr) :
    ∀ (p : Nat) (n : skiplist_node) (j : Nat), node_at s.nodes p = some n →
      n.forward[j]? ≠ some (some x) := by
  intro p n j hp hf
  have hj : j < n.forward.length := by
    by_contra hh
    have : n.forward.length ≤ j := by omega
    rw [List.getElem?_eq_none this] at hf
    simp at hf
  have hread : read_forward s.nodes p j = some (some x) := by
    simp [read_forward, hp, hf]
  rcases hinv.alloc p n hp with h | h
  · obtain ⟨n1, q1, q2⟩ := hinv.header_node
    rw [h] at hp
    rw [q1] at hp
    simp only [Option.some.injEq] at hp
    subst hp
    have hc := hinv.chains j (by omega)
    obtain ⟨r, r1, r2⟩ := chain_values s.nodes j _ s.header hc s.header (by simp)
    rw [h, r1] at hread
    simp only [Option.some.injEq] at hread
    exact hx (above_sub_addr j T (r2 x hread))
  · obtain ⟨u, hu1, hu2⟩ := List.mem_map.1 h
    obtain ⟨n1, q1, -, -, q4, q5, q6, -⟩ := hinv.towers u hu1
    rw [hu2, hp] at q1
    simp only [Option.some.injEq] at q1
    subst q1
    have hjl : j < MAX_LEVEL := by
      have := hinv.level_le
      omega
    have hc := hinv.chains j hjl
    have hua : u ∈ above j T := by
      simp only [above, List.mem_filter, decide_eq_true_eq]
      exact ⟨hu1, by omega⟩
    obtain ⟨r, r1, r2⟩ := chain_values s.nodes j _ s.header hc u.addr
      (by simp only [List.mem_cons]; right; exact List.mem_map_of_mem Tower.addr hua)
    rw [hu2, hread] at r1
    simp only [Option.some.injEq] at r1
    exact hx (above_sub_addr j T (r2 x r1.symm))

theorem level_chain_pointer (m : List (Option skiplist_node)) (j : Nat) (y : Nat) :
    ∀ fuel x, y ∈ level_chain m j fuel x →
      ∃ p n, node_at m p = some n ∧ n.forward[j]? = some (some y) := by
  intro fuel
  induction fuel with
  | zero => intro x h; simp [level_chain] at h
  | succ f ih =>
    intro x h
    simp only [level_chain] at h
    cases hr : read_forward m x j with
    | none => rw [hr] at h; simp at h
    | some r =>
      cases r with
      | none => rw [hr] at h; simp at h
      | some z =>
        rw [hr] at h
        simp only [List.mem_cons] at h
        rcases h with h | h
        · subst h
          obtain ⟨n, hn1, -⟩ := read_forward_node m x j _ hr
          refine ⟨x, n, hn1, ?_⟩
          simpa [read_forward, hn1] using hr
        · exact ih z h

/-- What a call of `kvs_skiptable_delete` does. -/
theorem sl_delete_api (s : skiplist) (hinv : Inv s) (k : Key) :
    (∀ x, skiplist_search s (some k) = some (some x) →
      ∃ s1, kvs_skiptable_delete s (some k) = some (0, s1) ∧ Inv s1 ∧
        kvs_skiptable_get s1 (some k) = some none ∧ s1.count = s.count - 1 ∧
        (∀ k1, k1 ≠ k → kvs_skiptable_get s1 (some k1) = kvs_skiptable_get s (some k1)) ∧
        node_at s1.nodes x = none ∧
        (∀ (p : Nat) (n : skiplist_node) (j : Nat), node_at s1.nodes p = some n →
          n.forward[j]? ≠ some (some x))) ∧
    (skiplist_search s (some k) = some none →
      kvs_skiptable_delete s (some k) = some (-1, s)) := by
  obtain ⟨T, hT, hc⟩ := hinv
  have hst := get_stored s T hT k
  have hd := sl_delete_spec s T hT k
  refine ⟨?_, ?_⟩
  · intro x hx
    have hm : ∃ t ∈ T, t.key = k := hst.2.1 (by rw [hx]; simp)
    obtain ⟨Lo, t, Hi1, s1, e1, e2, e3, e4, e5, e6, e7⟩ := hd.1 hm
    have hxt : x = t.addr := by
      rw [hx] at e7
      simpa using e7
    subst hxt
    have hnd := hT.nodup
    have hsrt := hT.sorted
    rw [e1] at hnd hsrt
    have hnotin : t.addr ∉ (Lo ++ Hi1).map Tower.addr := by
      intro hh
      obtain ⟨u, hu1, hu2⟩ := List.mem_map.1 hh
      simp only [List.mem_append] at hu1
      exact nodup_addr_ne Lo Hi1 t u hnd hu1 hu2
    have hkey : ∀ u ∈ Lo ++ Hi1, u.key ≠ k := by
      intro u hu hk
      rw [List.pairwise_append, List.pairwise_cons] at hsrt
      simp only [List.mem_append] at hu
      rcases hu with hu | hu
      · have := hsrt.2.2 u hu t (by simp)
        rw [hk, e2] at this
        exact absurd this (lt_irrefl _)
      · have := hsrt.2.1.1 u hu
        rw [hk, e2] at this
        exact absurd this (lt_irrefl _)
    refine ⟨s1, by simpa [kvs_skiptable_delete] using e3,
      ⟨_, e4, by rw [e5, hc, e1]; simp; omega⟩, (get_spec s1 _ e4 k).2 hkey, e5, ?_, e6,
      no_pointer s1 _ e4 t.addr hnotin⟩
    intro k1 hne
    refine sl_get_congr s s1 T _ hT e4 k1 (fun v1 => ?_)
    rw [e1]
    constructor
    · rintro ⟨u, hu, hku, hv⟩
      simp only [List.mem_append] at hu
      rcases hu with hu | hu
      · exact ⟨u, by simp [hu], hku, hv⟩
      · exact ⟨u, by simp [hu], hku, hv⟩
    · rintro ⟨u, hu, hku, hv⟩
      simp only [List.mem_append, List.mem_cons] at hu
      rcases hu with hu | hu | hu
      · exact ⟨u, by simp [hu], hku, hv⟩
      · rw [hu, e2] at hku; exact absurd hku.symm hne
      · exact ⟨u, by simp [hu], hku, hv⟩
  · intro hs
    have hne : ∀ t ∈ T, t.key ≠ k := by
      intro t ht hk
      exact (hst.2.2 ⟨t, ht, hk⟩) hs
    simpa [kvs_skiptable_delete] using hd.2 hne

theorem search_get_none (s : skiplist) (hinv : Inv s) (k : Key) :
    (skiplist_search s (some k) = some none ↔ kvs_skiptable_get s (some k) = some none) ∧
    (∃ r, skiplist_search s (some k) = some r) := by
  obtain ⟨T, hT, -⟩ := hinv
  have hg := get_spec s T hT k
  have hs := search_spec s T hT k
  by_cases hm : ∃ t ∈ T, t.key = k
  · obtain ⟨t, ht, hk⟩ := hm
    rw [hg.1 t ht hk, hs.1 t ht hk]
    exact ⟨by simp, ⟨_, rfl⟩⟩
  · have h0 : ∀ t ∈ T, t.key ≠ k := fun t ht hk => hm ⟨t, ht, hk⟩
    rw [hg.2 h0, hs.2 h0]
    exact ⟨by simp, ⟨_, rfl⟩⟩

theorem chain0_length (s : skiplist) (hinv : Inv s) (fuel : Nat) (hf : s.nodes.length ≤ fuel) :
    s.count = ((level_chain s.nodes 0 fuel s.header).length : Int) := by
  obtain ⟨T, hT, hc⟩ := hinv
  have hz : above 0 T = T := by
    apply above_zero
    intro t ht
    obtain ⟨_, -, -, -, -, q5, -⟩ := hT.towers t ht
    exact q5
  have hch := hT.chains 0 (by simp [MAX_LEVEL])
  rw [hz] at hch
  rw [level_chain_eq s.nodes 0 T fuel s.header hch (Nat.lt_of_lt_of_le hT.size hf), hc]
  simp

theorem sl_run_spec (cs : List call) : ∀ (s : skiplist) (n : Int), Inv s →
    ∃ s1 n1, run s n cs = some (s1, n1) ∧ Inv s1 ∧ s1.count - n1 = s.count - n := by
  induction cs with
  | nil => intro s n hinv; exact ⟨s, n, rfl, hinv, rfl⟩
  | cons c cs ih =>
    intro s n hinv
    cases c with
    | set k v rand =>
      obtain ⟨s1, e1, e2, -, -, e5, e6⟩ := sl_set_api s hinv k v rand
      by_cases hg : kvs_skiptable_get s (some k) = some none
      · obtain ⟨s2, n2, f1, f2, f3⟩ := ih s1 (n + 1) e2
        refine ⟨s2, n2, ?_, f2, ?_⟩
        · simp only [run, e1, hg, and_self, if_true]; exact f1
        · rw [f3, e5 hg]; omega
      · obtain ⟨s2, n2, f1, f2, f3⟩ := ih s1 n e2
        refine ⟨s2, n2, ?_, f2, ?_⟩
        · simp only [run, e1, hg, and_false, if_false]; exact f1
        · rw [f3, e6 hg]
    | del k =>
      obtain ⟨hsn, r, hr⟩ := search_get_none s hinv k
      cases r with
      | none =>
        have e1 := (sl_delete_api s hinv k).2 hr
        obtain ⟨s2, n2, f1, f2, f3⟩ := ih s n hinv
        refine ⟨s2, n2, ?_, f2, f3⟩
        simp only [run, e1]
        simpa using f1
      | some x =>
        obtain ⟨s1, e1, e2, -, e4, -⟩ := (sl_delete_api s hinv k).1 x hr
        obtain ⟨s2, n2, f1, f2, f3⟩ := ih s1 (n - 1) e2
        refine ⟨s2, n2, ?_, f2, ?_⟩
        · simp only [run, e1, if_true]; exact f1
        · rw [f3, e4]; omega
    | mod k v =>
      by_cases hg : kvs_skiptable_get s (some k) = some none
      · have e1 := (sl_modify_api s hinv k v).2 hg
        obtain ⟨s2, n2, f1, f2, f3⟩ := ih s n hinv
        refine ⟨s2, n2, ?_, f2, f3⟩
        simp only [run, e1]; exact f1
      · obtain ⟨s1, e1, e2, -, e4, -⟩ := (sl_modify_api s hinv k v).1 hg
        obtain ⟨s2, n2, f1, f2, f3⟩ := ih s1 n e2
        refine ⟨s2, n2, ?_, f2, ?_⟩
        · simp only [run, e1]; exact f1
        · rw [f3, e4]

theorem sl_demo1_reachable : Reachable demo1 :=
  Reachable.set _ _ (some [107]) (some [118]) (fun _ => 40000) true 0 Reachable.create rfl

end Skiptable

/-! ### The contract of the B-tree engine -/

/-- C1 (B-tree insert-get round trip): on every B-tree reachable from `kvstore_btree_create`
by calls of `kvs_btree_set`, `kvs_btree_modify` and `kvs_btree_delete`, for every key `k` and
value `v`, `kvs_btree_set` returns 0 (the dispatcher replies `SUCCESS`) and a following
`kvs_btree_get` of `k` returns `v`. -/
theorem btree_set_then_get (t : Btree.btree) (ht : Btree.Reachable t) (k : Key) (v : Val) :
    ∃ t1, Btree.kvs_btree_set t (some k) (some v) = some (0, t1) ∧
      Btree.kvs_btree_get t1 (some k) = some v ∧
      ∀ size, case_BSET size t (some k) (some v) = some (snprintf size SUCCESS, t1) := by
  obtain ⟨t1, e1, -, e3, -⟩ := Btree.set_api t (Btree.reachable_inv t ht) k v
  refine ⟨t1, e1, e3, fun size => ?_⟩
  simp [case_BSET, e1, reply_set]

theorem btree_set_then_get_witness :
    Btree.Reachable Btree.demo8 ∧
    ∃ t1, Btree.kvs_btree_set Btree.demo8 (some [105]) (some [57]) = some (0, t1) ∧
      Btree.kvs_btree_get t1 (some [105]) = some [57] ∧
      ∀ size, case_BSET size Btree.demo8 (some [105]) (some [57])
        = some (snprintf size SUCCESS, t1) :=
  ⟨Btree.demo8_reachable, btree_set_then_get Btree.demo8 Btree.demo8_reachable [105] [57]⟩

/-- C2 (B-tree delete removes): on every reachable B-tree and for every key `k` stored in it,
`kvs_btree_delete` returns 0, afterwards `kvs_btree_get` of `k` returns NULL, and
`kvs_btree_count` is exactly one less than before. -/
theorem btree_delete_removes (t : Btree.btree) (ht : Btree.Reachable t) (k : Key)
    (hk : Btree.kvs_btree_get t (some k) ≠ none) :
    ∃ t1, Btree.kvs_btree_delete t (some k) = some (0, t1) ∧
      Btree.kvs_btree_get t1 (some k) = none ∧
      Btree.kvs_btree_count t1 = Btree.kvs_btree_count t - 1 := by
  obtain ⟨t1, e1, -, e3, e4, -⟩ := (Btree.delete_api t (Btree.reachable_inv t ht) k).1 hk
  exact ⟨t1, e1, e3, e4⟩

theorem btree_delete_removes_witness :
    Btree.Reachable Btree.demo8 ∧
    Btree.kvs_btree_get Btree.demo8 (some [99]) ≠ none ∧
    ∃ t1, Btree.kvs_btree_delete Btree.demo8 (some [99]) = some (0, t1) ∧
      Btree.kvs_btree_get t1 (some [99]) = none ∧
      Btree.kvs_btree_count t1 = Btree.kvs_btree_count Btree.demo8 - 1 :=
  ⟨Btree.demo8_reachable, by decide, btree_delete_removes Btree.demo8 Btree.demo8_reachable [99] (by decide)⟩

/-- C3 (B-tree operations on one key do not disturb other keys): on every reachable B-tree,
for every key `k` and every other key `k1`, `kvs_btree_get` of `k1` returns the same value, or
the same NULL, after `kvs_btree_set` of `k` and after `kvs_btree_delete` of `k` as before. -/
theorem btree_other_keys_kept (t : Btree.btree) (ht : Btree.Reachable t) (k k1 : Key) (v : Val)
    (hne : k1 ≠ k) :
    (∃ t1, Btree.kvs_btree_set t (some k) (some v) = some (0, t1) ∧
      Btree.kvs_btree_get t1 (some k1) = Btree.kvs_btree_get t (some k1)) ∧
    (∃ r t2, Btree.kvs_btree_delete t (some k) = some (r, t2) ∧
      Btree.kvs_btree_get t2 (some k1) = Btree.kvs_btree_get t (some k1)) := by
  have hinv := Btree.reachable_inv t ht
  refine ⟨?_, ?_⟩
  · obtain ⟨t1, e1, -, -, e4, -⟩ := Btree.set_api t hinv k v
    exact ⟨t1, e1, e4 k1 hne⟩
  · by_cases hk : Btree.kvs_btree_get t (some k) = none
    · exact ⟨-1, t, (Btree.delete_api t hinv k).2 hk, rfl⟩
    · obtain ⟨t2, e1, -, -, -, e5⟩ := (Btree.delete_api t hinv k).1 hk
      exact ⟨0, t2, e1, e5 k1 hne⟩

theorem btree_other_keys_kept_witness :
    Btree.Reachable Btree.demo8 ∧
    ([100] : Key) ≠ [99] ∧
    (∃ t1, Btree.kvs_btree_set Btree.demo8 (some [99]) (some [57]) = some (0, t1) ∧
      Btree.kvs_btree_get t1 (some [100]) = Btree.kvs_btree_get Btree.demo8 (some [100])) ∧
    (∃ r t2, Btree.kvs_btree_delete Btree.demo8 (some [99]) = some (r, t2) ∧
      Btree.kvs_btree_get t2 (some [100]) = Btree.kvs_btree_get Btree.demo8 (some [100])) :=
  ⟨Btree.demo8_reachable, by decide, btree_other_keys_kept Btree.demo8 Btree.demo8_reachable [99] [100] [57]
    (by decide)⟩

/-- C9 (B-tree structural invariant): in every reachable B-tree there is one depth `h` at which
exactly the leaves sit, every node holds at most `2t-1 = 5` keys, every node other than the
root holds at least `t-1 = 2` keys, and every internal node with `n` keys has exactly `n+1`
children. -/
theorem btree_structure (t : Btree.btree) (ht : Btree.Reachable t) :
    ∃ h, ∀ d x, Btree.NodeAt t.root d x →
      (x.leaf = true ↔ d = h) ∧ x.n ≤ 5 ∧ (0 < d → 2 ≤ x.n) ∧
      (x.leaf = false → x.children.length = x.n + 1) := by
  obtain ⟨h, hs, -, -, -⟩ := Btree.reachable_inv t ht
  refine ⟨h, fun d x hx => ?_⟩
  obtain ⟨hd, hsh⟩ := Btree.shape_nodeAt 0 h t.root hs d x hx
  have hl := Btree.shape_leaf_iff _ _ x hsh
  have hn := Btree.shape_n _ _ x hsh
  simp only [Btree.DEGREE] at hn
  refine ⟨?_, by omega, ?_, ?_⟩
  · rw [hl]; omega
  · intro hpos
    have : d ≠ 0 := by omega
    simp only [this, if_false] at hn
    omega
  · intro hleaf
    cases hq : h - d with
    | zero =>
      have := hl.2 hq
      rw [this] at hleaf
      exact absurd hleaf (by simp)
    | succ q =>
      rw [hq] at hsh
      exact ((Btree.shape_node _ q x).1 hsh).2.2.2.1

theorem btree_structure_witness :
    Btree.Reachable Btree.demo8 ∧
    ∃ h, ∀ d x, Btree.NodeAt Btree.demo8.root d x →
      (x.leaf = true ↔ d = h) ∧ x.n ≤ 5 ∧ (0 < d → 2 ≤ x.n) ∧
      (x.leaf = false → x.children.length = x.n + 1) :=
  ⟨Btree.demo8_reachable, btree_structure Btree.demo8 Btree.demo8_reachable⟩

/-- C10 (B-tree ordering invariant): in every reachable B-tree the in-order traversal (child 0,
key 0, child 1, key 1, ..., child n) lists the keys in strictly ascending `strcmp` order, no
key occurs twice in it, the keys of every node are in strictly ascending order, and every key
under child `i` of a node lies strictly between key `i-1` and key `i` of that node. -/
theorem btree_ordering (t : Btree.btree) (ht : Btree.Reachable t) :
    (Btree.inorder t.root).Pairwise (fun a b => strcmp a.1 b.1 = Ordering.lt) ∧
    ((Btree.inorder t.root).map Prod.fst).Nodup ∧
    ∀ d x, Btree.NodeAt t.root d x →
      x.entries.Pairwise (fun a b => strcmp a.1 b.1 = Ordering.lt) ∧
      (x.leaf = false → ∀ (i : Nat) (c : Btree.btree_node), x.children[i]? = some c →
        ∀ a ∈ Btree.inorder c,
          (∀ e, x.entries[i]? = some e → strcmp a.1 e.1 = Ordering.lt) ∧
          (∀ e, 0 < i → x.entries[i - 1]? = some e → strcmp e.1 a.1 = Ordering.lt)) := by
  obtain ⟨h, hs, -, hsort, -⟩ := Btree.reachable_inv t ht
  have hlt : ∀ L : List (Key × Val), Btree.Sorted L →
      L.Pairwise (fun a b => strcmp a.1 b.1 = Ordering.lt) := by
    intro L hL
    exact List.Pairwise.imp (fun {a b} hab => (strcmp_lt_iff a.1 b.1).2 hab) hL
  refine ⟨hlt _ hsort, ?_, ?_⟩
  · rw [List.Nodup, List.pairwise_map]
    exact List.Pairwise.imp (fun {a b} hab => ne_of_lt hab) hsort
  · intro d x hx
    have hsx := Btree.sorted_nodeAt 0 h t.root hs hsort d x hx
    obtain ⟨-, hsh⟩ := Btree.shape_nodeAt 0 h t.root hs d x hx
    cases x with
    | mk leaf es cs =>
      cases leaf with
      | true =>
        simp only [Btree.inorder_leaf] at hsx
        simp only [Btree.entries_mk, Btree.leaf_mk]
        exact ⟨hlt _ hsx, fun hh => absurd hh (by simp)⟩
      | false =>
        simp only [Btree.inorder_node] at hsx
        simp only [Btree.entries_mk, Btree.leaf_mk, Btree.children_mk]
        have hlen : cs.length = es.length + 1 := by
          cases hq : h - d with
          | zero =>
            rw [hq] at hsh
            have := ((Btree.shape_leaf _ _).1 hsh).1
            simp at this
          | succ q =>
            rw [hq] at hsh
            simpa using ((Btree.shape_node _ q _).1 hsh).2.2.2.1
        refine ⟨hlt _ (List.Pairwise.sublist
          (Btree.flat_sublist cs es (by omega)) hsx), fun _ i c hc a ha => ?_⟩
        obtain ⟨s1, s2⟩ := Btree.straddle es cs hlen hsx i c hc a ha
        exact ⟨fun e he => (strcmp_lt_iff _ _).2 (s1 e he),
          fun e hi he => (strcmp_lt_iff _ _).2 (s2 e he hi)⟩

theorem btree_ordering_witness :
    Btree.Reachable Btree.demo8 ∧
    (Btree.inorder Btree.demo8.root).Pairwise (fun a b => strcmp a.1 b.1 = Ordering.lt) ∧
    ((Btree.inorder Btree.demo8.root).map Prod.fst).Nodup ∧
    ∀ d x, Btree.NodeAt Btree.demo8.root d x →
      x.entries.Pairwise (fun a b => strcmp a.1 b.1 = Ordering.lt) ∧
      (x.leaf = false → ∀ (i : Nat) (c : Btree.btree_node), x.children[i]? = some c →
        ∀ a ∈ Btree.inorder c,
          (∀ e, x.entries[i]? = some e → strcmp a.1 e.1 = Ordering.lt) ∧
          (∀ e, 0 < i → x.entries[i - 1]? = some e → strcmp e.1 a.1 = Ordering.lt)) :=
  ⟨Btree.demo8_reachable, btree_ordering Btree.demo8 Btree.demo8_reachable⟩

/-! ### The contract of the skip-list engine -/

/-- C5 (skip-list insert-get round trip): on every skip list reachable from
`kvstore_skiptable_create` by set, modify and delete calls, for every key `k`, every value `v`
and every sequence of values that `rand()` returns to the level draw, `kvs_skiptable_set`
(whose node is allocated) returns 0, the dispatcher replies `SUCCESS`, and a following
`kvs_skiptable_get` of `k` returns `v`. -/
theorem skiptable_set_then_get (s : Skiptable.skiplist) (hs : Skiptable.Reachable s) (k : Key)
    (v : Val) (rand : Nat → Nat) :
    ∃ s1, Skiptable.kvs_skiptable_set s (some k) (some v) rand true = some (0, s1) ∧
      Skiptable.kvs_skiptable_get s1 (some k) = some (some v) ∧
      ∀ size, case_SSET size s (some k) (some v) rand true
        = some (snprintf size SUCCESS, s1) := by
  obtain ⟨s1, e1, -, e3, -⟩ := Skiptable.sl_set_api s (Skiptable.sl_reachable_inv s hs) k v rand
  refine ⟨s1, e1, e3, fun size => ?_⟩
  simp [case_SSET, e1, reply_set]

theorem skiptable_set_then_get_witness :
    Skiptable.Reachable Skiptable.demo1 ∧
    ∃ s1, Skiptable.kvs_skiptable_set Skiptable.demo1 (some [105]) (some [57])
        (fun n => 7 * n) true = some (0, s1) ∧
      Skiptable.kvs_skiptable_get s1 (some [105]) = some (some [57]) ∧
      ∀ size, case_SSET size Skiptable.demo1 (some [105]) (some [57]) (fun n => 7 * n) true
        = some (snprintf size SUCCESS, s1) :=
  ⟨Skiptable.sl_demo1_reachable,
    skiptable_set_then_get Skiptable.demo1 Skiptable.sl_demo1_reachable [105] [57]
      (fun n => 7 * n)⟩

/-- C6 (skip-list delete removes): on every reachable skip list and for every key `k` stored
in it, in the node at address `x`, `kvs_skiptable_delete` returns 0, afterwards
`kvs_skiptable_get` of `k` returns NULL, `kvs_skiptable_count` is exactly one less than
before, the node is freed, no forward pointer of any node at any level leads to `x`, and `x`
is on no level chain that starts at the header. -/
theorem skiptable_delete_removes (s : Skiptable.skiplist) (hs : Skiptable.Reachable s) (k : Key)
    (x : Nat) (hk : Skiptable.skiplist_search s (some k) = some (some x)) :
    ∃ s1, Skiptable.kvs_skiptable_delete s (some k) = some (0, s1) ∧
      Skiptable.kvs_skiptable_get s1 (some k) = some none ∧
      Skiptable.kvs_skiptable_count s1 = Skiptable.kvs_skiptable_count s - 1 ∧
      Skiptable.node_at s1.nodes x = none ∧
      (∀ (p : Nat) (n : Skiptable.skiplist_node) (j : Nat),
        Skiptable.node_at s1.nodes p = some n → n.forward[j]? ≠ some (some x)) ∧
      (∀ j fuel, x ∉ Skiptable.level_chain s1.nodes j fuel s1.header) := by
  obtain ⟨s1, e1, -, e3, e4, -, e6, e7⟩ :=
    (Skiptable.sl_delete_api s (Skiptable.sl_reachable_inv s hs) k).1 x hk
  refine ⟨s1, e1, e3, e4, e6, e7, ?_⟩
  intro j fuel hmem
  obtain ⟨p, n, hp, hf⟩ := Skiptable.level_chain_pointer s1.nodes j x fuel s1.header hmem
  exact e7 p n j hp hf

theorem skiptable_delete_removes_witness :
    Skiptable.Reachable Skiptable.demo1 ∧
    Skiptable.skiplist_search Skiptable.demo1 (some [107]) = some (some 1) ∧
    ∃ s1, Skiptable.kvs_skiptable_delete Skiptable.demo1 (some [107]) = some (0, s1) ∧
      Skiptable.kvs_skiptable_get s1 (some [107]) = some none ∧
      Skiptable.kvs_skiptable_count s1 = Skiptable.kvs_skiptable_count Skiptable.demo1 - 1 ∧
      Skiptable.node_at s1.nodes 1 = none ∧
      (∀ (p : Nat) (n : Skiptable.skiplist_node) (j : Nat),
        Skiptable.node_at s1.nodes p = some n → n.forward[j]? ≠ some (some 1)) ∧
      (∀ j fuel, 1 ∉ Skiptable.level_chain s1.nodes j fuel s1.header) :=
  ⟨Skiptable.sl_demo1_reachable, rfl,
    skiptable_delete_removes Skiptable.demo1 Skiptable.sl_demo1_reachable [107] 1 rfl⟩

/-! ### The contract of both engines -/

/-- C4 (absent key, delete and modify): when the key `k` is not stored, `kvs_btree_delete`,
`kvs_btree_modify`, `kvs_skiptable_delete` and `kvs_skiptable_modify` return -1, which is not
a positive code, and the replies of the dispatcher to `BDEL k`, `BMOD k v`, `SDEL k` and
`SMOD k v` are `ERROR`, not `NO EXIST`. -/
theorem absent_key_replies_error (size : Nat) (hsize : 8 < size)
    (t : Btree.btree) (ht : Btree.Reachable t)
    (s : Skiptable.skiplist) (hs : Skiptable.Reachable s) (k : Key) (v : Val)
    (hb : Btree.kvs_btree_get t (some k) = none)
    (hsl : Skiptable.kvs_skiptable_get s (some k) = some none) :
    Btree.kvs_btree_delete t (some k) = some (-1, t) ∧
    Btree.kvs_btree_modify t (some k) (some v) = (-1, t) ∧
    Skiptable.kvs_skiptable_delete s (some k) = some (-1, s) ∧
    Skiptable.kvs_skiptable_modify s (some k) (some v) = some (-1, s) ∧
    case_BDEL size t (some k) = some (ERROR, t) ∧
    case_BMOD size t (some k) (some v) = (ERROR, t) ∧
    case_SDEL size s (some k) = some (ERROR, s) ∧
    case_SMOD size s (some k) (some v) = some (ERROR, s) ∧
    ERROR ≠ snprintf size NO_EXIST := by
  have hbi := Btree.reachable_inv t ht
  have hsi := Skiptable.sl_reachable_inv s hs
  have e1 := (Btree.delete_api t hbi k).2 hb
  have e2 := (Btree.modify_api t hbi k v).2 hb
  have e3 := (Skiptable.sl_delete_api s hsi k).2 ((Skiptable.search_get_none s hsi k).1.2 hsl)
  have e4 := (Skiptable.sl_modify_api s hsi k v).2 hsl
  have hE : snprintf size ERROR = ERROR := by
    simp only [snprintf, ERROR]
    exact List.take_of_length_le (by simp; omega)
  have hN : snprintf size NO_EXIST = NO_EXIST := by
    simp only [snprintf, NO_EXIST]
    exact List.take_of_length_le (by simp; omega)
  refine ⟨e1, e2, e3, e4, ?_, ?_, ?_, ?_, ?_⟩
  · simp [case_BDEL, e1, reply_code, hE]
  · simp [case_BMOD, e2, reply_code, hE]
  · simp [case_SDEL, e3, reply_code, hE]
  · simp [case_SMOD, e4, reply_code, hE]
  · rw [hN]; decide

theorem absent_key_replies_error_witness :
    8 < 1024 ∧
    Btree.kvs_btree_get Btree.kvstore_btree_create (some [110, 97, 109, 101]) = none ∧
    Skiptable.kvs_skiptable_get Skiptable.kvstore_skiptable_create (some [110, 97, 109, 101])
      = some none ∧
    Btree.kvs_btree_delete Btree.kvstore_btree_create (some [110, 97, 109, 101])
      = some (-1, Btree.kvstore_btree_create) ∧
    Btree.kvs_btree_modify Btree.kvstore_btree_create (some [110, 97, 109, 101]) (some [98])
      = (-1, Btree.kvstore_btree_create) ∧
    Skiptable.kvs_skiptable_delete Skiptable.kvstore_skiptable_create
      (some [110, 97, 109, 101]) = some (-1, Skiptable.kvstore_skiptable_create) ∧
    Skiptable.kvs_skiptable_modify Skiptable.kvstore_skiptable_create
      (some [110, 97, 109, 101]) (some [98]) = some (-1, Skiptable.kvstore_skiptable_create) ∧
    case_BDEL 1024 Btree.kvstore_btree_create (some [110, 97, 109, 101])
      = some (ERROR, Btree.kvstore_btree_create) ∧
    case_BMOD 1024 Btree.kvstore_btree_create (some [110, 97, 109, 101]) (some [98])
      = (ERROR, Btree.kvstore_btree_create) ∧
    case_SDEL 1024 Skiptable.kvstore_skiptable_create (some [110, 97, 109, 101])
      = some (ERROR, Skiptable.kvstore_skiptable_create) ∧
    case_SMOD 1024 Skiptable.kvstore_skiptable_create (some [110, 97, 109, 101]) (some [98])
      = some (ERROR, Skiptable.kvstore_skiptable_create) ∧
    ERROR ≠ snprintf 1024 NO_EXIST :=
  ⟨by decide, rfl, rfl,
    absent_key_replies_error 1024 (by decide) Btree.kvstore_btree_create
      Btree.Reachable.create Skiptable.kvstore_skiptable_create Skiptable.Reachable.create
      [110, 97, 109, 101] [98] rfl rfl⟩

/-- C7 (updating an existing key is an upsert): in both engines, when the key `k` is stored,
set and modify of `k` with the value `v2` return 0, the dispatcher replies `SUCCESS`,
afterwards get of `k` returns `v2`, count is unchanged, and get of every other key returns
what it returned before. -/
theorem existing_key_upsert (t : Btree.btree) (ht : Btree.Reachable t)
    (s : Skiptable.skiplist) (hs : Skiptable.Reachable s) (k : Key) (v2 : Val)
    (rand : Nat → Nat)
    (hb : Btree.kvs_btree_get t (some k) ≠ none)
    (hsl : Skiptable.kvs_skiptable_get s (some k) ≠ some none) :
    (∃ t1, Btree.kvs_btree_set t (some k) (some v2) = some (0, t1) ∧
      (∀ size, case_BSET size t (some k) (some v2) = some (snprintf size SUCCESS, t1)) ∧
      Btree.kvs_btree_get t1 (some k) = some v2 ∧
      Btree.kvs_btree_count t1 = Btree.kvs_btree_count t ∧
      ∀ k1, k1 ≠ k → Btree.kvs_btree_get t1 (some k1) = Btree.kvs_btree_get t (some k1)) ∧
    (∃ t1, Btree.kvs_btree_modify t (some k) (some v2) = (0, t1) ∧
      (∀ size, case_BMOD size t (some k) (some v2) = (snprintf size SUCCESS, t1)) ∧
      Btree.kvs_btree_get t1 (some k) = some v2 ∧
      Btree.kvs_btree_count t1 = Btree.kvs_btree_count t ∧
      ∀ k1, k1 ≠ k → Btree.kvs_btree_get t1 (some k1) = Btree.kvs_btree_get t (some k1)) ∧
    (∃ s1, Skiptable.kvs_skiptable_set s (some k) (some v2) rand true = some (0, s1) ∧
      (∀ size, case_SSET size s (some k) (some v2) rand true
        = some (snprintf size SUCCESS, s1)) ∧
      Skiptable.kvs_skiptable_get s1 (some k) = some (some v2) ∧
      Skiptable.kvs_skiptable_count s1 = Skiptable.kvs_skiptable_count s ∧
      ∀ k1, k1 ≠ k →
        Skiptable.kvs_skiptable_get s1 (some k1) = Skiptable.kvs_skiptable_get s (some k1)) ∧
    (∃ s1, Skiptable.kvs_skiptable_modify s (some k) (some v2) = some (0, s1) ∧
      (∀ size, case_SMOD size s (some k) (some v2) = some (snprintf size SUCCESS, s1)) ∧
      Skiptable.kvs_skiptable_get s1 (some k) = some (some v2) ∧
      Skiptable.kvs_skiptable_count s1 = Skiptable.kvs_skiptable_count s ∧
      ∀ k1, k1 ≠ k →
        Skiptable.kvs_skiptable_get s1 (some k1) = Skiptable.kvs_skiptable_get s (some k1)) := by
  have hbi := Btree.reachable_inv t ht
  have hsi := Skiptable.sl_reachable_inv s hs
  refine ⟨?_, ?_, ?_, ?_⟩
  · obtain ⟨t1, e1, -, e3, e4, -, e6⟩ := Btree.set_api t hbi k v2
    exact ⟨t1, e1, fun size => by simp [case_BSET, e1, reply_set], e3, e6 hb, e4⟩
  · obtain ⟨t1, e1, -, e3, e4, e5⟩ := (Btree.modify_api t hbi k v2).1 hb
    exact ⟨t1, e1, fun size => by simp [case_BMOD, e1, reply_code], e3, e4, e5⟩
  · obtain ⟨s1, e1, -, e3, e4, -, e6⟩ := Skiptable.sl_set_api s hsi k v2 rand
    exact ⟨s1, e1, fun size => by simp [case_SSET, e1, reply_set], e3, e6 hsl, e4⟩
  · obtain ⟨s1, e1, -, e3, e4, e5⟩ := (Skiptable.sl_modify_api s hsi k v2).1 hsl
    exact ⟨s1, e1, fun size => by simp [case_SMOD, e1, reply_code], e3, e4, e5⟩

theorem existing_key_upsert_witness :
    Btree.Reachable Btree.demo1 ∧ Skiptable.Reachable Skiptable.demo1 ∧
    Btree.kvs_btree_get Btree.demo1 (some [107]) ≠ none ∧
    Skiptable.kvs_skiptable_get Skiptable.demo1 (some [107]) ≠ some none ∧
    (∃ t1, Btree.kvs_btree_modify Btree.demo1 (some [107]) (some [119]) = (0, t1) ∧
      (∀ size, case_BMOD size Btree.demo1 (some [107]) (some [119])
        = (snprintf size SUCCESS, t1)) ∧
      Btree.kvs_btree_get t1 (some [107]) = some [119] ∧
      Btree.kvs_btree_count t1 = Btree.kvs_btree_count Btree.demo1 ∧
      ∀ k1, k1 ≠ [107] →
        Btree.kvs_btree_get t1 (some k1) = Btree.kvs_btree_get Btree.demo1 (some k1)) ∧
    (∃ s1, Skiptable.kvs_skiptable_set Skiptable.demo1 (some [107]) (some [119])
        (fun _ => 0) true = some (0, s1) ∧
      (∀ size, case_SSET size Skiptable.demo1 (some [107]) (some [119]) (fun _ => 0) true
        = some (snprintf size SUCCESS, s1)) ∧
      Skiptable.kvs_skiptable_get s1 (some [107]) = some (some [119]) ∧
      Skiptable.kvs_skiptable_count s1 = Skiptable.kvs_skiptable_count Skiptable.demo1 ∧
      ∀ k1, k1 ≠ [107] → Skiptable.kvs_skiptable_get s1 (some k1)
        = Skiptable.kvs_skiptable_get Skiptable.demo1 (some k1)) :=
  have h := existing_key_upsert Btree.demo1 Btree.demo1_reachable Skiptable.demo1
    Skiptable.sl_demo1_reachable [107] [119] (fun _ => 0) (by decide) (by decide)
  ⟨Btree.demo1_reachable, Skiptable.sl_demo1_reachable, by decide, by decide, h.2.1, h.2.2.1⟩

/-- C8 (count invariant): in every reachable state `kvs_btree_count` is the number of keys
held in the nodes of the B-tree and `kvs_skiptable_count` is the number of nodes on the
level-0 chain of the skip list; over every further run of calls (the allocations of the
skip list succeeding) count grows by the number of the calls of set that return 0 for a key
not present at the time minus the number of the calls of delete that return 0; count is
never negative, and the reply to `BCOUNT` and `SCOUNT` is its decimal form, never `ERROR`. -/
theorem count_invariant (t : Btree.btree) (ht : Btree.Reachable t)
    (s : Skiptable.skiplist) (hs : Skiptable.Reachable s) :
    Btree.kvs_btree_count t = (Btree.key_total t.root : Int) ∧
    (∀ fuel, s.nodes.length ≤ fuel → Skiptable.kvs_skiptable_count s
      = ((Skiptable.level_chain s.nodes 0 fuel s.header).length : Int)) ∧
    (∀ cs, ∃ t1 n1, Btree.run t 0 cs = some (t1, n1) ∧
      Btree.kvs_btree_count t1 = Btree.kvs_btree_count t + n1) ∧
    (∀ cs, ∃ s1 n1, Skiptable.run s 0 cs = some (s1, n1) ∧
      Skiptable.kvs_skiptable_count s1 = Skiptable.kvs_skiptable_count s + n1) ∧
    0 ≤ Btree.kvs_btree_count t ∧ 0 ≤ Skiptable.kvs_skiptable_count s ∧
    (∀ size, case_BCOUNT size t = snprintf size (decimal (Btree.kvs_btree_count t))) ∧
    (∀ size, case_SCOUNT size s = snprintf size (decimal (Skiptable.kvs_skiptable_count s))) := by
  have hbi := Btree.reachable_inv t ht
  have hsi := Skiptable.sl_reachable_inv s hs
  have hb0 : 0 ≤ Btree.kvs_btree_count t := by
    obtain ⟨h, -, -, -, hc⟩ := hbi
    simp only [Btree.kvs_btree_count, hc]
    exact Int.natCast_nonneg _
  have hs0 : 0 ≤ Skiptable.kvs_skiptable_count s := by
    obtain ⟨T, -, hc⟩ := hsi
    simp only [Skiptable.kvs_skiptable_count, hc]
    exact Int.natCast_nonneg _
  refine ⟨?_, ?_, ?_, ?_, hb0, hs0, ?_, ?_⟩
  · obtain ⟨h, hsh, -, -, hc⟩ := hbi
    simp only [Btree.kvs_btree_count, hc, Btree.key_total_eq 0 h t.root hsh]
  · intro fuel hf
    exact Skiptable.chain0_length s hsi fuel hf
  · intro cs
    obtain ⟨t1, n1, e1, -, e3⟩ := Btree.run_spec cs t 0 hbi
    refine ⟨t1, n1, e1, ?_⟩
    simp only [Btree.kvs_btree_count]
    omega
  · intro cs
    obtain ⟨s1, n1, e1, -, e3⟩ := Skiptable.sl_run_spec cs s 0 hsi
    refine ⟨s1, n1, e1, ?_⟩
    simp only [Skiptable.kvs_skiptable_count]
    omega
  · intro size
    simp [case_BCOUNT, reply_count, not_lt.2 hb0]
  · intro size
    simp [case_SCOUNT, reply_count, not_lt.2 hs0]

theorem count_invariant_witness :
    Btree.Reachable Btree.demo8 ∧ Skiptable.Reachable Skiptable.demo1 ∧
    Btree.kvs_btree_count Btree.demo8 = (Btree.key_total Btree.demo8.root : Int) ∧
    (∀ fuel, Skiptable.demo1.nodes.length ≤ fuel → Skiptable.kvs_skiptable_count Skiptable.demo1
      = ((Skiptable.level_chain Skiptable.demo1.nodes 0 fuel Skiptable.demo1.header).length
          : Int)) ∧
    (∀ cs, ∃ t1 n1, Btree.run Btree.demo8 0 cs = some (t1, n1) ∧
      Btree.kvs_btree_count t1 = Btree.kvs_btree_count Btree.demo8 + n1) ∧
    (∀ cs, ∃ s1 n1, Skiptable.run Skiptable.demo1 0 cs = some (s1, n1) ∧
      Skiptable.kvs_skiptable_count s1 = Skiptable.kvs_skiptable_count Skiptable.demo1 + n1) ∧
    0 ≤ Btree.kvs_btree_count Btree.demo8 ∧
    0 ≤ Skiptable.kvs_skiptable_count Skiptable.demo1 ∧
    (∀ size, case_BCOUNT size Btree.demo8
      = snprintf size (decimal (Btree.kvs_btree_count Btree.demo8))) ∧
    (∀ size, case_SCOUNT size Skiptable.demo1
      = snprintf size (decimal (Skiptable.kvs_skiptable_count Skiptable.demo1))) :=
  ⟨Btree.demo8_reachable, Skiptable.sl_demo1_reachable,
    count_invariant Btree.demo8 Btree.demo8_reachable Skiptable.demo1
      Skiptable.sl_demo1_reachable⟩

/-! ### The order of the skip list and the calls on absent keys -/

namespace Skiptable

theorem above_succ_sublist (j : Nat) (L : List Tower) :
    (above (j + 1) L).Sublist (above j L) := by
  induction L with
  | nil => simp [above]
  | cons t L ih =>
    by_cases h1 : j + 1 < t.height
    · have h0 : j < t.height := by omega
      rw [above_cons_pos (j + 1) t L h1, above_cons_pos j t L h0]
      exact List.Sublist.cons₂ t ih
    · by_cases h0 : j < t.height
      · rw [above_cons_neg (j + 1) t L h1, above_cons_pos j t L h0]
        exact List.Sublist.cons t ih
      · rw [above_cons_neg (j + 1) t L h1, above_cons_neg j t L h0]
        exact ih

/-- The level chains of a list that satisfies the invariant, as rows of towers. -/
theorem level_chain_towers (s : skiplist) (T : List Tower) (hinv : SInv s T) (j : Nat)
    (hj : j < MAX_LEVEL) (fuel : Nat) (hf : s.nodes.length ≤ fuel) :
    level_chain s.nodes j fuel s.header = (above j T).map Tower.addr := by
  have hlen : (above j T).length < fuel := by
    have h1 := above_length_le j T
    have h2 := hinv.size
    omega
  exact level_chain_eq s.nodes j (above j T) fuel s.header (hinv.chains j hj) hlen

end Skiptable

/-- C11 (skip-list ordering invariant): in every reachable skip list, at each level `l` the
chain that leads from the header through `forward[l]` to NULL visits nodes whose keys are in
strictly increasing `strcmp` order, and the chain of level `l+1` is a subsequence of the chain
of level `l`. The chain is the same for every bound on its length from the number of allocated
nodes on. -/
theorem skiptable_ordering (s : Skiptable.skiplist) (hs : Skiptable.Reachable s) (l : Nat)
    (hl : l < Skiptable.MAX_LEVEL) (fuel : Nat) (hf : s.nodes.length ≤ fuel) :
    (Skiptable.level_chain s.nodes l fuel s.header).Pairwise
      (fun p q => ∃ np nq, Skiptable.node_at s.nodes p = some np ∧
        Skiptable.node_at s.nodes q = some nq ∧ strcmp np.key nq.key = Ordering.lt) ∧
    (l + 1 < Skiptable.MAX_LEVEL →
      (Skiptable.level_chain s.nodes (l + 1) fuel s.header).Sublist
        (Skiptable.level_chain s.nodes l fuel s.header)) ∧
    Skiptable.level_chain s.nodes l fuel s.header
      = Skiptable.level_chain s.nodes l s.nodes.length s.header := by
  obtain ⟨T, hT, -⟩ := Skiptable.sl_reachable_inv s hs
  rw [Skiptable.level_chain_towers s T hT l hl fuel hf,
    Skiptable.level_chain_towers s T hT l hl s.nodes.length (Nat.le_refl _)]
  refine ⟨?_, ?_, rfl⟩
  · rw [List.pairwise_map]
    have hsub : (Skiptable.above l T).Sublist T := List.filter_sublist _
    refine List.Pairwise.imp_of_mem ?_ (List.Pairwise.sublist hsub hT.sorted)
    intro a b ha hb hab
    obtain ⟨na, a1, a2, -⟩ := hT.towers a (hsub.subset ha)
    obtain ⟨nb, b1, b2, -⟩ := hT.towers b (hsub.subset hb)
    exact ⟨na, nb, a1, b1, by rw [a2, b2]; exact (strcmp_lt_iff _ _).2 hab⟩
  · intro hl1
    rw [Skiptable.level_chain_towers s T hT (l + 1) hl1 fuel hf]
    exact List.Sublist.map _ (Skiptable.above_succ_sublist l T)

/-- C12 (operations on an absent key are no-ops): in both engines, when the key `k` is not
stored, delete of `k` and modify of `k` leave the engine exactly as it was: the same nodes
with the same entries, the same count and, for the skip list, the same level. -/
theorem absent_key_no_change (t : Btree.btree) (ht : Btree.Reachable t)
    (s : Skiptable.skiplist) (hs : Skiptable.Reachable s) (k : Key) (v : Val)
    (hb : Btree.kvs_btree_get t (some k) = none)
    (hsl : Skiptable.kvs_skiptable_get s (some k) = some none) :
    (∃ r, Btree.kvs_btree_delete t (some k) = some (r, t)) ∧
    (Btree.kvs_btree_modify t (some k) (some v)).2 = t ∧
    (∃ r, Skiptable.kvs_skiptable_delete s (some k) = some (r, s)) ∧
    (∃ r, Skiptable.kvs_skiptable_modify s (some k) (some v) = some (r, s)) := by
  have hbi := Btree.reachable_inv t ht
  have hsi := Skiptable.sl_reachable_inv s hs
  refine ⟨⟨-1, (Btree.delete_api t hbi k).2 hb⟩, ?_, ⟨-1, ?_⟩, ⟨-1, ?_⟩⟩
  · rw [(Btree.modify_api t hbi k v).2 hb]
  · exact (Skiptable.sl_delete_api s hsi k).2 ((Skiptable.search_get_none s hsi k).1.2 hsl)
  · exact (Skiptable.sl_modify_api s hsi k v).2 hsl

theorem absent_key_no_change_witness :
    Btree.Reachable Btree.demo8 ∧ Skiptable.Reachable Skiptable.demo1 ∧
    Btree.kvs_btree_get Btree.demo8 (some [120]) = none ∧
    Skiptable.kvs_skiptable_get Skiptable.demo1 (some [120]) = some none ∧
    (∃ r, Btree.kvs_btree_delete Btree.demo8 (some [120]) = some (r, Btree.demo8)) ∧
    (Btree.kvs_btree_modify Btree.demo8 (some [120]) (some [57])).2 = Btree.demo8 ∧
    (∃ r, Skiptable.kvs_skiptable_delete Skiptable.demo1 (some [120])
      = some (r, Skiptable.demo1)) ∧
    (∃ r, Skiptable.kvs_skiptable_modify Skiptable.demo1 (some [120]) (some [57])
      = some (r, Skiptable.demo1)) :=
  ⟨Btree.demo8_reachable, Skiptable.sl_demo1_reachable, by decide, by decide,
    absent_key_no_change Btree.demo8 Btree.demo8_reachable Skiptable.demo1
      Skiptable.sl_demo1_reachable [120] [57] (by decide) (by decide)⟩

/-! ### The tokens of a request -/

theorem strtok_length (s t s1 : List Nat) (h : strtok s = some (t, s1)) :
    s1.length < s.length := by
  unfold strtok at h
  cases hd : s.dropWhile (fun c => decide (c = 32)) with
  | nil => rw [hd] at h; simp at h
  | cons c r =>
    rw [hd] at h
    simp only [Option.some.injEq, Prod.mk.injEq] at h
    rw [← h.2]
    have h1 : (c :: r).length ≤ s.length := by
      rw [← hd]
      exact (List.dropWhile_sublist _).length_le
    have h2 : (List.dropWhile (fun c => decide (c ≠ 32)) (c :: r)).length ≤ (c :: r).length :=
      (List.dropWhile_sublist _).length_le
    simp only [List.length_drop, List.length_cons] at h1 h2 ⊢
    omega

theorem take_set_succ {α : Type} (arr : List α) (x : α) : ∀ (i : Nat), i < arr.length →
    (arr.set i x).take (i + 1) = arr.take i ++ [x] := by
  induction arr with
  | nil => intro i h; simp at h
  | cons a arr ih =>
    intro i h
    cases i with
    | zero => simp
    | succ i =>
      simp only [List.set_cons_succ, List.take_succ_cons, List.cons_append, List.cons.injEq,
        true_and]
      exact ih i (by simpa using h)

theorem drop_set_gt {α : Type} (arr : List α) (x : α) : ∀ (i j : Nat), i < j →
    (arr.set i x).drop j = arr.drop j := by
  induction arr with
  | nil => intro i j _; simp
  | cons a arr ih =>
    intro i j h
    cases j with
    | zero => omega
    | succ j =>
      cases i with
      | zero => simp
      | succ i =>
        simp only [List.set_cons_succ, List.drop_succ_cons]
        exact ih i j (by omega)

theorem split_loop_spec (fuel : Nat) : ∀ (s : List Nat) (idx : Nat)
    (arr : List (Option (List Nat))), s.length < fuel → idx ≤ arr.length →
    (idx + (token_seq fuel s).length ≤ arr.length →
      split_loop fuel s idx arr
        = split_result.ok ((idx + (token_seq fuel s).length : Nat) : Int)
            (arr.take idx ++ (token_seq fuel s).map some
              ++ arr.drop (idx + (token_seq fuel s).length))) ∧
    (arr.length < idx + (token_seq fuel s).length →
      split_loop fuel s idx arr = split_result.overflow arr.length) := by
  induction fuel with
  | zero => intro s idx arr h; omega
  | succ f ih =>
    intro s idx arr hf hidx
    cases hst : strtok s with
    | none =>
      simp only [split_loop, token_seq, hst, List.length_nil, Nat.add_zero, List.map_nil,
        List.append_nil, List.take_append_drop]
      constructor
      · intro _; trivial
      · intro h; omega
    | some p =>
      obtain ⟨t, s1⟩ := p
      have hlen := strtok_length s t s1 hst
      simp only [split_loop, token_seq, hst, List.length_cons, List.map_cons]
      by_cases hlt : idx < arr.length
      · simp only [hlt, if_true]
        have ih1 := ih s1 (idx + 1) (arr.set idx (some t)) (by omega) (by simp; omega)
        simp only [List.length_set] at ih1
        refine ⟨fun h => ?_, fun h => ?_⟩
        · rw [ih1.1 (by omega)]
          have e1 : idx + 1 + (token_seq f s1).length = idx + ((token_seq f s1).length + 1) := by
            omega
          have e2 : List.take (idx + 1) (arr.set idx (some t)) = arr.take idx ++ [some t] :=
            take_set_succ arr (some t) idx hlt
          have e3 : List.drop (idx + 1 + (token_seq f s1).length) (arr.set idx (some t))
              = List.drop (idx + ((token_seq f s1).length + 1)) arr := by
            rw [e1, drop_set_gt arr (some t) idx _ (by omega)]
          rw [e2, e3, e1]
          simp
        · rw [ih1.2 (by omega)]
      · simp only [hlt, if_false]
        have : idx = arr.length := by omega
        subst this
        exact ⟨fun h => by omega, fun _ => rfl⟩

/-- A request of at most `KVSTORE_MAX_TOKENS` tokens: `kvstore_split_token` returns their
number and leaves them in the first slots of the array. -/
theorem split_token_ok (s : List Nat) (arr : List (Option (List Nat)))
    (h : (tokens_of s).length ≤ arr.length) :
    kvstore_split_token (some s) arr
      = split_result.ok ((tokens_of s).length : Int)
          ((tokens_of s).map some ++ arr.drop (tokens_of s).length) := by
  have := (split_loop_spec (s.length + 1) s 0 arr (by omega) (by omega)).1
    (by simpa [tokens_of] using h)
  simpa [kvstore_split_token, tokens_of] using this

theorem split_token_overflow (s : List Nat) (arr : List (Option (List Nat)))
    (h : arr.length < (tokens_of s).length) :
    kvstore_split_token (some s) arr = split_result.overflow arr.length := by
  have := (split_loop_spec (s.length + 1) s 0 arr (by omega) (by omega)).2
    (by simpa [tokens_of] using h)
  simpa [kvstore_split_token] using this

/-- The array that `kvstore_request` hands to `kvstore_parser_protocol`. -/
theorem request_eq {A R H : Type} (E : engines A R H) (size : Nat) (rand : Nat → Nat)
    (mem_ok : Bool) (stack : Nat → Option (List Nat)) (st : globals A R H) (item : conn_item)
    (h : (tokens_of item.rbuffer).length ≤ KVSTORE_MAX_TOKENS) :
    kvstore_request E size rand mem_ok stack st item
      = kvstore_parser_protocol E size rand mem_ok st item
          ((tokens_of item.rbuffer).map some
            ++ ((List.range KVSTORE_MAX_TOKENS).map stack).drop (tokens_of item.rbuffer).length)
          ((tokens_of item.rbuffer).length : Int) := by
  unfold kvstore_request
  rw [split_token_ok item.rbuffer _ (by simpa using h)]

theorem slot_written (toks : List (List Nat)) (rest : List (Option (List Nat))) (i : Nat)
    (t : List Nat) (h : toks[i]? = some t) :
    (toks.map some ++ rest)[i]? = some (some t) := by
  have hi : i < toks.length := by
    by_contra hh
    rw [List.getElem?_eq_none (by omega)] at h
    simp at h
  rw [List.getElem?_append_left (by simpa using hi)]
  simp [h]

theorem slot_stale (toks : List (List Nat)) (stack : Nat → Option (List Nat)) (i : Nat)
    (h1 : toks.length ≤ i) (h2 : i < KVSTORE_MAX_TOKENS) :
    (toks.map some ++ ((List.range KVSTORE_MAX_TOKENS).map stack).drop toks.length)[i]?
      = some (stack i) := by
  rw [List.getElem?_append_right (by simpa using h1)]
  simp only [List.length_map, List.getElem?_drop]
  have : toks.length + (i - toks.length) = i := by omega
  rw [this, List.getElem?_map, List.getElem?_range h2]
  rfl

/-! ### The command table -/

theorem find_cmd_absent (token : List Nat) : ∀ (cs : List (List Nat)) (n : Nat),
    token ∉ cs → find_cmd token cs n = n + cs.length := by
  intro cs
  induction cs with
  | nil => intro n _; rfl
  | cons c cs ih =>
    intro n h
    simp only [List.mem_cons, not_or] at h
    have hne : strcmp c token ≠ Ordering.eq := fun hh => h.1 ((strcmp_eq_iff _ _).1 hh).symm
    simp only [find_cmd, hne, if_false, List.length_cons]
    rw [ih (n + 1) h.2]
    omega

theorem find_cmd_found (token : List Nat) : ∀ (cs : List (List Nat)) (n : Nat),
    token ∈ cs → n ≤ find_cmd token cs n ∧ find_cmd token cs n < n + cs.length ∧
      cs[find_cmd token cs n - n]? = some token := by
  intro cs
  induction cs with
  | nil => intro n h; simp at h
  | cons c cs ih =>
    intro n h
    by_cases hc : strcmp c token = Ordering.eq
    · have := (strcmp_eq_iff _ _).1 hc
      simp only [find_cmd, hc, if_true, List.length_cons]
      subst this
      exact ⟨Nat.le_refl _, by omega, by simp⟩
    · have hne : token ≠ c := fun hh => hc ((strcmp_eq_iff _ _).2 hh.symm)
      simp only [List.mem_cons] at h
      have hm : token ∈ cs := by
        rcases h with h | h
        · exact absurd h hne
        · exact h
      obtain ⟨i1, i2, i3⟩ := ih (n + 1) hm
      simp only [find_cmd, hc, if_false, List.length_cons]
      refine ⟨by omega, by omega, ?_⟩
      have : find_cmd token cs (n + 1) - n = (find_cmd token cs (n + 1) - (n + 1)) + 1 := by
        omega
      rw [this, List.getElem?_cons_succ]
      exact i3

theorem find_cmd_lt (token : List Nat) (h : token ∈ commands) :
    find_cmd token commands 0 < KVS_CMD_SIZE ∧
      commands[find_cmd token commands 0]? = some token := by
  obtain ⟨-, h2, h3⟩ := find_cmd_found token commands 0 h
  exact ⟨by simpa [commands, KVS_CMD_SIZE] using h2, by simpa using h3⟩

theorem find_cmd_table : ∀ i : Fin 25, find_cmd (commands.getD i.val []) commands 0 = i.val := by
  decide

/-! ### The engine calls of the dispatcher on reachable engines -/

namespace Skiptable

theorem sl_set_total (s : skiplist) (hinv : Inv s) (key : Option Key) (value : Option Val)
    (rand : Nat → Nat) (ok : Bool) :
    ∃ r s1, kvs_skiptable_set s key value rand ok = some (r, s1) ∧ (r = 0 ∨ r = -1) := by
  cases key with
  | none => exact ⟨-1, s, by simp [kvs_skiptable_set], Or.inr rfl⟩
  | some k =>
    cases value with
    | none => exact ⟨-1, s, by simp [kvs_skiptable_set], Or.inr rfl⟩
    | some v =>
      obtain ⟨T, hT, -⟩ := hinv
      have hs := Skiptable.sl_set_spec s T hT k v rand ok
      by_cases hm : ∃ t ∈ T, t.key = k
      · obtain ⟨_, _, _, s1, -, -, e3, -⟩ := hs.1 hm
        exact ⟨0, s1, e3, Or.inl rfl⟩
      · have hne : ∀ t ∈ T, t.key ≠ k := fun t ht hk => hm ⟨t, ht, hk⟩
        obtain ⟨_, _, -, -, -, e4, e5⟩ := hs.2 hne
        cases ok with
        | true =>
          obtain ⟨s1, f1, -⟩ := e4 rfl
          exact ⟨0, s1, f1, Or.inl rfl⟩
        | false =>
          obtain ⟨s1, f1, -⟩ := e5 rfl
          exact ⟨0, s1, f1, Or.inl rfl⟩

theorem sl_get_total (s : skiplist) (hinv : Inv s) (key : Option Key) :
    ∃ r, kvs_skiptable_get s key = some r := by
  cases key with
  | none => exact ⟨none, by simp [kvs_skiptable_get]⟩
  | some k =>
    obtain ⟨T, hT, -⟩ := hinv
    have hg := get_spec s T hT k
    by_cases hm : ∃ t ∈ T, t.key = k
    · obtain ⟨t, ht, hk⟩ := hm
      exact ⟨_, hg.1 t ht hk⟩
    · exact ⟨_, hg.2 (fun t ht hk => hm ⟨t, ht, hk⟩)⟩

theorem sl_delete_total (s : skiplist) (hinv : Inv s) (key : Option Key) :
    ∃ r s1, kvs_skiptable_delete s key = some (r, s1) ∧ (r = 0 ∨ r = -1) := by
  cases key with
  | none => exact ⟨-1, s, by simp [kvs_skiptable_delete], Or.inr rfl⟩
  | some k =>
    obtain ⟨-, r, hr⟩ := search_get_none s hinv k
    cases r with
    | none => exact ⟨-1, s, (Skiptable.sl_delete_api s hinv k).2 hr, Or.inr rfl⟩
    | some x =>
      obtain ⟨s1, e1, -⟩ := (Skiptable.sl_delete_api s hinv k).1 x hr
      exact ⟨0, s1, e1, Or.inl rfl⟩

theorem sl_modify_total (s : skiplist) (hinv : Inv s) (key : Option Key) (value : Option Val) :
    ∃ r s1, kvs_skiptable_modify s key value = some (r, s1) ∧ (r = 0 ∨ r = -1) := by
  cases key with
  | none => exact ⟨-1, s, by simp [kvs_skiptable_modify], Or.inr rfl⟩
  | some k =>
    cases value with
    | none => exact ⟨-1, s, by simp [kvs_skiptable_modify], Or.inr rfl⟩
    | some v =>
      by_cases hg : kvs_skiptable_get s (some k) = some none
      · exact ⟨-1, s, (Skiptable.sl_modify_api s hinv k v).2 hg, Or.inr rfl⟩
      · obtain ⟨s1, e1, -⟩ := (Skiptable.sl_modify_api s hinv k v).1 hg
        exact ⟨0, s1, e1, Or.inl rfl⟩

end Skiptable

namespace Btree

theorem set_total (t : btree) (hinv : Inv t) (key : Option Key) (value : Option Val) :
    ∃ r t1, kvs_btree_set t key value = some (r, t1) ∧ (r = 0 ∨ r = -1) := by
  cases key with
  | none => exact ⟨-1, t, by simp [kvs_btree_set], Or.inr rfl⟩
  | some k =>
    cases value with
    | none => exact ⟨-1, t, by simp [kvs_btree_set], Or.inr rfl⟩
    | some v =>
      obtain ⟨t1, e1, -⟩ := set_api t hinv k v
      exact ⟨0, t1, e1, Or.inl rfl⟩

theorem delete_total (t : btree) (hinv : Inv t) (key : Option Key) :
    ∃ r t1, kvs_btree_delete t key = some (r, t1) ∧ (r = 0 ∨ r = -1) := by
  cases key with
  | none => exact ⟨-1, t, by simp [kvs_btree_delete], Or.inr rfl⟩
  | some k =>
    by_cases hg : kvs_btree_get t (some k) = none
    · exact ⟨-1, t, (delete_api t hinv k).2 hg, Or.inr rfl⟩
    · obtain ⟨t1, e1, -⟩ := (delete_api t hinv k).1 hg
      exact ⟨0, t1, e1, Or.inl rfl⟩

theorem modify_total (t : btree) (hinv : Inv t) (key : Option Key) (value : Option Val) :
    (kvs_btree_modify t key value).1 = 0 ∨ (kvs_btree_modify t key value).1 = -1 := by
  cases key with
  | none => right; simp [kvs_btree_modify]
  | some k =>
    cases value with
    | none => right; simp [kvs_btree_modify]
    | some v =>
      by_cases hg : kvs_btree_get t (some k) = none
      · right; rw [(modify_api t hinv k v).2 hg]
      · obtain ⟨t1, e1, -⟩ := (modify_api t hinv k v).1 hg
        left; rw [e1]

end Btree

/-! ### The switch of the dispatcher -/

theorem reply_code_cases (size : Nat) (r : Int) (h : r = 0 ∨ r = -1) :
    reply_code size r = snprintf size SUCCESS ∨ reply_code size r = snprintf size ERROR := by
  rcases h with h | h
  · left; subst h; simp [reply_code]
  · right; subst h; simp [reply_code]

theorem find_cmd_of_entry (i : Nat) (hi : i < 25) (verb : List Nat)
    (h : commands[i]? = some verb) : find_cmd verb commands 0 = i := by
  have h1 : commands.getD i [] = verb := by
    simp [List.getD, h]
  have := find_cmd_table ⟨i, hi⟩
  simp only at this
  rw [h1] at this
  exact this

theorem parser_aborts {A R H : Type} (E : engines A R H) (size : Nat) (rand : Nat → Nat)
    (mem_ok : Bool) (st : globals A R H) (item : conn_item)
    (tokens : List (Option (List Nat))) (count : Int) (verb : List Nat)
    (h0 : tokens[0]? = some (some verb)) (hc : count ≠ 0) (hv : verb ∉ commands) :
    kvstore_parser_protocol E size rand mem_ok st item tokens count = outcome.aborted := by
  have hcmd : find_cmd verb commands 0 = 25 := by
    rw [find_cmd_absent verb commands 0 hv]
    rfl
  simp only [kvstore_parser_protocol, h0, hc, if_false, hcmd]

/-- The first slots of the array of a request with the tokens `verb :: args`. -/
theorem request_slots {A R H : Type} (E : engines A R H) (size : Nat) (rand : Nat → Nat)
    (mem_ok : Bool) (stack : Nat → Option (List Nat)) (st : globals A R H) (item : conn_item)
    (verb : List Nat) (args : List (List Nat))
    (htok : tokens_of item.rbuffer = verb :: args) (hlen : args.length < KVSTORE_MAX_TOKENS) :
    ∃ tokens count, kvstore_request E size rand mem_ok stack st item
        = kvstore_parser_protocol E size rand mem_ok st item tokens count ∧
      count ≠ 0 ∧ tokens[0]? = some (some verb) ∧
      (tokens[1]?).join = (match args[0]? with | some a => some a | none => stack 1) ∧
      (tokens[2]?).join = (match args[1]? with | some a => some a | none => stack 2) := by
  have hl : (tokens_of item.rbuffer).length ≤ KVSTORE_MAX_TOKENS := by
    rw [htok]; simp only [List.length_cons]; omega
  refine ⟨_, _, request_eq E size rand mem_ok stack st item hl, ?_, ?_, ?_, ?_⟩
  · rw [htok]; simp only [List.length_cons]; omega
  · exact slot_written _ _ 0 verb (by rw [htok]; simp)
  · cases h : args[0]? with
    | some a =>
      rw [slot_written _ _ 1 a (by rw [htok]; simpa using h)]
      rfl
    | none =>
      have : args.length = 0 := by
        cases args with
        | nil => rfl
        | cons a as => simp at h
      rw [slot_stale _ stack 1 (by rw [htok]; simp [this]) (by simp [KVSTORE_MAX_TOKENS])]
      rfl
  · cases h : args[1]? with
    | some a =>
      rw [slot_written _ _ 2 a (by rw [htok]; simpa using h)]
      rfl
    | none =>
      have : args.length ≤ 1 := by
        by_contra hh
        rw [List.getElem?_eq_getElem (by omega)] at h
        simp at h
      rw [slot_stale _ stack 2 (by rw [htok]; simp; omega) (by simp [KVSTORE_MAX_TOKENS])]
      rfl

/-- C13 (unknown verb), what the code does instead of replying `ERROR`: for every request whose
first token is not one of the 25 verbs of the command table, `kvstore_parser_protocol` leaves
its loop with `cmd = KVS_CMD_SIZE`, which it does not check, and takes the `default` case of
the switch, which prints `commands[cmd]` from behind the table and ends the process in
`assert(0)`: no reply is written and the function does not return. The same holds for
`kvstore_request` on a request buffer whose first token is such a verb. -/
theorem unknown_verb_aborts {A R H : Type} (E : engines A R H) (size : Nat) (rand : Nat → Nat)
    (mem_ok : Bool) (st : globals A R H) (item : conn_item) (verb : List Nat)
    (hv : verb ∉ commands) :
    find_cmd verb commands 0 = KVS_CMD_SIZE ∧
    (∀ tokens count, tokens[0]? = some (some verb) → count ≠ 0 →
      kvstore_parser_protocol E size rand mem_ok st item tokens count = outcome.aborted) ∧
    (∀ stack args, tokens_of item.rbuffer = verb :: args →
      args.length < KVSTORE_MAX_TOKENS →
      kvstore_request E size rand mem_ok stack st item = outcome.aborted) := by
  refine ⟨by rw [find_cmd_absent verb commands 0 hv]; rfl, ?_, ?_⟩
  · intro tokens count h0 hc
    exact parser_aborts E size rand mem_ok st item tokens count verb h0 hc hv
  · intro stack args htok hlen
    obtain ⟨tokens, count, e1, e2, e3, -⟩ :=
      request_slots E size rand mem_ok stack st item verb args htok hlen
    rw [e1]
    exact parser_aborts E size rand mem_ok st item tokens count verb e3 e2 hv

theorem unknown_verb_aborts_witness :
    ([70, 79, 79] : List Nat) ∉ commands ∧
    find_cmd [70, 79, 79] commands 0 = KVS_CMD_SIZE ∧
    (∀ tokens count, tokens[0]? = some (some [70, 79, 79]) → count ≠ 0 →
      kvstore_parser_protocol idle_engines 1024 (fun _ => 0) true (init_kvengine () () ())
        { rbuffer := [70, 79, 79, 32, 120], wbuffer := [] } tokens count = outcome.aborted) ∧
    (∀ stack args,
      tokens_of (conn_item.mk [70, 79, 79, 32, 120] []).rbuffer = [70, 79, 79] :: args →
      args.length < KVSTORE_MAX_TOKENS →
      kvstore_request idle_engines 1024 (fun _ => 0) true stack (init_kvengine () () ())
        { rbuffer := [70, 79, 79, 32, 120], wbuffer := [] } = outcome.aborted) :=
  ⟨by decide, unknown_verb_aborts idle_engines 1024 (fun _ => 0) true (init_kvengine () () ())
    { rbuffer := [70, 79, 79, 32, 120], wbuffer := [] } [70, 79, 79] (by decide)⟩

set_option maxRecDepth 100000 in
/-- The request `FOO x` on the fresh store: the dispatcher does not write `ERROR`, it runs into
the `assert(0)` of the `default` case. -/
theorem unknown_verb_counterexample :
    kvstore_request idle_engines 1024 (fun _ => 0) true (fun _ => none)
        (init_kvengine () () ()) { rbuffer := [70, 79, 79, 32, 120], wbuffer := [] }
      = outcome.aborted ∧
    kvstore_parser_protocol idle_engines 1024 (fun _ => 0) true (init_kvengine () () ())
        { rbuffer := [70, 79, 79, 32, 120], wbuffer := [] } [some [70, 79, 79], some [120]] 2
      = outcome.aborted :=
  ⟨rfl, rfl⟩

/-- C14, as the code has it: the dispatcher never compares the number of tokens with what the
verb requires, and adjacent spaces give no empty token. The key and the value are read from
the slots 1 and 2 of the token array whatever the number of tokens is. When the slots of the
missing arguments hold NULL, a request with an S- or B-prefixed verb and too few tokens leaves
every engine as it was and is answered with `FAILED` for SET, with `ERROR` for MOD and DEL,
and with `NO EXIST` for GET. -/
theorem missing_argument_replies {A R H : Type} (E : engines A R H) (size : Nat)
    (rand : Nat → Nat) (mem_ok : Bool) (stack : Nat → Option (List Nat)) (st : globals A R H)
    (item : conn_item) (verb : List Nat) (args : List (List Nat))
    (htok : tokens_of item.rbuffer = verb :: args) (hargs : args.length < 2)
    (hstack : ∀ i, args.length < i → i < 3 → stack i = none) :
    ((commands[KVS_CMD_SSET]? = some verb ∨ commands[KVS_CMD_BSET]? = some verb) →
      kvstore_request E size rand mem_ok stack st item
        = outcome.done { item with wbuffer := snprintf size FAILED } st) ∧
    ((commands[KVS_CMD_SMOD]? = some verb ∨ commands[KVS_CMD_BMOD]? = some verb) →
      kvstore_request E size rand mem_ok stack st item
        = outcome.done { item with wbuffer := snprintf size ERROR } st) ∧
    (args.length < 1 →
      ((commands[KVS_CMD_SGET]? = some verb ∨ commands[KVS_CMD_BGET]? = some verb) →
        kvstore_request E size rand mem_ok stack st item
          = outcome.done { item with wbuffer := snprintf size NO_EXIST } st) ∧
      ((commands[KVS_CMD_SDEL]? = some verb ∨ commands[KVS_CMD_BDEL]? = some verb) →
        kvstore_request E size rand mem_ok stack st item
          = outcome.done { item with wbuffer := snprintf size ERROR } st)) := by
  obtain ⟨tokens, count, e1, e2, e3, e4, e5⟩ :=
    request_slots E size rand mem_ok stack st item verb args htok
      (by simp only [KVSTORE_MAX_TOKENS]; omega)
  have hval : (tokens[2]?).join = none := by
    rw [e5]
    have : args[1]? = none := List.getElem?_eq_none (by omega)
    rw [this]
    exact hstack 2 (by omega) (by omega)
  rw [e1]
  refine ⟨?_, ?_, ?_⟩
  · rintro (h | h)
    · have hcmd := find_cmd_of_entry 15 (by omega) verb h
      simp only [kvstore_parser_protocol, e3, e2, if_false, hcmd, hval, case_SSET]
      cases (tokens[1]?).join <;> simp [Skiptable.kvs_skiptable_set, reply_set]
    · have hcmd := find_cmd_of_entry 20 (by omega) verb h
      simp only [kvstore_parser_protocol, e3, e2, if_false, hcmd, hval, case_BSET]
      cases (tokens[1]?).join <;> simp [Btree.kvs_btree_set, reply_set]
  · rintro (h | h)
    · have hcmd := find_cmd_of_entry 18 (by omega) verb h
      simp only [kvstore_parser_protocol, e3, e2, if_false, hcmd, hval, case_SMOD]
      cases (tokens[1]?).join <;> simp [Skiptable.kvs_skiptable_modify, reply_code]
    · have hcmd := find_cmd_of_entry 23 (by omega) verb h
      simp only [kvstore_parser_protocol, e3, e2, if_false, hcmd, hval, case_BMOD]
      cases (tokens[1]?).join <;> simp [Btree.kvs_btree_modify, reply_code]
  · intro h0
    have hkey : (tokens[1]?).join = none := by
      rw [e4]
      have : args[0]? = none := List.getElem?_eq_none (by omega)
      rw [this]
      exact hstack 1 (by omega) (by omega)
    refine ⟨?_, ?_⟩
    · rintro (h | h)
      · have hcmd := find_cmd_of_entry 16 (by omega) verb h
        simp only [kvstore_parser_protocol, e3, e2, if_false, hcmd, hkey, case_SGET]
        simp [Skiptable.kvs_skiptable_get, reply_get]
      · have hcmd := find_cmd_of_entry 21 (by omega) verb h
        simp only [kvstore_parser_protocol, e3, e2, if_false, hcmd, hkey, case_BGET]
        simp [Btree.kvs_btree_get, reply_get]
    · rintro (h | h)
      · have hcmd := find_cmd_of_entry 17 (by omega) verb h
        simp only [kvstore_parser_protocol, e3, e2, if_false, hcmd, hkey, case_SDEL]
        simp [Skiptable.kvs_skiptable_delete, reply_code]
      · have hcmd := find_cmd_of_entry 22 (by omega) verb h
        simp only [kvstore_parser_protocol, e3, e2, if_false, hcmd, hkey, case_BDEL]
        simp [Btree.kvs_btree_delete, reply_code]

theorem missing_argument_replies_witness :
    tokens_of (conn_item.mk [66, 83, 69, 84, 32, 107] []).rbuffer = [[66, 83, 69, 84], [107]] ∧
    kvstore_request idle_engines 1024 (fun _ => 0) true (fun _ => none) (init_kvengine () () ())
        { rbuffer := [66, 83, 69, 84, 32, 107], wbuffer := [] }
      = outcome.done { rbuffer := [66, 83, 69, 84, 32, 107], wbuffer := snprintf 1024 FAILED }
          (init_kvengine () () ()) :=
  ⟨by decide,
    (missing_argument_replies idle_engines 1024 (fun _ => 0) true (fun _ => none)
      (init_kvengine () () ()) { rbuffer := [66, 83, 69, 84, 32, 107], wbuffer := [] }
      [66, 83, 69, 84] [[107]] (by decide) (by decide) (fun _ _ _ => rfl)).1
      (Or.inr (by decide))⟩

set_option maxRecDepth 100000 in
/-- C14 fails on the requests `SGET` and `BSET  k` (two spaces), sent to the fresh store while
the unwritten slots of the token array hold NULL: the replies are `NO EXIST` and `FAILED`, not
`ERROR`. It fails on the request `SSET` as well when the slots 1 and 2 still hold pointers to
the strings `k` and `v`: the reply is `SUCCESS` and the skip list has got the key `k`. -/
theorem missing_argument_counterexample :
    kvstore_request idle_engines 1024 (fun _ => 40000) true (fun _ => none)
        (init_kvengine () () ()) { rbuffer := [83, 71, 69, 84], wbuffer := [] }
      = outcome.done { rbuffer := [83, 71, 69, 84], wbuffer := NO_EXIST }
          (init_kvengine () () ()) ∧
    kvstore_request idle_engines 1024 (fun _ => 40000) true (fun _ => none)
        (init_kvengine () () ()) { rbuffer := [66, 83, 69, 84, 32, 32, 107], wbuffer := [] }
      = outcome.done { rbuffer := [66, 83, 69, 84, 32, 32, 107], wbuffer := FAILED }
          (init_kvengine () () ()) ∧
    kvstore_request idle_engines 1024 (fun _ => 40000) true
        (fun i => if i = 1 then some [107] else if i = 2 then some [118] else none)
        (init_kvengine () () ()) { rbuffer := [83, 83, 69, 84], wbuffer := [] }
      = outcome.done { rbuffer := [83, 83, 69, 84], wbuffer := SUCCESS }
          { init_kvengine () () () with Skiplist := Skiptable.demo1 } ∧
    NO_EXIST ≠ ERROR ∧ FAILED ≠ ERROR ∧ SUCCESS ≠ ERROR :=
  ⟨rfl, rfl, rfl, by decide, by decide, by decide⟩

/-- C16 (token limit), evaluated on the code: `kvstore_split_token` has no bound on `idx`. For
a request buffer with more than 128 tokens the store `tokens[idx ++] = token` with `idx = 128`
lands behind the last slot of the array that `kvstore_request` passes. -/
theorem split_token_writes_past_array {A R H : Type} (E : engines A R H) (size : Nat)
    (rand : Nat → Nat) (mem_ok : Bool) (stack : Nat → Option (List Nat)) (st : globals A R H)
    (item : conn_item) (h : KVSTORE_MAX_TOKENS < (tokens_of item.rbuffer).length) :
    kvstore_split_token (some item.rbuffer) ((List.range KVSTORE_MAX_TOKENS).map stack)
      = split_result.overflow KVSTORE_MAX_TOKENS ∧
    kvstore_request E size rand mem_ok stack st item = outcome.fault := by
  have h1 := split_token_overflow item.rbuffer ((List.range KVSTORE_MAX_TOKENS).map stack)
    (by simpa using h)
  simp only [List.length_map, List.length_range] at h1
  refine ⟨h1, ?_⟩
  simp only [kvstore_request, h1]

set_option maxRecDepth 100000 in
theorem split_token_writes_past_array_witness :
    (tokens_of (conn_item.mk (List.replicate 129 [97, 32]).flatten []).rbuffer).length = 129 ∧
    kvstore_split_token (some (conn_item.mk (List.replicate 129 [97, 32]).flatten []).rbuffer)
        ((List.range KVSTORE_MAX_TOKENS).map (fun _ => none))
      = split_result.overflow KVSTORE_MAX_TOKENS ∧
    kvstore_request idle_engines 1024 (fun _ => 0) true (fun _ => none)
        (init_kvengine () () ()) (conn_item.mk (List.replicate 129 [97, 32]).flatten [])
      = outcome.fault :=
  ⟨by decide,
    split_token_writes_past_array idle_engines 1024 (fun _ => 0) true (fun _ => none)
      (init_kvengine () () ()) (conn_item.mk (List.replicate 129 [97, 32]).flatten [])
      (by decide)⟩

/-! ### The resolution of the verbs -/

theorem verb_letter (c : Nat) (o : Fin 5)
    (h : c :: ([[83, 69, 84], [71, 69, 84], [68, 69, 76], [77, 79, 68],
      [67, 79, 85, 78, 84]] : List (List Nat)).getD o.val [] ∈ commands) :
    c = 82 ∨ c = 72 ∨ c = 83 ∨ c = 66 := by
  fin_cases o <;> simp [commands] at h <;> omega

/-- C17 (verb resolution): the entry `5 * p + o` of the command table is the prefix number `p`
(none, `R`, `H`, `S`, `B`) followed by the operation number `o` (`SET`, `GET`, `DEL`, `MOD`,
`COUNT`), and a first token that is exactly this string is resolved to the index
`5 * p + o`. A first token is resolved to an index below `KVS_CMD_SIZE` only when it is equal
to the entry of the table byte for byte; the entries consist of upper-case letters, and an
operation behind any other letter than `R`, `H`, `S` and `B` is no entry. The case of the
switch that the index selects calls the operation of the engine that the prefix names, with
the slots 1 and 2 of the token array as key and value, writes the reply for what the call
returns and leaves every other engine as it was. -/
theorem verb_resolution {A R H : Type} (E : engines A R H) (size : Nat) (rand : Nat → Nat)
    (mem_ok : Bool) (st : globals A R H) (item : conn_item)
    (tokens : List (Option (List Nat))) (count : Int) (verb : List Nat) (key : Option Key)
    (value : Option Val) (h0 : tokens[0]? = some (some verb)) (hc : count ≠ 0)
    (hk : (tokens[1]?).join = key) (hv : (tokens[2]?).join = value) :
    (∀ p o : Fin 5,
      commands[5 * p.val + o.val]?
        = some (([[], [82], [72], [83], [66]] : List (List Nat)).getD p.val []
            ++ ([[83, 69, 84], [71, 69, 84], [68, 69, 76], [77, 79, 68],
                [67, 79, 85, 78, 84]] : List (List Nat)).getD o.val []) ∧
      find_cmd (([[], [82], [72], [83], [66]] : List (List Nat)).getD p.val []
            ++ ([[83, 69, 84], [71, 69, 84], [68, 69, 76], [77, 79, 68],
                [67, 79, 85, 78, 84]] : List (List Nat)).getD o.val []) commands 0
        = 5 * p.val + o.val) ∧
    (find_cmd verb commands 0 < KVS_CMD_SIZE → commands[find_cmd verb commands 0]? = some verb) ∧
    (verb ∉ commands → find_cmd verb commands 0 = KVS_CMD_SIZE ∧
      kvstore_parser_protocol E size rand mem_ok st item tokens count = outcome.aborted) ∧
    (∀ entry ∈ commands, ∀ c ∈ entry, 65 ≤ c ∧ c ≤ 90) ∧
    (∀ (c : Nat) (o : Fin 5), c ≠ 82 → c ≠ 72 → c ≠ 83 → c ≠ 66 →
      c :: ([[83, 69, 84], [71, 69, 84], [68, 69, 76], [77, 79, 68],
        [67, 79, 85, 78, 84]] : List (List Nat)).getD o.val [] ∉ commands) ∧
    (commands[KVS_CMD_SET]? = some verb →
      kvstore_parser_protocol E size rand mem_ok st item tokens count
        = outcome.done { item with wbuffer := reply_set size (E.array.set st.Array key value).1 }
          { st with Array := (E.array.set st.Array key value).2 }) ∧
    (commands[KVS_CMD_GET]? = some verb →
      kvstore_parser_protocol E size rand mem_ok st item tokens count
        = outcome.done { item with wbuffer := reply_get size (E.array.get st.Array key) } st) ∧
    (commands[KVS_CMD_DEL]? = some verb →
      kvstore_parser_protocol E size rand mem_ok st item tokens count
        = outcome.done { item with wbuffer := reply_code size (E.array.delete st.Array key).1 }
          { st with Array := (E.array.delete st.Array key).2 }) ∧
    (commands[KVS_CMD_MOD]? = some verb →
      kvstore_parser_protocol E size rand mem_ok st item tokens count
        = outcome.done { item with wbuffer := reply_code size (E.array.modify st.Array key value).1 }
          { st with Array := (E.array.modify st.Array key value).2 }) ∧
    (commands[KVS_CMD_COUNT]? = some verb →
      kvstore_parser_protocol E size rand mem_ok st item tokens count
        = outcome.done { item with wbuffer := reply_count size (E.array.count st.Array) } st) ∧
    (commands[KVS_CMD_RSET]? = some verb →
      kvstore_parser_protocol E size rand mem_ok st item tokens count
        = outcome.done { item with wbuffer := reply_set size (E.rbtree.set st.Tree key value).1 }
          { st with Tree := (E.rbtree.set st.Tree key value).2 }) ∧
    (commands[KVS_CMD_RGET]? = some verb →
      kvstore_parser_protocol E size rand mem_ok st item tokens count
        = outcome.done { item with wbuffer := reply_get size (E.rbtree.get st.Tree key) } st) ∧
    (commands[KVS_CMD_RDEL]? = some verb →
      kvstore_parser_protocol E size rand mem_ok st item tokens count
        = outcome.done { item with wbuffer := reply_code size (E.rbtree.delete st.Tree key).1 }
          { st with Tree := (E.rbtree.delete st.Tree key).2 }) ∧
    (commands[KVS_CMD_RMOD]? = some verb →
      kvstore_parser_protocol E size rand mem_ok st item tokens count
        = outcome.done { item with wbuffer := reply_code size (E.rbtree.modify st.Tree key value).1 }
          { st with Tree := (E.rbtree.modify st.Tree key value).2 }) ∧
    (commands[KVS_CMD_RCOUNT]? = some verb →
      kvstore_parser_protocol E size rand mem_ok st item tokens count
        = outcome.done { item with wbuffer := reply_count size (E.rbtree.count st.Tree) } st) ∧
    (commands[KVS_CMD_HSET]? = some verb →
      kvstore_parser_protocol E size rand mem_ok st item tokens count
        = outcome.done { item with wbuffer := reply_set size (E.hash.set st.Hash key value).1 }
          { st with Hash := (E.hash.set st.Hash key value).2 }) ∧
    (commands[KVS_CMD_HGET]? = some verb →
      kvstore_parser_protocol E size rand mem_ok st item tokens count
        = outcome.done { item with wbuffer := reply_get size (E.hash.get st.Hash key) } st) ∧
    (commands[KVS_CMD_HDEL]? = some verb →
      kvstore_parser_protocol E size rand mem_ok st item tokens count
        = outcome.done { item with wbuffer := reply_code size (E.hash.delete st.Hash key).1 }
          { st with Hash := (E.hash.delete st.Hash key).2 }) ∧
    (commands[KVS_CMD_HMOD]? = some verb →
      kvstore_parser_protocol E size rand mem_ok st item tokens count
        = outcome.done { item with wbuffer := reply_code size (E.hash.modify st.Hash key value).1 }
          { st with Hash := (E.hash.modify st.Hash key value).2 }) ∧
    (commands[KVS_CMD_HCOUNT]? = some verb →
      kvstore_parser_protocol E size rand mem_ok st item tokens count
        = outcome.done { item with wbuffer := reply_count size (E.hash.count st.Hash) } st) ∧
    (commands[KVS_CMD_SSET]? = some verb → ∀ msg sl, case_SSET size st.Skiplist key value rand mem_ok = some (msg, sl) →
      kvstore_parser_protocol E size rand mem_ok st item tokens count
        = outcome.done { item with wbuffer := msg } { st with Skiplist := sl }) ∧
    (commands[KVS_CMD_SGET]? = some verb → ∀ msg , case_SGET size st.Skiplist key = some msg →
      kvstore_parser_protocol E size rand mem_ok st item tokens count
        = outcome.done { item with wbuffer := msg } st) ∧
    (commands[KVS_CMD_SDEL]? = some verb → ∀ msg sl, case_SDEL size st.Skiplist key = some (msg, sl) →
      kvstore_parser_protocol E size rand mem_ok st item tokens count
        = outcome.done { item with wbuffer := msg } { st with Skiplist := sl }) ∧
    (commands[KVS_CMD_SMOD]? = some verb → ∀ msg sl, case_SMOD size st.Skiplist key value = some (msg, sl) →
      kvstore_parser_protocol E size rand mem_ok st item tokens count
        = outcome.done { item with wbuffer := msg } { st with Skiplist := sl }) ∧
    (commands[KVS_CMD_SCOUNT]? = some verb →
      kvstore_parser_protocol E size rand mem_ok st item tokens count
        = outcome.done { item with wbuffer := case_SCOUNT size st.Skiplist } st) ∧
    (commands[KVS_CMD_BSET]? = some verb → ∀ msg bt, case_BSET size st.Btree key value = some (msg, bt) →
      kvstore_parser_protocol E size rand mem_ok st item tokens count
        = outcome.done { item with wbuffer := msg } { st with Btree := bt }) ∧
    (commands[KVS_CMD_BGET]? = some verb →
      kvstore_parser_protocol E size rand mem_ok st item tokens count
        = outcome.done { item with wbuffer := case_BGET size st.Btree key } st) ∧
    (commands[KVS_CMD_BDEL]? = some verb → ∀ msg bt, case_BDEL size st.Btree key = some (msg, bt) →
      kvstore_parser_protocol E size rand mem_ok st item tokens count
        = outcome.done { item with wbuffer := msg } { st with Btree := bt }) ∧
    (commands[KVS_CMD_BMOD]? = some verb →
      kvstore_parser_protocol E size rand mem_ok st item tokens count
        = outcome.done { item with wbuffer := (case_BMOD size st.Btree key value).1 }
          { st with Btree := (case_BMOD size st.Btree key value).2 }) ∧
    (commands[KVS_CMD_BCOUNT]? = some verb →
      kvstore_parser_protocol E size rand mem_ok st item tokens count
        = outcome.done { item with wbuffer := case_BCOUNT size st.Btree } st) := by
  have hfound : find_cmd verb commands 0 < KVS_CMD_SIZE →
      commands[find_cmd verb commands 0]? = some verb := by
    intro hlt
    by_cases hm : verb ∈ commands
    · exact (find_cmd_lt verb hm).2
    · rw [find_cmd_absent verb commands 0 hm] at hlt
      simp [commands, KVS_CMD_SIZE] at hlt
  have habsent : verb ∉ commands → find_cmd verb commands 0 = KVS_CMD_SIZE ∧
      kvstore_parser_protocol E size rand mem_ok st item tokens count = outcome.aborted := by
    intro hm
    exact ⟨by rw [find_cmd_absent verb commands 0 hm]; rfl,
      parser_aborts E size rand mem_ok st item tokens count verb h0 hc hm⟩
  refine ⟨by decide, hfound, habsent, by decide, ?_, ?_, ?_, ?_, ?_, ?_, ?_, ?_, ?_, ?_, ?_, ?_, ?_, ?_, ?_, ?_, ?_, ?_, ?_, ?_, ?_, ?_, ?_, ?_, ?_, ?_⟩
  · intro c o h1 h2 h3 h4 hm
    rcases verb_letter c o hm with h | h | h | h
    · exact h1 h
    · exact h2 h
    · exact h3 h
    · exact h4 h
  · intro h
    have hcmd := find_cmd_of_entry 0 (by omega) verb h
    simp only [kvstore_parser_protocol, h0, hc, if_false, hcmd, hk, hv]
  · intro h
    have hcmd := find_cmd_of_entry 1 (by omega) verb h
    simp only [kvstore_parser_protocol, h0, hc, if_false, hcmd, hk, hv]
  · intro h
    have hcmd := find_cmd_of_entry 2 (by omega) verb h
    simp only [kvstore_parser_protocol, h0, hc, if_false, hcmd, hk, hv]
  · intro h
    have hcmd := find_cmd_of_entry 3 (by omega) verb h
    simp only [kvstore_parser_protocol, h0, hc, if_false, hcmd, hk, hv]
  · intro h
    have hcmd := find_cmd_of_entry 4 (by omega) verb h
    simp only [kvstore_parser_protocol, h0, hc, if_false, hcmd, hk, hv]
  · intro h
    have hcmd := find_cmd_of_entry 5 (by omega) verb h
    simp only [kvstore_parser_protocol, h0, hc, if_false, hcmd, hk, hv]
  · intro h
    have hcmd := find_cmd_of_entry 6 (by omega) verb h
    simp only [kvstore_parser_protocol, h0, hc, if_false, hcmd, hk, hv]
  · intro h
    have hcmd := find_cmd_of_entry 7 (by omega) verb h
    simp only [kvstore_parser_protocol, h0, hc, if_false, hcmd, hk, hv]
  · intro h
    have hcmd := find_cmd_of_entry 8 (by omega) verb h
    simp only [kvstore_parser_protocol, h0, hc, if_false, hcmd, hk, hv]
  · intro h
    have hcmd := find_cmd_of_entry 9 (by omega) verb h
    simp only [kvstore_parser_protocol, h0, hc, if_false, hcmd, hk, hv]
  · intro h
    have hcmd := find_cmd_of_entry 10 (by omega) verb h
    simp only [kvstore_parser_protocol, h0, hc, if_false, hcmd, hk, hv]
  · intro h
    have hcmd := find_cmd_of_entry 11 (by omega) verb h
    simp only [kvstore_parser_protocol, h0, hc, if_false, hcmd, hk, hv]
  · intro h
    have hcmd := find_cmd_of_entry 12 (by omega) verb h
    simp only [kvstore_parser_protocol, h0, hc, if_false, hcmd, hk, hv]
  · intro h
    have hcmd := find_cmd_of_entry 13 (by omega) verb h
    simp only [kvstore_parser_protocol, h0, hc, if_false, hcmd, hk, hv]
  · intro h
    have hcmd := find_cmd_of_entry 14 (by omega) verb h
    simp only [kvstore_parser_protocol, h0, hc, if_false, hcmd, hk, hv]
  · intro h msg sl hcase
    have hcmd := find_cmd_of_entry 15 (by omega) verb h
    simp only [kvstore_parser_protocol, h0, hc, if_false, hcmd, hk, hv, hcase]
  · intro h msg  hcase
    have hcmd := find_cmd_of_entry 16 (by omega) verb h
    simp only [kvstore_parser_protocol, h0, hc, if_false, hcmd, hk, hv, hcase]
  · intro h msg sl hcase
    have hcmd := find_cmd_of_entry 17 (by omega) verb h
    simp only [kvstore_parser_protocol, h0, hc, if_false, hcmd, hk, hv, hcase]
  · intro h msg sl hcase
    have hcmd := find_cmd_of_entry 18 (by omega) verb h
    simp only [kvstore_parser_protocol, h0, hc, if_false, hcmd, hk, hv, hcase]
  · intro h
    have hcmd := find_cmd_of_entry 19 (by omega) verb h
    simp only [kvstore_parser_protocol, h0, hc, if_false, hcmd, hk, hv]
  · intro h msg bt hcase
    have hcmd := find_cmd_of_entry 20 (by omega) verb h
    simp only [kvstore_parser_protocol, h0, hc, if_false, hcmd, hk, hv, hcase]
  · intro h
    have hcmd := find_cmd_of_entry 21 (by omega) verb h
    simp only [kvstore_parser_protocol, h0, hc, if_false, hcmd, hk, hv]
  · intro h msg bt hcase
    have hcmd := find_cmd_of_entry 22 (by omega) verb h
    simp only [kvstore_parser_protocol, h0, hc, if_false, hcmd, hk, hv, hcase]
  · intro h
    have hcmd := find_cmd_of_entry 23 (by omega) verb h
    simp only [kvstore_parser_protocol, h0, hc, if_false, hcmd, hk, hv]
  · intro h
    have hcmd := find_cmd_of_entry 24 (by omega) verb h
    simp only [kvstore_parser_protocol, h0, hc, if_false, hcmd, hk, hv]

theorem verb_resolution_witness :
    ([some [66, 71, 69, 84], some [97]] : List (Option (List Nat)))[0]?
      = some (some [66, 71, 69, 84]) ∧
    (2 : Int) ≠ 0 ∧
    (([some [66, 71, 69, 84], some [97]] : List (Option (List Nat)))[1]?).join = some [97] ∧
    (([some [66, 71, 69, 84], some [97]] : List (Option (List Nat)))[2]?).join = none ∧
    kvstore_parser_protocol idle_engines 1024 (fun _ => 0) true (init_kvengine () () ())
        { rbuffer := [66, 71, 69, 84, 32, 97], wbuffer := [] }
        [some [66, 71, 69, 84], some [97]] 2
      = outcome.done { rbuffer := [66, 71, 69, 84, 32, 97],
                       wbuffer := case_BGET 1024 (init_kvengine () () ()).Btree (some [97]) }
          (init_kvengine () () ()) := by
  obtain ⟨-, -, -, -, -, -, -, -, -, -, -, -, -, -, -, -, -, -, -, -, -, -, -, -, -, -, h, -⟩ :=
    verb_resolution idle_engines 1024 (fun _ => 0) true (init_kvengine () () ())
      { rbuffer := [66, 71, 69, 84, 32, 97], wbuffer := [] }
      [some [66, 71, 69, 84], some [97]] 2 [66, 71, 69, 84] (some [97]) none
      (by decide) (by decide) (by decide) (by decide)
  exact ⟨by decide, by decide, by decide, by decide, h (by decide)⟩

/-! ### The engines do not touch each other -/

/-- C18 (cross-engine independence): a request with an S-prefixed verb, served on a reachable
skip list, ends in a reply and changes nothing but the skip list: the B-tree, its entries and
its count are as before. A request with a B-prefixed verb changes nothing but the B-tree, and
its reply and the B-tree it leaves are the same on every store that holds the same B-tree,
whatever the skip list and the other engines hold and whatever `rand()` and the allocator
answer; so the replies to later B requests are the same with and without the S request. The
same holds with the two engines exchanged. -/
theorem cross_engine_independence {A R H : Type} (E : engines A R H) (size : Nat)
    (rand rand1 : Nat → Nat) (mem_ok mem_ok1 : Bool) (st st1 : globals A R H)
    (item item1 : conn_item) (tokens : List (Option (List Nat))) (count : Int)
    (verb : List Nat) (h0 : tokens[0]? = some (some verb)) (hc : count ≠ 0) :
    ((∃ o, o < 5 ∧ commands[KVS_CMD_SSET + o]? = some verb) →
      Skiptable.Reachable st.Skiplist →
      ∃ msg sl, kvstore_parser_protocol E size rand mem_ok st item tokens count
          = outcome.done { item with wbuffer := msg } { st with Skiplist := sl } ∧
        Skiptable.Reachable sl ∧
        (st1.Skiplist = st.Skiplist →
          kvstore_parser_protocol E size rand mem_ok st1 item1 tokens count
            = outcome.done { item1 with wbuffer := msg } { st1 with Skiplist := sl })) ∧
    ((∃ o, o < 5 ∧ commands[KVS_CMD_BSET + o]? = some verb) →
      Btree.Reachable st.Btree →
      ∃ msg bt, kvstore_parser_protocol E size rand mem_ok st item tokens count
          = outcome.done { item with wbuffer := msg } { st with Btree := bt } ∧
        Btree.Reachable bt ∧
        (st1.Btree = st.Btree →
          kvstore_parser_protocol E size rand1 mem_ok1 st1 item1 tokens count
            = outcome.done { item1 with wbuffer := msg } { st1 with Btree := bt })) := by
  refine ⟨?_, ?_⟩
  · rintro ⟨o, ho, hverb⟩ hs
    have hinv := Skiptable.sl_reachable_inv _ hs
    have hcmd := find_cmd_of_entry (KVS_CMD_SSET + o) (by simp only [KVS_CMD_SSET]; omega)
      verb hverb
    simp only [KVS_CMD_SSET] at hcmd
    interval_cases o
    · obtain ⟨r, sl, e, -⟩ := Skiptable.sl_set_total st.Skiplist hinv (tokens[1]?).join
        (tokens[2]?).join rand mem_ok
      refine ⟨reply_set size r, sl, ?_, Skiptable.Reachable.set _ _ _ _ _ _ _ hs e, ?_⟩
      · simp only [kvstore_parser_protocol, h0, hc, if_false, hcmd, case_SSET, e,
          Option.map_some']
      · intro h1
        simp only [kvstore_parser_protocol, h0, hc, if_false, hcmd, case_SSET, h1, e,
          Option.map_some']
    · obtain ⟨r, e⟩ := Skiptable.sl_get_total st.Skiplist hinv (tokens[1]?).join
      refine ⟨reply_get size r, st.Skiplist, ?_, hs, ?_⟩
      · simp only [kvstore_parser_protocol, h0, hc, if_false, hcmd, case_SGET, e,
          Option.map_some']
      · intro h1
        simp only [kvstore_parser_protocol, h0, hc, if_false, hcmd, case_SGET, h1, e,
          Option.map_some']
        rw [← h1]
    · obtain ⟨r, sl, e, -⟩ := Skiptable.sl_delete_total st.Skiplist hinv (tokens[1]?).join
      refine ⟨reply_code size r, sl, ?_, Skiptable.Reachable.delete _ _ _ _ hs e, ?_⟩
      · simp only [kvstore_parser_protocol, h0, hc, if_false, hcmd, case_SDEL, e,
          Option.map_some']
      · intro h1
        simp only [kvstore_parser_protocol, h0, hc, if_false, hcmd, case_SDEL, h1, e,
          Option.map_some']
    · obtain ⟨r, sl, e, -⟩ := Skiptable.sl_modify_total st.Skiplist hinv (tokens[1]?).join
        (tokens[2]?).join
      refine ⟨reply_code size r, sl, ?_, Skiptable.Reachable.modify _ _ _ _ _ hs e, ?_⟩
      · simp only [kvstore_parser_protocol, h0, hc, if_false, hcmd, case_SMOD, e,
          Option.map_some']
      · intro h1
        simp only [kvstore_parser_protocol, h0, hc, if_false, hcmd, case_SMOD, h1, e,
          Option.map_some']
    · refine ⟨case_SCOUNT size st.Skiplist, st.Skiplist, ?_, hs, ?_⟩
      · simp only [kvstore_parser_protocol, h0, hc, if_false, hcmd]
      · intro h1
        simp only [kvstore_parser_protocol, h0, hc, if_false, hcmd, h1]
        rw [← h1]
  · rintro ⟨o, ho, hverb⟩ hb
    have hinv := Btree.reachable_inv _ hb
    have hcmd := find_cmd_of_entry (KVS_CMD_BSET + o) (by simp only [KVS_CMD_BSET]; omega)
      verb hverb
    simp only [KVS_CMD_BSET] at hcmd
    interval_cases o
    · obtain ⟨r, bt, e, -⟩ := Btree.set_total st.Btree hinv (tokens[1]?).join
        (tokens[2]?).join
      refine ⟨reply_set size r, bt, ?_, Btree.Reachable.set _ _ _ _ _ hb e, ?_⟩
      · simp only [kvstore_parser_protocol, h0, hc, if_false, hcmd, case_BSET, e,
          Option.map_some']
      · intro h1
        simp only [kvstore_parser_protocol, h0, hc, if_false, hcmd, case_BSET, h1, e,
          Option.map_some']
    · refine ⟨case_BGET size st.Btree (tokens[1]?).join, st.Btree, ?_, hb, ?_⟩
      · simp only [kvstore_parser_protocol, h0, hc, if_false, hcmd]
      · intro h1
        simp only [kvstore_parser_protocol, h0, hc, if_false, hcmd, h1]
        rw [← h1]
    · obtain ⟨r, bt, e, -⟩ := Btree.delete_total st.Btree hinv (tokens[1]?).join
      refine ⟨reply_code size r, bt, ?_, Btree.Reachable.delete _ _ _ _ hb e, ?_⟩
      · simp only [kvstore_parser_protocol, h0, hc, if_false, hcmd, case_BDEL, e,
          Option.map_some']
      · intro h1
        simp only [kvstore_parser_protocol, h0, hc, if_false, hcmd, case_BDEL, h1, e,
          Option.map_some']
    · refine ⟨(case_BMOD size st.Btree (tokens[1]?).join (tokens[2]?).join).1,
        (case_BMOD size st.Btree (tokens[1]?).join (tokens[2]?).join).2, ?_,
        Btree.Reachable.modify _ _ _ hb, ?_⟩
      · simp only [kvstore_parser_protocol, h0, hc, if_false, hcmd]
      · intro h1
        simp only [kvstore_parser_protocol, h0, hc, if_false, hcmd, h1]
    · refine ⟨case_BCOUNT size st.Btree, st.Btree, ?_, hb, ?_⟩
      · simp only [kvstore_parser_protocol, h0, hc, if_false, hcmd]
      · intro h1
        simp only [kvstore_parser_protocol, h0, hc, if_false, hcmd, h1]
        rw [← h1]

theorem cross_engine_independence_witness :
    ([some [83, 83, 69, 84], some [107], some [118]] : List (Option (List Nat)))[0]?
      = some (some [83, 83, 69, 84]) ∧
    (3 : Int) ≠ 0 ∧
    ∃ msg sl, kvstore_parser_protocol idle_engines 1024 (fun _ => 40000) true
          (init_kvengine () () ()) { rbuffer := [], wbuffer := [] }
          [some [83, 83, 69, 84], some [107], some [118]] 3
        = outcome.done { rbuffer := [], wbuffer := msg }
            { init_kvengine () () () with Skiplist := sl } ∧
      Skiptable.Reachable sl ∧
      ((init_kvengine () () ()).Skiplist = (init_kvengine () () ()).Skiplist →
        kvstore_parser_protocol idle_engines 1024 (fun _ => 40000) true
            (init_kvengine () () ()) { rbuffer := [], wbuffer := [] }
            [some [83, 83, 69, 84], some [107], some [118]] 3
          = outcome.done { rbuffer := [], wbuffer := msg }
              { init_kvengine () () () with Skiplist := sl }) :=
  ⟨by decide, by decide,
    (cross_engine_independence idle_engines 1024 (fun _ => 40000) (fun _ => 0) true false
      (init_kvengine () () ()) (init_kvengine () () ()) { rbuffer := [], wbuffer := [] }
      { rbuffer := [], wbuffer := [] } [some [83, 83, 69, 84], some [107], some [118]] 3
      [83, 83, 69, 84] (by decide) (by decide)).1 ⟨0, by decide, by decide⟩
      Skiptable.Reachable.create⟩

/-! ### The two engines return the same -/

/-- On the fresh engines every get returns NULL. -/
theorem same_map_create (k : Key) :
    Skiptable.kvs_skiptable_get Skiptable.kvstore_skiptable_create (some k)
      = some (Btree.kvs_btree_get Btree.kvstore_btree_create (some k)) := by
  have hb : Btree.kvs_btree_get Btree.kvstore_btree_create (some k) = none := by
    rw [Btree.get_none_iff _ Btree.inv_create]
    intro v hv
    simp [Btree.kvstore_btree_create, Btree.create_node] at hv
  rw [hb]
  exact (Skiptable.get_spec _ [] Skiptable.sl_inv_create k).2 (fun t ht => by simp at ht)

/-- Runs on a B-tree and on a skip list that hold the same entries and the same count return
the same. -/
theorem api_run_same (cs : List api_call) : ∀ (t : Btree.btree) (s : Skiptable.skiplist)
    (rands : Nat → Nat → Nat) (i : Nat), Btree.Inv t → Skiptable.Inv s →
    (∀ k, Skiptable.kvs_skiptable_get s (some k) = some (Btree.kvs_btree_get t (some k))) →
    Skiptable.kvs_skiptable_count s = Btree.kvs_btree_count t →
    ∃ rs, Btree.api_run t cs = some rs ∧ Skiptable.api_run s rands i cs = some rs ∧
      rs.length = cs.length := by
  induction cs with
  | nil => intro t s rands i _ _ _ _; exact ⟨[], rfl, rfl, rfl⟩
  | cons c cs ih =>
    intro t s rands i hb hs hget hcount
    simp only [Skiptable.kvs_skiptable_count, Btree.kvs_btree_count] at hcount
    have hiff : ∀ k, Skiptable.kvs_skiptable_get s (some k) = some none ↔
        Btree.kvs_btree_get t (some k) = none := by
      intro k
      rw [hget k]
      simp
    cases c with
    | set k v =>
      obtain ⟨t1, b1, b2, b3, b4, b5, b6⟩ := Btree.set_api t hb k v
      obtain ⟨s1, c1, c2, c3, c4, c5, c6⟩ := Skiptable.sl_set_api s hs k v (rands i)
      have hget1 : ∀ k1, Skiptable.kvs_skiptable_get s1 (some k1)
          = some (Btree.kvs_btree_get t1 (some k1)) := by
        intro k1
        by_cases hk : k1 = k
        · subst hk; rw [c3, b3]
        · rw [c4 k1 hk, b4 k1 hk, hget k1]
      have hcount1 : Skiptable.kvs_skiptable_count s1 = Btree.kvs_btree_count t1 := by
        simp only [Skiptable.kvs_skiptable_count, Btree.kvs_btree_count]
        by_cases hg : Btree.kvs_btree_get t (some k) = none
        · rw [b5 hg, c5 ((hiff k).2 hg), hcount]
        · rw [b6 hg, c6 (fun h => hg ((hiff k).1 h)), hcount]
      obtain ⟨rs, r1, r2, r3⟩ := ih t1 s1 rands (i + 1) b2 c2 hget1 hcount1
      refine ⟨api_result.code 0 :: rs, ?_, ?_, by simp [r3]⟩
      · simp [Btree.api_run, Btree.api_step, b1, r1]
      · simp [Skiptable.api_run, Skiptable.api_step, c1, r2]
    | get k =>
      obtain ⟨rs, r1, r2, r3⟩ := ih t s rands (i + 1) hb hs hget hcount
      refine ⟨api_result.value (Btree.kvs_btree_get t (some k)) :: rs, ?_, ?_, by simp [r3]⟩
      · simp [Btree.api_run, Btree.api_step, r1]
      · simp [Skiptable.api_run, Skiptable.api_step, hget k, r2]
    | delete k =>
      by_cases hg : Btree.kvs_btree_get t (some k) = none
      · have b1 := (Btree.delete_api t hb k).2 hg
        have c1 := (Skiptable.sl_delete_api s hs k).2
          ((Skiptable.search_get_none s hs k).1.2 ((hiff k).2 hg))
        obtain ⟨rs, r1, r2, r3⟩ := ih t s rands (i + 1) hb hs hget hcount
        refine ⟨api_result.code (-1) :: rs, ?_, ?_, by simp [r3]⟩
        · simp [Btree.api_run, Btree.api_step, b1, r1]
        · simp [Skiptable.api_run, Skiptable.api_step, c1, r2]
      · obtain ⟨t1, b1, b2, b3, b4, b5⟩ := (Btree.delete_api t hb k).1 hg
        obtain ⟨hsn, r, hr⟩ := Skiptable.search_get_none s hs k
        cases r with
        | none => exact absurd ((hiff k).1 (hsn.1 hr)) hg
        | some x =>
          obtain ⟨s1, c1, c2, c3, c4, c5, -⟩ := (Skiptable.sl_delete_api s hs k).1 x hr
          have hget1 : ∀ k1, Skiptable.kvs_skiptable_get s1 (some k1)
              = some (Btree.kvs_btree_get t1 (some k1)) := by
            intro k1
            by_cases hk : k1 = k
            · subst hk; rw [c3, b3]
            · rw [c5 k1 hk, b5 k1 hk, hget k1]
          have hcount1 : Skiptable.kvs_skiptable_count s1 = Btree.kvs_btree_count t1 := by
            simp only [Skiptable.kvs_skiptable_count, Btree.kvs_btree_count]
            rw [b4, c4, hcount]
          obtain ⟨rs, r1, r2, r3⟩ := ih t1 s1 rands (i + 1) b2 c2 hget1 hcount1
          refine ⟨api_result.code 0 :: rs, ?_, ?_, by simp [r3]⟩
          · simp [Btree.api_run, Btree.api_step, b1, r1]
          · simp [Skiptable.api_run, Skiptable.api_step, c1, r2]
    | modify k v =>
      by_cases hg : Btree.kvs_btree_get t (some k) = none
      · have b1 := (Btree.modify_api t hb k v).2 hg
        have c1 := (Skiptable.sl_modify_api s hs k v).2 ((hiff k).2 hg)
        obtain ⟨rs, r1, r2, r3⟩ := ih t s rands (i + 1) hb hs hget hcount
        refine ⟨api_result.code (-1) :: rs, ?_, ?_, by simp [r3]⟩
        · simp [Btree.api_run, Btree.api_step, b1, r1]
        · simp [Skiptable.api_run, Skiptable.api_step, c1, r2]
      · obtain ⟨t1, b1, b2, b3, b4, b5⟩ := (Btree.modify_api t hb k v).1 hg
        obtain ⟨s1, c1, c2, c3, c4, c5⟩ :=
          (Skiptable.sl_modify_api s hs k v).1 (fun h => hg ((hiff k).1 h))
        have hget1 : ∀ k1, Skiptable.kvs_skiptable_get s1 (some k1)
            = some (Btree.kvs_btree_get t1 (some k1)) := by
          intro k1
          by_cases hk : k1 = k
          · subst hk; rw [c3, b3]
          · rw [c5 k1 hk, b5 k1 hk, hget k1]
        have hcount1 : Skiptable.kvs_skiptable_count s1 = Btree.kvs_btree_count t1 := by
          simp only [Skiptable.kvs_skiptable_count, Btree.kvs_btree_count]
          rw [b4, c4, hcount]
        obtain ⟨rs, r1, r2, r3⟩ := ih t1 s1 rands (i + 1) b2 c2 hget1 hcount1
        refine ⟨api_result.code 0 :: rs, ?_, ?_, by simp [r3]⟩
        · simp [Btree.api_run, Btree.api_step, b1, r1]
        · simp [Skiptable.api_run, Skiptable.api_step, c1, r2]
    | count =>
      obtain ⟨rs, r1, r2, r3⟩ := ih t s rands (i + 1) hb hs hget hcount
      refine ⟨api_result.code (Btree.kvs_btree_count t) :: rs, ?_, ?_, by simp [r3]⟩
      · simp [Btree.api_run, Btree.api_step, r1]
      · simp [Skiptable.api_run, Skiptable.api_step, Skiptable.kvs_skiptable_count,
          Btree.kvs_btree_count, hcount, r2]

/-- C19 (the skip-list and B-tree engines are interchangeable): for every finite sequence of
set, get, delete, modify and count calls with arguments that are not NULL, and for every
sequence of values that `rand()` returns to the level draws of the skip list (its allocations
succeeding), the run on a fresh B-tree and the run on a fresh skip list both go through and
return the same at every step: the same return codes, the same strings or NULL from get, the
same counts. -/
theorem engines_interchangeable (cs : List api_call) (rands : Nat → Nat → Nat) :
    ∃ rs, Btree.api_run Btree.kvstore_btree_create cs = some rs ∧
      Skiptable.api_run Skiptable.kvstore_skiptable_create rands 0 cs = some rs ∧
      rs.length = cs.length := by
  exact api_run_same cs Btree.kvstore_btree_create Skiptable.kvstore_skiptable_create rands 0
    Btree.inv_create ⟨[], Skiptable.sl_inv_create, rfl⟩ same_map_create rfl

/-! ### Search in a tree with ordered keys -/

namespace Btree
open btree_node

theorem nodeAt_prepend (r c : btree_node) (hleaf : r.leaf = false) (hc : c ∈ r.children) :
    ∀ d y, NodeAt c d y → NodeAt r (d + 1) y := by
  intro d y h
  induction h with
  | root => exact NodeAt.child 0 r c NodeAt.root hleaf hc
  | child d x c1 _ hl hm ih => exact NodeAt.child (d + 1) x c1 ih hl hm

theorem nodeAt_cases (r : btree_node) : ∀ d y, NodeAt r d y →
    (d = 0 ∧ y = r) ∨
      (r.leaf = false ∧ ∃ c ∈ r.children, ∃ d1, d = d1 + 1 ∧ NodeAt c d1 y) := by
  intro d y h
  induction h with
  | root => left; exact ⟨rfl, rfl⟩
  | child d x c hx hl hm ih =>
    right
    rcases ih with ⟨rfl, rfl⟩ | ⟨hrl, c0, hc0, d1, rfl, hn⟩
    · exact ⟨hl, c, hm, 0, rfl, NodeAt.root⟩
    · exact ⟨hrl, c0, hc0, d1 + 1, rfl, NodeAt.child d1 x c hn hl hm⟩

theorem wf_child (r c : btree_node) (hw : Wf r) (hl : r.leaf = false) (hc : c ∈ r.children) :
    Wf c :=
  fun d x hx hxl => hw (d + 1) x (nodeAt_prepend r c hl hc d x hx) hxl

theorem shape_wf (lo h : Nat) (r : btree_node) (hr : Shape lo h r) : Wf r := by
  intro d x hx hleaf
  obtain ⟨-, hsh⟩ := shape_nodeAt lo h r hr d x hx
  cases hq : h - d with
  | zero =>
    rw [hq] at hsh
    have := ((shape_leaf _ x).1 hsh).1
    rw [this] at hleaf
    exact absurd hleaf (by simp)
  | succ q =>
    rw [hq] at hsh
    exact ((shape_node _ q x).1 hsh).2.2.2.1

theorem mem_flat (a : Key × Val) : ∀ (es : List (Key × Val)) (cs : List btree_node),
    cs.length = es.length + 1 →
    (a ∈ flat cs es ↔ a ∈ es ∨ ∃ c ∈ cs, a ∈ inorder c) := by
  intro es
  induction es with
  | nil =>
    intro cs h
    cases cs with
    | nil => simp at h
    | cons c cs1 =>
      cases cs1 with
      | nil => simp
      | cons c2 cs2 => simp at h
  | cons e es1 ih =>
    intro cs h
    cases cs with
    | nil => simp at h
    | cons c cs1 =>
      have h1 : cs1.length = es1.length + 1 := by simpa using h
      simp only [flat_cons_cons, List.mem_append, List.mem_cons, ih cs1 h1]
      constructor
      · rintro (h | h | h | ⟨c2, h2, h3⟩)
        · exact Or.inr ⟨c, Or.inl rfl, h⟩
        · exact Or.inl (Or.inl h)
        · exact Or.inl (Or.inr h)
        · exact Or.inr ⟨c2, Or.inr h2, h3⟩
      · rintro ((h | h) | ⟨c2, h2 | h2, h3⟩)
        · exact Or.inr (Or.inl h)
        · exact Or.inr (Or.inr (Or.inl h))
        · subst h2; exact Or.inl h3
        · exact Or.inr (Or.inr (Or.inr ⟨c2, h2, h3⟩))

theorem child_sizeOf (l : Bool) (es : List (Key × Val)) (cs : List btree_node) (c : btree_node)
    (hc : c ∈ cs) : sizeOf c < sizeOf (mk l es cs) := by
  have := List.sizeOf_lt_of_mem hc
  simp only [mk.sizeOf_spec]
  omega

/-- In a tree whose internal nodes have one child more than keys, the traversal lists exactly
the entries of the nodes. -/
theorem mem_inorder_iff (a : Key × Val) : ∀ (n : Nat) (x : btree_node), sizeOf x ≤ n → Wf x →
    (a ∈ inorder x ↔ ∃ d y, NodeAt x d y ∧ a ∈ y.entries) := by
  intro n
  induction n with
  | zero =>
    intro x hx
    cases x with
    | mk l es cs => simp only [mk.sizeOf_spec] at hx; omega
  | succ n ih =>
    intro x hx hw
    cases x with
    | mk l es cs =>
      cases l with
      | true =>
        simp only [inorder_leaf]
        constructor
        · intro h; exact ⟨0, _, NodeAt.root, by simpa using h⟩
        · rintro ⟨d, y, hy, hm⟩
          rcases nodeAt_cases _ d y hy with ⟨-, rfl⟩ | ⟨hl, -⟩
          · simpa using hm
          · simp at hl
      | false =>
        have hlen : cs.length = es.length + 1 := by
          simpa using hw 0 _ NodeAt.root rfl
        simp only [inorder_node, mem_flat a es cs hlen]
        constructor
        · rintro (h | ⟨c, hc, h⟩)
          · exact ⟨0, _, NodeAt.root, by simpa using h⟩
          · have hsz := child_sizeOf false es cs c hc
            obtain ⟨d, y, hy, hm⟩ := (ih c (by omega)
              (wf_child _ c hw rfl (by simpa using hc))).1 h
            exact ⟨d + 1, y, nodeAt_prepend (mk false es cs) c rfl (by simpa using hc) d y hy, hm⟩
        · rintro ⟨d, y, hy, hm⟩
          rcases nodeAt_cases _ d y hy with ⟨-, rfl⟩ | ⟨-, c, hc, d1, -, hn⟩
          · left; simpa using hm
          · right
            have hc1 : c ∈ cs := by simpa using hc
            have hsz := child_sizeOf false es cs c hc1
            exact ⟨c, hc1, (ih c (by omega) (wf_child _ c hw rfl hc)).2 ⟨d1, y, hn, hm⟩⟩

/-- What `search_node` returns on a tree with ordered keys, by the size of the tree. -/
theorem search_node_wf (k : Key) : ∀ (n : Nat) (x : btree_node), sizeOf x ≤ n → Wf x →
    Sorted (inorder x) →
    (∀ v, (k, v) ∈ inorder x →
      ∃ node idx d, search_node x k = some (node, idx) ∧ NodeAt x d node ∧
        node.entries[idx]? = some (k, v)) ∧
    ((∀ v, (k, v) ∉ inorder x) → search_node x k = none) := by
  intro n
  induction n with
  | zero =>
    intro x hx
    cases x with
    | mk l es cs => simp only [mk.sizeOf_spec] at hx; omega
  | succ n ih =>
    intro x hx hw hs
    cases x with
    | mk l es cs =>
      cases l with
      | true =>
        simp only [inorder_leaf] at hs ⊢
        obtain ⟨el, er, h1, h2, h3, h4⟩ := search_scan_spec k es
        simp only [search_node, ← h2]
        subst h1
        cases er with
        | nil =>
          simp only [get_app_nil el _ rfl]
          refine ⟨?_, fun _ => by simp⟩
          intro v hv
          simp at hv
          exact absurd (h3 _ hv) (lt_irrefl _)
        | cons e er1 =>
          simp only [get_app el er1 e _ rfl]
          have hle := h4 e er1 rfl
          rw [sorted_app, sorted_cons] at hs
          by_cases he : strcmp k e.1 = Ordering.eq
          · have hke := (strcmp_eq_iff _ _).1 he
            simp only [he, if_true]
            refine ⟨?_, ?_⟩
            · intro v hv
              refine ⟨_, _, 0, rfl, NodeAt.root, ?_⟩
              simp only [btree_node.entries, get_app el er1 e _ rfl]
              have : (k, e.2) ∈ el ++ e :: er1 := by rw [hke]; simp
              have := sorted_unique _ k v e.2 (by rw [sorted_app, sorted_cons]; exact hs) hv
                this
              rw [this, hke]
            · intro hn
              exact absurd (by rw [hke]; simp) (hn e.2)
          · simp only [he, if_false, if_true]
            have hlt : k < e.1 := lt_of_le_of_ne hle (fun h => he ((strcmp_eq_iff _ _).2 h))
            refine ⟨?_, fun _ => by simp⟩
            intro v hv
            simp only [List.mem_append, List.mem_cons] at hv
            rcases hv with hv | hv | hv
            · exact absurd (h3 _ hv) (lt_irrefl _)
            · rw [← hv] at hlt; exact absurd hlt (lt_irrefl _)
            · have := hs.2.1.1 _ hv
              exact absurd (lt_trans hlt this) (lt_irrefl _)
      | false =>
        have hlen : cs.length = es.length + 1 := by
          simpa using hw 0 _ NodeAt.root rfl
        simp only [inorder_node] at hs ⊢
        obtain ⟨el, er, cl, c, cr, h1, h2, h3, h4, h5, h6, h7, h8, h9, -, hsc, hsr, -, -, -⟩ :=
          locate k es cs hlen hs
        have hcm : c ∈ cs := by rw [h2]; simp
        have hsz := child_sizeOf false es cs c hcm
        have hwc : Wf c := wf_child _ c hw rfl (by simpa using hcm)
        have ihc := ih c (by omega) hwc hsc
        have hup : ∀ v, (k, v) ∈ inorder c →
            ∃ node idx d, search_node c k = some (node, idx) ∧
              NodeAt (mk false es cs) d node ∧ node.entries[idx]? = some (k, v) := by
          intro v hv
          obtain ⟨node, idx, d, q1, q2, q3⟩ := ihc.1 v hv
          exact ⟨node, idx, d + 1, q1,
            nodeAt_prepend (mk false es cs) c rfl (by simpa using hcm) d node q2, q3⟩
        simp only [search_node, ← h5, search_child_eq]
        have hci : cs[el.length]? = some c := by rw [h2]; exact get_app cl cr c _ h3
        rw [h6] at hs ⊢
        cases er with
        | nil =>
          subst h1
          simp only [List.append_nil] at hup
          simp only [get_len_none el _ rfl, hci, rest_nil, List.append_nil, Bool.false_eq_true,
            if_false]
          refine ⟨?_, ?_⟩
          · intro v hv
            simp only [List.mem_append] at hv
            rcases hv with hv | hv
            · exact absurd (h7 _ hv) (lt_irrefl _)
            · exact hup v hv
          · intro hn
            apply ihc.2
            intro v hv
            exact hn v (by simp [hv])
        | cons e er1 =>
          subst h1
          simp only [get_app el er1 e _ rfl, hci]
          have hle := h9 e er1 rfl
          rw [rest_cons, sorted_cons] at hsr
          simp only [rest_cons]
          by_cases he : strcmp k e.1 = Ordering.eq
          · have hke := (strcmp_eq_iff _ _).1 he
            simp only [he, if_true]
            refine ⟨?_, ?_⟩
            · intro v hv
              refine ⟨_, _, 0, rfl, NodeAt.root, ?_⟩
              simp only [btree_node.entries, get_app el er1 e _ rfl]
              have hm : (k, e.2) ∈ flat cl el ++ (inorder c ++ e :: flat cr er1) := by
                rw [hke]; simp
              have := sorted_unique _ k v e.2 hs hv hm
              rw [this, hke]
            · intro hn
              exact absurd (by rw [hke]; simp) (hn e.2)
          · simp only [he, if_false]
            have hlt : k < e.1 := lt_of_le_of_ne hle (fun h => he ((strcmp_eq_iff _ _).2 h))
            refine ⟨?_, ?_⟩
            · intro v hv
              simp only [List.mem_append, List.mem_cons] at hv
              rcases hv with hv | hv | hv | hv
              · exact absurd (h7 _ hv) (lt_irrefl _)
              · exact hup v hv
              · rw [← hv] at hlt; exact absurd hlt (lt_irrefl _)
              · exact absurd (lt_trans hlt (hsr.1 _ hv)) (lt_irrefl _)
            · intro hn
              apply ihc.2
              intro v hv
              exact hn v (by simp [hv])

end Btree

namespace Btree
open btree_node

theorem reachable_wf (t : btree) (h : Reachable t) :
    Wf t.root ∧ (inorder t.root).Pairwise (fun a b => strcmp a.1 b.1 = Ordering.lt) := by
  obtain ⟨ht, hsh, -, hs, -⟩ := reachable_inv t h
  exact ⟨shape_wf 0 ht t.root hsh,
    List.Pairwise.imp (fun {a b} hab => (strcmp_lt_iff a.1 b.1).2 hab) hs⟩

end Btree

/-- C20 (B-tree search is correct on ordered trees): for every B-tree whose in-order traversal
is strictly ascending in `strcmp` order (its internal nodes having one child more than keys)
and for every key `k`: if `k` is the key of some slot of some node of the tree, `search_node`
returns a node of the tree and an index whose slot holds `k`, and `kvs_btree_get` returns the
value of that slot; and `search_node` returns NULL if and only if `k` is the key of no slot
of any node of the tree. -/
theorem btree_search_correct (t : Btree.btree) (hw : Btree.Wf t.root)
    (hs : (Btree.inorder t.root).Pairwise (fun a b => strcmp a.1 b.1 = Ordering.lt))
    (k : Key) :
    ((∃ (d : Nat) (y : Btree.btree_node) (i : Nat) (v : Val),
        Btree.NodeAt t.root d y ∧ y.entries[i]? = some (k, v)) →
      ∃ (node : Btree.btree_node) (idx d : Nat) (v : Val),
        Btree.search_node t.root k = some (node, idx) ∧ Btree.NodeAt t.root d node ∧
        node.entries[idx]? = some (k, v) ∧ Btree.kvs_btree_get t (some k) = some v) ∧
    (Btree.search_node t.root k = none ↔
      ¬ ∃ (d : Nat) (y : Btree.btree_node) (i : Nat) (v : Val),
        Btree.NodeAt t.root d y ∧ y.entries[i]? = some (k, v)) := by
  have hsorted : Btree.Sorted (Btree.inorder t.root) :=
    List.Pairwise.imp (fun {a b} hab => (strcmp_lt_iff a.1 b.1).1 hab) hs
  have hsearch := Btree.search_node_wf k (sizeOf t.root) t.root (Nat.le_refl _) hw hsorted
  have hmem := fun v => Btree.mem_inorder_iff (k, v) (sizeOf t.root) t.root (Nat.le_refl _) hw
  have hfound : (∃ (d : Nat) (y : Btree.btree_node) (i : Nat) (v : Val),
        Btree.NodeAt t.root d y ∧ y.entries[i]? = some (k, v)) →
      ∃ (node : Btree.btree_node) (idx d : Nat) (v : Val),
        Btree.search_node t.root k = some (node, idx) ∧ Btree.NodeAt t.root d node ∧
        node.entries[idx]? = some (k, v) ∧ Btree.kvs_btree_get t (some k) = some v := by
    rintro ⟨d, y, i, v, hy, hi⟩
    have hin : (k, v) ∈ Btree.inorder t.root :=
      (hmem v).2 ⟨d, y, hy, List.getElem?_mem hi⟩
    obtain ⟨node, idx, d1, q1, q2, q3⟩ := hsearch.1 v hin
    exact ⟨node, idx, d1, v, q1, q2, q3, by simp [Btree.kvs_btree_get, q1, q3]⟩
  refine ⟨hfound, ?_, ?_⟩
  · intro hnone hocc
    obtain ⟨node, idx, d1, v, q1, -⟩ := hfound hocc
    rw [q1] at hnone
    simp at hnone
  · intro hno
    apply hsearch.2
    intro v hv
    obtain ⟨d, y, hy, hm⟩ := (hmem v).1 hv
    obtain ⟨i, hi⟩ := List.getElem?_of_mem hm
    exact hno ⟨d, y, i, v, hy, hi⟩

theorem btree_search_correct_witness :
    Btree.Wf Btree.demo8.root ∧
    (Btree.inorder Btree.demo8.root).Pairwise (fun a b => strcmp a.1 b.1 = Ordering.lt) ∧
    ((∃ (d : Nat) (y : Btree.btree_node) (i : Nat) (v : Val),
        Btree.NodeAt Btree.demo8.root d y ∧ y.entries[i]? = some ([101], v)) →
      ∃ (node : Btree.btree_node) (idx d : Nat) (v : Val),
        Btree.search_node Btree.demo8.root [101] = some (node, idx) ∧
        Btree.NodeAt Btree.demo8.root d node ∧
        node.entries[idx]? = some ([101], v) ∧
        Btree.kvs_btree_get Btree.demo8 (some [101]) = some v) ∧
    (Btree.search_node Btree.demo8.root [101] = none ↔
      ¬ ∃ (d : Nat) (y : Btree.btree_node) (i : Nat) (v : Val),
        Btree.NodeAt Btree.demo8.root d y ∧ y.entries[i]? = some ([101], v)) :=
  ⟨(Btree.reachable_wf Btree.demo8 Btree.demo8_reachable).1,
    (Btree.reachable_wf Btree.demo8 Btree.demo8_reachable).2,
    btree_search_correct Btree.demo8 (Btree.reachable_wf Btree.demo8 Btree.demo8_reachable).1
      (Btree.reachable_wf Btree.demo8 Btree.demo8_reachable).2 [101]⟩

/-! ### The steps of insert and delete -/

namespace Btree
open btree_node

/-- The split of a full child, for a child whose own children fit its keys. -/
theorem split_child_general (el er : List (Key × Val)) (cl cr : List btree_node)
    (y : btree_node) (hl : cl.length = el.length)
    (hyc : y.leaf = false → y.children.length = y.n + 1)
    (hyn : y.n = 2 * DEGREE - 1) (hxn : el.length + er.length < 2 * DEGREE - 1) :
    ∃ y1 z mid, split_child (mk false (el ++ er) (cl ++ y :: cr)) el.length =
        some (mk false (el ++ mid :: er) (cl ++ y1 :: z :: cr)) ∧
      y1.n = DEGREE - 1 ∧ z.n = DEGREE - 1 ∧ y.entries[DEGREE - 1]? = some mid ∧
      y1.leaf = y.leaf ∧ z.leaf = y.leaf ∧
      inorder y = inorder y1 ++ mid :: inorder z := by
  cases y with
  | mk yl yes ycs =>
    simp only [btree_node.n, btree_node.entries, DEGREE] at hyn
    obtain ⟨a, b, m, d, e, rfl⟩ := len5 yes hyn
    have hsplit :
        split_child (mk false (el ++ er) (cl ++ mk yl [a, b, m, d, e] ycs :: cr)) el.length =
          some (mk false (el ++ m :: er) (cl ++ mk yl [a, b] (ycs.take 3) ::
            mk yl [d, e] (if yl = true then [] else (ycs.drop 3).take 3) :: cr)) := by
      simp only [split_child, btree_node.children, get_app cl cr _ _ hl, btree_node.n,
        btree_node.entries, DEGREE, btree_node.leaf, take_app el er _ rfl, drop_app el er _ rfl,
        take_app cl _ _ hl, drop_app1 cl cr _ _ hl]
      simp only [DEGREE] at hxn
      have h1 : ¬ ((5 : Nat) < 2 * 3 - 1 ∨ 2 * 3 - 1 ≤ (el ++ er).length ∨
          (el ++ er).length < el.length) := by
        simp; omega
      simp [h1]
      omega
    cases yl with
    | true =>
      refine ⟨_, _, m, hsplit, ?_, ?_, ?_, rfl, rfl, ?_⟩
      · simp [btree_node.n, btree_node.entries, DEGREE]
      · simp [btree_node.n, btree_node.entries, DEGREE]
      · simp [btree_node.entries, DEGREE]
      · simp
    | false =>
      have hlen := hyc rfl
      simp only [btree_node.children, btree_node.n, btree_node.entries] at hlen
      obtain ⟨c0, c1, c2, c3, c4, c5, rfl⟩ := len6 ycs (by simpa using hlen)
      refine ⟨_, _, m, hsplit, ?_, ?_, ?_, rfl, rfl, ?_⟩
      · simp [btree_node.n, btree_node.entries, DEGREE]
      · simp [btree_node.n, btree_node.entries, DEGREE]
      · simp [btree_node.entries, DEGREE]
      · simp

end Btree

/-- C22 (`split_child` is a correct split): for every internal node `x` with fewer than
`2t-1 = 5` keys and one child more than keys, whose child `i` holds 5 keys (and, when it is
internal, 6 children): `split_child(x, i)` leaves child `i` and the new child `i+1` with
exactly `t-1 = 2` keys each, the former median entry `keys[t-1]` of the child, with its value,
sits in slot `i` of `x`, `x` has one key and one child more while its other keys and children
are the ones it had, and the in-order sequence of the subtree under `x` is the same as
before. -/
theorem split_child_correct (x y : Btree.btree_node) (i : Nat) (hleaf : x.leaf = false)
    (hlen : x.children.length = x.n + 1) (hxn : x.n < 2 * Btree.DEGREE - 1)
    (hy : x.children[i]? = some y) (hyn : y.n = 2 * Btree.DEGREE - 1)
    (hyc : y.leaf = false → y.children.length = y.n + 1) :
    ∃ x1 y1 z mid, Btree.split_child x i = some x1 ∧ x1.leaf = false ∧
      x1.n = x.n + 1 ∧ x1.children.length = x.children.length + 1 ∧
      x1.children[i]? = some y1 ∧ x1.children[i + 1]? = some z ∧
      y1.n = Btree.DEGREE - 1 ∧ z.n = Btree.DEGREE - 1 ∧
      y.entries[Btree.DEGREE - 1]? = some mid ∧ x1.entries[i]? = some mid ∧
      x1.entries = x.entries.take i ++ mid :: x.entries.drop i ∧
      x1.children = x.children.take i ++ y1 :: z :: x.children.drop (i + 1) ∧
      Btree.inorder x1 = Btree.inorder x := by
  cases x with
  | mk l es cs =>
    simp only [Btree.leaf_mk, Btree.children_mk, Btree.n_mk, Btree.entries_mk] at hleaf hlen hxn hy ⊢
    subst hleaf
    obtain ⟨cl, cr, el, er, h1, h2, h3, h4, h5⟩ := Btree.node_split es cs i y hlen hy
    subst h1 h2
    have hl : cl.length = el.length := by omega
    obtain ⟨y1, z, mid, e1, e2, e3, e4, -, -, e7⟩ :=
      Btree.split_child_general el er cl cr y hl hyc hyn (by simpa using hxn)
    rw [← h4]
    refine ⟨_, y1, z, mid, e1, rfl, ?_, ?_, ?_, ?_, e2, e3, e4, ?_, ?_, ?_, ?_⟩
    · simp only [Btree.n_mk, List.length_append, List.length_cons]; omega
    · simp only [Btree.children_mk, List.length_append, List.length_cons]; omega
    · simp only [Btree.children_mk]
      exact Btree.get_app cl (z :: cr) y1 _ hl
    · simp only [Btree.children_mk]
      exact Btree.get_app1 cl cr y1 z _ hl
    · simp only [Btree.entries_mk]
      exact Btree.get_app el er mid _ rfl
    · simp only [Btree.entries_mk, Btree.take_app el er _ rfl, Btree.drop_app el er _ rfl]
    · simp only [Btree.children_mk, Btree.take_app cl _ _ hl, Btree.drop_app1 cl cr y _ hl]
    · rw [Btree.inorder_node, Btree.inorder_node, h5,
        Btree.flat_append cl _ el _ hl, Btree.flat_cons_cons, Btree.flat_cons, e7]
      simp

theorem split_child_correct_witness :
    (Btree.btree_node.mk false []
      [Btree.btree_node.mk true [([97], [1]), ([98], [2]), ([99], [3]), ([100], [4]),
        ([101], [5])] []]).leaf = false ∧
    ∃ x1 y1 z mid, Btree.split_child (Btree.btree_node.mk false []
        [Btree.btree_node.mk true [([97], [1]), ([98], [2]), ([99], [3]), ([100], [4]),
          ([101], [5])] []]) 0 = some x1 ∧ x1.leaf = false ∧
      x1.n = (Btree.btree_node.mk false []
        [Btree.btree_node.mk true [([97], [1]), ([98], [2]), ([99], [3]), ([100], [4]),
          ([101], [5])] []]).n + 1 ∧
      x1.children[0]? = some y1 ∧ x1.children[0 + 1]? = some z ∧
      y1.n = Btree.DEGREE - 1 ∧ z.n = Btree.DEGREE - 1 ∧ x1.entries[0]? = some mid ∧
      Btree.inorder x1 = Btree.inorder (Btree.btree_node.mk false []
        [Btree.btree_node.mk true [([97], [1]), ([98], [2]), ([99], [3]), ([100], [4]),
          ([101], [5])] []]) := by
  obtain ⟨x1, y1, z, mid, h1, h2, h3, -, h5, h6, h7, h8, -, h10, -, -, h13⟩ :=
    split_child_correct (Btree.btree_node.mk false []
      [Btree.btree_node.mk true [([97], [1]), ([98], [2]), ([99], [3]), ([100], [4]),
        ([101], [5])] []])
      (Btree.btree_node.mk true [([97], [1]), ([98], [2]), ([99], [3]), ([100], [4]),
        ([101], [5])] []) 0 rfl rfl (by decide) rfl rfl (fun h => absurd h (by decide))
  exact ⟨rfl, x1, y1, z, mid, h1, h2, h3, h5, h6, h7, h8, h10, h13⟩

/-- C23 (`_btree_fill` restores the descent precondition without changing contents): for
every internal node `x` that satisfies the structural invariant with at least one key, and
whose child `i` holds exactly `t-1 = 2` keys: after `_btree_fill(x, i)` the child that the
delete descends into, child `i` or child `i-1` when `i` was the last child and `x` has lost a
key, holds at least `t = 3` and at most `2t-1 = 5` keys, every child of `x` holds between 2
and 5 keys, `x` has one child more than keys, and the in-order sequence of the subtree under
`x` is the same as before. -/
theorem btree_fill_correct (lo h : Nat) (x c : Btree.btree_node) (i : Nat) (hlo : 1 ≤ lo)
    (hx : Btree.Shape lo (h + 1) x) (hc : x.children[i]? = some c)
    (hcn : c.n = Btree.DEGREE - 1) :
    ∃ x1 c1, Btree._btree_fill x i = some x1 ∧
      x1.children[if i = x.n ∧ x1.n < i then i - 1 else i]? = some c1 ∧
      Btree.DEGREE ≤ c1.n ∧ c1.n ≤ 2 * Btree.DEGREE - 1 ∧
      (∀ d ∈ x1.children, Btree.DEGREE - 1 ≤ d.n ∧ d.n ≤ 2 * Btree.DEGREE - 1) ∧
      x1.leaf = false ∧ x1.children.length = x1.n + 1 ∧ x.n ≤ x1.n + 1 ∧ x1.n ≤ x.n ∧
      Btree.Shape (lo - 1) (h + 1) x1 ∧
      Btree.inorder x1 = Btree.inorder x := by
  rw [Btree.shape_node] at hx
  cases x with
  | mk l es cs =>
    simp only [Btree.leaf_mk, Btree.children_mk, Btree.n_mk] at hx hc ⊢
    obtain ⟨rfl, hlo1, hhi, hlen, hch⟩ := hx
    obtain ⟨cl, cr, el, er, h1, h2, h3, h4, h5⟩ := Btree.node_split es cs i c hlen hc
    subst h1 h2
    have hl : cl.length = el.length := by omega
    have hr : cr.length = er.length := by
      simp only [List.length_append, List.length_cons] at hlen; omega
    obtain ⟨el1, er1, cl1, c1, cr1, P, Q, a1, a2, a3, a4, a5, a6, a7, a8, a9, a10⟩ :=
      Btree.fill_spec h el er cl cr c hl hr hch (by rw [hcn]; simp [Btree.DEGREE]) (by omega)
    rw [← h4, a1]
    refine ⟨_, c1, rfl, ?_, (Btree.shape_n _ _ _ a8).1, (Btree.shape_n _ _ _ a8).2, ?_, rfl,
      ?_, a5, a6, ?_, ?_⟩
    · simp only [Btree.children_mk, Btree.n_mk, ← a4]
      exact Btree.get_app cl1 cr1 c1 _ a2
    · intro d hd
      exact Btree.shape_n _ _ _ (a7 d hd)
    · simp only [Btree.children_mk, Btree.n_mk, List.length_append, List.length_cons]; omega
    · rw [Btree.shape_node]
      simp only [Btree.leaf_mk, Btree.children_mk, Btree.n_mk]
      refine ⟨trivial, by omega, by omega, ?_, a7⟩
      simp only [List.length_append, List.length_cons]; omega
    · rw [Btree.inorder_node, Btree.inorder_node, h5, a10,
        Btree.flat_append cl1 _ el1 _ a2, Btree.flat_cons]

namespace Btree
open btree_node

/-- The call of `_btree_delete` that `kvs_btree_delete` makes for a stored key. -/
theorem root_delete (t : btree) (hinv : Inv t) (k : Key)
    (hg : kvs_btree_get t (some k) ≠ none) :
    ∃ h r, Shape 0 h t.root ∧ _btree_delete (height t.root + 1) t.root k = some r ∧
      Shape 0 h r := by
  have hmem : ∃ w, (k, w) ∈ inorder t.root := by
    by_contra hh
    exact hg ((get_none_iff t hinv k).2 (fun w hw => hh ⟨w, hw⟩))
  obtain ⟨w, hw⟩ := hmem
  obtain ⟨ht, hx, hr, hs, hc⟩ := hinv
  have hn1 : 1 ≤ t.root.n := by
    cases hq : t.root.leaf
    · exact hr hq
    · have h0 := (shape_leaf_iff 0 ht t.root hx).1 hq
      subst h0
      cases hroot : t.root with
      | mk l es cs =>
        rw [hroot] at hw hq
        simp only [leaf_mk] at hq
        subst hq
        simp only [inorder_leaf] at hw
        cases es with
        | nil => simp at hw
        | cons e es => simp
  have hx1 : Shape 1 ht t.root := shape_mono _ _ _ _ hx hn1
  obtain ⟨x1, d1, d2, -⟩ :=
    btree_delete_spec ht (ht + 1) 1 t.root k (by omega) (Nat.le_refl _) hx1 hs ⟨w, hw⟩
  simp only [Nat.sub_self] at d2
  exact ⟨ht, x1, hx, by rw [height_eq 0 ht _ hx]; exact d1, d2⟩

end Btree

/-- C24 (root collapse): after every `kvs_btree_delete` that returns 0 on a reachable B-tree,
the root is a leaf or holds at least one key. The call `_btree_delete(tree->root, key)`
returns a node `r`; when `r` is internal and holds no key, `r` has exactly one child, the new
root is this child 0, and the in-order sequence of the entries is the one of `r`; otherwise
the root is `r`. -/
theorem btree_root_collapse (t t1 : Btree.btree) (ht : Btree.Reachable t) (k : Key)
    (hdel : Btree.kvs_btree_delete t (some k) = some (0, t1)) :
    (t1.root.leaf = true ∨ 1 ≤ t1.root.n) ∧
    ∃ r, Btree._btree_delete (Btree.height t.root + 1) t.root k = some r ∧
      (r.leaf = false → r.n = 0 →
        r.children = [t1.root] ∧ r.children[0]? = some t1.root ∧
        Btree.inorder t1.root = Btree.inorder r) ∧
      (¬ (r.leaf = false ∧ r.n = 0) → t1.root = r) := by
  have hinv := Btree.reachable_inv t ht
  have hinv1 := Btree.reachable_inv t1 (Btree.Reachable.delete t t1 (some k) 0 ht hdel)
  have hg : Btree.kvs_btree_get t (some k) ≠ none := by
    intro hh
    rw [(Btree.delete_api t hinv k).2 hh] at hdel
    simp at hdel
  refine ⟨?_, ?_⟩
  · obtain ⟨h1, -, hroot, -⟩ := hinv1
    cases hq : t1.root.leaf
    · right; exact hroot hq
    · left; rfl
  · obtain ⟨h, r, -, hr, hsh⟩ := Btree.root_delete t hinv k hg
    refine ⟨r, hr, ?_, ?_⟩
    · intro hleaf hn
      cases r with
      | mk l es cs =>
        simp only [Btree.leaf_mk, Btree.n_mk] at hleaf hn
        subst hleaf
        have hes : es = [] := List.length_eq_zero.1 hn
        subst hes
        cases h with
        | zero =>
          have := ((Btree.shape_leaf 0 _).1 hsh).1
          simp at this
        | succ h =>
          have q4 := ((Btree.shape_node 0 h _).1 hsh).2.2.2.1
          simp only [Btree.children_mk, Btree.n_mk, List.length_nil] at q4
          cases cs with
          | nil => simp at q4
          | cons c cs1 =>
            have hcs1 : cs1 = [] := by simpa using q4
            subst hcs1
            cases hgv : Btree.kvs_btree_get t (some k) with
            | none => exact absurd hgv hg
            | some v =>
              simp only [Btree.kvs_btree_delete, hgv, hr, Btree.n_mk, List.length_nil, if_true,
                Btree.leaf_mk, Bool.false_eq_true, if_false, Btree.children_mk,
                List.getElem?_cons_zero, Option.some.injEq, Prod.mk.injEq, true_and] at hdel
              rw [← hdel]
              simp
    · intro hne
      cases hgv : Btree.kvs_btree_get t (some k) with
      | none => exact absurd hgv hg
      | some v =>
        simp only [Btree.kvs_btree_delete, hgv, hr] at hdel
        by_cases hz : r.n = 0
        · have hl : r.leaf = true := by
            cases hq : r.leaf
            · exact absurd ⟨hq, hz⟩ hne
            · rfl
          simp only [hz, if_true, hl, Option.some.injEq, Prod.mk.injEq, true_and] at hdel
          rw [← hdel]
        · simp only [hz, if_false, Option.some.injEq, Prod.mk.injEq, true_and] at hdel
          rw [← hdel]

namespace Btree
open btree_node

theorem btree_delete_log_fst (fuel : Nat) : ∀ (x : btree_node) (k : Key),
    (_btree_delete_log fuel x k).map Prod.fst = _btree_delete fuel x k := by
  induction fuel with
  | zero => intro x k; rfl
  | succ f ih =>
    intro x k
    simp only [_btree_delete_log, _btree_delete, ← ih]
    generalize search_scan k x.entries = i
    cases he : x.entries[i]? with
    | none =>
      simp only [Bool.false_eq_true, if_false, decide_eq_true_eq]
      cases hleaf : x.leaf
      · simp only [Bool.false_eq_true, if_false]
        cases h1 : x.children[i]? with
        | none => rfl
        | some c =>
          simp only []
          cases hfill : (if c.n < DEGREE then _btree_fill x i else some x) with
          | none => rfl
          | some x1 =>
            simp only []
            cases hc1 : x1.children[if (i = x.n ∧ x1.n < i) then i - 1
                else i]? with
            | none => rfl
            | some c1 =>
              simp only []
              cases hrec : _btree_delete_log f c1 k with
              | none => rfl
              | some p => rfl
      · rfl
    | some e =>
      simp only [decide_eq_true_eq]
      by_cases hcmp : strcmp k e.1 = Ordering.eq
      rotate_left
      · simp only [hcmp, if_false]
        cases hleaf : x.leaf
        · simp only [Bool.false_eq_true, if_false]
          cases h1 : x.children[i]? with
          | none => rfl
          | some c =>
            simp only []
            cases hfill : (if c.n < DEGREE then _btree_fill x i else some x) with
            | none => rfl
            | some x1 =>
              simp only []
              cases hc1 : x1.children[if (i = x.n ∧ x1.n < i) then i - 1
                  else i]? with
              | none => rfl
              | some c1 =>
                simp only []
                cases hrec : _btree_delete_log f c1 k with
                | none => rfl
                | some p => rfl
        · rfl
      · simp only [hcmp, if_true]
        cases hleaf : x.leaf
        · simp only [Bool.false_eq_true, if_false]
          cases h1 : x.children[i]? with
          | none => rfl
          | some left =>
            cases h2 : x.children[i + 1]? with
            | none => rfl
            | some right =>
              simp only []
              by_cases hl : DEGREE ≤ left.n
              · simp only [hl, if_true]
                cases hp : _btree_get_pred f x i with
                | none => rfl
                | some pred =>
                  simp only []
                  cases hrec : _btree_delete_log f left pred.1 with
                  | none => rfl
                  | some p => rfl
              · simp only [hl, if_false]
                by_cases hr : DEGREE ≤ right.n
                · simp only [hr, if_true]
                  cases hp : _btree_get_succ f x i with
                  | none => rfl
                  | some succ =>
                    simp only []
                    cases hrec : _btree_delete_log f right succ.1 with
                    | none => rfl
                    | some p => rfl
                · simp only [hr, if_false]
                  cases hm : _btree_merge x i with
                  | none => rfl
                  | some x1 =>
                    simp only []
                    cases hc : x1.children[i]? with
                    | none => rfl
                    | some c =>
                      simp only []
                      cases hrec : _btree_delete_log f c k with
                      | none => rfl
                      | some p => rfl
        · rfl

theorem log_entry (h : Nat) (c1 c2 : btree_node) (a : Shape DEGREE h c1)
    (d : Shape (DEGREE - 1) h c2) :
    DEGREE ≤ (c1, c2).1.n ∧ (c1, c2).1.n ≤ 2 * DEGREE - 1 ∧ DEGREE - 1 ≤ (c1, c2).2.n :=
  ⟨(shape_n _ _ _ a).1, (shape_n _ _ _ a).2, (shape_n _ _ _ d).1⟩

theorem btree_delete_log_spec (h : Nat) : ∀ (fuel lo : Nat) (x : btree_node) (k : Key),
    h < fuel → (h = 0 ∨ 1 ≤ lo) → Shape lo h x →
    ∃ x1 log, _btree_delete_log fuel x k = some (x1, log) ∧ Shape (lo - 1) h x1 ∧
      ∀ p ∈ log, DEGREE ≤ p.1.n ∧ p.1.n ≤ 2 * DEGREE - 1 ∧ DEGREE - 1 ≤ p.2.n := by
  induction h with
  | zero =>
    intro fuel lo x k hf _ hx
    obtain ⟨f, rfl⟩ : ∃ f, fuel = f + 1 := ⟨fuel - 1, by omega⟩
    rw [shape_leaf] at hx
    obtain ⟨hleaf, hlo, hhi⟩ := hx
    simp only [_btree_delete_log, hleaf, if_true]
    split
    · refine ⟨_, [], rfl, ?_, by simp⟩
      rename_i hfound
      have hlt : search_scan k x.entries < x.entries.length := by
        by_contra hge
        rw [List.getElem?_eq_none (by omega)] at hfound
        simp at hfound
      rw [shape_leaf]
      simp only [leaf_mk, n_mk, List.length_append, List.length_take, List.length_drop]
      simp only [n] at hlo hhi
      refine ⟨trivial, by omega, by omega⟩
    · refine ⟨x, [], rfl, ?_, by simp⟩
      rw [shape_leaf]
      exact ⟨hleaf, by omega, hhi⟩
  | succ h ih =>
    intro fuel lo x k hf hlo hx
    obtain ⟨f, rfl⟩ : ∃ f, fuel = f + 1 := ⟨fuel - 1, by omega⟩
    have hf1 : h < f := by omega
    have hlo : 1 ≤ lo := by omega
    have hD : (h = 0 ∨ 1 ≤ DEGREE) := Or.inr (by simp [DEGREE])
    rw [shape_node] at hx
    cases x with
    | mk l es cs =>
      simp only [leaf_mk, children_mk, n_mk] at hx
      obtain ⟨rfl, hlo1, hhi, hlen, hch⟩ := hx
      obtain ⟨el0, er0, g1, g2, -, -⟩ := search_scan_spec k es
      have hile : search_scan k es ≤ es.length := by
        have := congrArg List.length g1
        simp only [List.length_append] at this
        omega
      cases hci0 : cs[search_scan k es]? with
      | none =>
        rw [List.getElem?_eq_none_iff] at hci0
        omega
      | some c =>
        obtain ⟨cl, cr, el, er, h1, h2, q3, h5, -⟩ := node_split es cs _ c hlen hci0
        subst h1 h2
        have h3 : cl.length = el.length := q3.trans h5.symm
        have h4 : cr.length = er.length := by
          simp only [List.length_append, List.length_cons] at hlen; omega
        have hc : Shape (DEGREE - 1) h c := hch c (by simp)
        have hcl : ∀ d ∈ cl, Shape (DEGREE - 1) h d := fun d hd => hch d (by simp [hd])
        have hcr : ∀ d ∈ cr, Shape (DEGREE - 1) h d := fun d hd => hch d (by simp [hd])
        have hci : (cl ++ c :: cr)[el.length]? = some c := get_app cl cr c _ h3
        -- the descent below child `i` when the key is not in this node
        have hdescend : (∀ e er1, er = e :: er1 → ¬ strcmp k e.1 = Ordering.eq) →
            ∃ x1 log, _btree_delete_log (f + 1) (mk false (el ++ er) (cl ++ c :: cr)) k =
                some (x1, log) ∧ Shape (lo - 1) (h + 1) x1 ∧
              ∀ p ∈ log, DEGREE ≤ p.1.n ∧ p.1.n ≤ 2 * DEGREE - 1 ∧ DEGREE - 1 ≤ p.2.n := by
          intro hnf
          have hfill : ∃ el1 er1 cl1 c1 cr1,
              (if c.n < DEGREE then _btree_fill (mk false (el ++ er) (cl ++ c :: cr)) el.length
                else some (mk false (el ++ er) (cl ++ c :: cr))) =
                some (mk false (el1 ++ er1) (cl1 ++ c1 :: cr1)) ∧
              cl1.length = el1.length ∧ cr1.length = er1.length ∧
              el1.length = (if el.length = (el ++ er).length ∧ (el1 ++ er1).length < el.length
                then el.length - 1 else el.length) ∧
              (el ++ er).length ≤ (el1 ++ er1).length + 1 ∧
              (el1 ++ er1).length ≤ (el ++ er).length ∧
              (∀ d ∈ cl1 ++ c1 :: cr1, Shape (DEGREE - 1) h d) ∧ Shape DEGREE h c1 := by
            by_cases hsmall : c.n < DEGREE
            · simp only [hsmall, if_true]
              obtain ⟨el1, er1, cl1, c1, cr1, P, Q, a1, a2, a3, a4, a5, a6, a7, a8, -, -⟩ :=
                fill_spec h el er cl cr c h3 h4 hch hsmall (by omega)
              exact ⟨el1, er1, cl1, c1, cr1, a1, a2, a3, a4, a5, a6, a7, a8⟩
            · simp only [hsmall, if_false]
              refine ⟨el, er, cl, c, cr, rfl, h3, h4, ?_, by omega, by omega, hch,
                shape_mono _ _ _ _ hc (by omega)⟩
              have : ¬ (el.length = (el ++ er).length ∧ (el ++ er).length < el.length) := by
                intro hh; omega
              simp only [this, if_false]
          obtain ⟨el1, er1, cl1, c1, cr1, a1, a2, a3, a4, a5, a6, a7, a8⟩ := hfill
          obtain ⟨c2, log, d1, d2, d3⟩ := ih f DEGREE c1 k hf1 hD a8
          have hci1 : (cl1 ++ c1 :: cr1)[el1.length]? = some c1 := get_app cl1 cr1 c1 _ a2
          refine ⟨mk false (el1 ++ er1) (cl1 ++ c2 :: cr1), (c1, c2) :: log, ?_, ?_, ?_⟩
          · have hfound : ∀ r : Option (btree_node × List (btree_node × btree_node)),
                (if (match (el ++ er)[el.length]? with
                    | some e => decide (strcmp k e.1 = Ordering.eq)
                    | none => false) = true then r
                  else some (mk false (el1 ++ er1) (cl1 ++ c2 :: cr1), (c1, c2) :: log)) =
                some (mk false (el1 ++ er1) (cl1 ++ c2 :: cr1), (c1, c2) :: log) := by
              intro r
              cases er with
              | nil => simp
              | cons e0 er0 =>
                have := hnf e0 er0 rfl
                rw [get_app el er0 e0 _ rfl]
                simp [this]
            simp only [_btree_delete_log, entries_mk, ← h5, leaf_mk, children_mk, hci,
              Bool.false_eq_true, if_false, a1, n_mk, decide_eq_true_eq, ← a4, hci1, d1,
              put_child, take_app cl1 (c1 :: cr1) _ a2, drop_app1 cl1 cr1 c1 _ a2]
            exact hfound _
          · rw [shape_node]
            simp only [leaf_mk, n_mk, children_mk]
            refine ⟨trivial, by omega, by omega, by simp [a2, a3]; omega, ?_⟩
            exact shape_children h cl1 cr1 c1 c2 a7 (by simpa [DEGREE] using d2)
          · intro p hp
            simp only [List.mem_cons] at hp
            rcases hp with hp | hp
            · rw [hp]; exact log_entry h _ _ a8 d2
            · exact d3 p hp
        cases er with
        | nil => exact hdescend (by simp)
        | cons e er1 =>
          by_cases hcmp : strcmp k e.1 = Ordering.eq
          · cases cr with
            | nil => simp at h4
            | cons right cr2 =>
              have hright : Shape (DEGREE - 1) h right := hcr right (by simp)
              have hcr2 : ∀ d ∈ cr2, Shape (DEGREE - 1) h d := fun d hd => hcr d (by simp [hd])
              have hget := get_app el er1 e _ rfl
              have hci2 : (cl ++ c :: right :: cr2)[el.length + 1]? = some right :=
                get_app1 cl cr2 c right _ h3
              have g6 := take_app el (e :: er1) _ rfl
              have g7 := drop_app1 el er1 e _ rfl
              by_cases hbl : DEGREE ≤ c.n
              · obtain ⟨X, pred, p1, -⟩ :=
                  rightmost_spec h f (DEGREE - 1) c hf1 (by simp [DEGREE]) hc
                have hc3 : Shape DEGREE h c := shape_mono _ _ _ _ hc hbl
                obtain ⟨c2, log, d1, d2, d3⟩ := ih f DEGREE c pred.1 hf1 hD hc3
                refine ⟨mk false (el ++ pred :: er1) (cl ++ c2 :: right :: cr2),
                  (c, c2) :: log, ?_, ?_, ?_⟩
                · simp only [_btree_delete_log, entries_mk, ← h5, hget, hcmp, leaf_mk,
                    children_mk, hci, hci2, hbl, _btree_get_pred, p1, d1, put_child, g6, g7,
                    take_app cl (c :: right :: cr2) _ h3, drop_app1 cl (right :: cr2) c _ h3]
                  simp
                · rw [shape_node]
                  simp only [leaf_mk, n_mk, children_mk]
                  simp only [List.length_append, List.length_cons] at hlo1 hhi hlen ⊢
                  refine ⟨trivial, by omega, by omega, by omega, ?_⟩
                  exact shape_children h cl (right :: cr2) c c2 hch
                    (by simpa [DEGREE] using d2)
                · intro p hp
                  simp only [List.mem_cons] at hp
                  rcases hp with hp | hp
                  · rw [hp]; exact log_entry h _ _ hc3 d2
                  · exact d3 p hp
              · by_cases hbr : DEGREE ≤ right.n
                · obtain ⟨Y, succ, p1, -⟩ :=
                    leftmost_spec h f (DEGREE - 1) right hf1 (by simp [DEGREE]) hright
                  have hc3 : Shape DEGREE h right := shape_mono _ _ _ _ hright hbr
                  obtain ⟨c2, log, d1, d2, d3⟩ := ih f DEGREE right succ.1 hf1 hD hc3
                  refine ⟨mk false (el ++ succ :: er1) (cl ++ c :: c2 :: cr2),
                    (right, c2) :: log, ?_, ?_, ?_⟩
                  · simp only [_btree_delete_log, entries_mk, ← h5, hget, hcmp, leaf_mk,
                      children_mk, hci, hci2, hbl, hbr, _btree_get_succ, p1, d1, put_child, g6,
                      g7, take_app1 cl (right :: cr2) c _ h3, drop_app2 cl cr2 c right _ h3]
                    simp
                  · rw [shape_node]
                    simp only [leaf_mk, n_mk, children_mk]
                    simp only [List.length_append, List.length_cons] at hlo1 hhi hlen ⊢
                    refine ⟨trivial, by omega, by omega, by omega, ?_⟩
                    intro d hd
                    simp only [List.mem_append, List.mem_cons] at hd
                    rcases hd with hd | hd | hd | hd
                    · exact hcl d hd
                    · rw [hd]; exact hc
                    · rw [hd]; simpa [DEGREE] using d2
                    · exact hcr2 d hd
                  · intro p hp
                    simp only [List.mem_cons] at hp
                    rcases hp with hp | hp
                    · rw [hp]; exact log_entry h _ _ hc3 d2
                    · exact d3 p hp
                · have hcn : c.n = DEGREE - 1 := by
                    have := (shape_n _ _ _ hc).1; omega
                  have hrn : right.n = DEGREE - 1 := by
                    have := (shape_n _ _ _ hright).1; omega
                  obtain ⟨c1, b1, b2, -⟩ :=
                    merge_spec h el er1 e cl cr2 c right h3 hc hright hcn hrn
                  obtain ⟨c2, log, d1, d2, d3⟩ := ih f DEGREE c1 k hf1 hD b2
                  have hci1 : (cl ++ c1 :: cr2)[el.length]? = some c1 := get_app cl cr2 c1 _ h3
                  refine ⟨mk false (el ++ er1) (cl ++ c2 :: cr2), (c1, c2) :: log, ?_, ?_, ?_⟩
                  · simp only [_btree_delete_log, entries_mk, ← h5, hget, hcmp, leaf_mk,
                      children_mk, hci, hci2, hbl, hbr, b1, hci1, d1, put_child,
                      take_app cl (c1 :: cr2) _ h3, drop_app1 cl cr2 c1 _ h3]
                    simp
                  · rw [shape_node]
                    simp only [leaf_mk, n_mk, children_mk]
                    simp only [List.length_append, List.length_cons] at hlo1 hhi hlen ⊢
                    refine ⟨trivial, by omega, by omega, by omega, ?_⟩
                    intro d hd
                    simp only [List.mem_append, List.mem_cons] at hd
                    rcases hd with hd | hd | hd
                    · exact hcl d hd
                    · rw [hd]; simpa [DEGREE] using d2
                    · exact hcr2 d hd
                  · intro p hp
                    simp only [List.mem_cons] at hp
                    rcases hp with hp | hp
                    · rw [hp]; exact log_entry h _ _ b2 d2
                    · exact d3 p hp
          · refine hdescend ?_
            intro e0 er0 he0
            simp only [List.cons.injEq] at he0
            rw [← he0.1]
            exact hcmp

end Btree

/-- C21 (B-tree delete never descends into an under-full child): for every B-tree whose root
satisfies the structural invariant (every node other than the root holds between `t-1 = 2`
and `2t-1 = 5` keys, an internal node has one child more than keys, all leaves are at the same
depth, an internal root holds at least one key) and every key `k` stored in it,
`kvs_btree_delete` returns 0 and the call `_btree_delete(tree->root, k)` it makes returns;
every recursive call `_btree_delete(c, .)` made on the way, on a node `c` other than the root,
is made when `c` holds at least `t = 3` and at most 5 keys, and `c` holds at least `t-1 = 2`
keys when the call returns. -/
theorem delete_never_descends_underfull (t : Btree.btree) (h : Nat) (k : Key)
    (hx : Btree.Shape 0 h t.root) (hroot : t.root.leaf = false → 1 ≤ t.root.n)
    (hk : Btree.kvs_btree_get t (some k) ≠ none) :
    ∃ r log t1, Btree.kvs_btree_delete t (some k) = some (0, t1) ∧
      Btree._btree_delete (Btree.height t.root + 1) t.root k = some r ∧
      Btree._btree_delete_log (Btree.height t.root + 1) t.root k = some (r, log) ∧
      ∀ p ∈ log, Btree.DEGREE ≤ p.1.n ∧ p.1.n ≤ 2 * Btree.DEGREE - 1 ∧
        Btree.DEGREE - 1 ≤ p.2.n := by
  have hlog : ∃ r log, Btree._btree_delete_log (Btree.height t.root + 1) t.root k =
      some (r, log) ∧ Btree.Shape 0 h r ∧
      ∀ p ∈ log, Btree.DEGREE ≤ p.1.n ∧ p.1.n ≤ 2 * Btree.DEGREE - 1 ∧
        Btree.DEGREE - 1 ≤ p.2.n := by
    rw [Btree.height_eq 0 h _ hx]
    cases h with
    | zero =>
      exact Btree.btree_delete_log_spec 0 1 0 t.root k (by omega) (Or.inl rfl) hx
    | succ h1 =>
      have hl : t.root.leaf = false := ((Btree.shape_node 0 h1 _).1 hx).1
      have hx1 : Btree.Shape 1 (h1 + 1) t.root := Btree.shape_mono _ _ _ _ hx (hroot hl)
      exact Btree.btree_delete_log_spec (h1 + 1) (h1 + 1 + 1) 1 t.root k (by omega)
        (Or.inr (Nat.le_refl _)) hx1
  obtain ⟨r, log, h1, h2, h3⟩ := hlog
  have hr : Btree._btree_delete (Btree.height t.root + 1) t.root k = some r := by
    rw [← Btree.btree_delete_log_fst, h1]; rfl
  have hdel : ∃ t1, Btree.kvs_btree_delete t (some k) = some (0, t1) := by
    cases hgv : Btree.kvs_btree_get t (some k) with
    | none => exact absurd hgv hk
    | some v =>
      simp only [Btree.kvs_btree_delete, hgv, hr]
      by_cases hz : r.n = 0
      · simp only [hz, if_true]
        cases hq : r.leaf
        · simp only [Bool.false_eq_true, if_false]
          cases h with
          | zero =>
            have := ((Btree.shape_leaf 0 _).1 h2).1
            rw [hq] at this
            exact absurd this (by decide)
          | succ h1 =>
            have q4 := ((Btree.shape_node 0 h1 _).1 h2).2.2.2.1
            cases hc : r.children[0]? with
            | none =>
              rw [List.getElem?_eq_none_iff] at hc
              omega
            | some c => exact ⟨_, rfl⟩
        · exact ⟨_, rfl⟩
      · simp only [hz, if_false]
        exact ⟨_, rfl⟩
  obtain ⟨t1, ht1⟩ := hdel
  exact ⟨r, log, t1, ht1, hr, h1, h3⟩

theorem demo5_shape : Btree.Shape 0 1 Btree.demo5.root := by
  rw [Btree.shape_node]
  simp [Btree.demo5, Btree.shape_leaf, Btree.DEGREE]

theorem demo8_shape : Btree.Shape 1 (0 + 1) Btree.demo8.root := by
  rw [Btree.shape_node]
  simp [Btree.demo8, Btree.shape_leaf, Btree.DEGREE]

theorem delete_never_descends_underfull_witness :
    Btree.kvs_btree_get Btree.demo5 (some [97]) ≠ none ∧
    ∃ r log t1, Btree.kvs_btree_delete Btree.demo5 (some [97]) = some (0, t1) ∧
      Btree._btree_delete (Btree.height Btree.demo5.root + 1) Btree.demo5.root [97] = some r ∧
      Btree._btree_delete_log (Btree.height Btree.demo5.root + 1) Btree.demo5.root [97] =
        some (r, log) ∧
      ∀ p ∈ log, Btree.DEGREE ≤ p.1.n ∧ p.1.n ≤ 2 * Btree.DEGREE - 1 ∧
        Btree.DEGREE - 1 ≤ p.2.n :=
  have hk : Btree.kvs_btree_get Btree.demo5 (some [97]) ≠ none := by
    rw [show Btree.kvs_btree_get Btree.demo5 (some [97]) = some [1] from rfl]
    exact fun hh => Option.noConfusion hh
  ⟨hk, delete_never_descends_underfull Btree.demo5 1 [97] demo5_shape
    (fun _ => Nat.le_refl 1) hk⟩

theorem btree_fill_correct_witness :
    Btree.Shape 1 (0 + 1) Btree.demo8.root ∧
    ∃ x1 c1, Btree._btree_fill Btree.demo8.root 0 = some x1 ∧
      x1.children[if 0 = Btree.demo8.root.n ∧ x1.n < 0 then 0 - 1 else 0]? = some c1 ∧
      Btree.DEGREE ≤ c1.n ∧ c1.n ≤ 2 * Btree.DEGREE - 1 ∧
      (∀ d ∈ x1.children, Btree.DEGREE - 1 ≤ d.n ∧ d.n ≤ 2 * Btree.DEGREE - 1) ∧
      Btree.inorder x1 = Btree.inorder Btree.demo8.root := by
  obtain ⟨x1, c1, h1, h2, h3, h4, h5, -, -, -, -, -, h11⟩ :=
    btree_fill_correct 1 0 Btree.demo8.root
      (Btree.btree_node.mk true [([97], [1]), ([98], [2])] []) 0 (Nat.le_refl 1) demo8_shape
      rfl rfl
  exact ⟨demo8_shape, x1, c1, h1, h2, h3, h4, h5, h11⟩

theorem demo5_reachable : Btree.Reachable Btree.demo5 := by
  have h1 : Btree.Reachable { root := Btree.btree_node.mk true [([97], [1])] [], count := 1 } :=
    Btree.Reachable.set _ _ (some [97]) (some [1]) 0 Btree.Reachable.create rfl
  have h2 : Btree.Reachable
      { root := Btree.btree_node.mk true [([97], [1]), ([98], [2])] [], count := 2 } :=
    Btree.Reachable.set _ _ (some [98]) (some [2]) 0 h1 rfl
  have h3 : Btree.Reachable
      { root := Btree.btree_node.mk true [([97], [1]), ([98], [2]), ([99], [3])] [],
        count := 3 } :=
    Btree.Reachable.set _ _ (some [99]) (some [3]) 0 h2 rfl
  have h4 : Btree.Reachable
      { root := Btree.btree_node.mk true
          [([97], [1]), ([98], [2]), ([99], [3]), ([100], [4])] [], count := 4 } :=
    Btree.Reachable.set _ _ (some [100]) (some [4]) 0 h3 rfl
  have h5 : Btree.Reachable
      { root := Btree.btree_node.mk true
          [([97], [1]), ([98], [2]), ([99], [3]), ([100], [4]), ([101], [5])] [],
        count := 5 } :=
    Btree.Reachable.set _ _ (some [101]) (some [5]) 0 h4 rfl
  have h6 : Btree.Reachable
      { root := Btree.btree_node.mk false [([99], [3])]
          [Btree.btree_node.mk true [([97], [1]), ([98], [2])] [],
           Btree.btree_node.mk true [([100], [4]), ([101], [5]), ([102], [6])] []],
        count := 6 } :=
    Btree.Reachable.set _ _ (some [102]) (some [6]) 0 h5 rfl
  exact Btree.Reachable.delete _ _ (some [102]) 0 h6 rfl

theorem btree_root_collapse_witness :
    Btree.kvs_btree_delete Btree.demo5 (some [97]) =
      some (0, { root := Btree.btree_node.mk true
                           [([98], [2]), ([99], [3]), ([100], [4]), ([101], [5])] [],
                 count := 4 }) ∧
    ∃ r, Btree._btree_delete (Btree.height Btree.demo5.root + 1) Btree.demo5.root [97] =
        some r ∧
      (r.leaf = false → r.n = 0 →
        r.children = [Btree.btree_node.mk true
          [([98], [2]), ([99], [3]), ([100], [4]), ([101], [5])] []]) :=
  ⟨rfl, (btree_root_collapse Btree.demo5 _ demo5_reachable [97] rfl).2.imp
    (fun _ hr => ⟨hr.1, fun h1 h2 => (hr.2.1 h1 h2).1⟩)⟩

namespace Skiptable

theorem random_level_loop_eq (rand : Nat → Nat) (fuel : Nat) :
    ∀ (calls level n : Nat), level ≤ MAX_LEVEL → MAX_LEVEL < level + fuel →
      MAX_LEVEL ≤ level + n →
      random_level_loop rand fuel calls level =
        (min (level + leading_successes rand n calls) MAX_LEVEL,
          calls + (min (level + leading_successes rand n calls) MAX_LEVEL - level) + 1) := by
  induction fuel with
  | zero => intro calls level n h1 h2 _; omega
  | succ f ih =>
    intro calls level n h1 h2 h3
    simp only [random_level_loop]
    by_cases hl : level < MAX_LEVEL
    · obtain ⟨n1, rfl⟩ : ∃ n1, n = n1 + 1 := ⟨n - 1, by omega⟩
      by_cases hr : rand calls % 65536 ≤ 32767
      · have hc : 2 * (rand calls % 65536) < 65535 ∧ level < MAX_LEVEL := ⟨by omega, hl⟩
        simp only [hc, and_self, if_true, leading_successes, hr]
        rw [ih (calls + 1) (level + 1) n1 (by omega) (by omega) (by omega)]
        have hge := (random_level_loop_bounds rand f (calls + 1) (level + 1) (by omega)).1
        rw [ih (calls + 1) (level + 1) n1 (by omega) (by omega) (by omega)] at hge
        simp only at hge
        have e : level + (leading_successes rand n1 (calls + 1) + 1) =
            level + 1 + leading_successes rand n1 (calls + 1) := by omega
        rw [e]
        refine Prod.ext rfl ?_
        simp only
        omega
      · have hc : ¬ (2 * (rand calls % 65536) < 65535 ∧ level < MAX_LEVEL) := by
          intro hh; omega
        simp only [hc, if_false, leading_successes, hr, Nat.add_zero]
        rw [Nat.min_eq_left h1]
        simp
    · have hc : ¬ (2 * (rand calls % 65536) < 65535 ∧ level < MAX_LEVEL) := fun hh => hl hh.2
      have he : level = MAX_LEVEL := by omega
      simp only [hc, if_false]
      rw [Nat.min_eq_right (by omega)]
      subst he
      simp

theorem filter_lt_range (m : Nat) : ∀ n, m ≤ n →
    ((List.range n).filter (fun r => decide (r < m))).length = m := by
  intro n
  induction n with
  | zero => intro h; simp at h; subst h; rfl
  | succ n ih =>
    intro h
    rw [List.range_succ, List.filter_append, List.length_append]
    by_cases hm : m ≤ n
    · rw [ih hm]
      have : ¬ n < m := by omega
      simp [this]
    · have hmn : m = n + 1 := by omega
      subst hmn
      have hall : (List.range n).filter (fun r => decide (r < n + 1)) = List.range n := by
        rw [List.filter_eq_self]
        intro a ha
        rw [List.mem_range] at ha
        simp; omega
      rw [hall]
      simp

theorem trial_count :
    ((List.range 65536).filter (fun r => decide (2 * (r % 65536) < 65535))).length = 32768 := by
  have h : (List.range 65536).filter (fun r => decide (2 * (r % 65536) < 65535)) =
      (List.range 65536).filter (fun r => decide (r < 32768)) := by
    apply List.filter_congr
    intro r hr
    rw [List.mem_range] at hr
    rw [Nat.mod_eq_of_lt hr]
    by_cases h1 : r < 32768
    · simp [h1]; omega
    · simp [h1]; omega
  rw [h]
  exact filter_lt_range 32768 65536 (by omega)

end Skiptable

/-- C27 (`random_level` is a capped geometric draw): for every stream of values returned by
`rand()`, `random_level` returns 1 plus the number of leading draws `r` with
`(r & 0xFFFF) <= 32767`, capped at `MAX_LEVEL = 16` (the leading draws counted among the first
`n` ones, for every `n` of at least 15); the result lies in 1..16; the number of draws that
`random_level` consumes is the level it returns, so at most 16 and not at most 15: the draw
that ends the loop is consumed too, also when the level has reached 16; a trial succeeds, for
the draw `r`, exactly when `(r & 0xFFFF) <= 32767`, which holds for exactly 32768 of the
65536 values of 16 bits. -/
theorem random_level_capped_geometric (rand : Nat → Nat) (n : Nat)
    (hn : Skiptable.MAX_LEVEL - 1 ≤ n) :
    Skiptable.random_level rand =
      min (1 + Skiptable.leading_successes rand n 0) Skiptable.MAX_LEVEL ∧
    1 ≤ Skiptable.random_level rand ∧ Skiptable.random_level rand ≤ 16 ∧
    (Skiptable.random_level_loop rand Skiptable.MAX_LEVEL 0 1).2 =
      Skiptable.random_level rand ∧
    (Skiptable.random_level_loop rand Skiptable.MAX_LEVEL 0 1).2 ≤ 16 ∧
    (∀ r : Nat, 2 * (r % 65536) < 65535 ↔ r % 65536 ≤ 32767) ∧
    ((List.range 65536).filter (fun r => decide (2 * (r % 65536) < 65535))).length = 32768 := by
  have hM : Skiptable.MAX_LEVEL = 16 := rfl
  have h := Skiptable.random_level_loop_eq rand Skiptable.MAX_LEVEL 0 1 n (by omega) (by omega)
    (by omega)
  have hb := Skiptable.random_level_bounds rand
  have h1 : Skiptable.random_level rand =
      min (1 + Skiptable.leading_successes rand n 0) Skiptable.MAX_LEVEL := by
    unfold Skiptable.random_level
    rw [h]
  have h2 : (Skiptable.random_level_loop rand Skiptable.MAX_LEVEL 0 1).2 =
      Skiptable.random_level rand := by
    rw [h1, h]
    simp only
    rw [← h1]
    omega
  refine ⟨h1, hb.1, by omega, h2, by omega, fun r => by omega, Skiptable.trial_count⟩

theorem random_level_capped_geometric_witness :
    Skiptable.MAX_LEVEL - 1 ≤ 15 ∧
    Skiptable.random_level Skiptable.rand_two =
      min (1 + Skiptable.leading_successes Skiptable.rand_two 15 0) Skiptable.MAX_LEVEL ∧
    (Skiptable.random_level_loop Skiptable.rand_two Skiptable.MAX_LEVEL 0 1).2 =
      Skiptable.random_level Skiptable.rand_two :=
  ⟨by decide, (random_level_capped_geometric Skiptable.rand_two 15 (by decide)).1,
    (random_level_capped_geometric Skiptable.rand_two 15 (by decide)).2.2.2.1⟩

/-- C27, the run that contradicts the bound of 15 draws: when every value that `rand()`
returns passes the test, `random_level` returns 16 after it has called `rand()` 16 times. -/
theorem random_level_draws_counterexample :
    Skiptable.random_level_loop (fun _ => 0) Skiptable.MAX_LEVEL 0 1 = (16, 16) ∧
    ¬ (Skiptable.random_level_loop (fun _ => 0) Skiptable.MAX_LEVEL 0 1).2 ≤ 15 := by
  have h : Skiptable.random_level_loop (fun _ => 0) Skiptable.MAX_LEVEL 0 1 = (16, 16) := by
    decide
  exact ⟨h, by rw [h]; decide⟩

/-- C28 (skip-list results do not depend on the random levels): for every finite sequence of
set, get, delete, modify and count calls with arguments that are not NULL, and for any two
families of streams of values that `rand()` returns to `random_level` during the calls (the
allocations succeeding), the two runs that start from a fresh skip list both go through and
return the same at every step: the same return codes, the same strings or NULL from get, the
same counts. -/
theorem skiptable_results_independent_of_levels (cs : List api_call)
    (rands1 rands2 : Nat → Nat → Nat) :
    ∃ rs, Skiptable.api_run Skiptable.kvstore_skiptable_create rands1 0 cs = some rs ∧
      Skiptable.api_run Skiptable.kvstore_skiptable_create rands2 0 cs = some rs ∧
      rs.length = cs.length := by
  obtain ⟨rs1, a1, a2, a3⟩ :=
    api_run_same cs Btree.kvstore_btree_create Skiptable.kvstore_skiptable_create rands1 0
      Btree.inv_create ⟨[], Skiptable.sl_inv_create, rfl⟩ same_map_create rfl
  obtain ⟨rs2, b1, b2, -⟩ :=
    api_run_same cs Btree.kvstore_btree_create Skiptable.kvstore_skiptable_create rands2 0
      Btree.inv_create ⟨[], Skiptable.sl_inv_create, rfl⟩ same_map_create rfl
  rw [a1] at b1
  have e : rs1 = rs2 := Option.some.inj b1
  subst e
  exact ⟨rs1, a2, b2, a3⟩

namespace Skiptable

theorem insert_level (s s1 : skiplist) (k : Key) (v : Option Val) (rand : Nat → Nat)
    (ok : Bool) (r : Int) (h : skiplist_insert s (some k) v rand ok = some (r, s1))
    (hr : r ≠ 1) :
    s1.level = (if s.level < random_level rand then random_level rand else s.level) ∧
      s1.header = s.header ∧ s1.count = s.count := by
  simp only [skiplist_insert] at h
  split at h
  · exact absurd h (by simp)
  · split at h
    · exact absurd h (by simp)
    · split at h
      · exact absurd h (by simp)
      · simp only [Option.some.injEq, Prod.mk.injEq] at h
        exact absurd h.1.symm hr
      · split at h
        · split at h
          · exact absurd h (by simp)
          · simp only [Option.some.injEq, Prod.mk.injEq] at h
            rw [← h.2]
            exact ⟨rfl, rfl, rfl⟩
        · simp only [Option.some.injEq, Prod.mk.injEq] at h
          rw [← h.2]
          exact ⟨rfl, rfl, rfl⟩

theorem delete_level (s s1 : skiplist) (k : Key)
    (h : skiplist_delete s (some k) = some (0, s1)) :
    ∃ m1 y, lower_level m1 s.header s.level = some s1.level ∧ s1.nodes = m1.set y none ∧
      s1.header = s.header := by
  simp only [skiplist_delete] at h
  split at h
  · exact absurd h (by simp)
  · split at h
    · exact absurd h (by simp)
    · exact absurd h (by simp)
    · split at h
      · exact absurd h (by simp)
      · split at h
        · exact absurd h (by simp)
        · split at h
          · exact absurd h (by simp)
          · split at h
            · exact absurd h (by simp)
            · rename_i hl
              simp only [Option.some.injEq, Prod.mk.injEq, true_and] at h
              rw [← h]
              exact ⟨_, _, hl, rfl, rfl⟩

theorem lower_level_tight (m : List (Option skiplist_node)) (header : Nat) :
    ∀ l l1, lower_level m header l = some l1 →
      l1 ≤ 1 ∨ ∃ p, read_forward m header (l1 - 1) = some (some p) := by
  intro l
  induction l with
  | zero => intro l1 h; simp [lower_level] at h; left; omega
  | succ l ih =>
    intro l1 h
    cases l with
    | zero => simp [lower_level] at h; left; omega
    | succ l =>
      simp only [lower_level] at h
      cases hr : read_forward m header (l + 1) with
      | none => rw [hr] at h; exact absurd h (by simp)
      | some q =>
        cases q with
        | none => rw [hr] at h; exact ih l1 h
        | some p =>
          rw [hr] at h
          simp only [Option.some.injEq] at h
          right
          rw [← h]
          exact ⟨p, hr⟩

end Skiptable

namespace Skiptable

theorem tight_of_pointer (s : skiplist) (T : List Tower) (hinv : SInv s T) (p : Nat)
    (hp : read_forward s.nodes s.header (s.level - 1) = some (some p)) :
    ∃ t ∈ T, s.level ≤ t.height := by
  have hpos := hinv.level_pos
  have hle := hinv.level_le
  have hc := hinv.chains (s.level - 1) (by omega)
  cases hab : above (s.level - 1) T with
  | nil =>
    rw [hab] at hc
    simp only [ChainFrom] at hc
    rw [hc] at hp
    exact absurd hp (by simp)
  | cons t L =>
    have hm : t ∈ above (s.level - 1) T := by rw [hab]; simp
    have := above_subset _ _ _ hm
    exact ⟨t, this.1, by omega⟩

theorem pointer_of_tight (s : skiplist) (T : List Tower) (hinv : SInv s T)
    (ht : ∃ t ∈ T, s.level ≤ t.height) :
    ∃ p, read_forward s.nodes s.header (s.level - 1) = some (some p) := by
  have hpos := hinv.level_pos
  have hle := hinv.level_le
  have hc := hinv.chains (s.level - 1) (by omega)
  obtain ⟨t, h1, h2⟩ := ht
  have hm : t ∈ above (s.level - 1) T := by
    simp only [above, List.mem_filter, decide_eq_true_eq]
    exact ⟨h1, by omega⟩
  cases hab : above (s.level - 1) T with
  | nil => rw [hab] at hm; simp at hm
  | cons u L =>
    rw [hab] at hc
    simp only [ChainFrom] at hc
    exact ⟨u.addr, hc.1⟩

theorem reachable_ok_tight (s : skiplist) (h : ReachableOk s) :
    ∃ T, SInv s T ∧ s.count = T.length ∧ (s.level = 1 ∨ ∃ t ∈ T, s.level ≤ t.height) := by
  induction h with
  | create => exact ⟨[], Skiptable.sl_inv_create, rfl, Or.inl rfl⟩
  | set s s1 k v rand r _ hstep ih =>
    obtain ⟨T, hinv, hc, ht⟩ := ih
    cases k with
    | none => simp [kvs_skiptable_set] at hstep; rw [← hstep.2]; exact ⟨T, hinv, hc, ht⟩
    | some k =>
      cases v with
      | none => simp [kvs_skiptable_set] at hstep; rw [← hstep.2]; exact ⟨T, hinv, hc, ht⟩
      | some v =>
        have hi := insert_spec s T hinv k v rand true
        by_cases hm : ∃ t ∈ T, t.key = k
        · have hi1 := hi.1 hm
          obtain ⟨t, htm, hk⟩ := hm
          obtain ⟨Lo, Hi1, hT⟩ := List.append_of_mem htm
          obtain ⟨s2, m1, m2, m3, m4⟩ := (Skiptable.sl_modify_spec s T hinv k v).1 Lo t Hi1 hT hk
          simp only [kvs_skiptable_set, hi1, m1] at hstep
          simp at hstep
          rw [← hstep.2]
          refine ⟨_, m2, by rw [m3, hc, hT]; simp, ?_⟩
          rw [m4]
          rcases ht with ht | ⟨u, hu, hul⟩
          · exact Or.inl ht
          · right
            rw [hT] at hu
            simp only [List.mem_append, List.mem_cons] at hu
            rcases hu with hu | hu | hu
            · exact ⟨u, by simp [hu], hul⟩
            · exact ⟨{ t with val := v }, by simp, by rw [← hu]; exact hul⟩
            · exact ⟨u, by simp [hu], hul⟩
        · have hne : ∀ t ∈ T, t.key ≠ k := fun t ht hk => hm ⟨t, ht, hk⟩
          obtain ⟨Lo, Hi, e1, e2, e3, e4, -⟩ := hi.2 hne
          obtain ⟨s2, f1, f2, f3⟩ := e4 rfl
          have hlev := (insert_level s s2 k (some v) rand true 0 f1 (by decide)).1
          simp only [kvs_skiptable_set, f1] at hstep
          simp at hstep
          rw [← hstep.2]
          refine ⟨_, sinv_count _ _ _ f2, by simp [f3, hc, e1]; omega, ?_⟩
          simp only
          rw [hlev]
          by_cases hl : s.level < random_level rand
          · simp only [hl, if_true]
            exact Or.inr ⟨⟨s.nodes.length, k, v, random_level rand⟩, by simp, Nat.le_refl _⟩
          · simp only [hl, if_false]
            rcases ht with ht | ⟨u, hu, hul⟩
            · exact Or.inl ht
            · right
              rw [e1] at hu
              simp only [List.mem_append] at hu
              rcases hu with hu | hu
              · exact ⟨u, by simp [hu], hul⟩
              · exact ⟨u, by simp [hu], hul⟩
  | modify s s1 k v r _ hstep ih =>
    obtain ⟨T, hinv, hc, ht⟩ := ih
    cases k with
    | none => simp [kvs_skiptable_modify] at hstep; rw [← hstep.2]; exact ⟨T, hinv, hc, ht⟩
    | some k =>
      cases v with
      | none => simp [kvs_skiptable_modify] at hstep; rw [← hstep.2]; exact ⟨T, hinv, hc, ht⟩
      | some v =>
        simp only [kvs_skiptable_modify] at hstep
        have hm := Skiptable.sl_modify_spec s T hinv k v
        by_cases hmem : ∃ t ∈ T, t.key = k
        · obtain ⟨t, htm, hk⟩ := hmem
          obtain ⟨Lo, Hi1, hT⟩ := List.append_of_mem htm
          obtain ⟨s2, m1, m2, m3, m4⟩ := hm.1 Lo t Hi1 hT hk
          rw [m1] at hstep
          simp only [Option.some.injEq, Prod.mk.injEq] at hstep
          rw [← hstep.2]
          refine ⟨_, m2, by rw [m3, hc, hT]; simp, ?_⟩
          rw [m4]
          rcases ht with ht | ⟨u, hu, hul⟩
          · exact Or.inl ht
          · right
            rw [hT] at hu
            simp only [List.mem_append, List.mem_cons] at hu
            rcases hu with hu | hu | hu
            · exact ⟨u, by simp [hu], hul⟩
            · exact ⟨{ t with val := v }, by simp, by rw [← hu]; exact hul⟩
            · exact ⟨u, by simp [hu], hul⟩
        · rw [hm.2 (fun t ht hk => hmem ⟨t, ht, hk⟩)] at hstep
          simp only [Option.some.injEq, Prod.mk.injEq] at hstep
          rw [← hstep.2]
          exact ⟨T, hinv, hc, ht⟩
  | delete s s1 k r _ hstep ih =>
    obtain ⟨T, hinv, hc, ht⟩ := ih
    cases k with
    | none => simp [kvs_skiptable_delete] at hstep; rw [← hstep.2]; exact ⟨T, hinv, hc, ht⟩
    | some k =>
      simp only [kvs_skiptable_delete] at hstep
      have hd := Skiptable.sl_delete_spec s T hinv k
      by_cases hmem : ∃ t ∈ T, t.key = k
      · obtain ⟨Lo, t, Hi1, s2, e1, e2, e3, e4, e5, -⟩ := hd.1 hmem
        obtain ⟨m1, y, g1, g2, g3⟩ := delete_level s s2 k e3
        rw [e3] at hstep
        simp only [Option.some.injEq, Prod.mk.injEq] at hstep
        rw [← hstep.2]
        refine ⟨_, e4, by rw [e5, hc, e1]; simp; omega, ?_⟩
        rcases lower_level_tight m1 s.header s.level s2.level g1 with hl | ⟨p, hp⟩
        · left
          have := e4.level_pos
          omega
        · right
          obtain ⟨n, hn, -⟩ := e4.header_node
          have hy : s2.header ≠ y := by
            intro hh
            rw [g2, node_at_set] at hn
            by_cases hlt : y < m1.length
            · simp [hh, hlt] at hn
            · simp only [hh, hlt, and_false, if_false] at hn
              exact hlt (node_at_lt _ _ _ hn)
          refine tight_of_pointer s2 _ e4 p ?_
          rw [g2, g3, read_forward_set_ne _ _ _ _ _ (by rw [← g3]; exact hy)]
          exact hp
      · rw [hd.2 (fun t ht hk => hmem ⟨t, ht, hk⟩)] at hstep
        simp only [Option.some.injEq, Prod.mk.injEq] at hstep
        rw [← hstep.2]
        exact ⟨T, hinv, hc, ht⟩

end Skiptable

namespace Skiptable

/-- Every forward pointer of level `j` of a list that satisfies the invariant leads to a node
that has more than `j` levels. -/
theorem pointer_height (s : skiplist) (T : List Tower) (hinv : SInv s T) :
    ∀ (p : Nat) (n : skiplist_node) (j x : Nat), node_at s.nodes p = some n →
      n.forward[j]? = some (some x) →
      ∃ nx, node_at s.nodes x = some nx ∧ j < nx.forward.length ∧ x ≠ s.header := by
  intro p n j x hp hf
  have hj : j < n.forward.length := by
    by_contra hh
    have : n.forward.length ≤ j := by omega
    rw [List.getElem?_eq_none this] at hf
    simp at hf
  have hread : read_forward s.nodes p j = some (some x) := by
    simp [read_forward, hp, hf]
  have hmem : x ∈ (above j T).map Tower.addr := by
    rcases hinv.alloc p n hp with h | h
    · obtain ⟨n1, q1, q2⟩ := hinv.header_node
      rw [h] at hp
      rw [q1] at hp
      simp only [Option.some.injEq] at hp
      subst hp
      have hc := hinv.chains j (by omega)
      obtain ⟨r, r1, r2⟩ := chain_values s.nodes j _ s.header hc s.header (by simp)
      rw [h, r1] at hread
      simp only [Option.some.injEq] at hread
      exact r2 x hread
    · obtain ⟨u, hu1, hu2⟩ := List.mem_map.1 h
      obtain ⟨n1, q1, -, -, q4, q5, q6, -⟩ := hinv.towers u hu1
      rw [hu2, hp] at q1
      simp only [Option.some.injEq] at q1
      subst q1
      have hjl : j < MAX_LEVEL := by
        have := hinv.level_le
        omega
      have hc := hinv.chains j hjl
      have hua : u ∈ above j T := by
        simp only [above, List.mem_filter, decide_eq_true_eq]
        exact ⟨hu1, by omega⟩
      obtain ⟨r, r1, r2⟩ := chain_values s.nodes j _ s.header hc u.addr
        (by simp only [List.mem_cons]; right; exact List.mem_map_of_mem Tower.addr hua)
      rw [hu2, hread] at r1
      simp only [Option.some.injEq] at r1
      exact r2 x r1.symm
  obtain ⟨t, ht1, ht2⟩ := List.mem_map.1 hmem
  have ht := above_subset _ _ _ ht1
  obtain ⟨nx, q1, -, -, q4, -, -, q7⟩ := hinv.towers t ht.1
  rw [ht2] at q1 q7
  exact ⟨nx, q1, by omega, q7⟩

end Skiptable

/-- C25 (skip-list set and allocation failure): for every reachable skip list and every key
`k` that is not stored, when `create_node` does not get its memory, `skiplist_insert` returns
-1, but `kvs_skiptable_set` returns 0, not a negative result, and the dispatcher replies
`SUCCESS` to `SSET k v`. The nodes and the count of the list are the ones before the call, get
returns for every key what it returned before, but the list-wide level is the larger one of
the level before the call and the level that `random_level` drew for the node: it is not the
level before the call when the draw is larger. -/
theorem set_swallows_allocation_failure (s : Skiptable.skiplist)
    (hs : Skiptable.Reachable s) (k : Key) (v : Val) (rand : Nat → Nat)
    (habs : Skiptable.kvs_skiptable_get s (some k) = some none) :
    ∃ s1, Skiptable.skiplist_insert s (some k) (some v) rand false = some (-1, s1) ∧
      Skiptable.kvs_skiptable_set s (some k) (some v) rand false = some (0, s1) ∧
      (∀ size, case_SSET size s (some k) (some v) rand false =
        some (snprintf size SUCCESS, s1)) ∧
      s1.nodes = s.nodes ∧ s1.count = s.count ∧ s1.header = s.header ∧
      (∀ k1, Skiptable.kvs_skiptable_get s1 (some k1) =
        Skiptable.kvs_skiptable_get s (some k1)) ∧
      s1.level = max s.level (Skiptable.random_level rand) ∧
      (s.level < Skiptable.random_level rand → s1.level ≠ s.level) := by
  obtain ⟨T, hT, hc⟩ := Skiptable.sl_reachable_inv s hs
  have hne : ∀ t ∈ T, t.key ≠ k := by
    intro t ht hk
    rw [(Skiptable.get_spec s T hT k).1 t ht hk] at habs
    simp at habs
  obtain ⟨Lo, Hi, -, -, -, -, e5⟩ := (Skiptable.insert_spec s T hT k v rand false).2 hne
  obtain ⟨s1, f1, f2, f3, f4⟩ := e5 rfl
  obtain ⟨g1, g2, -⟩ := Skiptable.insert_level s s1 k (some v) rand false (-1) f1 (by decide)
  have hset : Skiptable.kvs_skiptable_set s (some k) (some v) rand false = some (0, s1) := by
    simp [Skiptable.kvs_skiptable_set, f1]
  have hlev : s1.level = max s.level (Skiptable.random_level rand) := by
    rw [g1]
    by_cases hl : s.level < Skiptable.random_level rand
    · simp only [hl, if_true]; omega
    · simp only [hl, if_false]; omega
  refine ⟨s1, f1, hset, ?_, f4, f3, g2, ?_, hlev, ?_⟩
  · intro size
    simp [case_SSET, hset, reply_set]
  · intro k1
    exact Skiptable.sl_get_congr s s1 T T hT f2 k1 (fun _ => Iff.rfl)
  · intro hl
    rw [hlev]
    omega

set_option maxRecDepth 100000 in
theorem set_swallows_allocation_failure_witness :
    Skiptable.kvs_skiptable_get Skiptable.kvstore_skiptable_create (some [110, 97, 109, 101])
      = some none ∧
    Skiptable.kvs_skiptable_set Skiptable.kvstore_skiptable_create (some [110, 97, 109, 101])
      (some [97, 108, 105, 99, 101]) Skiptable.rand_two false =
      some (0, { level := 2, header := 0, count := 0,
                 nodes := Skiptable.kvstore_skiptable_create.nodes }) ∧
    ∃ s1, Skiptable.skiplist_insert Skiptable.kvstore_skiptable_create
        (some [110, 97, 109, 101]) (some [97, 108, 105, 99, 101]) Skiptable.rand_two false =
        some (-1, s1) ∧
      Skiptable.kvs_skiptable_set Skiptable.kvstore_skiptable_create
        (some [110, 97, 109, 101]) (some [97, 108, 105, 99, 101]) Skiptable.rand_two false =
        some (0, s1) ∧
      (∀ size, case_SSET size Skiptable.kvstore_skiptable_create (some [110, 97, 109, 101])
        (some [97, 108, 105, 99, 101]) Skiptable.rand_two false =
        some (snprintf size SUCCESS, s1)) ∧
      s1.level = max Skiptable.kvstore_skiptable_create.level
        (Skiptable.random_level Skiptable.rand_two) := by
  obtain ⟨s1, h1, h2, h3, -, -, -, -, h8, -⟩ :=
    set_swallows_allocation_failure Skiptable.kvstore_skiptable_create
      Skiptable.Reachable.create [110, 97, 109, 101] [97, 108, 105, 99, 101]
      Skiptable.rand_two rfl
  exact ⟨rfl, rfl, s1, h1, h2, h3, h8⟩

/-- C26 (skip-list level invariant): in every skip list that `skiplist_init` and calls of set,
modify and delete whose allocations succeed lead to, `1 <= sl->level <= 16`,
`header->forward[j]` is NULL for every `j` with `sl->level <= j < 16`, and `sl->level = 1` or
`header->forward[sl->level - 1]` is not NULL; no stored node has more levels than `sl->level`,
and `sl->level` is 1 or the number of levels of a stored node: the list-wide level is the
height of the tallest stored node, or 1 when the list is empty. -/
theorem skiptable_level_invariant (s : Skiptable.skiplist) (hs : Skiptable.ReachableOk s) :
    1 ≤ s.level ∧ s.level ≤ 16 ∧
    (∀ j, s.level ≤ j → j < 16 →
      Skiptable.read_forward s.nodes s.header j = some none) ∧
    (s.level = 1 ∨
      ∃ p, Skiptable.read_forward s.nodes s.header (s.level - 1) = some (some p)) ∧
    (∀ (p : Nat) (n : Skiptable.skiplist_node), p ≠ s.header →
      Skiptable.node_at s.nodes p = some n → n.forward.length ≤ s.level) ∧
    (s.level = 1 ∨ ∃ (p : Nat) (n : Skiptable.skiplist_node), p ≠ s.header ∧
      Skiptable.node_at s.nodes p = some n ∧ n.forward.length = s.level) ∧
    ((∀ (p : Nat) (n : Skiptable.skiplist_node), Skiptable.node_at s.nodes p = some n →
      p = s.header) → s.level = 1) := by
  obtain ⟨T, hT, -, ht⟩ := Skiptable.reachable_ok_tight s hs
  have hM : Skiptable.MAX_LEVEL = 16 := rfl
  have hle := hT.level_le
  have htall : s.level = 1 ∨ ∃ (p : Nat) (n : Skiptable.skiplist_node), p ≠ s.header ∧
      Skiptable.node_at s.nodes p = some n ∧ n.forward.length = s.level := by
    rcases ht with ht | ⟨t, h1, h2⟩
    · exact Or.inl ht
    · obtain ⟨n, q1, -, -, q4, -, q6, q7⟩ := hT.towers t h1
      exact Or.inr ⟨t.addr, n, q7, q1, by omega⟩
  refine ⟨hT.level_pos, by omega, ?_, ?_, ?_, htall, ?_⟩
  · intro j h1 h2
    have hc := hT.chains j (by omega)
    rw [Skiptable.above_eq_nil j T] at hc
    · simpa [Skiptable.ChainFrom] using hc
    · intro t ht1
      obtain ⟨n, -, -, -, -, -, q6, -⟩ := hT.towers t ht1
      omega
  · rcases ht with ht | ht
    · exact Or.inl ht
    · exact Or.inr (Skiptable.pointer_of_tight s T hT ht)
  · intro p n hp hn
    rcases hT.alloc p n hn with h | h
    · exact absurd h hp
    · obtain ⟨u, hu1, hu2⟩ := List.mem_map.1 h
      obtain ⟨n1, q1, -, -, q4, -, q6, -⟩ := hT.towers u hu1
      rw [hu2, hn] at q1
      simp only [Option.some.injEq] at q1
      subst q1
      omega
  · intro hempty
    rcases htall with h | ⟨p, n, h1, h2, -⟩
    · exact h
    · exact absurd (hempty p n h2) h1

theorem demo2_reachable_ok : Skiptable.ReachableOk Skiptable.demo2 :=
  Skiptable.ReachableOk.set _ _ (some [107]) (some [118]) Skiptable.rand_two 0
    Skiptable.ReachableOk.create rfl

theorem skiptable_level_invariant_witness :
    Skiptable.ReachableOk Skiptable.demo2 ∧
    1 ≤ Skiptable.demo2.level ∧ Skiptable.demo2.level ≤ 16 ∧
    (∀ j, Skiptable.demo2.level ≤ j → j < 16 →
      Skiptable.read_forward Skiptable.demo2.nodes Skiptable.demo2.header j = some none) ∧
    (Skiptable.demo2.level = 1 ∨
      ∃ p, Skiptable.read_forward Skiptable.demo2.nodes Skiptable.demo2.header
        (Skiptable.demo2.level - 1) = some (some p)) :=
  ⟨demo2_reachable_ok, (skiptable_level_invariant Skiptable.demo2 demo2_reachable_ok).1,
    (skiptable_level_invariant Skiptable.demo2 demo2_reachable_ok).2.1,
    (skiptable_level_invariant Skiptable.demo2 demo2_reachable_ok).2.2.1,
    (skiptable_level_invariant Skiptable.demo2 demo2_reachable_ok).2.2.2.1⟩

/-- C29 (skip-list forward-array accesses stay in bounds): in the embedding a read or write of
`node->forward[i]` outside the array the node was created with, an access through a pointer to
no node and a read of a slot of `update` that was not assigned make the function return
`none`. In every reachable skip list `skiplist_search`, `skiplist_insert` (whether
`create_node` gets its memory or not) and `skiplist_delete` return a result, so none of these
accesses occurs: the header has 16 slots, every forward pointer of level `j` that is not NULL
leads to a stored node with more than `j` levels (so `x->forward[i]` is read in
`skiplist_delete` only on levels on which `x` is linked, after `update[i]->forward[i] == x`),
and a read or a write that returns a result is inside the array of an allocated node. -/
theorem forward_accesses_in_bounds (s : Skiptable.skiplist) (hs : Skiptable.Reachable s)
    (k : Key) (v : Val) (rand : Nat → Nat) (ok : Bool) :
    (∃ r, Skiptable.skiplist_search s (some k) = some r) ∧
    (∃ r s1, Skiptable.skiplist_insert s (some k) (some v) rand ok = some (r, s1)) ∧
    (∃ r s1, Skiptable.skiplist_delete s (some k) = some (r, s1)) ∧
    (∃ n, Skiptable.node_at s.nodes s.header = some n ∧ n.forward.length = 16) ∧
    (∀ (p : Nat) (n : Skiptable.skiplist_node) (j x : Nat),
      Skiptable.node_at s.nodes p = some n → n.forward[j]? = some (some x) →
      ∃ nx, Skiptable.node_at s.nodes x = some nx ∧ j < nx.forward.length ∧
        x ≠ s.header) ∧
    (∀ (m : List (Option Skiptable.skiplist_node)) (p i : Nat) (r : Option Nat),
      Skiptable.read_forward m p i = some r →
      ∃ n, Skiptable.node_at m p = some n ∧ i < n.forward.length) ∧
    (∀ (m m1 : List (Option Skiptable.skiplist_node)) (p i : Nat) (q : Option Nat),
      Skiptable.write_forward m p i q = some m1 →
      ∃ n, Skiptable.node_at m p = some n ∧ i < n.forward.length) := by
  obtain ⟨T, hT, hc⟩ := Skiptable.sl_reachable_inv s hs
  refine ⟨(Skiptable.search_get_none s ⟨T, hT, hc⟩ k).2, ?_, ?_, hT.header_node,
    Skiptable.pointer_height s T hT, Skiptable.read_forward_node, ?_⟩
  · have hi := Skiptable.insert_spec s T hT k v rand ok
    by_cases hm : ∃ t ∈ T, t.key = k
    · exact ⟨1, s, hi.1 hm⟩
    · have hne : ∀ t ∈ T, t.key ≠ k := fun t ht hk => hm ⟨t, ht, hk⟩
      obtain ⟨Lo, Hi, -, -, -, e4, e5⟩ := hi.2 hne
      cases ok with
      | true =>
        obtain ⟨s1, f1, -⟩ := e4 rfl
        exact ⟨0, s1, f1⟩
      | false =>
        obtain ⟨s1, f1, -⟩ := e5 rfl
        exact ⟨-1, s1, f1⟩
  · have hd := Skiptable.sl_delete_spec s T hT k
    by_cases hm : ∃ t ∈ T, t.key = k
    · obtain ⟨Lo, t, Hi1, s1, -, -, e3, -⟩ := hd.1 hm
      exact ⟨0, s1, e3⟩
    · exact ⟨-1, s, hd.2 (fun t ht hk => hm ⟨t, ht, hk⟩)⟩
  · intro m m1 p i q hw
    unfold Skiptable.write_forward at hw
    cases hn : Skiptable.node_at m p with
    | none => simp [hn] at hw
    | some n =>
      simp only [hn] at hw
      refine ⟨n, rfl, ?_⟩
      by_contra hl
      simp [hl] at hw

theorem forward_accesses_in_bounds_witness :
    Skiptable.Reachable Skiptable.demo1 ∧
    (∃ r, Skiptable.skiplist_search Skiptable.demo1 (some [107]) = some r) ∧
    (∃ r s1, Skiptable.skiplist_insert Skiptable.demo1 (some [107]) (some [119])
      Skiptable.rand_two true = some (r, s1)) ∧
    (∃ r s1, Skiptable.skiplist_delete Skiptable.demo1 (some [107]) = some (r, s1)) :=
  ⟨Skiptable.sl_demo1_reachable,
    (forward_accesses_in_bounds Skiptable.demo1 Skiptable.sl_demo1_reachable [107] [119]
      Skiptable.rand_two true).1,
    (forward_accesses_in_bounds Skiptable.demo1 Skiptable.sl_demo1_reachable [107] [119]
      Skiptable.rand_two true).2.1,
    (forward_accesses_in_bounds Skiptable.demo1 Skiptable.sl_demo1_reachable [107] [119]
      Skiptable.rand_two true).2.2.1⟩

theorem demo3_reachable : Skiptable.Reachable Skiptable.demo3 := by
  have h1 : Skiptable.Reachable
      { level := 2, header := 0, count := 1,
        nodes := [some { key := [], value := none,
                         forward := some 1 :: some 1 :: List.replicate 14 none },
                  some { key := [97], value := some [1], forward := [none, none] }] } :=
    Skiptable.Reachable.set _ _ (some [97]) (some [1]) Skiptable.rand_two true 0
      Skiptable.Reachable.create rfl
  have h2 : Skiptable.Reachable
      { level := 2, header := 0, count := 2,
        nodes := [some { key := [], value := none,
                         forward := some 1 :: some 1 :: List.replicate 14 none },
                  some { key := [97], value := some [1], forward := [some 2, none] },
                  some { key := [98], value := some [2], forward := [none] }] } :=
    Skiptable.Reachable.set _ _ (some [98]) (some [2]) (fun _ => 40000) true 0 h1 rfl
  exact Skiptable.Reachable.set _ _ (some [99]) (some [3])
    (fun i => if i < 2 then 0 else 40000) true 0 h2 rfl

theorem skiptable_ordering_witness :
    Skiptable.Reachable Skiptable.demo3 ∧ 1 < Skiptable.MAX_LEVEL ∧
    Skiptable.demo3.nodes.length ≤ 4 ∧
    Skiptable.level_chain Skiptable.demo3.nodes 0 4 Skiptable.demo3.header = [1, 2, 3] ∧
    Skiptable.level_chain Skiptable.demo3.nodes 1 4 Skiptable.demo3.header = [1, 3] ∧
    Skiptable.level_chain Skiptable.demo3.nodes 2 4 Skiptable.demo3.header = [3] ∧
    (Skiptable.level_chain Skiptable.demo3.nodes 0 4 Skiptable.demo3.header).Pairwise
      (fun p q => ∃ np nq, Skiptable.node_at Skiptable.demo3.nodes p = some np ∧
        Skiptable.node_at Skiptable.demo3.nodes q = some nq ∧
        strcmp np.key nq.key = Ordering.lt) ∧
    (Skiptable.level_chain Skiptable.demo3.nodes (0 + 1) 4 Skiptable.demo3.header).Sublist
      (Skiptable.level_chain Skiptable.demo3.nodes 0 4 Skiptable.demo3.header) ∧
    (Skiptable.level_chain Skiptable.demo3.nodes 1 4 Skiptable.demo3.header).Pairwise
      (fun p q => ∃ np nq, Skiptable.node_at Skiptable.demo3.nodes p = some np ∧
        Skiptable.node_at Skiptable.demo3.nodes q = some nq ∧
        strcmp np.key nq.key = Ordering.lt) ∧
    (Skiptable.level_chain Skiptable.demo3.nodes (1 + 1) 4 Skiptable.demo3.header).Sublist
      (Skiptable.level_chain Skiptable.demo3.nodes 1 4 Skiptable.demo3.header) ∧
    Skiptable.level_chain Skiptable.demo3.nodes 1 4 Skiptable.demo3.header
      = Skiptable.level_chain Skiptable.demo3.nodes 1 Skiptable.demo3.nodes.length
          Skiptable.demo3.header :=
  ⟨demo3_reachable, by decide, by decide, rfl, rfl, rfl,
    (skiptable_ordering Skiptable.demo3 demo3_reachable 0 (by decide) 4 (by decide)).1,
    (skiptable_ordering Skiptable.demo3 demo3_reachable 0 (by decide) 4 (by decide)).2.1
      (by decide),
    (skiptable_ordering Skiptable.demo3 demo3_reachable 1 (by decide) 4 (by decide)).1,
    (skiptable_ordering Skiptable.demo3 demo3_reachable 1 (by decide) 4 (by decide)).2.1
      (by decide),
    (skiptable_ordering Skiptable.demo3 demo3_reachable 1 (by decide) 4 (by decide)).2.2⟩
